import Mathlib

/-!
Decoding a binary tree from per-node text records (build_tree.cc).

A shallow embedding of `BuildTree` (src/build_tree.h, src/build_tree.cc):
the line reader `parseLine`, the reference table `insertMap_` with
`insertHashMap`, `markParentFilled`, `checkHashMap`, the recursive
`processNode`, the driver `decodeFile` and the two printers.

Conventions of the embedding.
* `char` is `Char`, a C string is a `List Char` cut at the first NUL.
* `int` identifiers are `Int`; what `sscanf` stores is reduced to 32 bits.
* The free store is a list of node cells indexed by address; `delete` logs the
  address and leaves the cell's bytes in place.
* A `node_t**` is a `Ptr`: null, the address of `decodedTree_`, the address of
  the `left_` or `right_` field of a node, or a node address cast to
  `node_t**` (the cast of `insertHashMap`).
-/

namespace BuildTree

/-! ## Text helpers: libc as used by parseLine -/

/-- The line limit `maxLineSize`, in characters. -/
def maxLineSize : Nat := 1024

/-- The value `EINVAL` of errno.h. -/
def EINVAL : Int := 22

/-- The C string stored in a buffer: the characters before the first NUL
(what `strlen` measures and `<<` prints). -/
def cstr (s : List Char) : List Char :=
  s.takeWhile (fun c => c != '\x00')

/-- C `isspace` in the "C" locale. -/
def isspace (c : Char) : Bool :=
  c == ' ' || c == '\t' || c == '\n' || c == '\x0b' || c == '\x0c' || c == '\r'

/-- C `isdigit`. -/
def isdigit (c : Char) : Bool :=
  decide ('0'.toNat ≤ c.toNat) && decide (c.toNat ≤ '9'.toNat)

/-- Reduction of a parsed value to the 32-bit two's complement `int` it is
stored in. -/
def toInt32 (v : Int) : Int :=
  (v + 2147483648) % 4294967296 - 2147483648

/-- The value of the leading run of decimal digits of `s`, continuing from
`acc`. -/
def digitsVal : List Char → Nat → Nat
  | [], acc => acc
  | c :: cs, acc => if isdigit c then digitsVal cs (acc * 10 + (c.toNat - '0'.toNat)) else acc

/-- What `sscanf(s, "%d", &v)` reports: `eof` (return value EOF, nothing to
read after the leading white space), `noMatch` (return value 0) or `ok v`
(return value 1, `v` stored). -/
inductive Scan where
  | eof
  | noMatch
  | ok (v : Int)
  deriving DecidableEq, Repr

/-- The unsigned part of a `%d` item: at least one digit is needed. -/
def scanDigits (neg : Bool) (s : List Char) : Scan :=
  match s with
  | [] => Scan.noMatch
  | c :: _ =>
    if isdigit c then
      Scan.ok (toInt32 (if neg then -((digitsVal s 0 : Nat) : Int) else ((digitsVal s 0 : Nat) : Int)))
    else Scan.noMatch

/-- Model of `sscanf(s, "%d", &v)` on a C string: skip white space, read an
optional sign and a run of digits. -/
def sscanf_d (s : List Char) : Scan :=
  match s.dropWhile isspace with
  | [] => Scan.eof
  | c :: cs =>
    if c == '-' then scanDigits true cs
    else if c == '+' then scanDigits false cs
    else scanDigits false (c :: cs)

/-- The `int` result `sval` of the `sscanf` call. -/
def Scan.sval : Scan → Int
  | Scan.eof => -1
  | Scan.noMatch => 0
  | Scan.ok _ => 1

/-- The content of `node_id` after the call (`int node_id = 0` before it). -/
def Scan.node_id : Scan → Int
  | Scan.ok v => v
  | _ => 0

/-- Decimal digits of `n`, most significant first, pushed in front of `acc`;
`fuel` bounds the number of digits. -/
def decDigits : Nat → Nat → List Char → List Char
  | 0, _, acc => acc
  | fuel + 1, n, acc =>
    if n / 10 = 0 then Char.ofNat ('0'.toNat + n % 10) :: acc
    else decDigits fuel (n / 10) (Char.ofNat ('0'.toNat + n % 10) :: acc)

/-- Model of `sprintf(buf, "%d", v)`. -/
def sprintf_d (v : Int) : List Char :=
  match v with
  | Int.ofNat n => decDigits (n + 1) n []
  | Int.negSucc n => '-' :: decDigits (n + 2) (n + 1) []

/-- One `in_line.getline(&a[0], maxLineSize, ' ')` on a stream with unread
characters `s`: the characters stored, the characters left unread, and whether
the end of the stream was hit (eofbit) instead of a delimiter. -/
def getTok : List Char → List Char × List Char × Bool
  | [] => ([], [], true)
  | c :: cs =>
    if c == ' ' then ([], cs, false)
    else
      let r := getTok cs
      (c :: r.1, r.2.1, r.2.2)

/-! ## parseLine -/

/-- The node graph `parseLine` builds: the node and, for each child field, the
`id_` of the freshly allocated child whose other fields are zero. -/
structure PNode where
  id_ : Int
  left_ : Option Int
  right_ : Option Int
  descr_ : Option (List Char)
  deriving DecidableEq, Repr

/-- How a call of `parseLine` ends: it returns NULL, it returns a node, or it
evaluates `n->descr_` with `n == NULL`. -/
inductive ParseResult where
  | null
  | node (n : PNode)
  | nullDeref
  deriving DecidableEq, Repr

/-- The locals of `parseLine` that live across iterations of the token loop:
`n` (NULL until the first token is read; `firstData` is true exactly when `n`
is set) and `leaf_count`. -/
structure ParseState where
  n : Option PNode
  leaf_count : Nat
  deriving DecidableEq, Repr

/-- The exit of `parseLine` after the token loop: the label check. -/
def parseFinish (n : Option PNode) : ParseResult :=
  match n with
  | none => ParseResult.nullDeref
  | some p =>
    match p.descr_ with
    | none => ParseResult.node { p with descr_ := some [] }
    | some _ => ParseResult.node p

/-- The description branch of the token loop (`!sval || set_descr`): fold a
lone child into the text in complete-tree mode, copy the token, and unless the
stream is at its end append the delimiter and the unread rest of the line. -/
def setDescr (complete_tree_ : Bool) (p : PNode) (leaf_count : Nat)
    (a rest : List Char) (eof : Bool) : PNode :=
  let fold := complete_tree_ && decide (leaf_count = 1)
  let pre : List Char :=
    if fold then
      match p.left_ with
      | some l => sprintf_d l ++ [' ']
      | none => []
    else []
  let p1 : PNode := if fold then { p with left_ := none } else p
  if eof then { p1 with descr_ := some (pre ++ a) }
  else { p1 with descr_ := some (cstr (pre ++ a ++ ' ' :: rest)) }

/-- The token loop of `parseLine`; one unit of `fuel` per `getline` call. -/
def parseLoop (complete_tree_ : Bool) : Nat → ParseState → List Char → ParseResult
  | 0, st, _ => parseFinish st.n
  | fuel + 1, st, s =>
    match s with
    | [] => parseFinish st.n
    | _ :: _ =>
      let t := getTok s
      let a := cstr t.1
      match a with
      | [] => parseLoop complete_tree_ fuel st t.2.1
      | _ :: _ =>
        let sc := sscanf_d a
        match st.n with
        | none =>
          if sc.sval = 0 then ParseResult.null
          else
            parseLoop complete_tree_ fuel
              { n := some { id_ := sc.node_id, left_ := none, right_ := none, descr_ := none },
                leaf_count := st.leaf_count } t.2.1
        | some p =>
          if sc.sval ≠ 0 then
            match p.left_, p.right_ with
            | none, _ =>
              parseLoop complete_tree_ fuel
                { n := some { p with left_ := some sc.node_id },
                  leaf_count := st.leaf_count + 1 } t.2.1
            | some _, none =>
              parseLoop complete_tree_ fuel
                { n := some { p with right_ := some sc.node_id },
                  leaf_count := st.leaf_count + 1 } t.2.1
            | some _, some _ =>
              parseFinish (some (setDescr complete_tree_ p st.leaf_count a t.2.1 t.2.2))
          else
            parseFinish (some (setDescr complete_tree_ p st.leaf_count a t.2.1 t.2.2))

/-- Model of `BuildTree::parseLine`. -/
def parseLine (complete_tree_ : Bool) (line : List Char) : ParseResult :=
  if line.length ≥ maxLineSize then ParseResult.null
  else parseLoop complete_tree_ (line.length + 1) { n := none, leaf_count := 0 } line

/-! ## The free store, the table and the BuildTree object -/

/-- The `enum class Status` of build_tree.h. -/
inductive Status where
  | NONE
  | NODE_WAIT
  | NONNODE_WAIT
  | FILLED
  deriving DecidableEq, Repr

/-- A value of type `node_t**` as the program forms it: NULL, `&decodedTree_`,
`&a->left_`, `&a->right_`, or the node address `a` cast to `node_t**`. -/
inductive Ptr where
  | null
  | root
  | left (a : Nat)
  | right (a : Nat)
  | node (a : Nat)
  deriving DecidableEq, Repr

/-- The `struct node` of build_tree.h; a pointer is `none` for NULL and
`some a` for the cell at address `a`. -/
structure node where
  id_ : Int
  left_ : Option Nat
  right_ : Option Nat
  descr_ : Option (List Char)
  deriving DecidableEq, Repr

/-- The `struct hash_ref` of build_tree.h. -/
structure hash_ref where
  nodePtr_ : Ptr
  status_ : Status
  deriving DecidableEq, Repr

/-- Ways in which the program leaves defined behaviour or aborts. `fuel` is
the model's own: a recursion bound was reached. -/
inductive Fault where
  | nullDeref
  | badPtr
  | assertFail
  | fuel
  deriving DecidableEq, Repr

/-- The members of a `BuildTree` object that decoding uses, with the free
store it allocates from.
* `cells`: every node ever allocated, by address (allocation appends);
* `freed`: the addresses passed to `delete`, latest first;
* `insertMap_`: the hash map from id to its list of references, kept as one
  list of (key, reference) pairs in arrival order: the list of an id is the
  sub-list of the pairs with that key, `find` succeeds when there is one. -/
structure State where
  cells : List node
  freed : List Nat
  decodedTree_ : Option Nat
  insertMap_ : List (Int × hash_ref)
  wait_count_ : Int
  complete_tree_ : Bool
  duplicate_ids_ : Bool
  deriving DecidableEq, Repr

/-- The object after `BuildTree(fname, complete_tree, dup_ids)`. -/
def State.init (complete_tree dup_ids : Bool) : State :=
  { cells := [], freed := [], decodedTree_ := none, insertMap_ := [],
    wait_count_ := 0, complete_tree_ := complete_tree, duplicate_ids_ := dup_ids }

/-- The result of `memset(n, 0, sizeof(node_t))`. -/
def node.zero : node :=
  { id_ := 0, left_ := none, right_ := none, descr_ := none }

/-- The node stored at address `a`. A deleted cell keeps its last content:
`processNode` reads `n->left_` and `n->right_` of a placeholder that
`checkHashMap` has just deleted, with no allocation in between. The source
leaves that read undefined; the model answers it with what the cell held when
it was deleted, and `freed` records every deletion. -/
def State.rd (st : State) (a : Nat) : node :=
  st.cells.getD a node.zero

/-- Store `v` at address `a`. -/
def State.wr (st : State) (a : Nat) (v : node) : State :=
  { st with cells := st.cells.set a v }

/-- The operator `new node_t` followed by the initialisation `v`. -/
def State.alloc (st : State) (v : node) : Nat × State :=
  (st.cells.length, { st with cells := st.cells ++ [v] })

/-- The operator `delete` on a node pointer (`delete` of NULL does nothing). -/
def State.delete (st : State) (p : Option Nat) : State :=
  match p with
  | none => st
  | some a => { st with freed := a :: st.freed }

/-- Read through a `node_t**`. -/
def State.readSlot (st : State) : Ptr → Except Fault (Option Nat)
  | Ptr.null => Except.error Fault.nullDeref
  | Ptr.root => Except.ok st.decodedTree_
  | Ptr.left a => Except.ok (st.rd a).left_
  | Ptr.right a => Except.ok (st.rd a).right_
  | Ptr.node _ => Except.error Fault.badPtr

/-- Write through a `node_t**`. -/
def State.writeSlot (st : State) (p : Ptr) (v : Option Nat) : Except Fault State :=
  match p with
  | Ptr.null => Except.error Fault.nullDeref
  | Ptr.root => Except.ok { st with decodedTree_ := v }
  | Ptr.left a => Except.ok (st.wr a { st.rd a with left_ := v })
  | Ptr.right a => Except.ok (st.wr a { st.rd a with right_ := v })
  | Ptr.node _ => Except.error Fault.badPtr

/-- Whether `insertMap_.find(id)` finds a list. -/
def findList (m : List (Int × hash_ref)) (id : Int) : Bool :=
  m.any (fun e => decide (e.1 = id))

/-- The loop head of `checkHashMap`: position in the table, counted from `i`,
of the first reference in the list of `id` that is not skipped by
`status_ == FILLED && nodePtr_ != &decodedTree_`. -/
def scanRefs (id : Int) : List (Int × hash_ref) → Nat → Option Nat
  | [], _ => none
  | e :: rest, i =>
    if e.1 = id ∧ ¬ (e.2.status_ = Status.FILLED ∧ e.2.nodePtr_ ≠ Ptr.root) then some i
    else scanRefs id rest (i + 1)

/-- The loop of `markParentFilled`: position of the first reference in the
list of `id` whose status is NODE_WAIT. -/
def scanNodeWait (id : Int) : List (Int × hash_ref) → Nat → Option Nat
  | [], _ => none
  | e :: rest, i =>
    if e.1 = id ∧ e.2.status_ = Status.NODE_WAIT then some i
    else scanNodeWait id rest (i + 1)

/-- Assignment to fields of the reference at position `i`. -/
def modifyRef (f : hash_ref → hash_ref) : Nat → List (Int × hash_ref) → List (Int × hash_ref)
  | _, [] => []
  | 0, e :: rest => (e.1, f e.2) :: rest
  | i + 1, e :: rest => e :: modifyRef f i rest

/-- The reference at position `i`. -/
def getRef (m : List (Int × hash_ref)) (i : Nat) : hash_ref :=
  (m.getD i (0, { nodePtr_ := Ptr.null, status_ := Status.NONE })).2

/-! ## insertHashMap, markParentFilled, checkHashMap, processNode -/

/-- Model of `BuildTree::insertHashMap(node_t &n, node_t **holder, Status s)`;
it always returns 0. -/
def insertHashMap (st : State) (n : Nat) (holder : Ptr) (s : Status) : Int × State :=
  let first := st.insertMap_.isEmpty
  let st1 : State := if first then { st with decodedTree_ := some n } else st
  let ptr0 : Ptr := if first then Ptr.root else holder
  let s1 : Status := if first then Status.FILLED else s
  let ptr1 : Ptr := if s1 = Status.NODE_WAIT then Ptr.node n else ptr0
  let wc : Int := if s1 ≠ Status.FILLED then st1.wait_count_ + 1 else st1.wait_count_
  (0, { st1 with
          wait_count_ := wc,
          insertMap_ := st1.insertMap_ ++ [((st.rd n).id_, { nodePtr_ := ptr1, status_ := s1 })] })

/-- Model of `BuildTree::markParentFilled(node_t *n)`. -/
def markParentFilled (st : State) (n : Nat) : Int × State :=
  if findList st.insertMap_ (st.rd n).id_ then
    match scanNodeWait (st.rd n).id_ st.insertMap_ 0 with
    | some i =>
      (0, { st with
              insertMap_ := modifyRef (fun r => { r with status_ := Status.FILLED }) i st.insertMap_,
              wait_count_ := st.wait_count_ - 1 })
    | none => (-1, st)
  else (-1, st)

/-- The tail of the loop body of `checkHashMap` after a case of the switch
ends in `break`: `ln->status_ = Status::FILLED; is_filled = true`, then
`return(0)`. -/
def markFilled (st : State) (i : Nat) : Int × State :=
  (0, { st with insertMap_ := modifyRef (fun r => { r with status_ := Status.FILLED }) i st.insertMap_ })

/-- The value returned where the source tests `duplicate_ids_` before
reporting a conflict. -/
def conflict (st : State) : Int :=
  if st.duplicate_ids_ then -1 else -EINVAL

/-- Model of `BuildTree::checkHashMap(node_t *n, node_t **holder, node_t *parent)`. -/
def checkHashMap (st : State) (n : Nat) (holder : Ptr) (parent : Option Nat) :
    Except Fault (Int × State) :=
  if findList st.insertMap_ (st.rd n).id_ then
    match scanRefs (st.rd n).id_ st.insertMap_ 0 with
    | none => Except.ok (conflict st, st)
    | some i =>
      let ln := getRef st.insertMap_ i
      match ln.status_ with
      | Status.NODE_WAIT =>
        if (st.rd n).descr_ ≠ none ∨ holder = Ptr.null then Except.ok (conflict st, st)
        else
          match ln.nodePtr_ with
          | Ptr.node tn =>
            match (st.delete (some n)).writeSlot holder (some tn) with
            | Except.error f => Except.error f
            | Except.ok st1 =>
              Except.ok (markFilled
                { st1 with
                    insertMap_ := modifyRef (fun r => { r with nodePtr_ := holder }) i st1.insertMap_,
                    wait_count_ := st1.wait_count_ - 1 } i)
          | _ => Except.error Fault.badPtr
      | Status.NONNODE_WAIT =>
        if (st.rd n).descr_ = none then Except.ok (conflict st, st)
        else
          match st.readSlot ln.nodePtr_ with
          | Except.error f => Except.error f
          | Except.ok tfree =>
            match st.writeSlot ln.nodePtr_ (some n) with
            | Except.error f => Except.error f
            | Except.ok st1 =>
              let st2 := st1.delete tfree
              Except.ok (markFilled { st2 with wait_count_ := st2.wait_count_ - 1 } i)
      | Status.FILLED =>
        if (st.rd n).descr_ ≠ none then Except.ok (-EINVAL, st)
        else
          match parent with
          | none => Except.ok (-EINVAL, st)
          | some par =>
            let st1 := st.delete (some n)
            match st1.readSlot ln.nodePtr_ with
            | Except.error f => Except.error f
            | Except.ok cur =>
              match st1.writeSlot holder cur with
              | Except.error f => Except.error f
              | Except.ok st2 =>
                let st3 : State := { st2 with decodedTree_ := some par }
                let r := markParentFilled st3 par
                if r.1 < 0 then Except.ok (-EINVAL, r.2)
                else Except.ok (markFilled r.2 i)
      | Status.NONE => Except.error Fault.assertFail
  else Except.ok (-1, st)

/-- The two child calls at the end of `processNode`, with `go` the recursive
call. -/
def processChildren (go : State → Nat → Ptr → Option Nat → Except Fault (Int × State))
    (st : State) (n : Nat) : Except Fault (Int × State) :=
  let right (st1 : State) : Except Fault (Int × State) :=
    match (st1.rd n).right_ with
    | none => Except.ok (0, st1)
    | some r =>
      match go st1 r (Ptr.right n) (some n) with
      | Except.error f => Except.error f
      | Except.ok res => if res.1 = -EINVAL then Except.ok res else Except.ok (0, res.2)
  match (st.rd n).left_ with
  | none => right st
  | some l =>
    match go st l (Ptr.left n) (some n) with
    | Except.error f => Except.error f
    | Except.ok res => if res.1 = -EINVAL then Except.ok res else right res.2

/-- Model of `BuildTree::processNode(node_t *n, node_t **holder, node_t *parent)`;
`fuel` bounds the depth of the recursion. -/
def processNode : Nat → State → Nat → Ptr → Option Nat → Except Fault (Int × State)
  | 0, _, _, _, _ => Except.error Fault.fuel
  | fuel + 1, st, n, holder, parent =>
    match checkHashMap st n holder parent with
    | Except.error f => Except.error f
    | Except.ok res =>
      if res.1 < 0 then
        if res.1 = -EINVAL then Except.ok res
        else
          let s := if (res.2.rd n).descr_ = none then Status.NONNODE_WAIT else Status.NODE_WAIT
          processChildren (processNode fuel) (insertHashMap res.2 n holder s).2 n
      else processChildren (processNode fuel) res.2 n

/-! ## decodeFile -/

/-- Model of `BuildTree::freeN(node_t *n)`. -/
def freeN (st : State) (n : Option Nat) : State :=
  match n with
  | none => st
  | some a =>
    let st1 := st.delete (st.rd a).left_
    let st2 := st1.delete (st1.rd a).right_
    (st2.wr a { st2.rd a with left_ := none, right_ := none, descr_ := none }).delete (some a)

/-- The allocations of `parseLine` for the graph it returns: the node, then
its left child, then its right child. Returns the address of the node. -/
def allocParsed (st : State) (p : PNode) : Nat × State :=
  let a := st.cells.length
  let st1 := (st.alloc { id_ := p.id_, left_ := none, right_ := none, descr_ := p.descr_ }).2
  let st2 : State :=
    match p.left_ with
    | none => st1
    | some l =>
      let r := st1.alloc { node.zero with id_ := l }
      r.2.wr a { r.2.rd a with left_ := some r.1 }
  let st3 : State :=
    match p.right_ with
    | none => st2
    | some l =>
      let r := st2.alloc { node.zero with id_ := l }
      r.2.wr a { r.2.rd a with right_ := some r.1 }
  (a, st3)

/-- The `return` statement by which `decodeFile` ends once the file is open:
after a failed `processNode` (ConflictingIdentifier), with `wait_count_ > 0`
(Incomplete), with `decodedTree_ == NULL` (EmptyInput), or `return 0`. -/
inductive Exit where
  | errorLine
  | unresolved
  | noTree
  | done
  deriving DecidableEq, Repr

/-- The value `decodeFile` returns at each exit. -/
def Exit.ret : Exit → Int
  | Exit.done => 0
  | _ => -1

/-- The `while(!inFile_.eof())` loop of `decodeFile` over the lines `getline`
delivers. The flag of the result tells whether the loop was left by the
`return(-1)` after a failed `processNode`. -/
def readLines (st : State) : List (List Char) → Except Fault (Bool × State)
  | [] => Except.ok (false, st)
  | line :: rest =>
    if line.length = 0 then readLines st rest
    else
      match parseLine st.complete_tree_ line with
      | ParseResult.nullDeref => Except.error Fault.nullDeref
      | ParseResult.null => readLines (freeN st none) rest
      | ParseResult.node p =>
        let r := allocParsed st p
        match processNode (r.2.cells.length + 1) r.2 r.1 Ptr.null none with
        | Except.error f => Except.error f
        | Except.ok res =>
          if res.1 < 0 then Except.ok (true, freeN res.2 (some r.1))
          else readLines res.2 rest

/-- The checks of `decodeFile` after the loop. -/
def finish (st : State) : Exit :=
  if st.wait_count_ > 0 then Exit.unresolved
  else if st.decodedTree_ = none then Exit.noTree
  else Exit.done

/-- Model of `BuildTree::decodeFile` on a regular file within the size limit
whose lines are `lines`, for an object constructed with the two mode flags. -/
def decodeFile (complete_tree dup_ids : Bool) (lines : List (List Char)) :
    Except Fault (Exit × State) :=
  match readLines (State.init complete_tree dup_ids) lines with
  | Except.error f => Except.error f
  | Except.ok (true, st) => Except.ok (Exit.errorLine, st)
  | Except.ok (false, st) => Except.ok (finish st, st)

/-! ## printBFS, printDFS -/

/-- What `cout << t->descr_ << " "` appends. -/
def putDescr (out : List Char) (d : Option (List Char)) : Except Fault (List Char) :=
  match d with
  | none => Except.error Fault.nullDeref
  | some s => Except.ok (out ++ s ++ [' '])

/-- The `while (q.size() != 0)` loop of `printBFS`; one unit of `fuel` per
node taken from the queue. -/
def bfsLoop (st : State) : Nat → List Nat → List Char → Except Fault (List Char)
  | _, [], out => Except.ok out
  | 0, _ :: _, _ => Except.error Fault.fuel
  | fuel + 1, t :: q, out =>
    let q1 := match (st.rd t).left_ with
      | some l => q ++ [l]
      | none => q
    let q2 := match (st.rd t).right_ with
      | some r => q1 ++ [r]
      | none => q1
    match putDescr out (st.rd t).descr_ with
    | Except.error f => Except.error f
    | Except.ok out1 => bfsLoop st fuel q2 out1

/-- A bound on the number of nodes a walk from the root takes from its queue
when no path from the root is longer than the number of cells: the size of the
full binary tree of that depth. A walk that needs more has met a cycle. -/
def walkFuel (st : State) : Nat :=
  2 ^ (st.cells.length + 1)

/-- Model of `BuildTree::printBFS`: the characters written to `cout`. -/
def printBFS (st : State) : Except Fault (List Char) :=
  match st.decodedTree_ with
  | none => Except.ok []
  | some t =>
    match bfsLoop st (walkFuel st) [t] [] with
    | Except.error f => Except.error f
    | Except.ok out => Except.ok (out ++ ['\n'])

/-- Model of `BuildTree::printDFSRecur`: the output so far is passed along. -/
def printDFSRecur (st : State) : Nat → Option Nat → List Char → Except Fault (List Char)
  | _, none, out => Except.ok out
  | 0, some _, _ => Except.error Fault.fuel
  | fuel + 1, some t, out =>
    match printDFSRecur st fuel (st.rd t).left_ out with
    | Except.error f => Except.error f
    | Except.ok out1 =>
      match putDescr out1 (st.rd t).descr_ with
      | Except.error f => Except.error f
      | Except.ok out2 => printDFSRecur st fuel (st.rd t).right_ out2

/-- Model of `BuildTree::printDFS`: the characters written to `cout`. -/
def printDFS (st : State) : Except Fault (List Char) :=
  match printDFSRecur st (st.cells.length + 1) st.decodedTree_ [] with
  | Except.error f => Except.error f
  | Except.ok out => Except.ok (out ++ ['\n'])

/-! ## decomission -/

/-- The first loop of `decomission`: `freeN` on the node of every reference
whose status is NODE_WAIT. The references are visited list by list in arrival
order; the order in which the hash map yields its lists is not modelled. -/
def freeWaiting (st : State) : List (Int × hash_ref) → Except Fault State
  | [] => Except.ok st
  | e :: rest =>
    if e.2.status_ = Status.NODE_WAIT then
      match e.2.nodePtr_ with
      | Ptr.node t => freeWaiting (freeN st (some t)) rest
      | Ptr.null => freeWaiting (freeN st none) rest
      | _ => Except.error Fault.badPtr
    else freeWaiting st rest

/-- The `while (q.size() != 0)` loop of `decomission`: every node taken from
the queue is deleted after its children are pushed. -/
def sweepLoop (st : State) : Nat → List Nat → Except Fault State
  | _, [] => Except.ok st
  | 0, _ :: _ => Except.error Fault.fuel
  | fuel + 1, t :: q =>
    let q1 := match (st.rd t).left_ with
      | some l => q ++ [l]
      | none => q
    let q2 := match (st.rd t).right_ with
      | some r => q1 ++ [r]
      | none => q1
    sweepLoop ((st.wr t { st.rd t with descr_ := none }).delete (some t)) fuel q2

/-- Model of `BuildTree::decomission`, which the destructor calls. -/
def decomission (st : State) : Except Fault State :=
  match freeWaiting st st.insertMap_ with
  | Except.error f => Except.error f
  | Except.ok st1 =>
    let st2 : State := { st1 with insertMap_ := [] }
    match st2.decodedTree_ with
    | none => Except.ok st2
    | some t => sweepLoop st2 (walkFuel st2) [t]

/-- What `main` writes to `cout` after a successful `decodeFile`:
`bt.printBFS(); bt.printDFS();`. -/
def mainOutput (st : State) : Except Fault (List Char) :=
  match printBFS st with
  | Except.error f => Except.error f
  | Except.ok b =>
    match printDFS st with
    | Except.error f => Except.error f
    | Except.ok d => Except.ok (b ++ d)

/-- The lines of a text given as strings. -/
def textLines (ls : List String) : List (List Char) :=
  ls.map String.toList

/-! ## Views of the final state used to state results -/

/-- A tree of nodes as a value: identifier, label and the two subtrees. -/
inductive Shape where
  | nil
  | node (id_ : Int) (descr_ : Option (List Char)) (left_ right_ : Shape)
  deriving DecidableEq, Repr

/-- The tree hanging from pointer `p` in the store; `none` when it is deeper
than `fuel` (a cycle). -/
def shapeAt (st : State) : Nat → Option Nat → Option Shape
  | _, none => some Shape.nil
  | 0, some _ => none
  | fuel + 1, some a =>
    match shapeAt st fuel (st.rd a).left_, shapeAt st fuel (st.rd a).right_ with
    | some l, some r => some (Shape.node (st.rd a).id_ (st.rd a).descr_ l r)
    | _, _ => none

/-- The tree hanging from `decodedTree_`. -/
def decodedShape (st : State) : Option Shape :=
  shapeAt st (st.cells.length + 1) st.decodedTree_

/-- A leaf with identifier `i` and label `s`. -/
def Shape.leaf (i : Int) (s : String) : Shape :=
  Shape.node i (some s.toList) Shape.nil Shape.nil

/-- What a run of the program shows: the exit of `decodeFile`, the decoded
tree and the two printed lines. -/
structure Run where
  exit : Exit
  shape : Option Shape
  bfs : Except Fault (List Char)
  dfs : Except Fault (List Char)
  deriving Repr

/-- Decode `lines` and collect the exit, the tree and the printed output. -/
def run (complete_tree dup_ids : Bool) (lines : List (List Char)) : Except Fault Run :=
  match decodeFile complete_tree dup_ids lines with
  | Except.error f => Except.error f
  | Except.ok r =>
    Except.ok { exit := r.1, shape := decodedShape r.2, bfs := printBFS r.2, dfs := printDFS r.2 }

/-! ## Definitions used to state the results -/

/-- The range of `int`. -/
def inIntRange (v : Int) : Prop := -2147483648 ≤ v ∧ v ≤ 2147483647

/-- A character that may stand in a token: not the delimiter, not NUL, not
white space. -/
def numChar (c : Char) : Prop :=
  (c == ' ') = false ∧ (c != '\x00') = true ∧ isspace c = false

/-- The line "<id> <k> <label>", numbers written as `%d` writes them. -/
def line2 (id k : Int) (label : List Char) : List Char :=
  sprintf_d id ++ ' ' :: (sprintf_d k ++ ' ' :: label)

/-- The line "<id> <l> <r> <label>", numbers written as `%d` writes them. -/
def line3 (id l r : Int) (label : List Char) : List Char :=
  sprintf_d id ++ ' ' :: (sprintf_d l ++ ' ' :: (sprintf_d r ++ ' ' :: label))

/-- The key at position `i`. -/
def getKey (m : List (Int × hash_ref)) (i : Nat) : Int :=
  (m.getD i (0, { nodePtr_ := Ptr.null, status_ := Status.NONE })).1

/-- The node-local part of `processNode`: the call of `checkHashMap` and,
unless a reference was resolved or a conflict reported, of `insertHashMap`. -/
def stepNode (st : State) (n : Nat) (holder : Ptr) (parent : Option Nat) :
    Except Fault (Int × State) :=
  match checkHashMap st n holder parent with
  | Except.error f => Except.error f
  | Except.ok res =>
    if res.1 < 0 then
      if res.1 = -EINVAL then Except.ok res
      else
        Except.ok (res.1, (insertHashMap res.2 n holder
          (if (res.2.rd n).descr_ = none then Status.NONNODE_WAIT else Status.NODE_WAIT)).2)
    else Except.ok res

/-- The status of a reference that is still pending. -/
def Status.pending (s : Status) : Prop :=
  s = Status.NODE_WAIT ∨ s = Status.NONNODE_WAIT

/-- The status a new reference for node `n` gets from `processNode` and
`insertHashMap`. -/
def newStatus (st : State) (n : Nat) : Status :=
  if st.insertMap_.isEmpty then Status.FILLED
  else if (st.rd n).descr_ = none then Status.NONNODE_WAIT else Status.NODE_WAIT

/-- What one node-local step does to the table, the counter and the flags:
it reports a conflict and leaves them alone, or appends a reference for the
node's id, or turns one pending reference into FILLED. -/
def TableStep (st : State) (n : Nat) (r : Int × State) : Prop :=
  r.2.duplicate_ids_ = st.duplicate_ids_ ∧ r.2.complete_tree_ = st.complete_tree_ ∧
  (st.decodedTree_ ≠ none → r.2.decodedTree_ ≠ none) ∧
  ((r.1 = -EINVAL ∧ findList st.insertMap_ (st.rd n).id_ = true ∧
      r.2.insertMap_ = st.insertMap_ ∧ r.2.wait_count_ = st.wait_count_) ∨
    (r.1 = -1 ∧
      (findList st.insertMap_ (st.rd n).id_ = false ∨ st.duplicate_ids_ = true) ∧
      (∃ ptr, r.2.insertMap_ =
        st.insertMap_ ++ [((st.rd n).id_, { nodePtr_ := ptr, status_ := newStatus st n })]) ∧
      r.2.wait_count_ =
        (if newStatus st n ≠ Status.FILLED then st.wait_count_ + 1 else st.wait_count_) ∧
      r.2.decodedTree_ = (if st.insertMap_.isEmpty then some n else st.decodedTree_)) ∨
    (r.1 = 0 ∧ findList st.insertMap_ (st.rd n).id_ = true ∧
      ∃ j f, j < st.insertMap_.length ∧
        (((getRef st.insertMap_ j).status_ = Status.NODE_WAIT ∧ (st.rd n).descr_ = none) ∨
          ((getRef st.insertMap_ j).status_ = Status.NONNODE_WAIT ∧
            getKey st.insertMap_ j = (st.rd n).id_ ∧ (st.rd n).descr_ ≠ none)) ∧
        (∀ x, (f x).status_ = Status.FILLED) ∧
        r.2.insertMap_ = modifyRef f j st.insertMap_ ∧
        r.2.wait_count_ = st.wait_count_ - 1))


/-- Once a reference is in the table the root is set. -/
def RootSet (st : State) : Prop :=
  st.insertMap_ ≠ [] → st.decodedTree_ ≠ none

/-- The cells `parseLine` allocates for the graph `p` when the next free
address is `base`. -/
def parsedCells (base : Nat) (p : PNode) : List node :=
  match p.left_, p.right_ with
  | none, none => [{ id_ := p.id_, left_ := none, right_ := none, descr_ := p.descr_ }]
  | some l, none =>
    [{ id_ := p.id_, left_ := some (base + 1), right_ := none, descr_ := p.descr_ },
      { node.zero with id_ := l }]
  | none, some r =>
    [{ id_ := p.id_, left_ := none, right_ := some (base + 1), descr_ := p.descr_ },
      { node.zero with id_ := r }]
  | some l, some r =>
    [{ id_ := p.id_, left_ := some (base + 1), right_ := some (base + 2), descr_ := p.descr_ },
      { node.zero with id_ := l }, { node.zero with id_ := r }]

/-- No id has two references in the table. -/
def KeysNodup (m : List (Int × hash_ref)) : Prop :=
  (m.map Prod.fst).Nodup

/-- The id `x` has a reference, and no reference of `x` is a placeholder
that waits for its description. -/
def Described (x : Int) (m : List (Int × hash_ref)) : Prop :=
  findList m x = true ∧
    ∀ e ∈ m, e.1 = x → e.2.status_ = Status.NODE_WAIT ∨ e.2.status_ = Status.FILLED

/-- Default mode with at most one reference per id. -/
def NoDupInv (st : State) : Prop :=
  st.duplicate_ids_ = false ∧ KeysNodup st.insertMap_

/-- How the cells change in one node-local step: a placeholder is written
into nothing but its holder, a described node into nothing but the slot of a
waiting reference. -/
def StoreStep (st : State) (n : Nat) (holder : Ptr) (r : Int × State) : Prop :=
  r.2.cells.length = st.cells.length ∧
  (∀ a, (r.2.rd a).id_ = (st.rd a).id_ ∧ (r.2.rd a).descr_ = (st.rd a).descr_) ∧
  (∀ e ∈ r.2.insertMap_, e.2.nodePtr_ = Ptr.root ∨ e.2.nodePtr_ = holder ∨
    e.2.nodePtr_ = Ptr.node n ∨ ∃ e0 ∈ st.insertMap_, e.2.nodePtr_ = e0.2.nodePtr_) ∧
  (∀ a, r.2.rd a = st.rd a ∨
    ((st.rd n).descr_ = none ∧
      ((holder = Ptr.left a ∧ ∃ v, r.2.rd a = { st.rd a with left_ := v }) ∨
        (holder = Ptr.right a ∧ ∃ v, r.2.rd a = { st.rd a with right_ := v }))) ∨
    ((st.rd n).descr_ ≠ none ∧ ∃ e ∈ st.insertMap_, e.2.status_ = Status.NONNODE_WAIT ∧
      ((e.2.nodePtr_ = Ptr.left a ∧ r.2.rd a = { st.rd a with left_ := some n }) ∨
        (e.2.nodePtr_ = Ptr.right a ∧ r.2.rd a = { st.rd a with right_ := some n }))))

/-- A pointer refers to no cell at or above address `k`. -/
def Ptr.below : Ptr → Nat → Prop
  | Ptr.left a, k => a < k
  | Ptr.right a, k => a < k
  | Ptr.node a, k => a < k
  | _, _ => True

/-- Every pointer kept in the table refers to a cell below `k`. -/
def Bounded (st : State) (k : Nat) : Prop :=
  ∀ e ∈ st.insertMap_, e.2.nodePtr_.below k

/-- The right child call of `processNode` for the node at `base` whose right
child, if any, is at `ra`. -/
def ingestRight (s : State) (base ra : Nat) (p : PNode) : Except Fault (Int × State) :=
  match p.right_ with
  | none => Except.ok (0, s)
  | some _ =>
    match stepNode s ra (Ptr.right base) (some base) with
    | Except.error f => Except.error f
    | Except.ok res => if res.1 = -EINVAL then Except.ok res else Except.ok (0, res.2)

/-- `processNode` on the node allocated at `base` for the parsed graph `p`,
as three node-local steps: the node, its left child, its right child. -/
def ingest (st1 : State) (base : Nat) (p : PNode) : Except Fault (Int × State) :=
  match stepNode st1 base Ptr.null none with
  | Except.error f => Except.error f
  | Except.ok res =>
    if res.1 = -EINVAL then Except.ok res
    else
      match p.left_ with
      | none => ingestRight res.2 base (base + 1) p
      | some _ =>
        match stepNode res.2 (base + 1) (Ptr.left base) (some base) with
        | Except.error f => Except.error f
        | Except.ok res1 =>
          if res1.1 = -EINVAL then Except.ok res1 else ingestRight res1.2 base (base + 2) p

/-- Whether a status counts in `wait_count_`. -/
def isPending (s : Status) : Bool :=
  match s with
  | Status.NODE_WAIT => true
  | Status.NONNODE_WAIT => true
  | _ => false

/-- The number of references that are NODE_WAIT or NONNODE_WAIT. -/
def pendingCount (m : List (Int × hash_ref)) : Nat :=
  m.countP (fun e => isPending e.2.status_)

/-- `wait_count_` is the number of pending references. -/
def WaitInv (st : State) : Prop :=
  st.wait_count_ = (pendingCount st.insertMap_ : Int)

/-- The id `x` has no described node: every cell with id `x` is a
placeholder and every reference of `x` waits for a described node. -/
def Undescribed (x : Int) (st : State) : Prop :=
  (∀ a, (st.rd a).id_ = x → (st.rd a).descr_ = none) ∧
    (∀ e ∈ st.insertMap_, e.1 = x → e.2.status_ = Status.NONNODE_WAIT)

/-- The facts carried through the steps of one record for an id `x` without
described node. -/
def RefTrack (x : Int) (k : Nat) (s : State) : Prop :=
  Undescribed x s ∧ s.insertMap_ ≠ [] ∧ Bounded s k ∧ s.cells.length = k

/-- The root is `t`, the first reference of the table is the FILLED reference
of id `c` that points to `decodedTree_`, and no other reference points
there. -/
def RootInv (c : Int) (t : Option Nat) (st : State) : Prop :=
  st.decodedTree_ = t ∧
    ∃ rest, st.insertMap_ = (c, { nodePtr_ := Ptr.root, status_ := Status.FILLED }) :: rest ∧
      ∀ e ∈ rest, e.2.nodePtr_ ≠ Ptr.root

/-- The content of a child field read through a pointer to it. -/
def slotOf (st : State) : Ptr → Option Nat
  | Ptr.left a => (st.rd a).left_
  | Ptr.right a => (st.rd a).right_
  | _ => none

/-- The nodes of the decoded tree: the root and what the child fields of a
node of the tree point to. -/
inductive Reach (st : State) : Nat → Prop where
  | root {t : Nat} : st.decodedTree_ = some t → Reach st t
  | left {a m : Nat} : Reach st a → (st.rd a).left_ = some m → Reach st m
  | right {a m : Nat} : Reach st a → (st.rd a).right_ = some m → Reach st m

/-- Where label-less nodes may sit. The root has a label; a child field holds
a node with a label unless it is one of the fields `U` of the record in
progress or a NONNODE_WAIT reference points to it; the node of a NODE_WAIT
reference has a label. -/
def Labelled (st : State) (U : Ptr → Prop) : Prop :=
  (∀ t, st.decodedTree_ = some t → (st.rd t).descr_ ≠ none) ∧
  (∀ q m, slotOf st q = some m →
    (st.rd m).descr_ ≠ none ∨ U q ∨
      ∃ e ∈ st.insertMap_, e.2.status_ = Status.NONNODE_WAIT ∧ e.2.nodePtr_ = q) ∧
  (∀ e ∈ st.insertMap_, e.2.status_ = Status.NODE_WAIT →
    ∃ t, e.2.nodePtr_ = Ptr.node t ∧ (st.rd t).descr_ ≠ none)


/-! ## The two traversals as the specification words them -/

/-- Two lists of levels put side by side: level by level, what the first
holds before what the second holds. -/
def mergeLevels : List (List (Option (List Char))) → List (List (Option (List Char))) →
    List (List (Option (List Char)))
  | [], ys => ys
  | x :: xs, [] => x :: xs
  | x :: xs, y :: ys => (x ++ y) :: mergeLevels xs ys

/-- The labels of a tree level by level: the root, then the levels of the left
subtree side by side with those of the right subtree. -/
def Shape.levels : Shape → List (List (Option (List Char)))
  | Shape.nil => []
  | Shape.node _ d l r => [d] :: mergeLevels l.levels r.levels

/-- Breadth-first order: level by level, left child before right child. -/
def Shape.levelOrder (s : Shape) : List (Option (List Char)) :=
  s.levels.flatten

/-- In-order: left subtree, node, right subtree. -/
def Shape.inOrder : Shape → List (Option (List Char))
  | Shape.nil => []
  | Shape.node _ d l r => l.inOrder ++ d :: r.inOrder

/-- A printed line of labels: each label followed by one space, then a newline. -/
def labelsLine (ls : List (List Char)) : List Char :=
  (ls.map (fun s => s ++ [' '])).flatten ++ ['\n']

/-- Number of nodes of a tree. -/
def Shape.size : Shape → Nat
  | Shape.nil => 0
  | Shape.node _ _ l r => l.size + r.size + 1

/-! ## The lookup as the specification words it -/

/-- The lookup `findResolvable` of the specification: position in the table,
counted from `i`, of the first reference of `id` in arrival order whose status
is not FILLED. -/
def firstUnresolved (id : Int) : List (Int × hash_ref) → Nat → Option Nat
  | [], _ => none
  | e :: rest, i =>
    if e.1 = id ∧ e.2.status_ ≠ Status.FILLED then some i
    else firstUnresolved id rest (i + 1)

/-- An id that has a reference pointing to `decodedTree_` has no pending
reference. -/
def RootKey (m : List (Int × hash_ref)) : Prop :=
  ∀ e ∈ m, e.2.nodePtr_ = Ptr.root → ∀ e' ∈ m, e'.1 = e.1 → e'.2.status_ = Status.FILLED

/-! ## Ownership -/

/-- What can hold a node: the pointer `decodedTree_`, a child field, or a
NODE_WAIT reference of the table (by position). -/
inductive Owner where
  | root
  | field (q : Ptr)
  | wait (i : Nat)
  deriving DecidableEq

/-- The node an owner holds. -/
def heldBy (st : State) : Owner → Option Nat
  | Owner.root => st.decodedTree_
  | Owner.field q => slotOf st q
  | Owner.wait i =>
    if (getRef st.insertMap_ i).status_ = Status.NODE_WAIT then
      match (getRef st.insertMap_ i).nodePtr_ with
      | Ptr.node t => some t
      | _ => none
    else none

/-- One owner per node: every cell below `len` that is not dead is in progress
(`T`) or held; no node is held twice; what is held is a cell below `len` that is
neither dead nor in progress. -/
def OwnCore (len : Nat) (dead : Nat → Prop) (held : Owner → Option Nat) (T : Nat → Prop) : Prop :=
  (∀ m, m < len → ¬ dead m → T m ∨ ∃ o, held o = some m) ∧
  (∀ o1 o2 m, held o1 = some m → held o2 = some m → o1 = o2) ∧
  (∀ o m, held o = some m → m < len ∧ ¬ dead m ∧ ¬ T m)

/-- Ownership in a state of the loop, with `T` the node in progress that no
owner holds yet: one owner per node; one reference per id; the root is set
exactly when the table is not empty; the field of a NONNODE_WAIT reference
holds a node; deleted cells are cells of the store. -/
def Own (st : State) (T : Nat → Prop) : Prop :=
  OwnCore st.cells.length (fun m => m ∈ st.freed) (heldBy st) T ∧
  KeysNodup st.insertMap_ ∧
  (st.insertMap_ = [] ↔ st.decodedTree_ = none) ∧
  (∀ e ∈ st.insertMap_, e.2.status_ = Status.NONNODE_WAIT →
    ∃ m, slotOf st e.2.nodePtr_ = some m) ∧
  (∀ m ∈ st.freed, m < st.cells.length)

theorem digitChar_facts : ∀ d, d < 10 →
    (isdigit (Char.ofNat ('0'.toNat + d)) = true ∧
      (Char.ofNat ('0'.toNat + d)).toNat - '0'.toNat = d ∧
      isspace (Char.ofNat ('0'.toNat + d)) = false ∧
      (Char.ofNat ('0'.toNat + d) == ' ') = false ∧
      (Char.ofNat ('0'.toNat + d) != '\x00') = true ∧
      (Char.ofNat ('0'.toNat + d) == '-') = false ∧
      (Char.ofNat ('0'.toNat + d) == '+') = false) := by
  decide

theorem toInt32_of_inIntRange {v : Int} (h : inIntRange v) : toInt32 v = v := by
  unfold inIntRange at h
  unfold toInt32
  omega

theorem decDigits_chars (fuel n : Nat) (acc : List Char)
    (hacc : ∀ c ∈ acc, isdigit c = true ∧ numChar c) :
    ∀ c ∈ decDigits fuel n acc, isdigit c = true ∧ numChar c := by
  induction fuel generalizing n acc with
  | zero => simpa [decDigits] using hacc
  | succ f ih =>
    have hd := digitChar_facts (n % 10) (Nat.mod_lt _ (by decide))
    have hacc2 : ∀ c ∈ Char.ofNat ('0'.toNat + n % 10) :: acc, isdigit c = true ∧ numChar c := by
      intro c hc
      rcases List.mem_cons.1 hc with rfl | hc
      · exact ⟨hd.1, hd.2.2.2.1, hd.2.2.2.2.1, hd.2.2.1⟩
      · exact hacc c hc
    unfold decDigits
    split
    · exact hacc2
    · exact ih _ _ hacc2

theorem decDigits_ne_nil (fuel n : Nat) (acc : List Char) :
    decDigits (fuel + 1) n acc ≠ [] := by
  induction fuel generalizing n acc with
  | zero => unfold decDigits; split <;> simp [decDigits]
  | succ f ih =>
    unfold decDigits
    split
    · simp
    · exact ih _ _

theorem digitsVal_decDigits (fuel n : Nat) (acc rest : List Char) (h : n < fuel) :
    digitsVal (decDigits fuel n acc ++ rest) 0 = digitsVal (acc ++ rest) n := by
  induction fuel generalizing n acc with
  | zero => omega
  | succ f ih =>
    have hd := digitChar_facts (n % 10) (Nat.mod_lt _ (by decide))
    unfold decDigits
    split
    · rename_i h0
      have hn : n % 10 = n := by omega
      simp only [List.cons_append, digitsVal, hd.1, if_true, hd.2.1]
      rw [hn]; simp
    · rename_i h0
      rw [ih (n / 10) _ (by omega)]
      simp only [List.cons_append, digitsVal, hd.1, if_true, hd.2.1]
      congr 1
      omega

/-- The digits written for `n`: a first digit and the rest, all digits, whose
value is `n`. -/
theorem decDigits_shape (n : Nat) :
    ∃ c cs, decDigits (n + 1) n [] = c :: cs ∧ isdigit c = true ∧
      (∀ x ∈ c :: cs, numChar x) ∧ digitsVal (c :: cs) 0 = n ∧
      (c == '-') = false ∧ (c == '+') = false := by
  have hne := decDigits_ne_nil n n []
  have hch := decDigits_chars (n + 1) n [] (by simp)
  have hval := digitsVal_decDigits (n + 1) n [] [] (by omega)
  cases hds : decDigits (n + 1) n [] with
  | nil => exact absurd hds hne
  | cons c cs =>
    rw [hds] at hch hval
    refine ⟨c, cs, rfl, (hch c (by simp)).1, fun x hx => (hch x hx).2, ?_, ?_, ?_⟩
    · simpa [digitsVal] using hval
    · have h1 := (hch c (by simp)).1
      by_contra hc
      simp at hc
      subst hc
      simp [isdigit] at h1
    · have h1 := (hch c (by simp)).1
      by_contra hc
      simp at hc
      subst hc
      simp [isdigit] at h1

theorem sprintf_d_chars (v : Int) : ∀ x ∈ sprintf_d v, numChar x := by
  cases v with
  | ofNat n =>
    obtain ⟨c, cs, h, -, hall, -⟩ := decDigits_shape n
    simp only [sprintf_d, h]
    exact hall
  | negSucc n =>
    obtain ⟨c, cs, h, -, hall, -⟩ := decDigits_shape (n + 1)
    simp only [sprintf_d, h]
    intro x hx
    rcases List.mem_cons.1 hx with rfl | hx
    · exact ⟨by decide, by decide, by decide⟩
    · exact hall x hx

theorem sprintf_d_ne_nil (v : Int) : sprintf_d v ≠ [] := by
  cases v with
  | ofNat n =>
    obtain ⟨c, cs, h, -⟩ := decDigits_shape n
    simp [sprintf_d, h]
  | negSucc n => simp [sprintf_d]

/-- Reading back what `%d` wrote gives the value, reduced to 32 bits. -/
theorem sscanf_d_sprintf_d (v : Int) : sscanf_d (sprintf_d v) = Scan.ok (toInt32 v) := by
  cases v with
  | ofNat n =>
    obtain ⟨c, cs, h, hd, hall, hval, hm, hp⟩ := decDigits_shape n
    have hsp : isspace c = false := (hall c (by simp)).2.2
    simp only [sprintf_d, h, sscanf_d]
    rw [List.dropWhile_cons_of_neg (by simp [hsp])]
    simp only [hm, hp, scanDigits, hd, hval]
    simp
  | negSucc n =>
    obtain ⟨c, cs, h, hd, hall, hval, hm, hp⟩ := decDigits_shape (n + 1)
    simp only [sprintf_d, h, sscanf_d]
    rw [List.dropWhile_cons_of_neg (by decide)]
    simp only [scanDigits, hd, hval]
    simp [Int.negSucc_eq]

theorem cstr_of_no_nul (s : List Char) (h : ∀ x ∈ s, (x != '\x00') = true) : cstr s = s := by
  unfold cstr
  exact List.takeWhile_eq_self_iff.2 h

theorem getTok_append (t rest : List Char) (h : ∀ x ∈ t, (x == ' ') = false) :
    getTok (t ++ ' ' :: rest) = (t, rest, false) := by
  induction t with
  | nil => simp [getTok]
  | cons c cs ih =>
    have hc := h c (by simp)
    have := ih (fun x hx => h x (by simp [hx]))
    simp [getTok, hc, this]

/-- The stream is the token, then (unless the end was hit) the delimiter and
the unread rest. -/
theorem getTok_spec (s : List Char) :
    s = (getTok s).1 ++ (if (getTok s).2.2 then [] else ' ' :: (getTok s).2.1) ∧
      ((getTok s).2.2 = true → (getTok s).2.1 = []) := by
  induction s with
  | nil => simp [getTok]
  | cons c cs ih =>
    by_cases hc : (c == ' ') = true
    · have : c = ' ' := by simpa using hc
      subst this
      simp [getTok]
    · simp only [getTok, hc]
      simp only [Bool.false_eq_true, if_false, List.cons_append]
      exact ⟨by rw [← ih.1], ih.2⟩

theorem getTok_no_nul (s : List Char) (h : ∀ x ∈ s, (x != '\x00') = true) :
    ∀ x ∈ (getTok s).1, (x != '\x00') = true := by
  intro x hx
  apply h
  have := (getTok_spec s).1
  rw [this]
  exact List.mem_append_left _ hx


theorem numChar_no_space {s : List Char} (h : ∀ x ∈ s, numChar x) :
    ∀ x ∈ s, (x == ' ') = false := fun x hx => (h x hx).1

theorem numChar_no_nul {s : List Char} (h : ∀ x ∈ s, numChar x) :
    ∀ x ∈ s, (x != '\x00') = true := fun x hx => (h x hx).2.1

/-- One iteration of the token loop on a non-empty token that is followed by
a delimiter. -/
theorem parseLoop_tok (c : Bool) (fuel : Nat) (st : ParseState) (t rest : List Char)
    (hne : t ≠ []) (hsp : ∀ x ∈ t, (x == ' ') = false) (hnul : ∀ x ∈ t, (x != '\x00') = true) :
    parseLoop c (fuel + 1) st (t ++ ' ' :: rest) =
      match st.n with
      | none =>
        if (sscanf_d t).sval = 0 then ParseResult.null
        else parseLoop c fuel
          { n := some { id_ := (sscanf_d t).node_id, left_ := none, right_ := none, descr_ := none },
            leaf_count := st.leaf_count } rest
      | some p =>
        if (sscanf_d t).sval ≠ 0 then
          match p.left_, p.right_ with
          | none, _ =>
            parseLoop c fuel
              { n := some { p with left_ := some (sscanf_d t).node_id },
                leaf_count := st.leaf_count + 1 } rest
          | some _, none =>
            parseLoop c fuel
              { n := some { p with right_ := some (sscanf_d t).node_id },
                leaf_count := st.leaf_count + 1 } rest
          | some _, some _ => parseFinish (some (setDescr c p st.leaf_count t rest false))
        else parseFinish (some (setDescr c p st.leaf_count t rest false)) := by
  cases t with
  | nil => exact absurd rfl hne
  | cons x xs =>
    have hg := getTok_append (x :: xs) rest hsp
    have hc := cstr_of_no_nul (x :: xs) hnul
    rw [List.cons_append] at hg ⊢
    rw [parseLoop]
    simp only [hg, hc]

/-- One iteration of the token loop on a number written by `%d` and followed
by a delimiter, once the node exists and its left child is not set. -/
theorem parseLoop_left (c : Bool) (fuel : Nat) (p : PNode) (lc : Nat) (v : Int)
    (rest : List Char) (hl : p.left_ = none) :
    parseLoop c (fuel + 1) { n := some p, leaf_count := lc } (sprintf_d v ++ ' ' :: rest) =
      parseLoop c fuel { n := some { p with left_ := some (toInt32 v) }, leaf_count := lc + 1 }
        rest := by
  rw [parseLoop_tok c fuel _ _ _ (sprintf_d_ne_nil v) (numChar_no_space (sprintf_d_chars v))
    (numChar_no_nul (sprintf_d_chars v))]
  simp [sscanf_d_sprintf_d, Scan.sval, Scan.node_id, hl]

theorem parseLoop_right (c : Bool) (fuel : Nat) (p : PNode) (lc : Nat) (v : Int)
    (rest : List Char) (l : Int) (hl : p.left_ = some l) (hr : p.right_ = none) :
    parseLoop c (fuel + 1) { n := some p, leaf_count := lc } (sprintf_d v ++ ' ' :: rest) =
      parseLoop c fuel { n := some { p with right_ := some (toInt32 v) }, leaf_count := lc + 1 }
        rest := by
  rw [parseLoop_tok c fuel _ _ _ (sprintf_d_ne_nil v) (numChar_no_space (sprintf_d_chars v))
    (numChar_no_nul (sprintf_d_chars v))]
  simp [sscanf_d_sprintf_d, Scan.sval, Scan.node_id, hl, hr]

theorem parseLoop_first (c : Bool) (fuel : Nat) (lc : Nat) (v : Int) (rest : List Char) :
    parseLoop c (fuel + 1) { n := none, leaf_count := lc } (sprintf_d v ++ ' ' :: rest) =
      parseLoop c fuel
        { n := some { id_ := toInt32 v, left_ := none, right_ := none, descr_ := none },
          leaf_count := lc } rest := by
  rw [parseLoop_tok c fuel _ _ _ (sprintf_d_ne_nil v) (numChar_no_space (sprintf_d_chars v))
    (numChar_no_nul (sprintf_d_chars v))]
  simp [sscanf_d_sprintf_d, Scan.sval, Scan.node_id]

/-- The iteration that meets the label: the stream holds `label`, whose first
token is not empty. The description is built from the token and what follows
it. -/
theorem parseLoop_label (c : Bool) (fuel : Nat) (p : PNode) (lc : Nat) (label : List Char)
    (hnul : ∀ x ∈ label, (x != '\x00') = true) (hne : (getTok label).1 ≠ [])
    (hgo : (sscanf_d (getTok label).1).sval = 0 ∨ (∃ l r, p.left_ = some l ∧ p.right_ = some r)) :
    parseLoop c (fuel + 1) { n := some p, leaf_count := lc } label =
      parseFinish (some (setDescr c p lc (getTok label).1 (getTok label).2.1 (getTok label).2.2)) := by
  have hc := cstr_of_no_nul _ (getTok_no_nul label hnul)
  obtain ⟨x, xs, rfl⟩ : ∃ x xs, label = x :: xs := by
    cases label with
    | nil => simp [getTok] at hne
    | cons x xs => exact ⟨x, xs, rfl⟩
  cases ht : (getTok (x :: xs)).1 with
  | nil => exact absurd ht hne
  | cons y ys =>
    have hc2 : cstr (y :: ys) = y :: ys := by rw [← ht]; exact hc
    rw [parseLoop]
    simp only [ht, hc2]
    rcases hgo with h0 | ⟨l, r, h1, h2⟩
    · rw [ht] at h0
      simp [h0]
    · simp only [h1, h2]
      split <;> rfl

/-- The text copied into the description buffer, read as a C string: what
precedes the token, then the label as it stands in the line. -/
theorem descr_text (pre label : List Char) (hpre : ∀ x ∈ pre, (x != '\x00') = true)
    (hnul : ∀ x ∈ label, (x != '\x00') = true) :
    (pre ++ (getTok label).1 = pre ++ label ∧ (getTok label).2.2 = true) ∨
      (cstr (pre ++ (getTok label).1 ++ ' ' :: (getTok label).2.1) = pre ++ label ∧
        (getTok label).2.2 = false) := by
  have hs := (getTok_spec label).1
  by_cases he : (getTok label).2.2 = true
  · left
    rw [he] at hs
    simp only [if_true, List.append_nil] at hs
    exact ⟨by rw [← hs], he⟩
  · right
    simp only [he] at hs
    simp only [Bool.false_eq_true, if_false] at hs
    refine ⟨?_, by simpa using he⟩
    rw [List.append_assoc, ← hs]
    apply cstr_of_no_nul
    intro x hx
    rcases List.mem_append.1 hx with hx | hx
    · exact hpre x hx
    · exact hnul x hx

/-- The description set when the label is met: the folded child, if any,
followed by the label as it stands in the line. -/
theorem setDescr_label (c : Bool) (p : PNode) (lc : Nat) (label : List Char)
    (hnul : ∀ x ∈ label, (x != '\x00') = true) :
    setDescr c p lc (getTok label).1 (getTok label).2.1 (getTok label).2.2 =
      if (c && decide (lc = 1)) = true then
        { p with
            left_ := none,
            descr_ := some ((match p.left_ with
                | some l => sprintf_d l ++ [' ']
                | none => []) ++ label) }
      else { p with descr_ := some label } := by
  have hpre : ∀ l : Int, ∀ x ∈ sprintf_d l ++ [' '], (x != '\x00') = true := by
    intro l x hx
    rcases List.mem_append.1 hx with hx | hx
    · exact numChar_no_nul (sprintf_d_chars l) x hx
    · simp at hx; subst hx; decide
  obtain ⟨i, l, r, d⟩ := p
  unfold setDescr
  cases hf : (c && decide (lc = 1))
  · rcases descr_text [] label (by simp) hnul with ⟨h1, h2⟩ | ⟨h1, h2⟩
    · simp only [List.nil_append] at h1
      simp [h2, h1]
    · simp only [List.nil_append] at h1
      simp [h2, h1]
  · cases l with
    | none =>
      rcases descr_text [] label (by simp) hnul with ⟨h1, h2⟩ | ⟨h1, h2⟩
      · simp only [List.nil_append] at h1
        simp [h2, h1]
      · simp only [List.nil_append] at h1
        simp [h2, h1]
    | some l =>
      rcases descr_text (sprintf_d l ++ [' ']) label (hpre l) hnul with ⟨h1, h2⟩ | ⟨h1, h2⟩
      · simp only [h2, if_true, h1]
      · simp only [h2, Bool.false_eq_true, if_false, if_true, h1]

/-! ## Effect of the store primitives on the fields of the object -/

@[simp] theorem delete_insertMap (st : State) (p : Option Nat) :
    (st.delete p).insertMap_ = st.insertMap_ := by cases p <;> rfl
@[simp] theorem delete_wait (st : State) (p : Option Nat) :
    (st.delete p).wait_count_ = st.wait_count_ := by cases p <;> rfl
@[simp] theorem delete_root (st : State) (p : Option Nat) :
    (st.delete p).decodedTree_ = st.decodedTree_ := by cases p <;> rfl
@[simp] theorem delete_cells (st : State) (p : Option Nat) :
    (st.delete p).cells = st.cells := by cases p <;> rfl
@[simp] theorem delete_dup (st : State) (p : Option Nat) :
    (st.delete p).duplicate_ids_ = st.duplicate_ids_ := by cases p <;> rfl
@[simp] theorem delete_complete (st : State) (p : Option Nat) :
    (st.delete p).complete_tree_ = st.complete_tree_ := by cases p <;> rfl
@[simp] theorem delete_rd (st : State) (p : Option Nat) (a : Nat) :
    (st.delete p).rd a = st.rd a := by cases p <;> rfl

@[simp] theorem wr_insertMap (st : State) (a : Nat) (v : node) :
    (st.wr a v).insertMap_ = st.insertMap_ := rfl
@[simp] theorem wr_wait (st : State) (a : Nat) (v : node) :
    (st.wr a v).wait_count_ = st.wait_count_ := rfl
@[simp] theorem wr_root (st : State) (a : Nat) (v : node) :
    (st.wr a v).decodedTree_ = st.decodedTree_ := rfl
@[simp] theorem wr_dup (st : State) (a : Nat) (v : node) :
    (st.wr a v).duplicate_ids_ = st.duplicate_ids_ := rfl
@[simp] theorem wr_complete (st : State) (a : Nat) (v : node) :
    (st.wr a v).complete_tree_ = st.complete_tree_ := rfl
@[simp] theorem wr_freed (st : State) (a : Nat) (v : node) :
    (st.wr a v).freed = st.freed := rfl
@[simp] theorem wr_length (st : State) (a : Nat) (v : node) :
    (st.wr a v).cells.length = st.cells.length := by simp [State.wr]

theorem wr_rd (st : State) (a b : Nat) (v : node) :
    (st.wr a v).rd b = if a = b ∧ a < st.cells.length then v else st.rd b := by
  unfold State.wr State.rd
  simp only [List.getD_eq_getElem?_getD, List.getElem?_set]
  by_cases h : a = b
  · subst h
    by_cases h2 : a < st.cells.length
    · simp [h2]
    · simp [h2]
      rw [List.getElem?_eq_none (by omega)]
      rfl
  · simp [h]

/-- What a write through a pointer leaves unchanged. -/
theorem writeSlot_fields {st st1 : State} {p : Ptr} {v : Option Nat}
    (h : st.writeSlot p v = Except.ok st1) :
    st1.insertMap_ = st.insertMap_ ∧ st1.wait_count_ = st.wait_count_ ∧
      st1.duplicate_ids_ = st.duplicate_ids_ ∧ st1.complete_tree_ = st.complete_tree_ ∧
      st1.freed = st.freed ∧ st1.cells.length = st.cells.length ∧
      (∀ a, (st1.rd a).id_ = (st.rd a).id_ ∧ (st1.rd a).descr_ = (st.rd a).descr_) ∧
      (st1.decodedTree_ = st.decodedTree_ ∨ (p = Ptr.root ∧ st1.decodedTree_ = v)) := by
  cases p with
  | null => simp [State.writeSlot] at h
  | node a => simp [State.writeSlot] at h
  | root =>
    simp only [State.writeSlot, Except.ok.injEq] at h
    subst h
    exact ⟨rfl, rfl, rfl, rfl, rfl, rfl, fun a => ⟨rfl, rfl⟩, Or.inr ⟨rfl, rfl⟩⟩
  | left a =>
    simp only [State.writeSlot, Except.ok.injEq] at h
    subst h
    refine ⟨rfl, rfl, rfl, rfl, rfl, by simp, fun b => ?_, Or.inl rfl⟩
    rw [wr_rd]
    split
    · rename_i hh; rw [← hh.1]; exact ⟨rfl, rfl⟩
    · exact ⟨rfl, rfl⟩
  | right a =>
    simp only [State.writeSlot, Except.ok.injEq] at h
    subst h
    refine ⟨rfl, rfl, rfl, rfl, rfl, by simp, fun b => ?_, Or.inl rfl⟩
    rw [wr_rd]
    split
    · rename_i hh; rw [← hh.1]; exact ⟨rfl, rfl⟩
    · exact ⟨rfl, rfl⟩

/-! ## The table -/

theorem modifyRef_keys (f : hash_ref → hash_ref) (i : Nat) (m : List (Int × hash_ref)) :
    (modifyRef f i m).map Prod.fst = m.map Prod.fst := by
  induction m generalizing i with
  | nil => cases i <;> rfl
  | cons e rest ih =>
    cases i with
    | zero => rfl
    | succ i => simp [modifyRef, ih]

theorem modifyRef_length (f : hash_ref → hash_ref) (i : Nat) (m : List (Int × hash_ref)) :
    (modifyRef f i m).length = m.length := by
  have := congrArg List.length (modifyRef_keys f i m)
  rw [List.length_map, List.length_map] at this
  exact this

theorem findList_eq (m : List (Int × hash_ref)) (id : Int) :
    findList m id = true ↔ id ∈ m.map Prod.fst := by
  unfold findList
  simp only [List.any_eq_true, decide_eq_true_eq, List.mem_map]

theorem findList_modifyRef (f : hash_ref → hash_ref) (i : Nat) (m : List (Int × hash_ref))
    (id : Int) : findList (modifyRef f i m) id = findList m id := by
  rw [Bool.eq_iff_iff, findList_eq, findList_eq, modifyRef_keys]

/-- Every member of the modified table is a member of the old one, or is the
image of the old member at the position. -/
theorem mem_modifyRef {f : hash_ref → hash_ref} {i : Nat} {m : List (Int × hash_ref)}
    {e : Int × hash_ref} (h : e ∈ modifyRef f i m) :
    e ∈ m ∨ (i < m.length ∧ e = (getKey m i, f (getRef m i))) := by
  induction m generalizing i with
  | nil => cases i <;> simp [modifyRef] at h
  | cons x rest ih =>
    cases i with
    | zero =>
      simp only [modifyRef, List.mem_cons] at h
      rcases h with h | h
      · right; exact ⟨by simp, by simpa [getKey, getRef] using h⟩
      · left; exact List.mem_cons_of_mem _ h
    | succ i =>
      simp only [modifyRef, List.mem_cons] at h
      rcases h with h | h
      · left; simp [h]
      · rcases ih h with h1 | ⟨h1, h2⟩
        · left; exact List.mem_cons_of_mem _ h1
        · right; exact ⟨by simpa using h1, by simpa [getKey, getRef] using h2⟩

theorem getRef_mem {m : List (Int × hash_ref)} {i : Nat} (h : i < m.length) :
    (getKey m i, getRef m i) ∈ m := by
  unfold getKey getRef
  rw [List.getD_eq_getElem _ _ h]
  exact List.getElem_mem h

theorem scanRefs_spec {id : Int} {m : List (Int × hash_ref)} {k i : Nat}
    (h : scanRefs id m k = some i) :
    k ≤ i ∧ i - k < m.length ∧ getKey m (i - k) = id ∧
      ¬ ((getRef m (i - k)).status_ = Status.FILLED ∧ (getRef m (i - k)).nodePtr_ ≠ Ptr.root) := by
  induction m generalizing k with
  | nil => simp [scanRefs] at h
  | cons e rest ih =>
    unfold scanRefs at h
    split at h
    · rename_i hh
      simp only [Option.some.injEq] at h
      subst h
      simpa [getKey, getRef] using hh
    · obtain ⟨h1, h2, h3, h4⟩ := ih h
      have : i - k = (i - (k + 1)) + 1 := by omega
      refine ⟨by omega, by simp; omega, ?_, ?_⟩
      · rw [this]; simpa [getKey] using h3
      · rw [this]; simpa [getRef] using h4

theorem scanNodeWait_spec {id : Int} {m : List (Int × hash_ref)} {k i : Nat}
    (h : scanNodeWait id m k = some i) :
    k ≤ i ∧ i - k < m.length ∧ getKey m (i - k) = id ∧
      (getRef m (i - k)).status_ = Status.NODE_WAIT := by
  induction m generalizing k with
  | nil => simp [scanNodeWait] at h
  | cons e rest ih =>
    unfold scanNodeWait at h
    split at h
    · rename_i hh
      simp only [Option.some.injEq] at h
      subst h
      simpa [getKey, getRef] using hh
    · obtain ⟨h1, h2, h3, h4⟩ := ih h
      have : i - k = (i - (k + 1)) + 1 := by omega
      refine ⟨by omega, by simp; omega, ?_, ?_⟩
      · rw [this]; simpa [getKey] using h3
      · rw [this]; simpa [getRef] using h4

/-- The two outcomes of `markParentFilled`. -/
theorem markParentFilled_cases (st : State) (n : Nat) :
    ((markParentFilled st n).1 = -1 ∧ (markParentFilled st n).2 = st) ∨
      (∃ j, scanNodeWait (st.rd n).id_ st.insertMap_ 0 = some j ∧
        (markParentFilled st n).1 = 0 ∧
        (markParentFilled st n).2 =
          { st with
              insertMap_ := modifyRef (fun r => { r with status_ := Status.FILLED }) j st.insertMap_,
              wait_count_ := st.wait_count_ - 1 }) := by
  unfold markParentFilled
  split
  · split
    · rename_i j hj
      right; exact ⟨j, hj, rfl, rfl⟩
    · left; exact ⟨rfl, rfl⟩
  · left; exact ⟨rfl, rfl⟩


theorem processNode_succ (fuel : Nat) (st : State) (n : Nat) (holder : Ptr)
    (parent : Option Nat) :
    processNode (fuel + 1) st n holder parent =
      match stepNode st n holder parent with
      | Except.error f => Except.error f
      | Except.ok res =>
        if res.1 = -EINVAL then Except.ok res
        else processChildren (processNode fuel) res.2 n := by
  rw [processNode]
  unfold stepNode
  cases checkHashMap st n holder parent with
  | error f => rfl
  | ok res =>
    by_cases h1 : res.1 < 0
    · by_cases h2 : res.1 = -EINVAL
      · simp only [if_pos h1, if_pos h2]
      · simp only [if_pos h1, if_neg h2]
    · have h2 : res.1 ≠ -EINVAL := by
        intro h; rw [h] at h1; exact h1 (by decide)
      simp only [if_neg h1, if_neg h2]

/-- Case analysis on a call of `checkHashMap` that returns, with the reason
of each conflict. -/
theorem checkHashMap_cases_why (Q : Int × State → Prop) (st : State) (n : Nat) (holder : Ptr)
    (parent : Option Nat)
    (h_miss : findList st.insertMap_ (st.rd n).id_ = false → Q (-1, st))
    (h_conf : findList st.insertMap_ (st.rd n).id_ = true →
      (scanRefs (st.rd n).id_ st.insertMap_ 0 = none ∨
        ∃ i, scanRefs (st.rd n).id_ st.insertMap_ 0 = some i ∧
          (getRef st.insertMap_ i).status_ ≠ Status.FILLED) → Q (conflict st, st))
    (h_inval : findList st.insertMap_ (st.rd n).id_ = true →
      (∃ i, scanRefs (st.rd n).id_ st.insertMap_ 0 = some i ∧
        (getRef st.insertMap_ i).status_ = Status.FILLED ∧
        ((st.rd n).descr_ ≠ none ∨ parent = none)) → Q (-EINVAL, st))
    (h_attach : ∀ i tn st1, scanRefs (st.rd n).id_ st.insertMap_ 0 = some i →
      (getRef st.insertMap_ i).status_ = Status.NODE_WAIT →
      (getRef st.insertMap_ i).nodePtr_ = Ptr.node tn →
      (st.rd n).descr_ = none → holder ≠ Ptr.null →
      (st.delete (some n)).writeSlot holder (some tn) = Except.ok st1 →
      Q (markFilled
          { st1 with
              insertMap_ := modifyRef (fun r => { r with nodePtr_ := holder }) i st1.insertMap_,
              wait_count_ := st1.wait_count_ - 1 } i))
    (h_fill : ∀ i tfree st1, scanRefs (st.rd n).id_ st.insertMap_ 0 = some i →
      (getRef st.insertMap_ i).status_ = Status.NONNODE_WAIT →
      (st.rd n).descr_ ≠ none →
      st.readSlot (getRef st.insertMap_ i).nodePtr_ = Except.ok tfree →
      st.writeSlot (getRef st.insertMap_ i).nodePtr_ (some n) = Except.ok st1 →
      Q (markFilled { st1.delete tfree with wait_count_ := (st1.delete tfree).wait_count_ - 1 } i))
    (h_anchor : ∀ i par cur st2, scanRefs (st.rd n).id_ st.insertMap_ 0 = some i →
      (getRef st.insertMap_ i).status_ = Status.FILLED →
      (st.rd n).descr_ = none → parent = some par →
      (st.delete (some n)).readSlot (getRef st.insertMap_ i).nodePtr_ = Except.ok cur →
      (st.delete (some n)).writeSlot holder cur = Except.ok st2 →
      Q (if (markParentFilled { st2 with decodedTree_ := some par } par).1 < 0 then
          (-EINVAL, (markParentFilled { st2 with decodedTree_ := some par } par).2)
        else markFilled (markParentFilled { st2 with decodedTree_ := some par } par).2 i)) :
    ∀ r, checkHashMap st n holder parent = Except.ok r → Q r := by
  intro r hr
  unfold checkHashMap at hr
  split at hr
  · rename_i hf
    split at hr
    · rename_i hnone
      cases hr; exact h_conf hf (Or.inl hnone)
    · rename_i i hi
      simp only at hr
      split at hr
      · rename_i hs
        split at hr
        · cases hr; exact h_conf hf (Or.inr ⟨i, hi, by rw [hs]; decide⟩)
        · rename_i hc
          simp only [not_or, ne_eq, not_not] at hc
          split at hr
          · rename_i tn htn
            split at hr
            · cases hr
            · rename_i st1 hw
              cases hr
              exact h_attach i tn st1 hi hs htn hc.1 hc.2 hw
          · cases hr
      · rename_i hs
        split at hr
        · cases hr; exact h_conf hf (Or.inr ⟨i, hi, by rw [hs]; decide⟩)
        · rename_i hc
          split at hr
          · cases hr
          · rename_i tfree hrd
            split at hr
            · cases hr
            · rename_i st1 hw
              cases hr
              exact h_fill i tfree st1 hi hs hc hrd hw
      · rename_i hs
        split at hr
        · rename_i hc0
          cases hr; exact h_inval hf ⟨i, hi, hs, Or.inl hc0⟩
        · rename_i hc
          simp only [ne_eq, not_not] at hc
          split at hr
          · cases hr; exact h_inval hf ⟨i, hi, hs, Or.inr rfl⟩
          · rename_i par
            split at hr
            · cases hr
            · rename_i cur hrd
              split at hr
              · cases hr
              · rename_i st2 hw
                have := h_anchor i par cur st2 hi hs hc rfl hrd hw
                split at hr
                · rename_i hlt
                  cases hr
                  simpa [hlt] using this
                · rename_i hlt
                  cases hr
                  simpa [hlt] using this
      · cases hr
  · rename_i hf
    cases hr
    exact h_miss (by simpa using hf)


/-- Case analysis on a call of `checkHashMap` that returns. -/
theorem checkHashMap_cases (Q : Int × State → Prop) (st : State) (n : Nat) (holder : Ptr)
    (parent : Option Nat)
    (h_miss : findList st.insertMap_ (st.rd n).id_ = false → Q (-1, st))
    (h_conf : findList st.insertMap_ (st.rd n).id_ = true → Q (conflict st, st))
    (h_inval : findList st.insertMap_ (st.rd n).id_ = true → Q (-EINVAL, st))
    (h_attach : ∀ i tn st1, scanRefs (st.rd n).id_ st.insertMap_ 0 = some i →
      (getRef st.insertMap_ i).status_ = Status.NODE_WAIT →
      (getRef st.insertMap_ i).nodePtr_ = Ptr.node tn →
      (st.rd n).descr_ = none → holder ≠ Ptr.null →
      (st.delete (some n)).writeSlot holder (some tn) = Except.ok st1 →
      Q (markFilled
          { st1 with
              insertMap_ := modifyRef (fun r => { r with nodePtr_ := holder }) i st1.insertMap_,
              wait_count_ := st1.wait_count_ - 1 } i))
    (h_fill : ∀ i tfree st1, scanRefs (st.rd n).id_ st.insertMap_ 0 = some i →
      (getRef st.insertMap_ i).status_ = Status.NONNODE_WAIT →
      (st.rd n).descr_ ≠ none →
      st.readSlot (getRef st.insertMap_ i).nodePtr_ = Except.ok tfree →
      st.writeSlot (getRef st.insertMap_ i).nodePtr_ (some n) = Except.ok st1 →
      Q (markFilled { st1.delete tfree with wait_count_ := (st1.delete tfree).wait_count_ - 1 } i))
    (h_anchor : ∀ i par cur st2, scanRefs (st.rd n).id_ st.insertMap_ 0 = some i →
      (getRef st.insertMap_ i).status_ = Status.FILLED →
      (st.rd n).descr_ = none → parent = some par →
      (st.delete (some n)).readSlot (getRef st.insertMap_ i).nodePtr_ = Except.ok cur →
      (st.delete (some n)).writeSlot holder cur = Except.ok st2 →
      Q (if (markParentFilled { st2 with decodedTree_ := some par } par).1 < 0 then
          (-EINVAL, (markParentFilled { st2 with decodedTree_ := some par } par).2)
        else markFilled (markParentFilled { st2 with decodedTree_ := some par } par).2 i)) :
    ∀ r, checkHashMap st n holder parent = Except.ok r → Q r :=
  checkHashMap_cases_why Q st n holder parent h_miss (fun hf _ => h_conf hf)
    (fun hf _ => h_inval hf) h_attach h_fill h_anchor
/-! ## Invariants along processNode and readLines -/

/-- A property kept by the recursive call is kept by the two child calls. -/
theorem processChildren_inv (Post : State → Prop)
    (go : State → Nat → Ptr → Option Nat → Except Fault (Int × State))
    (hgo : ∀ st n holder parent r, Post st → go st n holder parent = Except.ok r → Post r.2)
    (st : State) (n : Nat) (r : Int × State) (hp : Post st)
    (h : processChildren go st n = Except.ok r) : Post r.2 := by
  unfold processChildren at h
  have hright : ∀ st1 r, Post st1 →
      (match (st1.rd n).right_ with
        | none => Except.ok (0, st1)
        | some r =>
          match go st1 r (Ptr.right n) (some n) with
          | Except.error f => Except.error f
          | Except.ok res =>
            if res.1 = -EINVAL then Except.ok res else Except.ok (0, res.2)) =
        Except.ok r → Post r.2 := by
    intro st1 r hp1 hr
    split at hr
    · cases hr; exact hp1
    · rename_i rr _
      cases hg : go st1 rr (Ptr.right n) (some n) with
      | error f => simp [hg] at hr
      | ok res2 =>
        have := hgo st1 rr (Ptr.right n) (some n) res2 hp1 hg
        simp only [hg] at hr
        split at hr <;> (cases hr; exact this)
  simp only at h
  split at h
  · exact hright _ _ hp h
  · rename_i l _
    cases hg : go st l (Ptr.left n) (some n) with
    | error f => simp [hg] at h
    | ok res1 =>
      have h1 := hgo st l (Ptr.left n) (some n) res1 hp hg
      simp only [hg] at h
      split at h
      · cases h; exact h1
      · exact hright _ _ h1 h

/-- A property that each node-local step establishes from `Pre` and that
gives `Pre` back holds after `processNode`. -/
theorem processNode_inv (Pre : State → Nat → Prop) (Post : State → Prop)
    (hstep : ∀ st n holder parent r, Pre st n →
      stepNode st n holder parent = Except.ok r → Post r.2)
    (hpost : ∀ st n, Post st → Pre st n) :
    ∀ fuel st n holder parent r, Pre st n →
      processNode fuel st n holder parent = Except.ok r → Post r.2 := by
  intro fuel
  induction fuel with
  | zero => intro st n holder parent r _ h; simp [processNode] at h
  | succ fuel ih =>
    intro st n holder parent r hpre h
    rw [processNode_succ] at h
    cases hs : stepNode st n holder parent with
    | error f => simp [hs] at h
    | ok res =>
      have hres := hstep st n holder parent res hpre hs
      simp only [hs] at h
      split at h
      · cases h; exact hres
      · exact processChildren_inv Post (processNode fuel)
          (fun st n holder parent r hp hg => ih st n holder parent r (hpost _ _ hp) hg)
          res.2 n r hres h

/-- A property that the first node-local step establishes unless it reports a
conflict, and that every later step keeps, holds after a `processNode` that
reported no conflict. -/
theorem processNode_top_inv (Post : State → Prop)
    (hstep : ∀ st n holder parent r, Post st →
      stepNode st n holder parent = Except.ok r → Post r.2)
    (fuel : Nat) (st : State) (n : Nat) (holder : Ptr) (parent : Option Nat) (r : Int × State)
    (htop : ∀ res, stepNode st n holder parent = Except.ok res → res.1 ≠ -EINVAL → Post res.2)
    (h : processNode fuel st n holder parent = Except.ok r) (hr : r.1 ≠ -EINVAL) : Post r.2 := by
  cases fuel with
  | zero => simp [processNode] at h
  | succ fuel =>
    rw [processNode_succ] at h
    cases hs : stepNode st n holder parent with
    | error f => simp [hs] at h
    | ok res =>
      simp only [hs] at h
      split at h
      · rename_i he
        cases h
        exact absurd he hr
      · rename_i he
        exact processChildren_inv Post (processNode fuel)
          (fun st n holder parent r hp hg =>
            processNode_inv (fun st _ => Post st) Post
              (fun st n holder parent r hp hs => hstep st n holder parent r hp hs)
              (fun _ _ hp => hp) fuel st n holder parent r hp hg)
          res.2 n r (htop res hs he) h

/-- What the allocations of `parseLine` leave unchanged. -/
theorem allocParsed_fields (st : State) (p : PNode) :
    (allocParsed st p).2.insertMap_ = st.insertMap_ ∧
      (allocParsed st p).2.wait_count_ = st.wait_count_ ∧
      (allocParsed st p).2.decodedTree_ = st.decodedTree_ ∧
      (allocParsed st p).2.duplicate_ids_ = st.duplicate_ids_ ∧
      (allocParsed st p).2.complete_tree_ = st.complete_tree_ ∧
      (allocParsed st p).2.freed = st.freed ∧
      (allocParsed st p).1 = st.cells.length := by
  obtain ⟨i, l, r, d⟩ := p
  cases l <;> cases r <;> simp [allocParsed, State.alloc]

/-- A property kept by every line that is ingested without failure holds at
the end of the loop. -/
theorem readLines_inv (I : State → Prop)
    (hline : ∀ st line p r, I st → line ≠ [] →
      parseLine st.complete_tree_ line = ParseResult.node p →
      processNode ((allocParsed st p).2.cells.length + 1) (allocParsed st p).2
        (allocParsed st p).1 Ptr.null none = Except.ok r → ¬ r.1 < 0 → I r.2) :
    ∀ lines st st', I st → readLines st lines = Except.ok (false, st') → I st' := by
  intro lines
  induction lines with
  | nil => intro st st' hi h; simp only [readLines, Except.ok.injEq, Prod.mk.injEq, true_and] at h; exact h ▸ hi
  | cons line rest ih =>
    intro st st' hi h
    unfold readLines at h
    split at h
    · exact ih st st' hi h
    · rename_i hlen
      have hne : line ≠ [] := by
        intro h0; apply hlen; simp [h0]
      split at h
      · cases h
      · exact ih _ _ hi h
      · rename_i p hp
        simp only at h
        split at h
        · cases h
        · rename_i res hres
          split at h
          · simp at h
          · rename_i hlt
            exact ih _ _ (hline st line p res hi hne hp hres hlt) h

/-! ## The node-local step as a step of the table -/

theorem modifyRef_modifyRef (g h : hash_ref → hash_ref) (i : Nat) (m : List (Int × hash_ref)) :
    modifyRef g i (modifyRef h i m) = modifyRef (fun r => g (h r)) i m := by
  induction m generalizing i with
  | nil => cases i <;> rfl
  | cons e rest ih =>
    cases i with
    | zero => rfl
    | succ i => simp [modifyRef, ih]

theorem modifyRef_getRef (f : hash_ref → hash_ref) (i k : Nat) (m : List (Int × hash_ref)) :
    getRef (modifyRef f i m) k = if k = i ∧ i < m.length then f (getRef m i) else getRef m k := by
  induction m generalizing i k with
  | nil => cases i <;> simp [modifyRef, getRef]
  | cons e rest ih =>
    cases i with
    | zero =>
      cases k with
      | zero => simp [modifyRef, getRef]
      | succ k => simp [modifyRef, getRef]
    | succ i =>
      cases k with
      | zero => simp [modifyRef, getRef]
      | succ k =>
        have := ih i k
        simp only [getRef, List.getD_cons_succ, modifyRef, List.length_cons,
          Nat.add_lt_add_iff_right, Nat.add_right_cancel_iff] at this ⊢
        exact this

/-- Setting FILLED on a reference that is FILLED changes nothing. -/
theorem modifyRef_filled_id (i : Nat) (m : List (Int × hash_ref))
    (h : (getRef m i).status_ = Status.FILLED) (hi : i < m.length) :
    modifyRef (fun r => { r with status_ := Status.FILLED }) i m = m := by
  induction m generalizing i with
  | nil => cases i <;> rfl
  | cons e rest ih =>
    cases i with
    | zero =>
      simp only [getRef, List.getD_cons_zero] at h
      simp only [modifyRef]
      congr 1
      obtain ⟨k, ⟨p, s⟩⟩ := e
      simp only at h
      subst h
      rfl
    | succ i =>
      simp only [modifyRef]
      congr 1
      exact ih i (by simpa [getRef] using h) (by simpa using hi)

theorem scanRefs_found {id : Int} {m : List (Int × hash_ref)} {i : Nat}
    (h : scanRefs id m 0 = some i) :
    i < m.length ∧ getKey m i = id ∧
      ¬ ((getRef m i).status_ = Status.FILLED ∧ (getRef m i).nodePtr_ ≠ Ptr.root) := by
  have := scanRefs_spec h
  simpa using this

theorem scanNodeWait_found {id : Int} {m : List (Int × hash_ref)} {i : Nat}
    (h : scanNodeWait id m 0 = some i) :
    i < m.length ∧ getKey m i = id ∧ (getRef m i).status_ = Status.NODE_WAIT := by
  have := scanNodeWait_spec h
  simpa using this

theorem insertHashMap_table (st : State) (n : Nat) (holder : Ptr) (r : Int × State)
    (hr : r = insertHashMap st n holder
      (if (st.rd n).descr_ = none then Status.NONNODE_WAIT else Status.NODE_WAIT)) :
    r.2.duplicate_ids_ = st.duplicate_ids_ ∧ r.2.complete_tree_ = st.complete_tree_ ∧
    (∃ ptr, r.2.insertMap_ =
      st.insertMap_ ++ [((st.rd n).id_, { nodePtr_ := ptr, status_ := newStatus st n })]) ∧
    r.2.wait_count_ =
      (if newStatus st n ≠ Status.FILLED then st.wait_count_ + 1 else st.wait_count_) ∧
    r.2.decodedTree_ = (if st.insertMap_.isEmpty then some n else st.decodedTree_) ∧
    r.2.cells = st.cells ∧ r.2.freed = st.freed := by
  subst hr
  by_cases he : st.insertMap_.isEmpty = true
  · refine ⟨?_, ?_, ⟨Ptr.root, ?_⟩, ?_, ?_, ?_, ?_⟩ <;>
      simp [insertHashMap, he, newStatus]
  · by_cases hd : (st.rd n).descr_ = none
    · refine ⟨?_, ?_, ⟨holder, ?_⟩, ?_, ?_, ?_, ?_⟩ <;>
        simp [insertHashMap, he, newStatus, hd]
    · refine ⟨?_, ?_, ⟨Ptr.node n, ?_⟩, ?_, ?_, ?_, ?_⟩ <;>
        simp [insertHashMap, he, newStatus, hd]

/-- Every node-local step that returns is a table step. -/
theorem stepNode_table (st : State) (n : Nat) (holder : Ptr) (parent : Option Nat)
    (r : Int × State) (h : stepNode st n holder parent = Except.ok r) : TableStep st n r := by
  unfold stepNode at h
  cases hc : checkHashMap st n holder parent with
  | error f => simp [hc] at h
  | ok res =>
    simp only [hc] at h
    revert h
    refine checkHashMap_cases
      (fun res => (if res.1 < 0 then
          if res.1 = -EINVAL then Except.ok res
          else Except.ok (res.1, (insertHashMap res.2 n holder
            (if (res.2.rd n).descr_ = none then Status.NONNODE_WAIT else Status.NODE_WAIT)).2)
        else (Except.ok res : Except Fault (Int × State))) = Except.ok r → TableStep st n r)
      st n holder parent ?_ ?_ ?_ ?_ ?_ ?_ res hc
    · intro hf h
      simp only [show ((-1 : Int) < 0) = True by simp, if_true,
        show ((-1 : Int) = -EINVAL) = False by simp [EINVAL], if_false, Except.ok.injEq] at h
      subst h
      obtain ⟨h1, h2, h3, h4, h5, -⟩ := insertHashMap_table st n holder _ rfl
      exact ⟨h1, h2, by rw [h5]; split <;> simp, Or.inr (Or.inl ⟨rfl, Or.inl hf, h3, h4, h5⟩)⟩
    · intro hf h
      unfold conflict at h
      by_cases hd : st.duplicate_ids_ = true
      · simp only [hd, if_true, show ((-1 : Int) < 0) = True by simp,
          show ((-1 : Int) = -EINVAL) = False by simp [EINVAL], if_false, Except.ok.injEq] at h
        subst h
        obtain ⟨h1, h2, h3, h4, h5, -⟩ := insertHashMap_table st n holder _ rfl
        exact ⟨h1, h2, by rw [h5]; split <;> simp, Or.inr (Or.inl ⟨rfl, Or.inr hd, h3, h4, h5⟩)⟩
      · simp only [hd, Bool.false_eq_true, if_false, show (-EINVAL < 0) = True by simp [EINVAL],
          if_true, Except.ok.injEq] at h
        subst h
        exact ⟨rfl, rfl, id, Or.inl ⟨rfl, hf, rfl, rfl⟩⟩
    · intro hf h
      simp only [show (-EINVAL < 0) = True by simp [EINVAL], if_true, Except.ok.injEq] at h
      subst h
      exact ⟨rfl, rfl, id, Or.inl ⟨rfl, hf, rfl, rfl⟩⟩
    · intro i tn st1 hi hs htn hd hh hw h
      obtain ⟨w1, w2, w3, w4, -, -, -, w8⟩ := writeSlot_fields hw
      obtain ⟨s1, s2, s3⟩ := scanRefs_found hi
      simp only [markFilled, show ¬ ((0 : Int) < 0) by simp, if_false, Except.ok.injEq] at h
      subst h
      refine ⟨by simpa using w3, by simpa using w4, ?_, Or.inr (Or.inr ⟨rfl, ?_, i, (fun _ => { nodePtr_ := holder, status_ := Status.FILLED }), s1, Or.inl ⟨hs, hd⟩, ?_, ?_, ?_⟩)⟩
      · intro hroot
        rcases w8 with w8 | ⟨-, w8⟩
        · simpa [markFilled, w8] using hroot
        · simp [markFilled, w8]
      · rw [findList_eq]; rw [← s2]; exact List.mem_map.2 ⟨_, getRef_mem s1, rfl⟩
      · exact fun x => rfl
      · simp only [w1, delete_insertMap]
        exact modifyRef_modifyRef _ _ _ _
      · simp [w2]
    · intro i tfree st1 hi hs hd hrd hw h
      obtain ⟨w1, w2, w3, w4, -, -, -, w8⟩ := writeSlot_fields hw
      obtain ⟨s1, s2, s3⟩ := scanRefs_found hi
      simp only [markFilled, show ¬ ((0 : Int) < 0) by simp, if_false, Except.ok.injEq] at h
      subst h
      refine ⟨by simpa using w3, by simpa using w4, ?_, Or.inr (Or.inr ⟨rfl, ?_, i, (fun r => { r with status_ := Status.FILLED }), s1, Or.inr ⟨hs, s2, hd⟩, ?_, ?_, ?_⟩)⟩
      · intro hroot
        rcases w8 with w8 | ⟨-, w8⟩
        · simpa [markFilled, w8] using hroot
        · simp [markFilled, w8]
      · rw [findList_eq]; rw [← s2]; exact List.mem_map.2 ⟨_, getRef_mem s1, rfl⟩
      · exact fun x => rfl
      · simp only [delete_insertMap, w1]
      · simp [w2]
    · intro i par cur st2 hi hs hd hp hrd hw h
      obtain ⟨w1, w2, w3, w4, -, -, -, w8⟩ := writeSlot_fields hw
      obtain ⟨s1, s2, s3⟩ := scanRefs_found hi
      have hfl : findList st.insertMap_ (st.rd n).id_ = true := by
        rw [findList_eq]; rw [← s2]; exact List.mem_map.2 ⟨_, getRef_mem s1, rfl⟩
      rcases markParentFilled_cases { st2 with decodedTree_ := some par } par with
        ⟨m1, m2⟩ | ⟨j, hj, m1, m2⟩
      · simp only [m1, show ((-1 : Int) < 0) = True by simp, if_true, m2,
          show (-EINVAL < 0) = True by simp [EINVAL], Except.ok.injEq] at h
        subst h
        exact ⟨by simpa using w3, by simpa using w4, by simp, Or.inl ⟨rfl, hfl, by simpa using w1, by simpa using w2⟩⟩
      · obtain ⟨j1, j2, j3⟩ := scanNodeWait_found hj
        simp only [w1, delete_insertMap] at j1 j3 hj
        simp only [m1, show ¬ ((0 : Int) < 0) by simp, if_false, m2, markFilled,
          Except.ok.injEq] at h
        subst h
        refine ⟨by simpa using w3, by simpa using w4, by simp, Or.inr (Or.inr ⟨rfl, hfl, j, (fun r => { r with status_ := Status.FILLED }), j1, Or.inl ⟨j3, hd⟩, fun x => rfl, ?_, ?_⟩)⟩
        · simp only [w1, delete_insertMap]
          apply modifyRef_filled_id
          · rw [modifyRef_getRef]
            split
            · rfl
            · exact hs
          · rw [modifyRef_length]; exact s1
        · simp [w2]

/-! ## What a node-local step does to the store -/

theorem markParentFilled_store (st : State) (n : Nat) :
    (markParentFilled st n).2.cells = st.cells ∧ (markParentFilled st n).2.freed = st.freed ∧
      (markParentFilled st n).2.decodedTree_ = st.decodedTree_ := by
  rcases markParentFilled_cases st n with ⟨-, h⟩ | ⟨j, -, -, h⟩ <;> rw [h] <;> exact ⟨rfl, rfl, rfl⟩

theorem rd_congr {s t : State} (h : s.cells = t.cells) (a : Nat) : s.rd a = t.rd a := by
  unfold State.rd; rw [h]

/-- The cells after a write through a pointer. -/
theorem writeSlot_rd {st st1 : State} {p : Ptr} {v : Option Nat}
    (h : st.writeSlot p v = Except.ok st1) (a : Nat) :
    st1.rd a = st.rd a ∨
      (p = Ptr.left a ∧ st1.rd a = { st.rd a with left_ := v }) ∨
      (p = Ptr.right a ∧ st1.rd a = { st.rd a with right_ := v }) := by
  cases p with
  | null => simp [State.writeSlot] at h
  | node b => simp [State.writeSlot] at h
  | root =>
    simp only [State.writeSlot, Except.ok.injEq] at h
    subst h
    exact Or.inl rfl
  | left b =>
    simp only [State.writeSlot, Except.ok.injEq] at h
    subst h
    rw [wr_rd]
    split
    · rename_i hh
      obtain ⟨rfl, -⟩ := hh
      exact Or.inr (Or.inl ⟨rfl, rfl⟩)
    · exact Or.inl rfl
  | right b =>
    simp only [State.writeSlot, Except.ok.injEq] at h
    subst h
    rw [wr_rd]
    split
    · rename_i hh
      obtain ⟨rfl, -⟩ := hh
      exact Or.inr (Or.inr ⟨rfl, rfl⟩)
    · exact Or.inl rfl

theorem storeStep_refl (st : State) (n : Nat) (holder : Ptr) (ret : Int) :
    StoreStep st n holder (ret, st) :=
  ⟨rfl, fun _ => ⟨rfl, rfl⟩, fun e he => Or.inr (Or.inr (Or.inr ⟨e, he, rfl⟩)), fun _ => Or.inl rfl⟩

theorem mem_modifyRef_ptr {f : hash_ref → hash_ref} {i : Nat} {m : List (Int × hash_ref)}
    {e : Int × hash_ref} (h : e ∈ modifyRef f i m) :
    (∃ e0 ∈ m, e.2.nodePtr_ = e0.2.nodePtr_) ∨ (e.2.nodePtr_ = (f (getRef m i)).nodePtr_) := by
  rcases mem_modifyRef h with h | ⟨-, h⟩
  · exact Or.inl ⟨e, h, rfl⟩
  · right; rw [h]

theorem checkHashMap_store (st : State) (n : Nat) (holder : Ptr) (parent : Option Nat) :
    ∀ r, checkHashMap st n holder parent = Except.ok r → StoreStep st n holder r := by
  apply checkHashMap_cases
  · intro _; exact storeStep_refl _ _ _ _
  · intro _; exact storeStep_refl _ _ _ _
  · intro _; exact storeStep_refl _ _ _ _
  · intro i tn st1 hi hs htn hd hh hw
    obtain ⟨w1, -, -, -, -, w6, w7, -⟩ := writeSlot_fields hw
    obtain ⟨s1, -, -⟩ := scanRefs_found hi
    refine ⟨by simpa [markFilled] using w6, fun a => by simpa [markFilled, State.rd] using w7 a, ?_, ?_⟩
    · intro e he
      simp only [markFilled, w1, delete_insertMap] at he
      rw [modifyRef_modifyRef] at he
      rcases mem_modifyRef_ptr he with h | h
      · exact Or.inr (Or.inr (Or.inr h))
      · exact Or.inr (Or.inl h)
    · intro a
      have : (markFilled { st1 with
          insertMap_ := modifyRef (fun r => { r with nodePtr_ := holder }) i st1.insertMap_,
          wait_count_ := st1.wait_count_ - 1 } i).2.rd a = st1.rd a := rfl
      rw [this]
      rcases writeSlot_rd hw a with h | ⟨h1, h2⟩ | ⟨h1, h2⟩
      · left; simpa using h
      · right; left; exact ⟨hd, Or.inl ⟨h1, _, by simpa using h2⟩⟩
      · right; left; exact ⟨hd, Or.inr ⟨h1, _, by simpa using h2⟩⟩
  · intro i tfree st1 hi hs hd hrd hw
    obtain ⟨w1, -, -, -, -, w6, w7, -⟩ := writeSlot_fields hw
    obtain ⟨s1, -, -⟩ := scanRefs_found hi
    refine ⟨by simpa [markFilled] using w6, fun a => by simpa [markFilled, State.rd] using w7 a, ?_, ?_⟩
    · intro e he
      simp only [markFilled, w1, delete_insertMap] at he
      rcases mem_modifyRef_ptr he with h | h
      · exact Or.inr (Or.inr (Or.inr h))
      · exact Or.inr (Or.inr (Or.inr ⟨_, getRef_mem s1, h⟩))
    · intro a
      have : (markFilled { st1.delete tfree with
          wait_count_ := (st1.delete tfree).wait_count_ - 1 } i).2.rd a = st1.rd a := by
        simp [markFilled, State.rd]
      rw [this]
      rcases writeSlot_rd hw a with h | ⟨h1, h2⟩ | ⟨h1, h2⟩
      · left; exact h
      · right; right; exact ⟨hd, _, getRef_mem s1, hs, Or.inl ⟨h1, h2⟩⟩
      · right; right; exact ⟨hd, _, getRef_mem s1, hs, Or.inr ⟨h1, h2⟩⟩
  · intro i par cur st2 hi hs hd hp hrd hw
    obtain ⟨w1, -, -, -, -, w6, w7, -⟩ := writeSlot_fields hw
    obtain ⟨s1, -, -⟩ := scanRefs_found hi
    obtain ⟨c1, -, -⟩ := markParentFilled_store { st2 with decodedTree_ := some par } par
    have hrd2 : ∀ s : State, s.cells = st2.cells → ∀ a, s.rd a = st2.rd a :=
      fun s hs a => rd_congr hs a
    have hcells : (if (markParentFilled { st2 with decodedTree_ := some par } par).1 < 0 then
          (-EINVAL, (markParentFilled { st2 with decodedTree_ := some par } par).2)
        else markFilled (markParentFilled { st2 with decodedTree_ := some par } par).2 i).2.cells
        = st2.cells := by
      split
      · exact c1
      · simpa [markFilled] using c1
    refine ⟨by rw [hcells]; simpa using w6, fun a => by rw [hrd2 _ hcells]; simpa using w7 a, ?_, ?_⟩
    · intro e he
      have hsub : ∀ e ∈ (markParentFilled { st2 with decodedTree_ := some par } par).2.insertMap_,
          ∃ e0 ∈ st.insertMap_, e.2.nodePtr_ = e0.2.nodePtr_ := by
        intro e he
        rcases markParentFilled_cases { st2 with decodedTree_ := some par } par with
          ⟨-, m2⟩ | ⟨j, hj, -, m2⟩
        · rw [m2] at he
          simp only [w1, delete_insertMap] at he
          exact ⟨e, he, rfl⟩
        · rw [m2] at he
          simp only [w1, delete_insertMap] at he hj
          obtain ⟨j1, -, -⟩ := scanNodeWait_found hj
          rcases mem_modifyRef_ptr he with h | h
          · exact h
          · exact ⟨_, getRef_mem j1, h⟩
      split at he
      · exact Or.inr (Or.inr (Or.inr (hsub e he)))
      · simp only [markFilled] at he
        rcases mem_modifyRef he with h | ⟨h1, h2⟩
        · exact Or.inr (Or.inr (Or.inr (hsub e h)))
        · have := hsub _ (getRef_mem h1)
          rw [h2]
          exact Or.inr (Or.inr (Or.inr this))
    · intro a
      rw [hrd2 _ hcells]
      rcases writeSlot_rd hw a with h | ⟨h1, h2⟩ | ⟨h1, h2⟩
      · left; simpa using h
      · right; left; exact ⟨hd, Or.inl ⟨h1, _, by simpa using h2⟩⟩
      · right; left; exact ⟨hd, Or.inr ⟨h1, _, by simpa using h2⟩⟩

theorem insertHashMap_ptr (st : State) (n : Nat) (holder : Ptr) (s : Status) :
    ∀ e ∈ (insertHashMap st n holder s).2.insertMap_,
      e ∈ st.insertMap_ ∨ e.2.nodePtr_ = Ptr.root ∨ e.2.nodePtr_ = holder ∨
        e.2.nodePtr_ = Ptr.node n := by
  intro e he
  unfold insertHashMap at he
  by_cases hemp : st.insertMap_.isEmpty = true
  · simp only [hemp, if_true] at he
    rcases List.mem_append.1 he with h | h
    · exact Or.inl h
    · simp only [List.mem_singleton] at h
      subst h
      simp
  · simp only [hemp] at he
    rcases List.mem_append.1 he with h | h
    · exact Or.inl h
    · simp only [List.mem_singleton] at h
      subst h
      by_cases hs : s = Status.NODE_WAIT
      · simp [hs]
      · simp [hs]

theorem stepNode_store (st : State) (n : Nat) (holder : Ptr) (parent : Option Nat)
    (r : Int × State) (h : stepNode st n holder parent = Except.ok r) :
    StoreStep st n holder r := by
  unfold stepNode at h
  cases hc : checkHashMap st n holder parent with
  | error f => simp [hc] at h
  | ok res =>
    have hs := checkHashMap_store st n holder parent res hc
    simp only [hc] at h
    split at h
    · split at h
      · cases h; exact hs
      · rename_i hlt hne
        -- the call returned -1: the object is unchanged and a reference is appended
        have hst : res.2 = st := by
          revert hlt hne
          refine checkHashMap_cases (fun res => res.1 < 0 → ¬ res.1 = -EINVAL → res.2 = st)
            st n holder parent ?_ ?_ ?_ ?_ ?_ ?_ res hc
          · intro _ _ _; rfl
          · intro _ _ _; rfl
          · intro _ _ _; rfl
          · intro i tn st1 _ _ _ _ _ _ hlt _; simp [markFilled] at hlt
          · intro i tfree st1 _ _ _ _ _ hlt _; simp [markFilled] at hlt
          · intro i par cur st2 _ _ _ _ _ _ hlt hne
            by_cases hm : (markParentFilled { st2 with decodedTree_ := some par } par).1 < 0
            · rw [if_pos hm] at hne; exact absurd rfl hne
            · rw [if_neg hm] at hlt; simp [markFilled] at hlt
        cases h
        rw [hst]
        obtain ⟨-, -, ⟨ptr, hm⟩, -, -, hcells, -⟩ := insertHashMap_table st n holder _ rfl
        refine ⟨by rw [hcells], fun a => by rw [rd_congr hcells a]; exact ⟨rfl, rfl⟩, ?_,
          fun a => Or.inl (rd_congr hcells a)⟩
        intro e he
        rcases insertHashMap_ptr st n holder _ e he with h | h | h | h
        · exact Or.inr (Or.inr (Or.inr ⟨e, h, rfl⟩))
        · exact Or.inl h
        · exact Or.inr (Or.inl h)
        · exact Or.inr (Or.inr (Or.inl h))
    · cases h; exact hs

/-! ## Positions in the table -/

theorem getKey_modifyRef (f : hash_ref → hash_ref) (i k : Nat) (m : List (Int × hash_ref)) :
    getKey (modifyRef f i m) k = getKey m k := by
  induction m generalizing i k with
  | nil => cases i <;> simp [modifyRef, getKey]
  | cons e rest ih =>
    cases i with
    | zero => cases k <;> simp [modifyRef, getKey]
    | succ i =>
      cases k with
      | zero => simp [modifyRef, getKey]
      | succ k =>
        have := ih i k
        simpa [getKey, modifyRef] using this

theorem mem_iff_index {m : List (Int × hash_ref)} {e : Int × hash_ref} (h : e ∈ m) :
    ∃ k, k < m.length ∧ e = (getKey m k, getRef m k) := by
  obtain ⟨k, hk, rfl⟩ := List.getElem_of_mem h
  refine ⟨k, hk, ?_⟩
  simp [getKey, getRef, List.getD_eq_getElem?_getD, List.getElem?_eq_getElem hk]

theorem keysNodup_index {m : List (Int × hash_ref)} (h : KeysNodup m) {j k : Nat}
    (hj : j < m.length) (hk : k < m.length) (he : getKey m j = getKey m k) : j = k := by
  unfold KeysNodup at h
  have hj2 : j < (m.map Prod.fst).length := by simpa using hj
  have hk2 : k < (m.map Prod.fst).length := by simpa using hk
  have h1 : getKey m j = (m.map Prod.fst)[j] := by
    simp [getKey, List.getD_eq_getElem?_getD, List.getElem?_eq_getElem hj]
  have h2 : getKey m k = (m.map Prod.fst)[k] := by
    simp [getKey, List.getD_eq_getElem?_getD, List.getElem?_eq_getElem hk]
  rw [h1, h2] at he
  exact (List.Nodup.getElem_inj_iff h).1 he

/-! ## Flags and root along the loop -/

/-- The mode flags never change. -/
theorem processNode_flags (c d : Bool) :
    ∀ fuel st n holder parent r,
      (st.complete_tree_ = c ∧ st.duplicate_ids_ = d) →
      processNode fuel st n holder parent = Except.ok r →
      (r.2.complete_tree_ = c ∧ r.2.duplicate_ids_ = d) := by
  apply processNode_inv (fun st _ => st.complete_tree_ = c ∧ st.duplicate_ids_ = d)
    (fun st => st.complete_tree_ = c ∧ st.duplicate_ids_ = d)
  · intro st n holder parent r hpre h
    obtain ⟨h1, h2, -⟩ := stepNode_table st n holder parent r h
    exact ⟨h2 ▸ hpre.1, h1 ▸ hpre.2⟩
  · intro st n h; exact h


theorem findList_ne_nil {m : List (Int × hash_ref)} {id : Int} (h : findList m id = true) :
    m ≠ [] := by
  rintro rfl
  simp [findList] at h

theorem stepNode_root (st : State) (n : Nat) (holder : Ptr) (parent : Option Nat)
    (r : Int × State) (hpre : RootSet st) (h : stepNode st n holder parent = Except.ok r) :
    r.2.decodedTree_ ≠ none ∧ r.2.insertMap_ ≠ [] := by
  obtain ⟨-, -, hroot, hcase⟩ := stepNode_table st n holder parent r h
  rcases hcase with ⟨-, hf, hm, -⟩ | ⟨-, -, ⟨ptr, hm⟩, -, hr⟩ | ⟨-, hf, j, f, hj, -, -, hm, -⟩
  · have := findList_ne_nil hf
    exact ⟨hroot (hpre this), by rw [hm]; exact this⟩
  · refine ⟨?_, by rw [hm]; simp⟩
    rw [hr]
    split
    · simp
    · rename_i he
      apply hpre
      intro h0; apply he; simp [h0]
  · have := findList_ne_nil hf
    refine ⟨hroot (hpre this), ?_⟩
    rw [hm]
    intro h0
    have := congrArg List.length h0
    rw [modifyRef_length] at this
    simp at this
    exact absurd this (by simpa using List.length_pos.2 ‹st.insertMap_ ≠ []› |>.ne')

theorem processNode_root :
    ∀ fuel st n holder parent r, RootSet st →
      processNode fuel st n holder parent = Except.ok r →
      (r.2.decodedTree_ ≠ none ∧ r.2.insertMap_ ≠ []) := by
  apply processNode_inv (fun st _ => RootSet st)
    (fun st => st.decodedTree_ ≠ none ∧ st.insertMap_ ≠ [])
  · intro st n holder parent r hpre h
    exact stepNode_root st n holder parent r hpre h
  · intro st n h _; exact h.1

/-- The loop over lines that produce no node leaves the object as it is. -/
theorem readLines_no_node (lines : List (List Char)) (st st' : State) (b : Bool)
    (hno : ∀ line ∈ lines, line ≠ [] → ∀ p, parseLine st.complete_tree_ line ≠ ParseResult.node p)
    (h : readLines st lines = Except.ok (b, st')) : b = false ∧ st' = st := by
  induction lines with
  | nil => simp only [readLines, Except.ok.injEq, Prod.mk.injEq] at h; exact ⟨h.1.symm, h.2.symm⟩
  | cons line rest ih =>
    have hrest := fun l hl => hno l (List.mem_cons_of_mem _ hl)
    unfold readLines at h
    split at h
    · exact ih hrest h
    · rename_i hlen
      have hne : line ≠ [] := by intro h0; apply hlen; simp [h0]
      split at h
      · cases h
      · exact ih hrest h
      · rename_i p hp
        exact absurd hp (hno line (List.mem_cons_self _ _) hne p)

/-- A root that is set stays set. -/
theorem readLines_keeps_root (lines : List (List Char)) (st st' : State)
    (hpre : st.decodedTree_ ≠ none) (h : readLines st lines = Except.ok (false, st')) :
    st'.decodedTree_ ≠ none := by
  refine readLines_inv (fun st => st.decodedTree_ ≠ none) ?_ lines st st' hpre h
  intro st line p r hi _ _ hres _
  obtain ⟨a1, -, a3, -⟩ := allocParsed_fields st p
  have hpre1 : RootSet (allocParsed st p).2 := by
    unfold RootSet; rw [a3]; exact fun _ => hi
  exact (processNode_root _ _ _ _ _ _ hpre1 hres).1

/-- After the loop the root is set when some line produced a node, given that
it was set before whenever the table was not empty. -/
theorem readLines_root (lines : List (List Char)) (st st' : State)
    (hpre : RootSet st)
    (h : readLines st lines = Except.ok (false, st')) :
    RootSet st' ∧
      ((∃ line ∈ lines, line ≠ [] ∧ ∃ p, parseLine st.complete_tree_ line = ParseResult.node p) →
        st'.decodedTree_ ≠ none) := by
  induction lines generalizing st with
  | nil =>
    simp only [readLines, Except.ok.injEq, Prod.mk.injEq, true_and] at h
    subst h
    exact ⟨hpre, by simp⟩
  | cons line rest ih =>
    unfold readLines at h
    split at h
    · rename_i hlen
      obtain ⟨h1, h2⟩ := ih st hpre h
      refine ⟨h1, ?_⟩
      rintro ⟨l, hl, hne, p, hp⟩
      rcases List.mem_cons.1 hl with rfl | hl
      · exact absurd (by simpa using hlen) hne
      · exact h2 ⟨l, hl, hne, p, hp⟩
    · split at h
      · cases h
      · rename_i hp0
        obtain ⟨h1, h2⟩ := ih st hpre h
        refine ⟨h1, ?_⟩
        rintro ⟨l, hl, hne, p, hp⟩
        rcases List.mem_cons.1 hl with rfl | hl
        · rw [hp0] at hp; cases hp
        · exact h2 ⟨l, hl, hne, p, hp⟩
      · rename_i p hp
        simp only at h
        split at h
        · cases h
        · rename_i res hres
          split at h
          · simp at h
          · obtain ⟨a1, -, a3, -⟩ := allocParsed_fields st p
            have hpre1 : RootSet (allocParsed st p).2 := by
              unfold RootSet; rw [a1, a3]; exact hpre
            have hr := processNode_root _ _ _ _ _ _ hpre1 hres
            obtain ⟨h1, h2⟩ := ih res.2 (fun _ => hr.1) h
            exact ⟨h1, fun _ => readLines_keeps_root rest res.2 st' hr.1 h⟩


/-! ## What parseLine returns and allocates -/

theorem parseFinish_descr {n : Option PNode} {p : PNode}
    (h : parseFinish n = ParseResult.node p) : p.descr_ ≠ none := by
  unfold parseFinish at h
  split at h
  · cases h
  · split at h
    · cases h; simp
    · rename_i q d hd
      cases h
      rw [hd]; simp

theorem parseLoop_descr (c : Bool) :
    ∀ fuel st s p, parseLoop c fuel st s = ParseResult.node p → p.descr_ ≠ none := by
  intro fuel
  induction fuel with
  | zero => intro st s p h; exact parseFinish_descr (by simpa [parseLoop] using h)
  | succ fuel ih =>
    intro st s p h
    unfold parseLoop at h
    split at h
    · exact parseFinish_descr h
    · simp only at h
      split at h
      · exact ih _ _ _ h
      · split at h
        · split at h
          · cases h
          · exact ih _ _ _ h
        · split at h
          · split at h
            · exact ih _ _ _ h
            · exact ih _ _ _ h
            · exact parseFinish_descr h
          · exact parseFinish_descr h

/-- A node returned by parseLine has a label. -/
theorem parseLine_descr {c : Bool} {line : List Char} {p : PNode}
    (h : parseLine c line = ParseResult.node p) : p.descr_ ≠ none := by
  unfold parseLine at h
  split at h
  · cases h
  · exact parseLoop_descr c _ _ _ _ h

theorem rd_append_left (st : State) (v : node) (a : Nat) (h : a < st.cells.length) :
    ({ st with cells := st.cells ++ [v] } : State).rd a = st.rd a := by
  unfold State.rd
  simp only [List.getD_eq_getElem?_getD]
  rw [List.getElem?_append_left h]

theorem rd_append_new (st : State) (v : node) :
    ({ st with cells := st.cells ++ [v] } : State).rd st.cells.length = v := by
  unfold State.rd
  simp

theorem set_length_append {α : Type} (l : List α) (a v : α) (t : List α) :
    (l ++ a :: t).set l.length v = l ++ v :: t := by
  induction l with
  | nil => rfl
  | cons x xs ih => simp [ih]

theorem getD_length_append {α : Type} (l : List α) (a d : α) (t : List α) :
    (l ++ a :: t).getD l.length d = a := by
  induction l with
  | nil => rfl
  | cons x xs ih => simpa using ih

theorem allocParsed_eq (st : State) (p : PNode) :
    allocParsed st p =
      (st.cells.length, { st with cells := st.cells ++ parsedCells st.cells.length p }) := by
  obtain ⟨i, l, r, d⟩ := p
  cases l <;> cases r <;>
    simp only [allocParsed, State.alloc, parsedCells, State.wr, State.rd, set_length_append,
      getD_length_append, node.zero, List.append_assoc, List.singleton_append, List.length_append,
      List.length_singleton, List.length_cons, List.length_nil, List.cons_append,
      List.nil_append, Nat.zero_add, Nat.reduceAdd]

theorem rd_append (st : State) (extra : List node) (a : Nat) :
    ({ st with cells := st.cells ++ extra } : State).rd a =
      if a < st.cells.length then st.rd a else extra.getD (a - st.cells.length) node.zero := by
  unfold State.rd
  split
  · rename_i h; exact List.getD_append _ _ _ _ h
  · rename_i h; exact List.getD_append_right _ _ _ _ (by omega)

theorem allocParsed_rd (st : State) (p : PNode) :
    ((allocParsed st p).2.rd (allocParsed st p).1).id_ = p.id_ ∧
      ((allocParsed st p).2.rd (allocParsed st p).1).descr_ = p.descr_ := by
  rw [allocParsed_eq]
  simp only [rd_append, Nat.lt_irrefl, if_false, Nat.sub_self]
  obtain ⟨i, l, r, d⟩ := p
  cases l <;> cases r <;> simp [parsedCells]

/-! ## Unfolding the loop of decodeFile -/

theorem parseLine_nil (c : Bool) : parseLine c [] = ParseResult.nullDeref := by
  cases c <;> rfl

theorem readLines_nil (st : State) : readLines st [] = Except.ok (false, st) := rfl

theorem readLines_cons_empty (st : State) (line : List Char) (rest : List (List Char))
    (h : line.length = 0) : readLines st (line :: rest) = readLines st rest := by
  rw [readLines]; simp only [h, if_true]

theorem readLines_cons_null (st : State) (line : List Char) (rest : List (List Char))
    (h : ¬ line.length = 0) (hp : parseLine st.complete_tree_ line = ParseResult.null) :
    readLines st (line :: rest) = readLines st rest := by
  rw [readLines]; simp only [h, if_false, hp]; rfl

theorem readLines_cons_crash (st : State) (line : List Char) (rest : List (List Char))
    (h : ¬ line.length = 0) (hp : parseLine st.complete_tree_ line = ParseResult.nullDeref) :
    readLines st (line :: rest) = Except.error Fault.nullDeref := by
  rw [readLines]; simp only [h, if_false, hp]

/-- The loop on a line that parses to a node. -/
theorem readLines_cons_node (st : State) (line : List Char) (rest : List (List Char))
    (p : PNode) (hp : parseLine st.complete_tree_ line = ParseResult.node p) :
    readLines st (line :: rest) =
      match processNode ((allocParsed st p).2.cells.length + 1) (allocParsed st p).2
          (allocParsed st p).1 Ptr.null none with
      | Except.error f => Except.error f
      | Except.ok res =>
        if res.1 < 0 then Except.ok (true, freeN res.2 (some (allocParsed st p).1))
        else readLines res.2 rest := by
  have hne : ¬ line.length = 0 := by
    intro h0
    have : line = [] := List.length_eq_zero.1 h0
    rw [this, parseLine_nil] at hp
    cases hp
  rw [readLines]
  simp only [hne, if_false, hp]

theorem readLines_append (xs ys : List (List Char)) (st st' : State)
    (h : readLines st (xs ++ ys) = Except.ok (false, st')) :
    ∃ st1, readLines st xs = Except.ok (false, st1) ∧
      readLines st1 ys = Except.ok (false, st') := by
  induction xs generalizing st with
  | nil => exact ⟨st, rfl, h⟩
  | cons line rest ih =>
    rw [List.cons_append] at h
    by_cases hlen : line.length = 0
    · rw [readLines_cons_empty _ _ _ hlen] at h ⊢
      exact ih st h
    · cases hp : parseLine st.complete_tree_ line with
      | nullDeref => rw [readLines_cons_crash _ _ _ hlen hp] at h; cases h
      | null =>
        rw [readLines_cons_null _ _ _ hlen hp] at h ⊢
        exact ih st h
      | node p =>
        rw [readLines_cons_node _ _ _ p hp] at h ⊢
        cases hres : processNode ((allocParsed st p).2.cells.length + 1) (allocParsed st p).2
            (allocParsed st p).1 Ptr.null none with
        | error f => simp [hres] at h
        | ok res =>
          simp only [hres] at h ⊢
          split at h
          · simp at h
          · rename_i hlt
            simp only [hlt, if_false]
            exact ih _ h

/-- The mode flags at the end of the loop are those of the constructor. -/
theorem readLines_flags (c d : Bool) (lines : List (List Char)) (st st' : State)
    (hpre : st.complete_tree_ = c ∧ st.duplicate_ids_ = d)
    (h : readLines st lines = Except.ok (false, st')) :
    st'.complete_tree_ = c ∧ st'.duplicate_ids_ = d := by
  refine readLines_inv (fun st => st.complete_tree_ = c ∧ st.duplicate_ids_ = d) ?_
    lines st st' hpre h
  intro st line p r hi _ _ hres _
  obtain ⟨-, -, -, a4, a5, -⟩ := allocParsed_fields st p
  exact processNode_flags c d _ _ _ _ _ _ ⟨a5 ▸ hi.1, a4 ▸ hi.2⟩ hres

/-! ## One record as three node-local steps -/

/-- `processNode` on a node without children is its node-local step. -/
theorem processNode_leaf (fuel : Nat) (st : State) (ph : Nat) (holder : Ptr)
    (parent : Option Nat) (hd : (st.rd ph).descr_ = none) (hl : (st.rd ph).left_ = none)
    (hr : (st.rd ph).right_ = none) (hh1 : holder ≠ Ptr.left ph) (hh2 : holder ≠ Ptr.right ph) :
    processNode (fuel + 1) st ph holder parent =
      match stepNode st ph holder parent with
      | Except.error f => Except.error f
      | Except.ok res => if res.1 = -EINVAL then Except.ok res else Except.ok (0, res.2) := by
  rw [processNode_succ]
  cases hs : stepNode st ph holder parent with
  | error f => rfl
  | ok res =>
    simp only
    split
    · rfl
    · obtain ⟨-, -, -, hfr⟩ := stepNode_store st ph holder parent res hs
      have hsame : res.2.rd ph = st.rd ph := by
        rcases hfr ph with h | ⟨-, ⟨h, -⟩ | ⟨h, -⟩⟩ | ⟨h, -⟩
        · exact h
        · exact absurd h hh1
        · exact absurd h hh2
        · exact absurd hd h
      unfold processChildren
      simp only [hsame, hl, hr]


/-- The step of a described node writes only below the bound of the table. -/
theorem stepNode_frame_top {st : State} {n : Nat} {holder : Ptr} {parent : Option Nat}
    {r : Int × State} {k : Nat} (h : stepNode st n holder parent = Except.ok r)
    (hd : (st.rd n).descr_ ≠ none) (hb : Bounded st k) (a : Nat) (ha : k ≤ a) :
    r.2.rd a = st.rd a := by
  obtain ⟨-, -, -, hfr⟩ := stepNode_store st n holder parent r h
  rcases hfr a with h1 | ⟨h1, -⟩ | ⟨-, e, he, -, ⟨h2, -⟩ | ⟨h2, -⟩⟩
  · exact h1
  · exact absurd h1 hd
  · have := hb e he
    rw [h2] at this
    simp only [Ptr.below] at this
    omega
  · have := hb e he
    rw [h2] at this
    simp only [Ptr.below] at this
    omega

/-- The step of a placeholder writes only the field its holder points to. -/
theorem stepNode_frame_child {st : State} {n : Nat} {holder : Ptr} {parent : Option Nat}
    {r : Int × State} (h : stepNode st n holder parent = Except.ok r)
    (hd : (st.rd n).descr_ = none) (a : Nat) :
    (holder ≠ Ptr.left a → holder ≠ Ptr.right a → r.2.rd a = st.rd a) ∧
      (holder ≠ Ptr.left a → (r.2.rd a).left_ = (st.rd a).left_) ∧
      (holder ≠ Ptr.right a → (r.2.rd a).right_ = (st.rd a).right_) := by
  obtain ⟨-, -, -, hfr⟩ := stepNode_store st n holder parent r h
  rcases hfr a with h1 | ⟨-, ⟨h1, v, h2⟩ | ⟨h1, v, h2⟩⟩ | ⟨h1, -⟩
  · exact ⟨fun _ _ => h1, fun _ => by rw [h1], fun _ => by rw [h1]⟩
  · exact ⟨fun h0 _ => absurd h1 h0, fun h0 => absurd h1 h0, fun _ => by rw [h2]⟩
  · exact ⟨fun _ h0 => absurd h1 h0, fun _ => by rw [h2], fun h0 => absurd h1 h0⟩
  · exact absurd hd h1

theorem allocParsed_cells (st : State) (p : PNode) :
    (allocParsed st p).2 = { st with cells := st.cells ++ parsedCells st.cells.length p } ∧
      (allocParsed st p).1 = st.cells.length := by
  rw [allocParsed_eq]; exact ⟨rfl, rfl⟩

theorem bounded_alloc {st : State} {p : PNode} (h : Bounded st st.cells.length) :
    Bounded (allocParsed st p).2 st.cells.length := by
  rw [(allocParsed_cells st p).1]; exact h

theorem leaf_result_collapse (x : Except Fault (Int × State)) :
    (match (match x with
        | Except.error f => Except.error f
        | Except.ok res => if res.1 = -EINVAL then Except.ok res else Except.ok (0, res.2)) with
      | Except.error f => (Except.error f : Except Fault (Int × State))
      | Except.ok res => if res.1 = -EINVAL then Except.ok res else Except.ok (0, res.2)) =
      (match x with
        | Except.error f => Except.error f
        | Except.ok res => if res.1 = -EINVAL then Except.ok res else Except.ok (0, res.2)) := by
  cases x with
  | error f => rfl
  | ok res =>
    by_cases he : res.1 = -EINVAL
    · simp only [he, if_true]
    · simp only [he, if_false, show ¬ ((0 : Int) = -EINVAL) by decide]

/-- `processNode` on the node of a freshly parsed line is `ingest`: the node,
then its left child, then its right child, and nothing below them. -/
theorem processNode_record (fuel : Nat) (st : State) (p : PNode)
    (hb : Bounded st st.cells.length) (hd : p.descr_ ≠ none) :
    processNode (fuel + 2) (allocParsed st p).2 st.cells.length Ptr.null none =
      ingest (allocParsed st p).2 st.cells.length p := by
  have hb1 := bounded_alloc (p := p) hb
  rw [(allocParsed_cells st p).1] at hb1 ⊢
  generalize hst1 : ({ st with cells := st.cells ++ parsedCells st.cells.length p } : State) = st1
    at hb1 ⊢
  have hrd : ∀ a, st1.rd a =
      if a < st.cells.length then st.rd a
      else (parsedCells st.cells.length p).getD (a - st.cells.length) node.zero := by
    intro a; rw [← hst1]; exact rd_append st _ a
  have hrd0 := hrd st.cells.length
  have hrd1 := hrd (st.cells.length + 1)
  have hrd2 := hrd (st.cells.length + 2)
  simp only [Nat.lt_irrefl, if_false, Nat.sub_self, Nat.add_sub_cancel_left,
    show ¬ st.cells.length + 1 < st.cells.length by omega,
    show ¬ st.cells.length + 2 < st.cells.length by omega] at hrd0 hrd1 hrd2
  clear hrd hst1
  rw [processNode_succ]
  unfold ingest
  cases hs : stepNode st1 st.cells.length Ptr.null none with
  | error f => rfl
  | ok res =>
    simp only
    have htopd : (st1.rd st.cells.length).descr_ ≠ none := by
      rw [hrd0]
      obtain ⟨i, l, r, d⟩ := p
      cases l <;> cases r <;> simpa [parsedCells] using hd
    have f0 := stepNode_frame_top hs htopd hb1 st.cells.length (le_refl _)
    have f1 := stepNode_frame_top hs htopd hb1 (st.cells.length + 1) (by omega)
    have f2 := stepNode_frame_top hs htopd hb1 (st.cells.length + 2) (by omega)
    split
    · rfl
    · unfold processChildren ingestRight
      obtain ⟨i, l, r, d⟩ := p
      cases l with
      | none =>
        cases r with
        | none =>
          simp only [parsedCells, List.getD_cons_zero] at hrd0
          simp only [f0, hrd0]
        | some r =>
          simp only [parsedCells, List.getD_cons_zero, List.getD_cons_succ] at hrd0 hrd1
          simp only [f0, hrd0]
          rw [processNode_leaf _ _ _ _ _ (by rw [f1, hrd1]; rfl) (by rw [f1, hrd1]; rfl)
            (by rw [f1, hrd1]; rfl) (by simp) (by simp)]
          exact leaf_result_collapse _
      | some l =>
        have hleaf1 : (res.2.rd (st.cells.length + 1)).descr_ = none ∧
            (res.2.rd (st.cells.length + 1)).left_ = none ∧
            (res.2.rd (st.cells.length + 1)).right_ = none := by
          rw [f1, hrd1]
          cases r <;> exact ⟨rfl, rfl, rfl⟩
        have hleft : (res.2.rd st.cells.length).left_ = some (st.cells.length + 1) := by
          rw [f0, hrd0]; cases r <;> rfl
        simp only [hleft]
        rw [processNode_leaf _ _ _ _ _ hleaf1.1 hleaf1.2.1 hleaf1.2.2 (by simp) (by simp)]
        cases hs1 : stepNode res.2 (st.cells.length + 1) (Ptr.left st.cells.length)
            (some st.cells.length) with
        | error f => rfl
        | ok res1 =>
          have g0 := stepNode_frame_child hs1 hleaf1.1 st.cells.length
          have g2 := stepNode_frame_child hs1 hleaf1.1 (st.cells.length + 2)
          by_cases he : res1.1 = -EINVAL
          · simp only [he, if_true]
          · simp only [he, if_false, show ¬ ((0 : Int) = -EINVAL) by decide]
            cases r with
            | none =>
              have : (res1.2.rd st.cells.length).right_ = none := by
                rw [g0.2.2 (by simp), f0, hrd0]; rfl
              simp only [this]
            | some r =>
              have hright : (res1.2.rd st.cells.length).right_ = some (st.cells.length + 2) := by
                rw [g0.2.2 (by simp), f0, hrd0]; rfl
              have hleaf2 : res1.2.rd (st.cells.length + 2) = { node.zero with id_ := r } := by
                rw [g2.1 (by simp) (by simp), f2, hrd2]; rfl
              simp only [hright]
              rw [processNode_leaf _ _ _ _ _ (by rw [hleaf2]; rfl) (by rw [hleaf2]; rfl)
                (by rw [hleaf2]; rfl) (by simp) (by simp)]
              exact leaf_result_collapse _

/-! ## The counter of pending references -/

theorem pendingCount_modifyRef (f : hash_ref → hash_ref) (j : Nat) (m : List (Int × hash_ref))
    (hj : j < m.length) (hp : isPending (getRef m j).status_ = true)
    (hf : isPending (f (getRef m j)).status_ = false) :
    pendingCount (modifyRef f j m) + 1 = pendingCount m := by
  induction m generalizing j with
  | nil => simp at hj
  | cons e rest ih =>
    cases j with
    | zero =>
      simp only [getRef, List.getD_cons_zero] at hp hf
      simp [pendingCount, modifyRef, List.countP_cons, hp, hf]
    | succ j =>
      have := ih j (by simpa using hj) (by simpa [getRef] using hp) (by simpa [getRef] using hf)
      simp only [pendingCount, modifyRef, List.countP_cons] at this ⊢
      omega

theorem stepNode_wait (st : State) (n : Nat) (holder : Ptr) (parent : Option Nat)
    (r : Int × State) (hpre : WaitInv st) (h : stepNode st n holder parent = Except.ok r) :
    WaitInv r.2 := by
  obtain ⟨-, -, -, hcase⟩ := stepNode_table st n holder parent r h
  unfold WaitInv at hpre ⊢
  rcases hcase with ⟨-, -, hm, hw⟩ | ⟨-, -, ⟨ptr, hm⟩, hw, -⟩ | ⟨-, -, j, f, hj, hst, hfil, hm, hw⟩
  · rw [hm, hw]; exact hpre
  · rw [hm, hw, hpre]
    simp only [pendingCount, List.countP_append, List.countP_cons, List.countP_nil]
    unfold newStatus
    split
    · simp [isPending]
    · split <;> simp [isPending]
  · rw [hm, hw, hpre]
    have hp : isPending (getRef st.insertMap_ j).status_ = true := by
      rcases hst with ⟨h1, -⟩ | ⟨h1, -⟩ <;> rw [h1] <;> rfl
    have := pendingCount_modifyRef f j st.insertMap_ hj hp (by rw [hfil]; rfl)
    omega

/-- `wait_count_` counts the pending references after every `processNode`
that returns, whatever it returns. -/
theorem processNode_wait :
    ∀ fuel st n holder parent r, WaitInv st →
      processNode fuel st n holder parent = Except.ok r → WaitInv r.2 :=
  processNode_inv (fun st _ => WaitInv st) WaitInv
    (fun st n holder parent r hp hs => stepNode_wait st n holder parent r hp hs)
    (fun _ _ hp => hp)

theorem readLines_wait (lines : List (List Char)) (st st' : State) (hpre : WaitInv st)
    (h : readLines st lines = Except.ok (false, st')) : WaitInv st' := by
  refine readLines_inv WaitInv ?_ lines st st' hpre h
  intro st line p r hi _ _ hres _
  obtain ⟨a1, a2, -⟩ := allocParsed_fields st p
  exact processNode_wait _ _ _ _ _ _ (by unfold WaitInv; rw [a1, a2]; exact hi) hres


/-! ## An id that is referenced but never described -/

theorem findList_append (m : List (Int × hash_ref)) (e : Int × hash_ref) (id : Int) :
    findList (m ++ [e]) id = (findList m id || decide (e.1 = id)) := by
  simp [findList, List.any_append]

/-- One node-local step keeps `x` undescribed when the node is not a described
node of id `x`; if the node is a placeholder of id `x` and no conflict is
reported, `x` has a reference afterwards. -/
theorem stepNode_undescribed (x : Int) (st : State) (n : Nat) (holder : Ptr)
    (parent : Option Nat) (r : Int × State) (hpre : Undescribed x st)
    (hcall : st.insertMap_ ≠ [] ∨ (st.rd n).id_ ≠ x)
    (h : stepNode st n holder parent = Except.ok r) :
    Undescribed x r.2 ∧ r.2.insertMap_ ≠ [] ∧
      (findList st.insertMap_ x = true → findList r.2.insertMap_ x = true) ∧
      ((st.rd n).id_ = x → r.1 ≠ -EINVAL → findList r.2.insertMap_ x = true) := by
  obtain ⟨-, -, -, hcase⟩ := stepNode_table st n holder parent r h
  obtain ⟨-, hid, -, -⟩ := stepNode_store st n holder parent r h
  have hheap : ∀ a, (r.2.rd a).id_ = x → (r.2.rd a).descr_ = none := by
    intro a ha
    rw [(hid a).2]
    exact hpre.1 a (by rw [← (hid a).1]; exact ha)
  rcases hcase with ⟨he, hf, hm, -⟩ | ⟨-, -, ⟨ptr, hm⟩, -, -⟩ | ⟨-, hf, j, f, hj, hst, hfil, hm, -⟩
  · refine ⟨⟨hheap, by rw [hm]; exact hpre.2⟩, by rw [hm]; exact findList_ne_nil hf,
      by rw [hm]; exact id, fun _ hne => absurd he hne⟩
  · refine ⟨⟨hheap, ?_⟩, by rw [hm]; simp, ?_, ?_⟩
    · rw [hm]
      intro e he hex
      rcases List.mem_append.1 he with he | he
      · exact hpre.2 e he hex
      · simp only [List.mem_singleton] at he
        subst he
        simp only at hex
        have hne : st.insertMap_ ≠ [] := by
          rcases hcall with h1 | h1
          · exact h1
          · exact absurd hex h1
        have hemp : st.insertMap_.isEmpty = false := by
          cases hmm : st.insertMap_ with
          | nil => exact absurd hmm hne
          | cons _ _ => rfl
        simp only [newStatus, hemp, Bool.false_eq_true, if_false, hpre.1 n hex, if_true]
    · intro hfx
      rw [hm, findList_append, hfx]; rfl
    · intro hnx _
      rw [hm, findList_append, hnx]; simp
  · have hkey : getKey st.insertMap_ j ≠ x := by
      intro hk
      have h1 := hpre.2 _ (getRef_mem hj) hk
      simp only at h1
      rcases hst with ⟨h2, -⟩ | ⟨-, h3, h4⟩
      · rw [h1] at h2; cases h2
      · exact h4 (hpre.1 n (by rw [← h3]; exact hk))
    refine ⟨⟨hheap, ?_⟩, ?_, ?_, ?_⟩
    · rw [hm]
      intro e he hex
      obtain ⟨k, hk1, hk2⟩ := mem_iff_index he
      rw [modifyRef_length] at hk1
      rw [getKey_modifyRef, modifyRef_getRef] at hk2
      have hkj : ¬ (k = j ∧ j < st.insertMap_.length) := by
        rintro ⟨rfl, -⟩
        rw [hk2] at hex
        exact hkey hex
      rw [if_neg hkj] at hk2
      rw [hk2]
      exact hpre.2 _ (getRef_mem hk1) (by rw [hk2] at hex; exact hex)
    · rw [hm]
      intro h0
      have := congrArg List.length h0
      rw [modifyRef_length] at this
      simp only [List.length_nil] at this
      omega
    · intro hfx
      rw [hm, findList_modifyRef]; exact hfx
    · intro hnx _
      rw [hm, findList_modifyRef, ← hnx]; exact hf

theorem bounded_mono {st : State} {k k' : Nat} (h : Bounded st k) (hk : k ≤ k') :
    Bounded st k' := by
  intro e he
  have := h e he
  cases hp : e.2.nodePtr_ <;> rw [hp] at this <;> simp only [Ptr.below] at this ⊢ <;> omega

theorem stepNode_bounded {st : State} {n : Nat} {holder : Ptr} {parent : Option Nat}
    {r : Int × State} {k : Nat} (h : stepNode st n holder parent = Except.ok r)
    (hb : Bounded st k) (hn : n < k) (hh : holder.below k) : Bounded r.2 k := by
  obtain ⟨-, -, hptr, -⟩ := stepNode_store st n holder parent r h
  intro e he
  rcases hptr e he with h1 | h1 | h1 | ⟨e0, he0, h1⟩
  · rw [h1]; trivial
  · rw [h1]; exact hh
  · rw [h1]; exact hn
  · rw [h1]; exact hb e0 he0


theorem stepNode_refTrack {x : Int} {k : Nat} {s : State} {n : Nat} {holder : Ptr}
    {parent : Option Nat} {res : Int × State}
    (hu : Undescribed x s) (hb : Bounded s k) (hlen : s.cells.length = k)
    (hcall : s.insertMap_ ≠ [] ∨ (s.rd n).id_ ≠ x) (hn : n < k) (hh : holder.below k)
    (h : stepNode s n holder parent = Except.ok res) :
    RefTrack x k res.2 ∧
      (findList s.insertMap_ x = true → findList res.2.insertMap_ x = true) ∧
      ((s.rd n).id_ = x → res.1 ≠ -EINVAL → findList res.2.insertMap_ x = true) ∧
      (∀ a, (res.2.rd a).id_ = (s.rd a).id_) := by
  obtain ⟨h1, h2, h3, h4⟩ := stepNode_undescribed x s n holder parent res hu hcall h
  obtain ⟨hl, hid, -, -⟩ := stepNode_store s n holder parent res h
  exact ⟨⟨h1, h2, stepNode_bounded h hb hn hh, by rw [hl, hlen]⟩, h3, h4, fun a => (hid a).1⟩

theorem parsedCells_length_pos (base : Nat) (p : PNode) : 0 < (parsedCells base p).length := by
  obtain ⟨i, l, r, d⟩ := p
  cases l <;> cases r <;> simp [parsedCells]

theorem parsedCells_ids (base : Nat) (p : PNode) (x : Int) (hx : p.id_ ≠ x) (k : Nat) :
    ((parsedCells base p).getD k node.zero).id_ = x →
      ((parsedCells base p).getD k node.zero).descr_ = none := by
  obtain ⟨i, l, r, d⟩ := p
  simp only at hx
  cases l <;> cases r <;> simp only [parsedCells]
  all_goals
    rcases k with _ | _ | _ | k <;>
      simp [node.zero, hx]

theorem parsedCells_left (base : Nat) (p : PNode) (l : Int) (h : p.left_ = some l) :
    ((parsedCells base p).getD 1 node.zero).id_ = l ∧ 1 < (parsedCells base p).length := by
  obtain ⟨i, l0, r, d⟩ := p
  simp only at h
  subst h
  cases r <;> simp [parsedCells]

theorem parsedCells_right (base : Nat) (p : PNode) (r : Int) (h : p.right_ = some r) :
    (p.left_ = none → ((parsedCells base p).getD 1 node.zero).id_ = r ∧
        1 < (parsedCells base p).length) ∧
      (p.left_ ≠ none → ((parsedCells base p).getD 2 node.zero).id_ = r ∧
        2 < (parsedCells base p).length) := by
  obtain ⟨i, l, r0, d⟩ := p
  simp only at h
  subst h
  cases l <;> simp [parsedCells]

/-- One record whose node is not a described node of `x` keeps `x`
undescribed; if it names `x` as a child and is ingested, `x` has a reference
afterwards. -/
theorem record_undescribed (x : Int) (st : State) (p : PNode) (r : Int × State)
    (hu : Undescribed x st) (hb : Bounded st st.cells.length)
    (hpx : p.id_ ≠ x) (hd : p.descr_ ≠ none)
    (h : processNode ((allocParsed st p).2.cells.length + 1) (allocParsed st p).2
      (allocParsed st p).1 Ptr.null none = Except.ok r) :
    Undescribed x r.2 ∧ Bounded r.2 r.2.cells.length ∧
      (findList st.insertMap_ x = true → findList r.2.insertMap_ x = true) ∧
      ((p.left_ = some x ∨ p.right_ = some x) → ¬ r.1 < 0 →
        findList r.2.insertMap_ x = true) := by
  have hlenpos := parsedCells_length_pos st.cells.length p
  have hcells := (allocParsed_cells st p).1
  have hlen1 : (allocParsed st p).2.cells.length =
      st.cells.length + (parsedCells st.cells.length p).length := by
    rw [hcells]; simp
  obtain ⟨fuel, hfuel⟩ : ∃ fuel, (allocParsed st p).2.cells.length + 1 = fuel + 2 :=
    ⟨(allocParsed st p).2.cells.length - 1, by omega⟩
  rw [hfuel, (allocParsed_cells st p).2, processNode_record fuel st p hb hd] at h
  have hrd : ∀ a, (allocParsed st p).2.rd a =
      if a < st.cells.length then st.rd a
      else (parsedCells st.cells.length p).getD (a - st.cells.length) node.zero := by
    intro a; rw [hcells]; exact rd_append st _ a
  have hmap : (allocParsed st p).2.insertMap_ = st.insertMap_ := by rw [hcells]
  generalize (allocParsed st p).2 = st1 at h hrd hmap hlen1
  set k := st.cells.length + (parsedCells st.cells.length p).length with hk
  have hu1 : Undescribed x st1 := by
    refine ⟨fun a ha => ?_, by rw [hmap]; exact hu.2⟩
    rw [hrd] at ha ⊢
    split at ha
    · rename_i hlt; rw [if_pos hlt]; exact hu.1 a ha
    · rename_i hlt; rw [if_neg hlt]; exact parsedCells_ids _ p x hpx _ ha
  have hb1 : Bounded st1 k := by
    intro e he
    rw [hmap] at he
    exact bounded_mono hb (by omega) e he
  have hid0 : (st1.rd st.cells.length).id_ ≠ x := by
    rw [hrd, if_neg (Nat.lt_irrefl _), Nat.sub_self]
    obtain ⟨i, l, r0, d⟩ := p
    cases l <;> cases r0 <;> simpa [parsedCells] using hpx
  -- the right child call
  have key_right : ∀ (s : State) (ra : Nat) (res : Int × State), RefTrack x k s →
      (p.right_ ≠ none → ra < k ∧ ∀ rr, p.right_ = some rr → (s.rd ra).id_ = rr) →
      ingestRight s st.cells.length ra p = Except.ok res →
      Undescribed x res.2 ∧ Bounded res.2 res.2.cells.length ∧
        (findList s.insertMap_ x = true → findList res.2.insertMap_ x = true) ∧
        (p.right_ = some x → ¬ res.1 < 0 → findList res.2.insertMap_ x = true) := by
    intro s ra res ⟨t1, t2, t3, t4⟩ hra hi
    unfold ingestRight at hi
    split at hi
    · rename_i hnone
      cases hi
      exact ⟨t1, by rw [t4]; exact t3, id, fun h0 => by rw [hnone] at h0; cases h0⟩
    · rename_i rr hsome
      obtain ⟨hra1, hra2⟩ := hra (by rw [hsome]; simp)
      cases hs : stepNode s ra (Ptr.right st.cells.length) (some st.cells.length) with
      | error f => simp [hs] at hi
      | ok res2 =>
        obtain ⟨⟨u1, u2, u3, u4⟩, u5, u6, -⟩ :=
          stepNode_refTrack t1 t3 t4 (Or.inl t2) hra1
            (by simp only [Ptr.below]; omega) hs
        simp only [hs] at hi
        have hidx : p.right_ = some x → (s.rd ra).id_ = x := by
          intro hpr
          rw [hsome] at hpr
          rw [hra2 rr hsome]
          exact Option.some.inj hpr
        by_cases he : res2.1 = -EINVAL
        · rw [if_pos he] at hi
          cases hi
          refine ⟨u1, by rw [u4]; exact u3, u5, fun _ hlt => ?_⟩
          exact absurd (by rw [he]; decide) hlt
        · rw [if_neg he] at hi
          cases hi
          exact ⟨u1, by rw [u4]; exact u3, u5, fun hpr _ => u6 (hidx hpr) he⟩
  unfold ingest at h
  cases hs : stepNode st1 st.cells.length Ptr.null none with
  | error f => simp [hs] at h
  | ok res =>
    obtain ⟨⟨v1, v2, v3, v4⟩, v5, -, v7⟩ :=
      stepNode_refTrack hu1 hb1 hlen1 (Or.inr hid0) (by omega) (by trivial) hs
    rw [hmap] at v5
    simp only [hs] at h
    split at h
    · rename_i he
      cases h
      refine ⟨v1, by rw [v4]; exact v3, v5, fun _ hlt => ?_⟩
      exact absurd (by rw [he]; decide) hlt
    · split at h
      · rename_i hnone
        obtain ⟨w1, w2, w3, w4⟩ := key_right res.2 (st.cells.length + 1) r ⟨v1, v2, v3, v4⟩
          (fun hr => by
            obtain ⟨rr, hrr⟩ := Option.ne_none_iff_exists'.1 hr
            have := (parsedCells_right st.cells.length p rr hrr).1 hnone
            refine ⟨by omega, fun rr2 hrr2 => ?_⟩
            rw [v7, hrd, if_neg (by omega), Nat.add_sub_cancel_left]
            rw [hrr] at hrr2
            cases hrr2
            exact this.1) h
        refine ⟨w1, w2, fun hf => w3 (v5 hf), fun hor hlt => ?_⟩
        rcases hor with hl | hr
        · rw [hnone] at hl; cases hl
        · exact w4 hr hlt
      · rename_i l hsome
        have hpl := parsedCells_left st.cells.length p l hsome
        cases hs1 : stepNode res.2 (st.cells.length + 1) (Ptr.left st.cells.length)
            (some st.cells.length) with
        | error f => simp [hs1] at h
        | ok res1 =>
          obtain ⟨⟨x1, x2, x3, x4⟩, x5, x6, x7⟩ :=
            stepNode_refTrack v1 v3 v4 (Or.inl v2) (by omega)
              (by simp only [Ptr.below]; omega) hs1
          have hidl : (res.2.rd (st.cells.length + 1)).id_ = l := by
            rw [v7, hrd, if_neg (by omega), Nat.add_sub_cancel_left]
            exact hpl.1
          simp only [hs1] at h
          split at h
          · rename_i he
            cases h
            refine ⟨x1, by rw [x4]; exact x3, fun hf => x5 (v5 hf), fun _ hlt => ?_⟩
            exact absurd (by rw [he]; decide) hlt
          · rename_i he
            obtain ⟨w1, w2, w3, w4⟩ := key_right res1.2 (st.cells.length + 2) r
              ⟨x1, x2, x3, x4⟩
              (fun hr => by
                obtain ⟨rr, hrr⟩ := Option.ne_none_iff_exists'.1 hr
                have := (parsedCells_right st.cells.length p rr hrr).2 (by rw [hsome]; simp)
                refine ⟨by omega, fun rr2 hrr2 => ?_⟩
                rw [x7, v7, hrd, if_neg (by omega), Nat.add_sub_cancel_left]
                rw [hrr] at hrr2
                cases hrr2
                exact this.1) h
            refine ⟨w1, w2, fun hf => w3 (x5 (v5 hf)), fun hor hlt => ?_⟩
            rcases hor with hl | hr
            · apply w3
              apply x6 _ he
              rw [hidl]
              rw [hsome] at hl
              exact Option.some.inj hl
            · exact w4 hr hlt


theorem pendingCount_pos {m : List (Int × hash_ref)} {e : Int × hash_ref} (he : e ∈ m)
    (hp : isPending e.2.status_ = true) : 0 < pendingCount m := by
  unfold pendingCount
  exact List.countP_pos_iff.2 ⟨e, he, hp⟩

/-- The loop over lines none of which describes `x`: `x` stays without
described node, and it has a reference at the end if it had one before or if
an ingested line names it as a child. -/
theorem readLines_undescribed (c : Bool) (x : Int) (lines : List (List Char)) (st st' : State)
    (hu : Undescribed x st) (hb : Bounded st st.cells.length) (hc : st.complete_tree_ = c)
    (hmiss : ∀ line ∈ lines, ∀ p, parseLine c line = ParseResult.node p → p.id_ ≠ x)
    (h : readLines st lines = Except.ok (false, st')) :
    Undescribed x st' ∧
      ((findList st.insertMap_ x = true ∨
          ∃ line ∈ lines, ∃ p, parseLine c line = ParseResult.node p ∧
            (p.left_ = some x ∨ p.right_ = some x)) →
        findList st'.insertMap_ x = true) := by
  induction lines generalizing st with
  | nil =>
    simp only [readLines, Except.ok.injEq, Prod.mk.injEq, true_and] at h
    subst h
    refine ⟨hu, fun hor => ?_⟩
    rcases hor with h1 | ⟨l, hl, -⟩
    · exact h1
    · simp at hl
  | cons line rest ih =>
    have hmiss' : ∀ l ∈ rest, ∀ p, parseLine c l = ParseResult.node p → p.id_ ≠ x :=
      fun l hl => hmiss l (List.mem_cons_of_mem _ hl)
    have skip : readLines st rest = Except.ok (false, st') →
        (∀ p, parseLine c line ≠ ParseResult.node p) →
        Undescribed x st' ∧
          ((findList st.insertMap_ x = true ∨
              ∃ l ∈ line :: rest, ∃ p, parseLine c l = ParseResult.node p ∧
                (p.left_ = some x ∨ p.right_ = some x)) →
            findList st'.insertMap_ x = true) := by
      intro h' hno
      obtain ⟨i1, i2⟩ := ih st hu hb hc hmiss' h'
      refine ⟨i1, fun hor => i2 ?_⟩
      rcases hor with h1 | ⟨l, hl, p, hp, hpx⟩
      · exact Or.inl h1
      · rcases List.mem_cons.1 hl with rfl | hl
        · exact absurd hp (hno p)
        · exact Or.inr ⟨l, hl, p, hp, hpx⟩
    by_cases hlen : line.length = 0
    · rw [readLines_cons_empty _ _ _ hlen] at h
      apply skip h
      intro p hp
      rw [List.length_eq_zero.1 hlen, parseLine_nil] at hp
      cases hp
    · cases hp : parseLine c line with
      | nullDeref =>
        rw [readLines_cons_crash _ _ _ hlen (by rw [hc]; exact hp)] at h; cases h
      | null =>
        rw [readLines_cons_null _ _ _ hlen (by rw [hc]; exact hp)] at h
        exact skip h (fun p hp2 => by rw [hp] at hp2; cases hp2)
      | node p =>
        rw [readLines_cons_node _ _ _ p (by rw [hc]; exact hp)] at h
        cases hres : processNode ((allocParsed st p).2.cells.length + 1) (allocParsed st p).2
            (allocParsed st p).1 Ptr.null none with
        | error f => simp [hres] at h
        | ok res =>
          simp only [hres] at h
          split at h
          · simp at h
          · rename_i hlt
            obtain ⟨r1, r2, r3, r4⟩ := record_undescribed x st p res hu hb
              (hmiss line (List.mem_cons_self _ _) p hp) (parseLine_descr hp) hres
            obtain ⟨-, -, -, a4, a5, -⟩ := allocParsed_fields st p
            have f2 := processNode_flags c st.duplicate_ids_ _ _ _ _ _ _
              ⟨a5 ▸ hc, a4⟩ hres
            obtain ⟨i1, i2⟩ := ih res.2 r1 r2 f2.1 hmiss' h
            refine ⟨i1, fun hor => i2 ?_⟩
            rcases hor with h1 | ⟨l, hl, q, hq, hqx⟩
            · exact Or.inl (r3 h1)
            · rcases List.mem_cons.1 hl with rfl | hl
              · rw [hp] at hq
                cases hq
                exact Or.inl (r4 hqx hlt)
              · exact Or.inr ⟨l, hl, q, hq, hqx⟩

theorem init_undescribed (c d : Bool) (x : Int) : Undescribed x (State.init c d) := by
  refine ⟨fun a _ => ?_, fun e he => ?_⟩
  · simp [State.rd, State.init, node.zero]
  · simp [State.init] at he

/-! ## The steps of one record -/

theorem checkHashMap_neg_one {st : State} {n : Nat} {holder : Ptr} {parent : Option Nat}
    {res : Int × State} (hc : checkHashMap st n holder parent = Except.ok res)
    (hlt : res.1 < 0) (hne : res.1 ≠ -EINVAL) : res.2 = st := by
  revert hlt hne
  refine checkHashMap_cases (fun res => res.1 < 0 → res.1 ≠ -EINVAL → res.2 = st)
    st n holder parent ?_ ?_ ?_ ?_ ?_ ?_ res hc
  · intro _ _ _; rfl
  · intro _ _ _; rfl
  · intro _ _ _; rfl
  · intro i tn st1 _ _ _ _ _ _ hlt _; simp [markFilled] at hlt
  · intro i tfree st1 _ _ _ _ _ hlt _; simp [markFilled] at hlt
  · intro i par cur st2 _ _ _ _ _ _ hlt hne
    by_cases hm : (markParentFilled { st2 with decodedTree_ := some par } par).1 < 0
    · rw [if_pos hm] at hne; exact absurd rfl hne
    · rw [if_neg hm] at hlt; simp [markFilled] at hlt

theorem getRef_cons_succ (e : Int × hash_ref) (rest : List (Int × hash_ref)) (i : Nat) :
    getRef (e :: rest) (i + 1) = getRef rest i := rfl

theorem getKey_cons_succ (e : Int × hash_ref) (rest : List (Int × hash_ref)) (i : Nat) :
    getKey (e :: rest) (i + 1) = getKey rest i := rfl

/-- The steps taken for a record that is ingested without a conflict: the
step of its node, then the step of the placeholder of each child it names,
each child being untouched until its own step. -/
theorem record_trace (st : State) (p : PNode) (r : Int × State)
    (hb : Bounded st st.cells.length) (hd : p.descr_ ≠ none)
    (h : processNode ((allocParsed st p).2.cells.length + 1) (allocParsed st p).2
      (allocParsed st p).1 Ptr.null none = Except.ok r) (hr : ¬ r.1 < 0) :
    ∃ res sL,
      stepNode (allocParsed st p).2 st.cells.length Ptr.null none = Except.ok res ∧
      res.1 ≠ -EINVAL ∧
      ((p.left_ = none ∧ sL = res.2) ∨
        (∃ l res1, p.left_ = some l ∧ res.2.rd (st.cells.length + 1) = { node.zero with id_ := l } ∧
          stepNode res.2 (st.cells.length + 1) (Ptr.left st.cells.length)
            (some st.cells.length) = Except.ok res1 ∧ res1.1 ≠ -EINVAL ∧ sL = res1.2)) ∧
      ((p.right_ = none ∧ r.2 = sL) ∨
        (∃ rr ra res2, p.right_ = some rr ∧
          (st.cells.length < ra ∧ (p.left_ = none → ra = st.cells.length + 1) ∧
            (p.left_ ≠ none → ra = st.cells.length + 2)) ∧
          ra < (allocParsed st p).2.cells.length ∧
          sL.rd ra = { node.zero with id_ := rr } ∧
          stepNode sL ra (Ptr.right st.cells.length) (some st.cells.length) = Except.ok res2 ∧
          res2.1 ≠ -EINVAL ∧ r.2 = res2.2)) := by
  have hlenpos := parsedCells_length_pos st.cells.length p
  have hcells := (allocParsed_cells st p).1
  have hlen1 : (allocParsed st p).2.cells.length =
      st.cells.length + (parsedCells st.cells.length p).length := by
    rw [hcells]; simp
  obtain ⟨fuel, hfuel⟩ : ∃ fuel, (allocParsed st p).2.cells.length + 1 = fuel + 2 :=
    ⟨(allocParsed st p).2.cells.length - 1, by omega⟩
  rw [hfuel, (allocParsed_cells st p).2, processNode_record fuel st p hb hd] at h
  have hb1 := bounded_alloc (p := p) hb
  have hrd : ∀ a, (allocParsed st p).2.rd a =
      if a < st.cells.length then st.rd a
      else (parsedCells st.cells.length p).getD (a - st.cells.length) node.zero := by
    intro a; rw [hcells]; exact rd_append st _ a
  have htopd : ((allocParsed st p).2.rd st.cells.length).descr_ ≠ none := by
    have := (allocParsed_rd st p).2
    rw [(allocParsed_cells st p).2] at this
    rw [this]; exact hd
  generalize (allocParsed st p).2 = st1 at h hrd hlen1 hb1 htopd
  have hneg : ∀ v : Int, v = -EINVAL → v < 0 := by intro v hv; rw [hv]; decide
  -- the right child call
  have key_right : ∀ (s : State) (ra : Nat),
      ((p.left_ = none → ra = st.cells.length + 1) ∧
        (p.left_ ≠ none → ra = st.cells.length + 2)) →
      (∀ rr, p.right_ = some rr → st.cells.length < ra ∧ ra < st1.cells.length ∧
        s.rd ra = { node.zero with id_ := rr }) →
      ingestRight s st.cells.length ra p = Except.ok r →
      ((p.right_ = none ∧ r.2 = s) ∨
        (∃ rr ra res2, p.right_ = some rr ∧
          (st.cells.length < ra ∧ (p.left_ = none → ra = st.cells.length + 1) ∧
            (p.left_ ≠ none → ra = st.cells.length + 2)) ∧ ra < st1.cells.length ∧
          s.rd ra = { node.zero with id_ := rr } ∧
          stepNode s ra (Ptr.right st.cells.length) (some st.cells.length) = Except.ok res2 ∧
          res2.1 ≠ -EINVAL ∧ r.2 = res2.2)) := by
    intro s ra hwhich hra hi
    unfold ingestRight at hi
    split at hi
    · rename_i hnone
      cases hi
      exact Or.inl ⟨hnone, rfl⟩
    · rename_i rr hsome
      obtain ⟨q1, q2, q3⟩ := hra rr hsome
      cases hs : stepNode s ra (Ptr.right st.cells.length) (some st.cells.length) with
      | error f => simp [hs] at hi
      | ok res2 =>
        simp only [hs] at hi
        by_cases he : res2.1 = -EINVAL
        · rw [if_pos he] at hi
          cases hi
          exact absurd (hneg _ he) hr
        · rw [if_neg he] at hi
          cases hi
          exact Or.inr ⟨rr, ra, res2, hsome, ⟨q1, hwhich⟩, q2, q3, hs, he, rfl⟩
  unfold ingest at h
  cases hs : stepNode st1 st.cells.length Ptr.null none with
  | error f => simp [hs] at h
  | ok res =>
    have f1 := stepNode_frame_top hs htopd hb1 (st.cells.length + 1) (by omega)
    have f2 := stepNode_frame_top hs htopd hb1 (st.cells.length + 2) (by omega)
    simp only [hs] at h
    by_cases he : res.1 = -EINVAL
    · rw [if_pos he] at h
      cases h
      exact absurd (hneg _ he) hr
    · rw [if_neg he] at h
      split at h
      · rename_i hnone
        refine ⟨res, res.2, rfl, he, Or.inl ⟨hnone, rfl⟩, ?_⟩
        apply key_right res.2 (st.cells.length + 1)
          ⟨fun _ => rfl, fun h0 => absurd hnone h0⟩ _ h
        intro rr hrr
        have := (parsedCells_right st.cells.length p rr hrr).1 hnone
        refine ⟨by omega, by omega, ?_⟩
        rw [f1, hrd, if_neg (by omega), Nat.add_sub_cancel_left]
        obtain ⟨i, l, r0, d⟩ := p
        simp only at hnone hrr
        subst hnone hrr
        rfl
      · rename_i l hsome
        have hpl := parsedCells_left st.cells.length p l hsome
        have hleaf1 : res.2.rd (st.cells.length + 1) = { node.zero with id_ := l } := by
          rw [f1, hrd, if_neg (by omega), Nat.add_sub_cancel_left]
          obtain ⟨i, l0, r0, d⟩ := p
          simp only at hsome
          subst hsome
          cases r0 <;> rfl
        cases hs1 : stepNode res.2 (st.cells.length + 1) (Ptr.left st.cells.length)
            (some st.cells.length) with
        | error f => simp [hs1] at h
        | ok res1 =>
          simp only [hs1] at h
          by_cases he1 : res1.1 = -EINVAL
          · rw [if_pos he1] at h
            cases h
            exact absurd (hneg _ he1) hr
          · rw [if_neg he1] at h
            refine ⟨res, res1.2, rfl, he, Or.inr ⟨l, res1, hsome, hleaf1, hs1, he1, rfl⟩, ?_⟩
            apply key_right res1.2 (st.cells.length + 2)
              ⟨fun h0 => absurd (hsome ▸ h0 : some l = none) (by simp), fun _ => rfl⟩ _ h
            intro rr hrr
            have := (parsedCells_right st.cells.length p rr hrr).2 (by rw [hsome]; simp)
            refine ⟨by omega, by omega, ?_⟩
            have g2 := stepNode_frame_child hs1 (by rw [hleaf1]; rfl) (st.cells.length + 2)
            rw [g2.1 (by simp) (by simp), f2, hrd, if_neg (by omega), Nat.add_sub_cancel_left]
            obtain ⟨i, l0, r0, d⟩ := p
            simp only at hsome hrr
            subst hsome hrr
            rfl


/-- A node whose id has no reference gets one: the step is the insertion. -/
theorem stepNode_miss {st : State} {n : Nat} {holder : Ptr} {parent : Option Nat}
    (hf : findList st.insertMap_ (st.rd n).id_ = false) :
    stepNode st n holder parent =
      Except.ok (-1, (insertHashMap st n holder
        (if (st.rd n).descr_ = none then Status.NONNODE_WAIT else Status.NODE_WAIT)).2) := by
  have hc : checkHashMap st n holder parent = Except.ok (-1, st) := by
    unfold checkHashMap
    simp [hf]
  unfold stepNode
  rw [hc]
  simp [EINVAL]

/-! ## The reference of the first record -/

/-- A step on a node whose id is not `c` leaves the root and the first
reference alone. -/
theorem stepNode_rootInv (c : Int) (t : Option Nat) (st : State) (n : Nat) (holder : Ptr)
    (parent : Option Nat) (r : Int × State) (hpre : RootInv c t st) (hh : holder ≠ Ptr.root)
    (hid : (st.rd n).id_ ≠ c) (h : stepNode st n holder parent = Except.ok r) :
    RootInv c t r.2 := by
  obtain ⟨hroot, rest, hm, hrest⟩ := hpre
  have hscan : ∀ i, scanRefs (st.rd n).id_ st.insertMap_ 0 = some i →
      ∃ i', i = i' + 1 ∧ i' < rest.length ∧ getRef st.insertMap_ i = getRef rest i' := by
    intro i hi
    obtain ⟨s1, s2, -⟩ := scanRefs_found hi
    cases i with
    | zero =>
      rw [hm] at s2
      simp only [getKey, List.getD_cons_zero] at s2
      exact absurd s2.symm hid
    | succ i' =>
      rw [hm] at s1 ⊢
      exact ⟨i', rfl, by simpa using s1, rfl⟩
  have hmod : ∀ (f : hash_ref → hash_ref) (i' : Nat), (∀ x, (f x).nodePtr_ = x.nodePtr_ ∨
      (f x).nodePtr_ = holder) → i' < rest.length →
      ∃ rest', modifyRef f (i' + 1) st.insertMap_ =
          (c, { nodePtr_ := Ptr.root, status_ := Status.FILLED }) :: rest' ∧
        ∀ e ∈ rest', e.2.nodePtr_ ≠ Ptr.root := by
    intro f i' hf hi'
    refine ⟨modifyRef f i' rest, by rw [hm]; rfl, ?_⟩
    intro e he
    rcases mem_modifyRef he with h1 | ⟨-, h1⟩
    · exact hrest e h1
    · rw [h1]
      rcases hf (getRef rest i') with h2 | h2
      · simp only [h2]
        have := getRef_mem hi'
        exact hrest _ this
      · simp only [h2]; exact hh
  unfold stepNode at h
  cases hc : checkHashMap st n holder parent with
  | error f => simp [hc] at h
  | ok res =>
    simp only [hc] at h
    have hres : res.1 ≠ -1 → RootInv c t res.2 := by
      revert hc
      intro hc
      refine checkHashMap_cases (fun res => res.1 ≠ -1 → RootInv c t res.2)
        st n holder parent ?_ ?_ ?_ ?_ ?_ ?_ res hc
      · intro _ hne; exact absurd rfl hne
      · intro _ _; exact ⟨hroot, rest, hm, hrest⟩
      · intro _ _; exact ⟨hroot, rest, hm, hrest⟩
      · intro i tn st1 hi hs htn hd hhn hw _
        obtain ⟨w1, -, -, -, -, -, -, w8⟩ := writeSlot_fields hw
        obtain ⟨i', rfl, hi', -⟩ := hscan i hi
        refine ⟨?_, ?_⟩
        · rcases w8 with w8 | ⟨w8, -⟩
          · simpa [markFilled, w8] using hroot
          · exact absurd w8 hh
        · simp only [markFilled, w1, delete_insertMap]
          rw [modifyRef_modifyRef]
          exact hmod _ i' (fun x => Or.inr rfl) hi'
      · intro i tfree st1 hi hs hd hrd hw _
        obtain ⟨w1, -, -, -, -, -, -, w8⟩ := writeSlot_fields hw
        obtain ⟨i', rfl, hi', hg⟩ := hscan i hi
        refine ⟨?_, ?_⟩
        · rcases w8 with w8 | ⟨w8, -⟩
          · simpa [markFilled, w8] using hroot
          · rw [hg] at w8
            exact absurd w8 (hrest _ (getRef_mem hi'))
        · simp only [markFilled, w1, delete_insertMap]
          exact hmod _ i' (fun x => Or.inl rfl) hi'
      · intro i par cur st2 hi hs hd hp hrd hw _
        obtain ⟨i', rfl, hi', hg⟩ := hscan i hi
        obtain ⟨-, -, s3⟩ := scanRefs_found hi
        rw [hg] at s3 hs
        have : (getRef rest i').nodePtr_ = Ptr.root := by
          by_contra hne
          exact s3 ⟨hs, hne⟩
        exact absurd this (hrest _ (getRef_mem hi'))
    split at h
    · split at h
      · rename_i he
        cases h
        exact hres (by rw [he]; decide)
      · rename_i hlt hne
        have hst := checkHashMap_neg_one hc hlt hne
        cases h
        rw [hst]
        have hemp : st.insertMap_.isEmpty = false := by rw [hm]; rfl
        refine ⟨by simp [insertHashMap, hemp, hroot], ?_⟩
        refine ⟨rest ++ [((st.rd n).id_,
          { nodePtr_ := if (if (st.rd n).descr_ = none then Status.NONNODE_WAIT
                else Status.NODE_WAIT) = Status.NODE_WAIT then Ptr.node n else holder,
            status_ := if (st.rd n).descr_ = none then Status.NONNODE_WAIT
                else Status.NODE_WAIT })], ?_, ?_⟩
        · simp [insertHashMap, hemp, hm]
        · intro e he
          rcases List.mem_append.1 he with he | he
          · exact hrest e he
          · simp only [List.mem_singleton] at he
            subst he
            simp only
            by_cases hdn : (st.rd n).descr_ = none
            · simp only [hdn, if_true]
              simpa using hh
            · simp [hdn]
    · rename_i hlt
      cases h
      exact hres (by intro he; apply hlt; rw [he]; decide)


/-- In a state where the first record is still the root, a described node
that declares the id of the first record is rejected. -/
theorem stepNode_root_reject {c : Int} {t : Option Nat} {st : State} {n : Nat} {holder : Ptr}
    {parent : Option Nat} (hpre : RootInv c t st) (hid : (st.rd n).id_ = c)
    (hd : (st.rd n).descr_ ≠ none) :
    stepNode st n holder parent = Except.ok (-EINVAL, st) := by
  obtain ⟨-, rest, hm, -⟩ := hpre
  have hc : checkHashMap st n holder parent = Except.ok (-EINVAL, st) := by
    unfold checkHashMap
    simp [hm, hid, findList, scanRefs, getRef, hd]
  unfold stepNode
  rw [hc]
  simp [EINVAL]

/-- Root re-anchoring as one step: the placeholder of the id of the first
record, met as a child of the node `b`, makes `b` the root and puts the old
root into the child field of `b`. -/
theorem stepNode_anchor {c : Int} {t : Option Nat} {st : State} {n b : Nat} {holder : Ptr}
    {r : Int × State} (hpre : RootInv c t st) (hn : (st.rd n).id_ = c)
    (hd : (st.rd n).descr_ = none)
    (hh : holder = Ptr.left b ∨ holder = Ptr.right b) (hb : b < st.cells.length)
    (h : stepNode st n holder (some b) = Except.ok r) (hne : r.1 ≠ -EINVAL) :
    RootInv c (some b) r.2 ∧
      (holder = Ptr.left b → (r.2.rd b).left_ = t) ∧
      (holder = Ptr.right b → (r.2.rd b).right_ = t) := by
  obtain ⟨hroot, rest, hm, hrest⟩ := hpre
  have hf1 : findList st.insertMap_ (st.rd n).id_ = true := by
    rw [hm, hn]; simp [findList]
  have hs0 : scanRefs (st.rd n).id_ st.insertMap_ 0 = some 0 := by
    rw [hm, hn]; simp [scanRefs]
  have hg0 : getRef st.insertMap_ 0 = { nodePtr_ := Ptr.root, status_ := Status.FILLED } := by
    rw [hm]; rfl
  have key : ∀ res, checkHashMap st n holder (some b) = Except.ok res →
      res.1 ≠ -EINVAL → ¬ res.1 < 0 ∧ (RootInv c (some b) res.2 ∧
        (holder = Ptr.left b → (res.2.rd b).left_ = t) ∧
        (holder = Ptr.right b → (res.2.rd b).right_ = t)) := by
    refine checkHashMap_cases_why (fun res => res.1 ≠ -EINVAL → ¬ res.1 < 0 ∧
        (RootInv c (some b) res.2 ∧
        (holder = Ptr.left b → (res.2.rd b).left_ = t) ∧
        (holder = Ptr.right b → (res.2.rd b).right_ = t))) st n holder (some b)
      ?_ ?_ ?_ ?_ ?_ ?_
    · intro hf; rw [hf1] at hf; cases hf
    · intro _ hwhy
      rcases hwhy with h0 | ⟨i, h0, h1⟩
      · rw [hs0] at h0; cases h0
      · rw [hs0] at h0; cases h0
        rw [hg0] at h1; exact absurd rfl h1
    · intro _ ⟨i, _, _, h2⟩
      rcases h2 with h2 | h2
      · exact absurd hd h2
      · cases h2
    · intro i tn st1 hi hs _ _ _ _
      rw [hs0] at hi; cases hi
      rw [hg0] at hs; cases hs
    · intro i tfree st1 hi hs _ _ _
      rw [hs0] at hi; cases hi
      rw [hg0] at hs; cases hs
    · intro i par cur st2 hi hs _ hp hrd hw hne2
      rw [hs0] at hi; cases hi
      cases hp
      rw [hg0] at hrd
      simp only [State.readSlot, delete_root, hroot, Except.ok.injEq] at hrd
      subst hrd
      obtain ⟨w1, -, -, -, -, -, -, -⟩ := writeSlot_fields hw
      obtain ⟨c1, -, c3⟩ := markParentFilled_store { st2 with decodedTree_ := some b } b
      by_cases hmp : (markParentFilled { st2 with decodedTree_ := some b } b).1 < 0
      · rw [if_pos hmp] at hne2; exact absurd rfl hne2
      · rw [if_neg hmp]
        refine ⟨by simp [markFilled], ⟨?_, ?_⟩, ?_, ?_⟩
        · simpa [markFilled] using c3
        · rcases markParentFilled_cases { st2 with decodedTree_ := some b } b with
            ⟨m1, -⟩ | ⟨j, -, -, m3⟩
          · rw [m1] at hmp; exact absurd (by decide) hmp
          · rw [m3]
            simp only [markFilled, w1, delete_insertMap, hm]
            cases j with
            | zero => exact ⟨rest, rfl, hrest⟩
            | succ j =>
              refine ⟨modifyRef (fun r => { r with status_ := Status.FILLED }) j rest, rfl, ?_⟩
              intro e he
              rcases mem_modifyRef he with h1 | ⟨-, h1⟩
              · exact hrest e h1
              · rw [h1]
                by_cases hj : j < rest.length
                · exact hrest (getKey rest j, getRef rest j) (getRef_mem hj)
                · have : getRef rest j = { nodePtr_ := Ptr.null, status_ := Status.NONE } := by
                    unfold getRef
                    rw [List.getD_eq_default _ _ (by omega)]
                  rw [this]; simp
        · intro hl
          subst hl
          rw [rd_congr (show (markFilled (markParentFilled { st2 with decodedTree_ := some b } b).2
            0).2.cells = st2.cells by simpa [markFilled] using c1) b]
          simp only [State.writeSlot, Except.ok.injEq] at hw
          rw [← hw]
          simp [State.rd, State.wr, State.delete, hb]
        · intro hl
          subst hl
          rw [rd_congr (show (markFilled (markParentFilled { st2 with decodedTree_ := some b } b).2
            0).2.cells = st2.cells by simpa [markFilled] using c1) b]
          simp only [State.writeSlot, Except.ok.injEq] at hw
          rw [← hw]
          simp [State.rd, State.wr, State.delete, hb]
  unfold stepNode at h
  cases hc : checkHashMap st n holder (some b) with
  | error f => simp [hc] at h
  | ok res =>
    simp only [hc] at h
    by_cases hlt : res.1 < 0
    · rw [if_pos hlt] at h
      by_cases he : res.1 = -EINVAL
      · rw [if_pos he] at h
        cases h
        exact absurd he hne
      · exact absurd hlt (key res hc he).1
    · rw [if_neg hlt] at h
      cases h
      exact (key _ hc hne).2

/-! ## Records before and at the change of root -/

theorem insertHashMap_cells (st : State) (n : Nat) (holder : Ptr) (s : Status) :
    (insertHashMap st n holder s).2.cells = st.cells := by
  unfold insertHashMap
  by_cases h : st.insertMap_.isEmpty = true <;> simp [h]

/-- The store after a record that was ingested without a conflict: no cell is
added or removed by the steps, no id and no label changes, and the table keeps
pointing into the store. -/
theorem record_store (st : State) (p : PNode) (r : Int × State)
    (hb : Bounded st st.cells.length) (hd : p.descr_ ≠ none)
    (h : processNode ((allocParsed st p).2.cells.length + 1) (allocParsed st p).2
      (allocParsed st p).1 Ptr.null none = Except.ok r) (hr : ¬ r.1 < 0) :
    r.2.cells.length = (allocParsed st p).2.cells.length ∧
      st.cells.length < r.2.cells.length ∧
      (∀ a, (r.2.rd a).id_ = ((allocParsed st p).2.rd a).id_ ∧
        (r.2.rd a).descr_ = ((allocParsed st p).2.rd a).descr_) ∧
      Bounded r.2 r.2.cells.length := by
  obtain ⟨res, sL, hs, -, hleft, hright⟩ := record_trace st p r hb hd h hr
  have hlenpos := parsedCells_length_pos st.cells.length p
  have hlen1 : (allocParsed st p).2.cells.length =
      st.cells.length + (parsedCells st.cells.length p).length := by
    rw [(allocParsed_cells st p).1]; simp
  have hb1 : Bounded (allocParsed st p).2 (allocParsed st p).2.cells.length :=
    bounded_mono (bounded_alloc (p := p) hb) (by omega)
  generalize (allocParsed st p).2 = st1 at hs hlen1 hb1 hright ⊢
  obtain ⟨a1, a2, -, -⟩ := stepNode_store _ _ _ _ _ hs
  have a3 : Bounded res.2 st1.cells.length :=
    stepNode_bounded hs hb1 (by omega) (by trivial)
  have hL : sL.cells.length = st1.cells.length ∧
      (∀ a, (sL.rd a).id_ = (st1.rd a).id_ ∧ (sL.rd a).descr_ = (st1.rd a).descr_) ∧
      Bounded sL st1.cells.length := by
    rcases hleft with ⟨-, rfl⟩ | ⟨l, res1, hl, -, hs1, -, rfl⟩
    · exact ⟨a1, a2, a3⟩
    · obtain ⟨b1, b2, -, -⟩ := stepNode_store _ _ _ _ _ hs1
      have hpl := (parsedCells_left st.cells.length p l hl).2
      refine ⟨by rw [b1, a1], fun a => ⟨by rw [(b2 a).1, (a2 a).1], by rw [(b2 a).2, (a2 a).2]⟩,
        ?_⟩
      rw [← a1] at a3 ⊢
      exact stepNode_bounded hs1 a3 (by omega) (by simp only [Ptr.below]; omega)
  obtain ⟨l1, l2, l3⟩ := hL
  rcases hright with ⟨-, hrr⟩ | ⟨rr, ra, res2, -, q1, q2, -, hs2, -, hrr⟩
  · rw [hrr]
    exact ⟨l1, by omega, l2, by rw [l1]; exact l3⟩
  · obtain ⟨b1, b2, -, -⟩ := stepNode_store _ _ _ _ _ hs2
    rw [hrr]
    refine ⟨by rw [b1, l1], by rw [b1, l1]; omega,
      fun a => ⟨by rw [(b2 a).1, (l2 a).1], by rw [(b2 a).2, (l2 a).2]⟩, ?_⟩
    rw [b1]
    rw [← l1] at l3 q2
    exact stepNode_bounded hs2 l3 q2 (by simp only [Ptr.below]; omega)

/-- The child steps of a record neither child of which is `c` keep the
reference of the first record. -/
theorem children_rootInv {c : Int} {t : Option Nat} {p : PNode} {k N : Nat}
    {res r : Int × State} {sL : State} (hpre : RootInv c t res.2)
    (hl : p.left_ ≠ some c) (hrc : p.right_ ≠ some c)
    (hleft : (p.left_ = none ∧ sL = res.2) ∨
        (∃ l res1, p.left_ = some l ∧ res.2.rd (k + 1) = { node.zero with id_ := l } ∧
          stepNode res.2 (k + 1) (Ptr.left k) (some k) = Except.ok res1 ∧
          res1.1 ≠ -EINVAL ∧ sL = res1.2))
    (hright : (p.right_ = none ∧ r.2 = sL) ∨
        (∃ rr ra res2, p.right_ = some rr ∧
          (k < ra ∧ (p.left_ = none → ra = k + 1) ∧ (p.left_ ≠ none → ra = k + 2)) ∧ ra < N ∧
          sL.rd ra = { node.zero with id_ := rr } ∧
          stepNode sL ra (Ptr.right k) (some k) = Except.ok res2 ∧
          res2.1 ≠ -EINVAL ∧ r.2 = res2.2)) :
    RootInv c t r.2 := by
  have hL : RootInv c t sL := by
    rcases hleft with ⟨-, rfl⟩ | ⟨l, res1, hl1, hcell, hs1, -, rfl⟩
    · exact hpre
    · refine stepNode_rootInv c t _ _ _ _ _ hpre (by simp) ?_ hs1
      rw [hcell]
      intro h0
      apply hl
      rw [hl1]
      exact congrArg some h0
  rcases hright with ⟨-, hrr⟩ | ⟨rr, ra, res2, hr1, -, -, hcell, hs2, -, hrr⟩
  · rw [hrr]; exact hL
  · rw [hrr]
    refine stepNode_rootInv c t _ _ _ _ _ hL (by simp) ?_ hs2
    rw [hcell]
    intro h0
    apply hrc
    rw [hr1]
    exact congrArg some h0

theorem allocParsed_rootInv {c : Int} {t : Option Nat} {st : State} (p : PNode)
    (h : RootInv c t st) : RootInv c t (allocParsed st p).2 := by
  obtain ⟨a1, -, a3, -⟩ := allocParsed_fields st p
  unfold RootInv
  rw [a1, a3]
  exact h

/-- A record neither child of which is `c`, ingested without a conflict,
keeps the reference of the first record. -/
theorem record_rootInv (c : Int) (t : Option Nat) (st : State) (p : PNode) (r : Int × State)
    (hpre : RootInv c t st) (hb : Bounded st st.cells.length) (hd : p.descr_ ≠ none)
    (hl : p.left_ ≠ some c) (hrc : p.right_ ≠ some c)
    (h : processNode ((allocParsed st p).2.cells.length + 1) (allocParsed st p).2
      (allocParsed st p).1 Ptr.null none = Except.ok r) (hr : ¬ r.1 < 0) :
    RootInv c t r.2 := by
  obtain ⟨res, sL, hs, he, hleft, hright⟩ := record_trace st p r hb hd h hr
  have h1 := allocParsed_rootInv p hpre
  have hrd := allocParsed_rd st p
  rw [(allocParsed_cells st p).2] at hrd
  have htop : RootInv c t res.2 := by
    by_cases hid : ((allocParsed st p).2.rd st.cells.length).id_ = c
    · have := @stepNode_root_reject c t _ _ Ptr.null none h1 hid
        (by rw [hrd.2]; exact hd)
      rw [this] at hs
      cases hs
      exact absurd rfl he
    · exact stepNode_rootInv c t _ _ _ _ _ h1 (by simp) hid hs
  exact children_rootInv htop hl hrc hleft hright

/-- The first record, ingested without a conflict and naming its own id in
no child position, leaves its node as the root with the first reference of the
table. -/
theorem record_first (st : State) (p : PNode) (r : Int × State)
    (hm : st.insertMap_ = []) (hd : p.descr_ ≠ none)
    (hl : p.left_ ≠ some p.id_) (hrc : p.right_ ≠ some p.id_)
    (h : processNode ((allocParsed st p).2.cells.length + 1) (allocParsed st p).2
      (allocParsed st p).1 Ptr.null none = Except.ok r) (hr : ¬ r.1 < 0) :
    RootInv p.id_ (some st.cells.length) r.2 := by
  have hb : Bounded st st.cells.length := by
    intro e he; rw [hm] at he; cases he
  obtain ⟨res, sL, hs, he, hleft, hright⟩ := record_trace st p r hb hd h hr
  obtain ⟨a1, -, -, -⟩ := allocParsed_fields st p
  have hrd := allocParsed_rd st p
  rw [(allocParsed_cells st p).2] at hrd
  rw [stepNode_miss (by rw [a1, hm]; rfl)] at hs
  have htop : RootInv p.id_ (some st.cells.length) res.2 := by
    cases hs
    refine ⟨by simp [insertHashMap, a1, hm], [], ?_, by simp⟩
    simp [insertHashMap, a1, hm, hrd.1]
  exact children_rootInv htop hl hrc hleft hright

/-- The record of a new id that names `c`, the id of the first record, in
exactly one child position and is ingested without a conflict: its node
becomes the root, the former root becomes that child, and no older cell
changes. -/
theorem record_anchor (c : Int) (t : Option Nat) (st : State) (p : PNode) (r : Int × State)
    (hpre : RootInv c t st) (hb : Bounded st st.cells.length) (hd : p.descr_ ≠ none)
    (hnew : findList st.insertMap_ p.id_ = false)
    (hname : (p.left_ = some c ∧ p.right_ ≠ some c) ∨ (p.right_ = some c ∧ p.left_ ≠ some c))
    (h : processNode ((allocParsed st p).2.cells.length + 1) (allocParsed st p).2
      (allocParsed st p).1 Ptr.null none = Except.ok r) (hr : ¬ r.1 < 0) :
    RootInv c (some st.cells.length) r.2 ∧
      (p.left_ = some c → (r.2.rd st.cells.length).left_ = t) ∧
      (p.right_ = some c → (r.2.rd st.cells.length).right_ = t) ∧
      ∀ a < st.cells.length, r.2.rd a = st.rd a := by
  obtain ⟨res, sL, hs, he, hleft, hright⟩ := record_trace st p r hb hd h hr
  have h1 := allocParsed_rootInv p hpre
  obtain ⟨a1, -, -, -⟩ := allocParsed_fields st p
  have hrd := allocParsed_rd st p
  rw [(allocParsed_cells st p).2] at hrd
  have hlenpos := parsedCells_length_pos st.cells.length p
  have hlen1 : (allocParsed st p).2.cells.length =
      st.cells.length + (parsedCells st.cells.length p).length := by
    rw [(allocParsed_cells st p).1]; simp
  have hold : ∀ a < st.cells.length, (allocParsed st p).2.rd a = st.rd a := by
    intro a ha
    rw [(allocParsed_cells st p).1, rd_append, if_pos ha]
  have hidc : ((allocParsed st p).2.rd st.cells.length).id_ ≠ c := by
    rw [hrd.1]
    intro h0
    rw [h0] at hnew
    obtain ⟨-, rest, hm, -⟩ := hpre
    rw [hm] at hnew
    simp [findList] at hnew
  have htop : RootInv c t res.2 := stepNode_rootInv c t _ _ _ _ _ h1 (by simp) hidc hs
  rw [stepNode_miss (by rw [a1, hrd.1]; exact hnew)] at hs
  have hcells : res.2.cells = (allocParsed st p).2.cells := by
    cases hs; exact insertHashMap_cells _ _ _ _
  generalize (allocParsed st p).2 = st1 at hlen1 hold hcells hright
  clear hs h1 hidc
  have hlen2 : res.2.cells.length = st1.cells.length := by rw [hcells]
  have hold2 : ∀ a < st.cells.length, res.2.rd a = st.rd a := by
    intro a ha; rw [rd_congr hcells]; exact hold a ha
  -- a child step leaves the older cells alone
  have frame : ∀ (s : State) (n : Nat) (hp : Ptr) (q : Int × State),
      (hp = Ptr.left st.cells.length ∨ hp = Ptr.right st.cells.length) →
      stepNode s n hp (some st.cells.length) = Except.ok q → (s.rd n).descr_ = none →
      ∀ a < st.cells.length, q.2.rd a = s.rd a := by
    intro s n hp q hhp hq hdn a ha
    refine (stepNode_frame_child hq hdn a).1 ?_ ?_
    · rcases hhp with rfl | rfl
      · intro h0; cases h0; omega
      · intro h0; cases h0
    · rcases hhp with rfl | rfl
      · intro h0; cases h0
      · intro h0; cases h0; omega
  rcases hleft with ⟨hl0, rfl⟩ | ⟨l, res1, hl1, hcell1, hs1, he1, rfl⟩
  · -- no left child: the right child is `c`
    rcases hname with ⟨h0, -⟩ | ⟨hrc, -⟩
    · rw [hl0] at h0; cases h0
    rcases hright with ⟨h0, -⟩ | ⟨rr, ra, res2, hr1, -, -, hcell2, hs2, he2, hrr⟩
    · rw [hrc] at h0; cases h0
    rw [hrc] at hr1
    cases hr1
    have hdn : (res.2.rd ra).descr_ = none := by rw [hcell2]; rfl
    obtain ⟨z1, -, z3⟩ := stepNode_anchor htop (by rw [hcell2]) hdn (Or.inr rfl)
      (by rw [hlen2]; omega) hs2 he2
    rw [hrr]
    refine ⟨z1, fun h0 => absurd (hl0 ▸ h0 : none = some c) (by simp), fun _ => z3 rfl,
      fun a ha => ?_⟩
    rw [frame _ _ _ _ (Or.inr rfl) hs2 hdn a ha]
    exact hold2 a ha
  · have hdn1 : (res.2.rd (st.cells.length + 1)).descr_ = none := by rw [hcell1]; rfl
    obtain ⟨b1, -, -, -⟩ := stepNode_store _ _ _ _ _ hs1
    have hold3 : ∀ a < st.cells.length, res1.2.rd a = st.rd a := by
      intro a ha
      rw [frame _ _ _ _ (Or.inl rfl) hs1 hdn1 a ha]
      exact hold2 a ha
    by_cases hlc : l = c
    · -- the left child is `c`
      subst hlc
      have hrc : p.right_ ≠ some l := by
        rcases hname with ⟨-, h0⟩ | ⟨-, h0⟩
        · exact h0
        · exact absurd hl1 h0
      obtain ⟨z1, z2, -⟩ := stepNode_anchor htop (by rw [hcell1]) hdn1 (Or.inl rfl)
        (by rw [hlen2]; omega) hs1 he1
      rcases hright with ⟨h0, hrr⟩ | ⟨rr, ra, res2, hr1, -, -, hcell2, hs2, he2, hrr⟩
      · rw [hrr]
        exact ⟨z1, fun _ => z2 rfl, fun h0 => absurd h0 hrc, hold3⟩
      · have hdn2 : (res1.2.rd ra).descr_ = none := by rw [hcell2]; rfl
        rw [hrr]
        refine ⟨?_, fun _ => ?_, fun h0 => absurd h0 hrc, fun a ha => ?_⟩
        · refine stepNode_rootInv l _ _ _ _ _ _ z1 (by simp) ?_ hs2
          rw [hcell2]
          intro h0
          apply hrc
          rw [hr1]
          exact congrArg some h0
        · rw [(stepNode_frame_child hs2 hdn2 st.cells.length).2.1 (by simp)]
          exact z2 rfl
        · rw [frame _ _ _ _ (Or.inr rfl) hs2 hdn2 a ha]
          exact hold3 a ha
    · -- the left child is another id: the right child is `c`
      have hl2 : p.left_ ≠ some c := by
        rw [hl1]; intro h0; exact hlc (Option.some.inj h0)
      have hrc : p.right_ = some c := by
        rcases hname with ⟨h0, -⟩ | ⟨h0, -⟩
        · exact absurd h0 hl2
        · exact h0
      have hL : RootInv c t res1.2 := by
        refine stepNode_rootInv c t _ _ _ _ _ htop (by simp) ?_ hs1
        rw [hcell1]
        exact hlc
      rcases hright with ⟨h0, -⟩ | ⟨rr, ra, res2, hr1, -, -, hcell2, hs2, he2, hrr⟩
      · rw [hrc] at h0; cases h0
      rw [hrc] at hr1
      cases hr1
      have hdn2 : (res1.2.rd ra).descr_ = none := by rw [hcell2]; rfl
      obtain ⟨z1, -, z3⟩ := stepNode_anchor hL (by rw [hcell2]) hdn2 (Or.inr rfl)
        (by rw [b1, hlen2]; omega) hs2 he2
      rw [hrr]
      refine ⟨z1, fun h0 => absurd h0 hl2, fun _ => z3 rfl, fun a ha => ?_⟩
      rw [frame _ _ _ _ (Or.inr rfl) hs2 hdn2 a ha]
      exact hold3 a ha

/-- As `readLines_inv`, for a property that is kept by the lines of the
input. -/
theorem readLines_inv_mem (I : State → Prop) (lines : List (List Char))
    (hline : ∀ st line p r, line ∈ lines → I st →
      parseLine st.complete_tree_ line = ParseResult.node p →
      processNode ((allocParsed st p).2.cells.length + 1) (allocParsed st p).2
        (allocParsed st p).1 Ptr.null none = Except.ok r → ¬ r.1 < 0 → I r.2) :
    ∀ st st', I st → readLines st lines = Except.ok (false, st') → I st' := by
  induction lines with
  | nil =>
    intro st st' hi h
    simp only [readLines, Except.ok.injEq, Prod.mk.injEq, true_and] at h
    exact h ▸ hi
  | cons line rest ih =>
    intro st st' hi h
    have ih2 := ih (fun st l p r hl => hline st l p r (List.mem_cons_of_mem _ hl))
    by_cases hlen : line.length = 0
    · rw [readLines_cons_empty _ _ _ hlen] at h
      exact ih2 st st' hi h
    · cases hp : parseLine st.complete_tree_ line with
      | nullDeref => rw [readLines_cons_crash _ _ _ hlen hp] at h; cases h
      | null =>
        rw [readLines_cons_null _ _ _ hlen hp] at h
        exact ih2 st st' hi h
      | node p =>
        rw [readLines_cons_node _ _ _ p hp] at h
        cases hres : processNode ((allocParsed st p).2.cells.length + 1) (allocParsed st p).2
            (allocParsed st p).1 Ptr.null none with
        | error f => simp [hres] at h
        | ok res =>
          simp only [hres] at h
          by_cases hlt : res.1 < 0
          · rw [if_pos hlt] at h; cases h
          · rw [if_neg hlt] at h
            exact ih2 _ _ (hline st line p res (List.mem_cons_self _ _) hi hp hres hlt) h

/-- The loop over lines none of which names `c` as a child: the reference of
the first record stays, and the cells below `k` keep id and label. -/
theorem readLines_rootInv (cm : Bool) (c : Int) (t : Option Nat) (k : Nat) (s0 : State)
    (lines : List (List Char)) (st st' : State)
    (hpre : RootInv c t st) (hb : Bounded st st.cells.length) (hc : st.complete_tree_ = cm)
    (hk : k ≤ st.cells.length)
    (hid : ∀ a < k, (st.rd a).id_ = (s0.rd a).id_ ∧ (st.rd a).descr_ = (s0.rd a).descr_)
    (hnc : ∀ line ∈ lines, ∀ q, parseLine cm line = ParseResult.node q →
      q.left_ ≠ some c ∧ q.right_ ≠ some c)
    (h : readLines st lines = Except.ok (false, st')) :
    RootInv c t st' ∧ Bounded st' st'.cells.length ∧ st'.complete_tree_ = cm ∧
      k ≤ st'.cells.length ∧
      ∀ a < k, (st'.rd a).id_ = (s0.rd a).id_ ∧ (st'.rd a).descr_ = (s0.rd a).descr_ := by
  refine readLines_inv_mem (fun s => RootInv c t s ∧ Bounded s s.cells.length ∧
      s.complete_tree_ = cm ∧ k ≤ s.cells.length ∧
      ∀ a < k, (s.rd a).id_ = (s0.rd a).id_ ∧ (s.rd a).descr_ = (s0.rd a).descr_) lines ?_
    st st' ⟨hpre, hb, hc, hk, hid⟩ h
  intro s line p r hl ⟨i1, i2, i3, i4, i5⟩ hp hres hlt
  rw [i3] at hp
  obtain ⟨n1, n2⟩ := hnc line hl p hp
  have hd := parseLine_descr hp
  obtain ⟨r1, r2, r3, r4⟩ := record_store s p r i2 hd hres hlt
  obtain ⟨-, -, -, f4, f5, -⟩ := allocParsed_fields s p
  refine ⟨record_rootInv c t s p r i1 i2 hd n1 n2 hres hlt, r4, ?_, by omega, fun a ha => ?_⟩
  · exact (processNode_flags cm (allocParsed s p).2.duplicate_ids_ _ _ _ _ _ _
      ⟨by rw [f5]; exact i3, rfl⟩ hres).1
  · have hold : (allocParsed s p).2.rd a = s.rd a := by
      rw [(allocParsed_cells s p).1, rd_append, if_pos (by omega)]
    rw [(r3 a).1, (r3 a).2, hold]
    exact i5 a ha

/-! ## One reference per id in default mode -/

theorem stepNode_nodup (st : State) (n : Nat) (holder : Ptr) (parent : Option Nat)
    (r : Int × State) (hpre : NoDupInv st) (h : stepNode st n holder parent = Except.ok r) :
    NoDupInv r.2 := by
  obtain ⟨hd, -, -, hcase⟩ := stepNode_table st n holder parent r h
  refine ⟨by rw [hd]; exact hpre.1, ?_⟩
  unfold KeysNodup
  rcases hcase with ⟨-, -, hm, -⟩ | ⟨-, hf, ⟨ptr, hm⟩, -, -⟩ | ⟨-, -, j, f, -, -, -, hm, -⟩
  · rw [hm]; exact hpre.2
  · rw [hm]
    rcases hf with hf | hf
    · simp only [List.map_append, List.map_cons, List.map_nil]
      apply List.Nodup.append hpre.2 (by simp)
      simp only [List.disjoint_singleton]
      intro hmem
      have := (findList_eq _ _).2 hmem
      rw [hf] at this
      cases this
    · rw [hpre.1] at hf; cases hf
  · rw [hm, modifyRef_keys]; exact hpre.2

theorem stepNode_described (x : Int) (st : State) (n : Nat) (holder : Ptr) (parent : Option Nat)
    (r : Int × State) (hpre : NoDupInv st ∧ Described x st.insertMap_)
    (h : stepNode st n holder parent = Except.ok r) :
    NoDupInv r.2 ∧ Described x r.2.insertMap_ := by
  refine ⟨stepNode_nodup st n holder parent r hpre.1 h, ?_⟩
  obtain ⟨hd, -, -, hcase⟩ := stepNode_table st n holder parent r h
  obtain ⟨hfx, hall⟩ := hpre.2
  rcases hcase with ⟨-, -, hm, -⟩ | ⟨-, hf, ⟨ptr, hm⟩, -, -⟩ | ⟨-, -, j, f, hj, -, hfil, hm, -⟩
  · rw [hm]; exact hpre.2
  · rw [hm]
    have hne : (st.rd n).id_ ≠ x := by
      rcases hf with hf | hf
      · intro he; rw [he, hfx] at hf; cases hf
      · rw [hpre.1.1] at hf; cases hf
    constructor
    · rw [findList_eq] at hfx ⊢
      simp only [List.map_append, List.mem_append]
      exact Or.inl hfx
    · intro e he hex
      rcases List.mem_append.1 he with he | he
      · exact hall e he hex
      · simp only [List.mem_singleton] at he
        subst he
        exact absurd hex hne
  · rw [hm]
    constructor
    · rw [findList_modifyRef]; exact hfx
    · intro e he hex
      rcases mem_modifyRef he with he | ⟨-, he⟩
      · exact hall e he hex
      · subst he
        exact Or.inr (hfil _)

/-- The first step on a described node with id `x`, unless it reports a
conflict, leaves `x` described. -/
theorem stepNode_establish (x : Int) (st : State) (n : Nat) (holder : Ptr)
    (parent : Option Nat) (r : Int × State) (hpre : NoDupInv st)
    (hid : (st.rd n).id_ = x) (hdescr : (st.rd n).descr_ ≠ none)
    (h : stepNode st n holder parent = Except.ok r) (hr : r.1 ≠ -EINVAL) :
    NoDupInv r.2 ∧ Described x r.2.insertMap_ := by
  refine ⟨stepNode_nodup st n holder parent r hpre h, ?_⟩
  obtain ⟨hd, -, -, hcase⟩ := stepNode_table st n holder parent r h
  rcases hcase with ⟨he, -⟩ | ⟨-, hf, ⟨ptr, hm⟩, -, -⟩ | ⟨-, -, j, f, hj, hst, hfil, hm, -⟩
  · exact absurd he hr
  · have hf : findList st.insertMap_ (st.rd n).id_ = false := by
      rcases hf with hf | hf
      · exact hf
      · rw [hpre.1] at hf; cases hf
    rw [hm, hid] at *
    constructor
    · rw [findList_eq]; simp
    · intro e he hex
      rcases List.mem_append.1 he with he | he
      · have : findList st.insertMap_ x = true := by
          rw [findList_eq]; exact List.mem_map.2 ⟨e, he, hex⟩
        rw [hf] at this; cases this
      · simp only [List.mem_singleton] at he
        subst he
        simp only [newStatus]
        split
        · exact Or.inr rfl
        · exact Or.inl rfl
  · rcases hst with ⟨-, hnone⟩ | ⟨hs, hk, -⟩
    · exact absurd hnone hdescr
    · rw [hm]
      constructor
      · rw [findList_modifyRef, findList_eq, ← hid, ← hk]
        exact List.mem_map.2 ⟨_, getRef_mem hj, rfl⟩
      · intro e he hex
        obtain ⟨k, hk1, hk2⟩ := mem_iff_index he
        rw [modifyRef_length] at hk1
        rw [getKey_modifyRef, modifyRef_getRef] at hk2
        have hkj : j = k := by
          apply keysNodup_index hpre.2 hj hk1
          rw [hk, hid, ← hex, hk2]
        subst hkj
        rw [hk2]
        simp only [true_and, hj, if_true]
        exact Or.inr (hfil _)

/-- In default mode a described node whose id is already described is
rejected by `checkHashMap`, whatever the state of the earlier reference. -/
theorem checkHashMap_rejects (x : Int) (st : State) (n : Nat) (holder : Ptr)
    (parent : Option Nat) (hdup : st.duplicate_ids_ = false)
    (hx : Described x st.insertMap_) (hid : (st.rd n).id_ = x)
    (hdescr : (st.rd n).descr_ ≠ none) :
    checkHashMap st n holder parent = Except.ok (-EINVAL, st) := by
  obtain ⟨hf, hall⟩ := hx
  unfold checkHashMap
  rw [hid, if_pos hf]
  have hconf : conflict st = -EINVAL := by simp [conflict, hdup]
  cases hs : scanRefs x st.insertMap_ 0 with
  | none => simp [hconf]
  | some i =>
    obtain ⟨s1, s2, -⟩ := scanRefs_found hs
    have := hall _ (getRef_mem s1) s2
    simp only
    rcases this with h1 | h1
    · simp only at h1
      rw [h1]
      simp [hdescr, hconf]
    · simp only at h1
      rw [h1]
      simp [hdescr]


theorem readLines_nodup (lines : List (List Char)) (st st' : State) (hpre : NoDupInv st)
    (h : readLines st lines = Except.ok (false, st')) : NoDupInv st' := by
  refine readLines_inv NoDupInv ?_ lines st st' hpre h
  intro st line p r hi _ _ hres _
  obtain ⟨a1, -, -, a4, -⟩ := allocParsed_fields st p
  have h0 : NoDupInv (allocParsed st p).2 := by
    unfold NoDupInv; rw [a1, a4]; exact hi
  exact processNode_inv (fun st _ => NoDupInv st) NoDupInv
    (fun st n holder parent r hp hs => stepNode_nodup st n holder parent r hp hs)
    (fun _ _ hp => hp) _ _ _ _ _ _ h0 hres

theorem readLines_described (x : Int) (lines : List (List Char)) (st st' : State)
    (hpre : NoDupInv st ∧ Described x st.insertMap_)
    (h : readLines st lines = Except.ok (false, st')) :
    NoDupInv st' ∧ Described x st'.insertMap_ := by
  refine readLines_inv (fun st => NoDupInv st ∧ Described x st.insertMap_) ?_
    lines st st' hpre h
  intro st line p r hi _ _ hres _
  obtain ⟨a1, -, -, a4, -⟩ := allocParsed_fields st p
  have h0 : NoDupInv (allocParsed st p).2 ∧ Described x (allocParsed st p).2.insertMap_ := by
    unfold NoDupInv; rw [a1, a4]; exact hi
  exact processNode_inv (fun st _ => NoDupInv st ∧ Described x st.insertMap_)
    (fun st => NoDupInv st ∧ Described x st.insertMap_)
    (fun st n holder parent r hp hs => stepNode_described x st n holder parent r hp hs)
    (fun _ _ hp => hp) _ _ _ _ _ _ h0 hres

/-! ## Where the placeholders are -/


/-- A member other than the one at the position stays a member. -/
theorem mem_modifyRef_keep {f : hash_ref → hash_ref} {i : Nat} {m : List (Int × hash_ref)}
    {e : Int × hash_ref} (h : e ∈ m) (hne : e ≠ (getKey m i, getRef m i)) :
    e ∈ modifyRef f i m := by
  induction m generalizing i with
  | nil => cases h
  | cons x rest ih =>
    cases i with
    | zero =>
      simp only [modifyRef, List.mem_cons]
      rcases List.mem_cons.1 h with h1 | h1
      · exact absurd h1 hne
      · exact Or.inr h1
    | succ i =>
      simp only [modifyRef, List.mem_cons]
      rcases List.mem_cons.1 h with h1 | h1
      · exact Or.inl h1
      · exact Or.inr (ih h1 hne)

theorem slotOf_congr {s t : State} (h : s.cells = t.cells) (q : Ptr) : slotOf s q = slotOf t q := by
  cases q <;> simp only [slotOf, rd_congr h]

theorem writeSlot_slotOf {st st1 : State} {p : Ptr} {v : Option Nat}
    (h : st.writeSlot p v = Except.ok st1) (q : Ptr) (hq : q ≠ p) :
    slotOf st1 q = slotOf st q := by
  cases q with
  | left a =>
    simp only [slotOf]
    rcases writeSlot_rd h a with h1 | ⟨h1, -⟩ | ⟨-, h1⟩
    · rw [h1]
    · exact absurd h1.symm hq
    · rw [h1]
  | right a =>
    simp only [slotOf]
    rcases writeSlot_rd h a with h1 | ⟨-, h1⟩ | ⟨h1, -⟩
    · rw [h1]
    · rw [h1]
    · exact absurd h1.symm hq
  | null => rfl
  | root => rfl
  | node a => rfl

theorem readSlot_slotOf {st : State} {p : Ptr} {m : Nat} (h : slotOf st p = some m) :
    st.readSlot p = Except.ok (some m) := by
  cases p <;> simp only [slotOf] at h <;> first | cases h | (simp only [State.readSlot, h])

/-- Case analysis on a node-local step that does not end in a conflict. -/
theorem stepNode_cases (Q : State → Prop) (st : State) (n : Nat) (holder : Ptr)
    (parent : Option Nat)
    (h_ins : (findList st.insertMap_ (st.rd n).id_ = false ∨ st.duplicate_ids_ = true) →
      Q (insertHashMap st n holder
        (if (st.rd n).descr_ = none then Status.NONNODE_WAIT else Status.NODE_WAIT)).2)
    (h_attach : ∀ i tn st1, scanRefs (st.rd n).id_ st.insertMap_ 0 = some i →
      (getRef st.insertMap_ i).status_ = Status.NODE_WAIT →
      (getRef st.insertMap_ i).nodePtr_ = Ptr.node tn →
      (st.rd n).descr_ = none → holder ≠ Ptr.null →
      (st.delete (some n)).writeSlot holder (some tn) = Except.ok st1 →
      Q (markFilled
          { st1 with
              insertMap_ := modifyRef (fun r => { r with nodePtr_ := holder }) i st1.insertMap_,
              wait_count_ := st1.wait_count_ - 1 } i).2)
    (h_fill : ∀ i tfree st1, scanRefs (st.rd n).id_ st.insertMap_ 0 = some i →
      (getRef st.insertMap_ i).status_ = Status.NONNODE_WAIT →
      (st.rd n).descr_ ≠ none →
      st.readSlot (getRef st.insertMap_ i).nodePtr_ = Except.ok tfree →
      st.writeSlot (getRef st.insertMap_ i).nodePtr_ (some n) = Except.ok st1 →
      Q (markFilled
        { st1.delete tfree with wait_count_ := (st1.delete tfree).wait_count_ - 1 } i).2)
    (h_anchor : ∀ i par cur st2, scanRefs (st.rd n).id_ st.insertMap_ 0 = some i →
      (getRef st.insertMap_ i).status_ = Status.FILLED →
      (st.rd n).descr_ = none → parent = some par →
      (st.delete (some n)).readSlot (getRef st.insertMap_ i).nodePtr_ = Except.ok cur →
      (st.delete (some n)).writeSlot holder cur = Except.ok st2 →
      ¬ (markParentFilled { st2 with decodedTree_ := some par } par).1 < 0 →
      Q (markFilled (markParentFilled { st2 with decodedTree_ := some par } par).2 i).2) :
    ∀ r, stepNode st n holder parent = Except.ok r → r.1 ≠ -EINVAL → Q r.2 := by
  intro r h hr
  have hconf : conflict st ≠ -EINVAL → st.duplicate_ids_ = true := by
    unfold conflict
    cases st.duplicate_ids_ <;> simp
  have key : ∀ res, checkHashMap st n holder parent = Except.ok res → res.1 ≠ -EINVAL →
      (res.1 < 0 → res.2 = st ∧
        (findList st.insertMap_ (st.rd n).id_ = false ∨ st.duplicate_ids_ = true)) ∧
      (¬ res.1 < 0 → Q res.2) := by
    refine checkHashMap_cases (fun res => res.1 ≠ -EINVAL →
      (res.1 < 0 → res.2 = st ∧
        (findList st.insertMap_ (st.rd n).id_ = false ∨ st.duplicate_ids_ = true)) ∧
      (¬ res.1 < 0 → Q res.2)) st n holder parent ?_ ?_ ?_ ?_ ?_ ?_
    · intro hf _
      exact ⟨fun _ => ⟨rfl, Or.inl hf⟩, fun h0 => absurd (show (-1 : Int) < 0 by decide) h0⟩
    · intro _ hne
      have hd := hconf hne
      refine ⟨fun _ => ⟨rfl, Or.inr hd⟩, fun h0 => ?_⟩
      exfalso; apply h0
      simp [conflict, hd]
    · intro _ hne; exact absurd rfl hne
    · intro i tn st1 a1 a2 a3 a4 a5 a6 _
      exact ⟨fun h0 => by simp [markFilled] at h0, fun _ => h_attach i tn st1 a1 a2 a3 a4 a5 a6⟩
    · intro i tfree st1 a1 a2 a3 a4 a5 _
      exact ⟨fun h0 => by simp [markFilled] at h0, fun _ => h_fill i tfree st1 a1 a2 a3 a4 a5⟩
    · intro i par cur st2 a1 a2 a3 a4 a5 a6 hne
      by_cases hm : (markParentFilled { st2 with decodedTree_ := some par } par).1 < 0
      · rw [if_pos hm] at hne; exact absurd rfl hne
      · rw [if_neg hm]
        exact ⟨fun h0 => by simp [markFilled] at h0,
          fun _ => h_anchor i par cur st2 a1 a2 a3 a4 a5 a6 hm⟩
  unfold stepNode at h
  cases hc : checkHashMap st n holder parent with
  | error f => simp [hc] at h
  | ok res =>
    simp only [hc] at h
    by_cases hlt : res.1 < 0
    · rw [if_pos hlt] at h
      by_cases he : res.1 = -EINVAL
      · rw [if_pos he] at h
        cases h
        exact absurd he hr
      · rw [if_neg he] at h
        cases h
        obtain ⟨k1, k2⟩ := (key res hc he).1 hlt
        rw [k1]
        exact h_ins k2
    · rw [if_neg hlt] at h
      cases h
      exact (key _ hc hr).2 hlt

theorem insertHashMap_nonempty (st : State) (n : Nat) (holder : Ptr) (s : Status)
    (h : st.insertMap_ ≠ []) :
    (insertHashMap st n holder s).2 =
      { st with
          wait_count_ := if s ≠ Status.FILLED then st.wait_count_ + 1 else st.wait_count_,
          insertMap_ := st.insertMap_ ++
            [((st.rd n).id_,
              { nodePtr_ := if s = Status.NODE_WAIT then Ptr.node n else holder, status_ := s })] } := by
  have hemp : st.insertMap_.isEmpty = false := by
    cases hm : st.insertMap_ with
    | nil => exact absurd hm h
    | cons _ _ => rfl
  simp [insertHashMap, hemp]

theorem stepNode_nonempty {st : State} {n : Nat} {holder : Ptr} {parent : Option Nat}
    {r : Int × State} (h : stepNode st n holder parent = Except.ok r) (hr : r.1 ≠ -EINVAL) :
    r.2.insertMap_ ≠ [] := by
  obtain ⟨-, -, -, hcase⟩ := stepNode_table st n holder parent r h
  rcases hcase with ⟨he, -⟩ | ⟨-, -, ⟨ptr, hm⟩, -, -⟩ | ⟨-, hf, j, f, hj, -, -, hm, -⟩
  · exact absurd he hr
  · rw [hm]; simp
  · rw [hm]
    intro h0
    have := congrArg List.length h0
    rw [modifyRef_length] at this
    simp only [List.length_nil] at this
    omega

theorem parsedCells_length (base : Nat) (p : PNode) :
    (parsedCells base p).length =
      1 + (if p.left_ = none then 0 else 1) + (if p.right_ = none then 0 else 1) := by
  obtain ⟨i, l, r, d⟩ := p
  cases l <;> cases r <;> simp [parsedCells]

theorem parsedCells_top (base : Nat) (p : PNode) :
    ((parsedCells base p).getD 0 node.zero).descr_ = p.descr_ ∧
      (p.left_ ≠ none → ((parsedCells base p).getD 0 node.zero).left_ = some (base + 1)) ∧
      (p.right_ ≠ none → ((parsedCells base p).getD 0 node.zero).right_ =
        some (if p.left_ = none then base + 1 else base + 2)) := by
  obtain ⟨i, l, r, d⟩ := p
  cases l <;> cases r <;> simp [parsedCells]

/-- The loop of decodeFile does not see the lines that are empty or that
`parseLine` rejects. -/
theorem readLines_filter (c : Bool) (lines : List (List Char)) (st : State)
    (hc : st.complete_tree_ = c) :
    readLines st lines =
      readLines st (lines.filter (fun line =>
        decide (line.length ≠ 0) && decide (parseLine c line ≠ ParseResult.null))) := by
  induction lines generalizing st with
  | nil => rfl
  | cons line rest ih =>
    by_cases hlen : line.length = 0
    · rw [readLines_cons_empty _ _ _ hlen, List.filter_cons_of_neg (by simp [hlen])]
      exact ih st hc
    · cases hp : parseLine c line with
      | null =>
        rw [readLines_cons_null _ _ _ hlen (by rw [hc]; exact hp),
          List.filter_cons_of_neg (by simp [hp])]
        exact ih st hc
      | nullDeref =>
        rw [List.filter_cons_of_pos (by simp [hlen, hp]),
          readLines_cons_crash _ _ _ hlen (by rw [hc]; exact hp),
          readLines_cons_crash _ _ _ hlen (by rw [hc]; exact hp)]
      | node p =>
        rw [List.filter_cons_of_pos (by simp [hlen, hp]),
          readLines_cons_node _ _ _ p (by rw [hc]; exact hp),
          readLines_cons_node _ _ _ p (by rw [hc]; exact hp)]
        cases hres : processNode ((allocParsed st p).2.cells.length + 1) (allocParsed st p).2
            (allocParsed st p).1 Ptr.null none with
        | error f => rfl
        | ok res =>
          simp only
          by_cases hlt : res.1 < 0
          · rw [if_pos hlt, if_pos hlt]
          · rw [if_neg hlt, if_neg hlt]
            apply ih
            exact (processNode_flags c (allocParsed st p).2.duplicate_ids_ _ _ _ _ _ _
              ⟨by rw [(allocParsed_fields st p).2.2.2.2.1]; exact hc, rfl⟩ hres).1

/-! ## The wait count after a rejected record -/

theorem freeN_table (st : State) (n : Option Nat) :
    (freeN st n).insertMap_ = st.insertMap_ ∧ (freeN st n).wait_count_ = st.wait_count_ := by
  cases n with
  | none => exact ⟨rfl, rfl⟩
  | some a =>
    simp only [freeN, delete_insertMap, wr_insertMap, delete_wait, wr_wait, and_self]

/-- `wait_count_` counts the pending references after the loop, whether the
loop ended at the end of the input or at a rejected line. -/
theorem readLines_wait_any (lines : List (List Char)) (st st' : State) (b : Bool)
    (hpre : WaitInv st) (h : readLines st lines = Except.ok (b, st')) : WaitInv st' := by
  induction lines generalizing st with
  | nil =>
    rw [readLines_nil] at h
    simp only [Except.ok.injEq, Prod.mk.injEq] at h
    rw [← h.2]; exact hpre
  | cons line rest ih =>
    by_cases hlen : line.length = 0
    · rw [readLines_cons_empty _ _ _ hlen] at h
      exact ih st hpre h
    · cases hp : parseLine st.complete_tree_ line with
      | nullDeref => rw [readLines_cons_crash _ _ _ hlen hp] at h; cases h
      | null =>
        rw [readLines_cons_null _ _ _ hlen hp] at h
        exact ih st hpre h
      | node p =>
        rw [readLines_cons_node _ _ _ p hp] at h
        cases hres : processNode ((allocParsed st p).2.cells.length + 1) (allocParsed st p).2
            (allocParsed st p).1 Ptr.null none with
        | error f => simp [hres] at h
        | ok res =>
          simp only [hres] at h
          obtain ⟨a1, a2, -⟩ := allocParsed_fields st p
          have hw : WaitInv res.2 :=
            processNode_wait _ _ _ _ _ _ (by unfold WaitInv; rw [a1, a2]; exact hpre) hres
          by_cases hlt : res.1 < 0
          · rw [if_pos hlt] at h
            simp only [Except.ok.injEq, Prod.mk.injEq] at h
            rw [← h.2]
            unfold WaitInv
            rw [(freeN_table _ _).1, (freeN_table _ _).2]
            exact hw
          · rw [if_neg hlt] at h
            exact ih _ hw h

/-! ## Where the label-less nodes are -/


theorem labelled_weaken {st : State} {U V : Ptr → Prop} (h : Labelled st U)
    (huv : ∀ q, U q → V q) : Labelled st V := by
  obtain ⟨j1, j2, j3⟩ := h
  refine ⟨j1, fun q m hq => ?_, j3⟩
  rcases j2 q m hq with h1 | h1 | h1
  · exact Or.inl h1
  · exact Or.inr (Or.inl (huv q h1))
  · exact Or.inr (Or.inr h1)

/-- What a child field holds after a write through a pointer to it. -/
theorem writeSlot_slotOf_self {st st1 : State} {p : Ptr} {v : Option Nat} {m : Nat}
    (h : st.writeSlot p v = Except.ok st1) (hm : slotOf st1 p = some m) : v = some m := by
  cases p with
  | null => simp [State.writeSlot] at h
  | node a => simp [State.writeSlot] at h
  | root => simp [slotOf] at hm
  | left a =>
    simp only [State.writeSlot, Except.ok.injEq] at h
    subst h
    simp only [slotOf, wr_rd] at hm
    by_cases ha : a < st.cells.length
    · simpa [ha] using hm
    · simp only [ha, and_false, if_false] at hm
      have : st.rd a = node.zero := by
        unfold State.rd
        exact List.getD_eq_default _ _ (by omega)
      rw [this] at hm
      simp [node.zero] at hm
  | right a =>
    simp only [State.writeSlot, Except.ok.injEq] at h
    subst h
    simp only [slotOf, wr_rd] at hm
    by_cases ha : a < st.cells.length
    · simpa [ha] using hm
    · simp only [ha, and_false, if_false] at hm
      have : st.rd a = node.zero := by
        unfold State.rd
        exact List.getD_eq_default _ _ (by omega)
      rw [this] at hm
      simp [node.zero] at hm

/-- The step of the described node of a record keeps the labels in place. -/
theorem stepNode_labelled_top {st : State} {U : Ptr → Prop} {n : Nat} {holder : Ptr}
    {parent : Option Nat} {r : Int × State} (hL : Labelled st U)
    (hd : (st.rd n).descr_ ≠ none)
    (h : stepNode st n holder parent = Except.ok r) (hr : r.1 ≠ -EINVAL) :
    Labelled r.2 U := by
  refine stepNode_cases (fun s => Labelled s U) st n holder parent ?_ ?_ ?_ ?_ r h hr
  · -- a new reference
    intro _
    obtain ⟨-, -, ⟨ptr, hm⟩, -, hroot, hcells, -⟩ := insertHashMap_table st n holder _ rfl
    have hptr := insertHashMap_ptr st n holder
      (if (st.rd n).descr_ = none then Status.NONNODE_WAIT else Status.NODE_WAIT)
    have hns : newStatus st n ≠ Status.NONNODE_WAIT := by
      unfold newStatus
      by_cases hemp : st.insertMap_.isEmpty = true
      · rw [if_pos hemp]; decide
      · rw [if_neg hemp, if_neg hd]; decide
    have hnw : newStatus st n = Status.NODE_WAIT → ptr = Ptr.node n := by
      intro hs
      have hemp : st.insertMap_.isEmpty = false := by
        unfold newStatus at hs
        by_cases hemp : st.insertMap_.isEmpty = true
        · rw [if_pos hemp] at hs; cases hs
        · simpa using hemp
      have := congrArg State.insertMap_ (insertHashMap_nonempty st n holder
        (if (st.rd n).descr_ = none then Status.NONNODE_WAIT else Status.NODE_WAIT)
        (by intro h0; rw [h0] at hemp; cases hemp))
      rw [hm] at this
      simp only [if_neg hd] at this
      have h2 := List.append_cancel_left this
      simp only [List.cons.injEq, Prod.mk.injEq, and_true, true_and] at h2
      have h3 := congrArg hash_ref.nodePtr_ h2
      simpa using h3
    generalize (insertHashMap st n holder
      (if (st.rd n).descr_ = none then Status.NONNODE_WAIT else Status.NODE_WAIT)) = q
      at hm hroot hcells hptr ⊢
    have hrd : ∀ a, q.2.rd a = st.rd a := rd_congr hcells
    have hsl : ∀ p, slotOf q.2 p = slotOf st p := slotOf_congr hcells
    obtain ⟨j1, j2, j3⟩ := hL
    refine ⟨?_, ?_, ?_⟩
    · intro t ht
      rw [hroot] at ht
      rw [hrd]
      by_cases hemp : st.insertMap_.isEmpty = true
      · rw [if_pos hemp] at ht
        cases ht
        exact hd
      · rw [if_neg hemp] at ht
        exact j1 t ht
    · intro p m hp
      rw [hsl] at hp
      rw [hrd]
      rcases j2 p m hp with h1 | h1 | ⟨e, he, hs, hq⟩
      · exact Or.inl h1
      · exact Or.inr (Or.inl h1)
      · exact Or.inr (Or.inr ⟨e, by rw [hm]; exact List.mem_append_left _ he, hs, hq⟩)
    · intro e he hs
      rw [hm] at he
      rcases List.mem_append.1 he with h1 | h1
      · obtain ⟨t, t1, t2⟩ := j3 e h1 hs
        exact ⟨t, t1, by rw [hrd]; exact t2⟩
      · simp only [List.mem_singleton] at h1
        subst h1
        simp only at hs ⊢
        exact ⟨n, hnw hs, by rw [hrd]; exact hd⟩
  · intro i tn st1 _ _ _ hd2 _ _
    exact absurd hd2 hd
  · -- the node replaces a placeholder
    intro i tfree st1 hi hs _ hrd hw
    obtain ⟨w1, -, -, -, -, -, w7, w8⟩ := writeSlot_fields hw
    obtain ⟨i1, -, -⟩ := scanRefs_found hi
    obtain ⟨j1, j2, j3⟩ := hL
    have hmap : (markFilled { st1.delete tfree with
        wait_count_ := (st1.delete tfree).wait_count_ - 1 } i).2.insertMap_ =
        modifyRef (fun r => { r with status_ := Status.FILLED }) i st.insertMap_ := by
      simp only [markFilled, w1, delete_insertMap]
    have hcells : (markFilled { st1.delete tfree with
        wait_count_ := (st1.delete tfree).wait_count_ - 1 } i).2.cells = st1.cells := by
      simp only [markFilled, delete_cells]
    have hroot : (markFilled { st1.delete tfree with
        wait_count_ := (st1.delete tfree).wait_count_ - 1 } i).2.decodedTree_ =
        st1.decodedTree_ := by
      simp only [markFilled, delete_root]
    generalize (markFilled { st1.delete tfree with
        wait_count_ := (st1.delete tfree).wait_count_ - 1 } i).2 = s2
      at hmap hcells hroot ⊢
    have hdescr : ∀ a, (s2.rd a).descr_ = (st.rd a).descr_ := by
      intro a; rw [rd_congr hcells]; exact (w7 a).2
    refine ⟨?_, ?_, ?_⟩
    · intro t ht
      rw [hroot] at ht
      rw [hdescr]
      rcases w8 with w8 | ⟨-, w8⟩
      · rw [w8] at ht; exact j1 t ht
      · rw [w8] at ht; cases ht; exact hd
    · intro p m hp
      rw [slotOf_congr hcells] at hp
      rw [hdescr]
      by_cases hpi : p = (getRef st.insertMap_ i).nodePtr_
      · rw [hpi] at hp
        have := writeSlot_slotOf_self hw hp
        cases this
        exact Or.inl hd
      · rw [writeSlot_slotOf hw p hpi] at hp
        rcases j2 p m hp with h1 | h1 | ⟨e, he, hse, hq⟩
        · exact Or.inl h1
        · exact Or.inr (Or.inl h1)
        · refine Or.inr (Or.inr ⟨e, ?_, hse, hq⟩)
          rw [hmap]
          apply mem_modifyRef_keep he
          intro h0
          rw [h0] at hq
          exact hpi hq.symm
    · intro e he hse
      rw [hmap] at he
      rcases mem_modifyRef he with h1 | ⟨-, h1⟩
      · obtain ⟨t, t1, t2⟩ := j3 e h1 hse
        exact ⟨t, t1, by rw [hdescr]; exact t2⟩
      · rw [h1] at hse; cases hse
  · intro i par cur st2 _ _ hd2 _ _ _ _
    exact absurd hd2 hd

/-- The step of a child placeholder keeps the labels in place: its field gets
a node with a label, or a NONNODE_WAIT reference points to the field from now
on. -/
theorem stepNode_labelled_child {st : State} {U : Ptr → Prop} {n b : Nat} {holder : Ptr}
    {r : Int × State} (hL : Labelled st U)
    (hd : (st.rd n).descr_ = none)
    (hh : holder = Ptr.left b ∨ holder = Ptr.right b)
    (hb : (st.rd b).descr_ ≠ none) (hne : st.insertMap_ ≠ [])
    (h : stepNode st n holder (some b) = Except.ok r) (hr : r.1 ≠ -EINVAL) :
    Labelled r.2 (fun q => U q ∧ q ≠ holder) := by
  have hhr : holder ≠ Ptr.root := by rcases hh with rfl | rfl <;> simp
  refine stepNode_cases (fun s => Labelled s (fun q => U q ∧ q ≠ holder))
    st n holder (some b) ?_ ?_ ?_ ?_ r h hr
  · -- a new reference
    intro _
    rw [if_pos hd, insertHashMap_nonempty st n holder _ hne]
    simp only [if_neg (show ¬ Status.NONNODE_WAIT = Status.NODE_WAIT by decide)]
    obtain ⟨j1, j2, j3⟩ := hL
    refine ⟨j1, ?_, ?_⟩
    · intro p m hp
      by_cases hph : p = holder
      · right; right
        exact ⟨_, List.mem_append_right _ (List.mem_singleton_self _), rfl, hph.symm⟩
      · rcases j2 p m hp with h1 | h1 | ⟨e, he, hs, hq⟩
        · exact Or.inl h1
        · exact Or.inr (Or.inl ⟨h1, hph⟩)
        · exact Or.inr (Or.inr ⟨e, List.mem_append_left _ he, hs, hq⟩)
    · intro e he hs
      rcases List.mem_append.1 he with h1 | h1
      · exact j3 e h1 hs
      · simp only [List.mem_singleton] at h1
        subst h1
        cases hs
  · -- attached to a node that was waiting
    intro i tn st1 hi hs htn _ _ hw
    obtain ⟨w1, -, -, -, -, -, w7, w8⟩ := writeSlot_fields hw
    obtain ⟨i1, -, -⟩ := scanRefs_found hi
    obtain ⟨j1, j2, j3⟩ := hL
    have hmem := getRef_mem i1
    obtain ⟨t, t1, t2⟩ := j3 _ hmem hs
    simp only at t1
    rw [htn] at t1
    cases t1
    have hmap : (markFilled
        { st1 with
            insertMap_ := modifyRef (fun r => { r with nodePtr_ := holder }) i st1.insertMap_,
            wait_count_ := st1.wait_count_ - 1 } i).2.insertMap_ =
        modifyRef (fun r => { nodePtr_ := holder, status_ := Status.FILLED }) i st.insertMap_ := by
      simp only [markFilled, w1, delete_insertMap]
      rw [modifyRef_modifyRef]
    have hcells : (markFilled
        { st1 with
            insertMap_ := modifyRef (fun r => { r with nodePtr_ := holder }) i st1.insertMap_,
            wait_count_ := st1.wait_count_ - 1 } i).2.cells = st1.cells := rfl
    have hroot : (markFilled
        { st1 with
            insertMap_ := modifyRef (fun r => { r with nodePtr_ := holder }) i st1.insertMap_,
            wait_count_ := st1.wait_count_ - 1 } i).2.decodedTree_ = st.decodedTree_ := by
      rcases w8 with w8 | ⟨w8, -⟩
      · simpa [markFilled] using w8
      · exact absurd w8 hhr
    generalize (markFilled
        { st1 with
            insertMap_ := modifyRef (fun r => { r with nodePtr_ := holder }) i st1.insertMap_,
            wait_count_ := st1.wait_count_ - 1 } i).2 = s2 at hmap hcells hroot ⊢
    have hdescr : ∀ a, (s2.rd a).descr_ = (st.rd a).descr_ := by
      intro a; rw [rd_congr hcells]; simpa [State.rd] using (w7 a).2
    refine ⟨?_, ?_, ?_⟩
    · intro t0 ht
      rw [hroot] at ht
      rw [hdescr]
      exact j1 t0 ht
    · intro p m hp
      rw [slotOf_congr hcells] at hp
      rw [hdescr]
      by_cases hph : p = holder
      · rw [hph] at hp
        have := writeSlot_slotOf_self hw hp
        cases this
        exact Or.inl t2
      · rw [writeSlot_slotOf hw p hph, slotOf_congr (s := st.delete (some n)) (t := st) rfl] at hp
        rcases j2 p m hp with h1 | h1 | ⟨e, he, hse, hq⟩
        · exact Or.inl h1
        · exact Or.inr (Or.inl ⟨h1, hph⟩)
        · refine Or.inr (Or.inr ⟨e, ?_, hse, hq⟩)
          rw [hmap]
          apply mem_modifyRef_keep he
          intro h0
          rw [h0] at hse
          simp only at hse
          rw [hs] at hse
          cases hse
    · intro e he hse
      rw [hmap] at he
      rcases mem_modifyRef he with h1 | ⟨-, h1⟩
      · obtain ⟨t0, t3, t4⟩ := j3 e h1 hse
        exact ⟨t0, t3, by rw [hdescr]; exact t4⟩
      · rw [h1] at hse; cases hse
  · -- a placeholder fills no reference
    intro i tfree st1 _ _ hd2 _ _
    exact absurd hd hd2
  · -- the root moves under the parent
    intro i par cur st2 hi hs _ hpar hrd hw hmp
    cases hpar
    obtain ⟨w1, -, -, -, -, -, w7, -⟩ := writeSlot_fields hw
    obtain ⟨i1, -, i3⟩ := scanRefs_found hi
    have hpi : (getRef st.insertMap_ i).nodePtr_ = Ptr.root := by
      by_contra h0
      exact i3 ⟨hs, h0⟩
    rw [hpi] at hrd
    simp only [State.readSlot, delete_root, Except.ok.injEq] at hrd
    obtain ⟨c1, -, c3⟩ := markParentFilled_store { st2 with decodedTree_ := some b } b
    obtain ⟨j1, j2, j3⟩ := hL
    rcases markParentFilled_cases { st2 with decodedTree_ := some b } b with
      ⟨m1, -⟩ | ⟨j, hj, -, m3⟩
    · rw [m1] at hmp; exact absurd (by decide) hmp
    obtain ⟨-, -, u3⟩ := scanNodeWait_found hj
    simp only [w1, delete_insertMap] at u3
    have hmap : (markFilled (markParentFilled { st2 with decodedTree_ := some b } b).2
        i).2.insertMap_ =
        modifyRef (fun r => { r with status_ := Status.FILLED }) i
          (modifyRef (fun r => { r with status_ := Status.FILLED }) j st.insertMap_) := by
      rw [m3]
      simp only [markFilled, w1, delete_insertMap]
    have hcells : (markFilled (markParentFilled { st2 with decodedTree_ := some b } b).2
        i).2.cells = st2.cells := c1
    have hroot : (markFilled (markParentFilled { st2 with decodedTree_ := some b } b).2
        i).2.decodedTree_ = some b := c3
    generalize (markFilled (markParentFilled { st2 with decodedTree_ := some b } b).2
        i).2 = s2 at hmap hcells hroot ⊢
    have hdescr : ∀ a, (s2.rd a).descr_ = (st.rd a).descr_ := by
      intro a; rw [rd_congr hcells]; simpa [State.rd] using (w7 a).2
    refine ⟨?_, ?_, ?_⟩
    · intro t0 ht
      rw [hroot] at ht
      cases ht
      rw [hdescr]
      exact hb
    · intro p m hp
      rw [slotOf_congr hcells] at hp
      rw [hdescr]
      by_cases hph : p = holder
      · rw [hph] at hp
        have := writeSlot_slotOf_self hw hp
        rw [← hrd] at this
        exact Or.inl (j1 m this)
      · rw [writeSlot_slotOf hw p hph, slotOf_congr (s := st.delete (some n)) (t := st) rfl] at hp
        rcases j2 p m hp with h1 | h1 | ⟨e, he, hse, hq⟩
        · exact Or.inl h1
        · exact Or.inr (Or.inl ⟨h1, hph⟩)
        · refine Or.inr (Or.inr ⟨e, ?_, hse, hq⟩)
          rw [hmap]
          apply mem_modifyRef_keep
          · apply mem_modifyRef_keep he
            intro h0
            rw [h0] at hse
            simp only at hse
            rw [u3] at hse
            cases hse
          · intro h0
            rw [h0] at hse
            simp only at hse
            rw [modifyRef_getRef] at hse
            split at hse
            · cases hse
            · rw [hs] at hse; cases hse
    · intro e he hse
      rw [hmap] at he
      rcases mem_modifyRef he with h1 | ⟨-, h1⟩
      · rcases mem_modifyRef h1 with h2 | ⟨-, h2⟩
        · obtain ⟨t0, t3, t4⟩ := j3 e h2 hse
          exact ⟨t0, t3, by rw [hdescr]; exact t4⟩
        · rw [h2] at hse; cases hse
      · rw [h1] at hse; cases hse

/-! ## One owner per node: the bookkeeping -/

/-- An owner takes the node in progress; what it held before is dead. -/
theorem ownCore_take {len : Nat} {dead dead1 : Nat → Prop} {held held1 : Owner → Option Nat}
    {T : Nat → Prop} {n : Nat} (o0 : Owner)
    (h : OwnCore len dead held T) (hT : T n) (hn : n < len) (hnd : ¬ dead n)
    (h0 : held1 o0 = some n) (hother : ∀ o, o ≠ o0 → held1 o = held o)
    (hdead : ∀ m, dead1 m ↔ dead m ∨ held o0 = some m) :
    OwnCore len dead1 held1 (fun m => T m ∧ m ≠ n) := by
  obtain ⟨hE, hU, hF⟩ := h
  refine ⟨?_, ?_, ?_⟩
  · intro m hm hd
    have hd0 : ¬ dead m := fun hx => hd ((hdead m).2 (Or.inl hx))
    have hne : held o0 ≠ some m := fun hx => hd ((hdead m).2 (Or.inr hx))
    rcases hE m hm hd0 with h1 | ⟨o, ho⟩
    · by_cases hmn : m = n
      · right; exact ⟨o0, by rw [h0, hmn]⟩
      · left; exact ⟨h1, hmn⟩
    · right
      refine ⟨o, ?_⟩
      rw [hother o (fun hx => hne (hx ▸ ho))]
      exact ho
  · intro o1 o2 m h1 h2
    by_cases e1 : o1 = o0
    · by_cases e2 : o2 = o0
      · rw [e1, e2]
      · rw [e1, h0] at h1
        rw [hother o2 e2] at h2
        have hm : n = m := Option.some.inj h1
        exact absurd hT (hm ▸ (hF o2 m h2).2.2)
    · by_cases e2 : o2 = o0
      · rw [e2, h0] at h2
        rw [hother o1 e1] at h1
        have hm : n = m := Option.some.inj h2
        exact absurd hT (hm ▸ (hF o1 m h1).2.2)
      · rw [hother o1 e1] at h1
        rw [hother o2 e2] at h2
        exact hU o1 o2 m h1 h2
  · intro o m ho
    by_cases e : o = o0
    · rw [e, h0] at ho
      have hm : n = m := Option.some.inj ho
      subst hm
      refine ⟨hn, ?_, fun hx => hx.2 rfl⟩
      intro hx
      rcases (hdead n).1 hx with h1 | h1
      · exact hnd h1
      · exact (hF o0 n h1).2.2 hT
    · rw [hother o e] at ho
      obtain ⟨f1, f2, f3⟩ := hF o m ho
      refine ⟨f1, ?_, fun hx => f3 hx.1⟩
      intro hx
      rcases (hdead m).1 hx with h1 | h1
      · exact f2 h1
      · exact e (hU o o0 m ho h1)

/-- An owner takes what another owner holds; what it held before is dead. -/
theorem ownCore_move {len : Nat} {dead dead1 : Nat → Prop} {held held1 : Owner → Option Nat}
    {T : Nat → Prop} {N : Nat} (o1 o2 : Owner)
    (h : OwnCore len dead held T) (hne : o1 ≠ o2) (h2 : held o2 = some N)
    (k1 : held1 o1 = some N) (k2 : held1 o2 = none)
    (hother : ∀ o, o ≠ o1 → o ≠ o2 → held1 o = held o)
    (hdead : ∀ m, dead1 m ↔ dead m ∨ held o1 = some m) :
    OwnCore len dead1 held1 T := by
  obtain ⟨hE, hU, hF⟩ := h
  refine ⟨?_, ?_, ?_⟩
  · intro m hm hd
    have hd0 : ¬ dead m := fun hx => hd ((hdead m).2 (Or.inl hx))
    have hn1 : held o1 ≠ some m := fun hx => hd ((hdead m).2 (Or.inr hx))
    rcases hE m hm hd0 with h1 | ⟨o, ho⟩
    · exact Or.inl h1
    · right
      by_cases e2 : o = o2
      · rw [e2, h2] at ho
        exact ⟨o1, by rw [k1, ho]⟩
      · exact ⟨o, by rw [hother o (fun hx => hn1 (hx ▸ ho)) e2]; exact ho⟩
  · intro a b m ha hb
    have key : ∀ o, held1 o = some m → o ≠ o1 → held o = some m ∧ o ≠ o2 := by
      intro o ho e1
      have e2 : o ≠ o2 := fun hx => by rw [hx, k2] at ho; cases ho
      exact ⟨by rw [← hother o e1 e2]; exact ho, e2⟩
    by_cases ea : a = o1
    · by_cases eb : b = o1
      · rw [ea, eb]
      · rw [ea, k1] at ha
        have hm : N = m := Option.some.inj ha
        obtain ⟨hb1, hb2⟩ := key b hb eb
        exact absurd (hU b o2 m hb1 (hm ▸ h2)) hb2
    · by_cases eb : b = o1
      · rw [eb, k1] at hb
        have hm : N = m := Option.some.inj hb
        obtain ⟨ha1, ha2⟩ := key a ha ea
        exact absurd (hU a o2 m ha1 (hm ▸ h2)) ha2
      · exact hU a b m (key a ha ea).1 (key b hb eb).1
  · intro o m ho
    by_cases e1 : o = o1
    · rw [e1, k1] at ho
      have hm : N = m := Option.some.inj ho
      subst hm
      obtain ⟨f1, f2, f3⟩ := hF o2 N h2
      refine ⟨f1, ?_, f3⟩
      intro hx
      rcases (hdead N).1 hx with h1 | h1
      · exact f2 h1
      · exact hne (hU o1 o2 N h1 h2)
    · have e2 : o ≠ o2 := fun hx => by rw [hx, k2] at ho; cases ho
      rw [hother o e1 e2] at ho
      obtain ⟨f1, f2, f3⟩ := hF o m ho
      refine ⟨f1, ?_, f3⟩
      intro hx
      rcases (hdead m).1 hx with h1 | h1
      · exact f2 h1
      · exact e1 (hU o o1 m ho h1)

/-- The same owners and the same dead cells give the same ownership. -/
theorem ownCore_congr {len : Nat} {dead dead1 : Nat → Prop} {held held1 : Owner → Option Nat}
    {T T1 : Nat → Prop} (h : OwnCore len dead held T)
    (hh : ∀ o, held1 o = held o) (hd : ∀ m, dead1 m ↔ dead m) (hT : ∀ m, T1 m ↔ T m) :
    OwnCore len dead1 held1 T1 := by
  obtain ⟨hE, hU, hF⟩ := h
  refine ⟨?_, ?_, ?_⟩
  · intro m hm hdm
    rcases hE m hm (fun hx => hdm ((hd m).2 hx)) with h1 | ⟨o, ho⟩
    · exact Or.inl ((hT m).2 h1)
    · exact Or.inr ⟨o, by rw [hh]; exact ho⟩
  · intro o1 o2 m h1 h2
    rw [hh] at h1 h2
    exact hU o1 o2 m h1 h2
  · intro o m ho
    rw [hh] at ho
    obtain ⟨f1, f2, f3⟩ := hF o m ho
    exact ⟨f1, fun hx => f2 ((hd m).1 hx), fun hx => f3 ((hT m).1 hx)⟩

/-- A new cell joins as the node in progress. -/
theorem ownCore_new {len : Nat} {dead : Nat → Prop} {held : Owner → Option Nat}
    {T : Nat → Prop} (h : OwnCore len dead held T) :
    OwnCore (len + 1) dead held (fun m => T m ∨ m = len) := by
  obtain ⟨hE, hU, hF⟩ := h
  refine ⟨?_, hU, ?_⟩
  · intro m hm hdm
    by_cases hlt : m < len
    · rcases hE m hlt hdm with h1 | h1
      · exact Or.inl (Or.inl h1)
      · exact Or.inr h1
    · exact Or.inl (Or.inr (by omega))
  · intro o m ho
    obtain ⟨f1, f2, f3⟩ := hF o m ho
    refine ⟨by omega, f2, ?_⟩
    rintro (hx | hx)
    · exact f3 hx
    · omega

/-! ## One owner per node through the steps of a record -/

theorem getRef_append_lt (m : List (Int × hash_ref)) (e : Int × hash_ref) {k : Nat}
    (h : k < m.length) : getRef (m ++ [e]) k = getRef m k := by
  unfold getRef
  simp only [List.getD_eq_getElem?_getD]
  rw [List.getElem?_append_left h]

theorem getKey_append_lt (m : List (Int × hash_ref)) (e : Int × hash_ref) {k : Nat}
    (h : k < m.length) : getKey (m ++ [e]) k = getKey m k := by
  unfold getKey
  simp only [List.getD_eq_getElem?_getD]
  rw [List.getElem?_append_left h]

theorem getRef_append_eq (m : List (Int × hash_ref)) (e : Int × hash_ref) :
    getRef (m ++ [e]) m.length = e.2 := by
  unfold getRef
  simp [List.getD_eq_getElem?_getD]

theorem getRef_ge (m : List (Int × hash_ref)) {k : Nat} (h : m.length ≤ k) :
    getRef m k = { nodePtr_ := Ptr.null, status_ := Status.NONE } := by
  unfold getRef
  simp only [List.getD_eq_getElem?_getD]
  rw [List.getElem?_eq_none h]
  rfl

theorem heldBy_wait_iff (st : State) (i t : Nat) :
    heldBy st (Owner.wait i) = some t ↔
      (getRef st.insertMap_ i).status_ = Status.NODE_WAIT ∧
        (getRef st.insertMap_ i).nodePtr_ = Ptr.node t := by
  simp only [heldBy]
  constructor
  · intro h
    split at h
    · rename_i hs
      split at h
      · rename_i t1 hp
        exact ⟨hs, by rw [hp, Option.some.inj h]⟩
      · cases h
    · cases h
  · rintro ⟨h1, h2⟩
    rw [if_pos h1, h2]

theorem heldBy_wait_ge (st : State) {k : Nat} (h : st.insertMap_.length ≤ k) :
    heldBy st (Owner.wait k) = none := by
  simp only [heldBy]
  rw [getRef_ge _ h]
  simp

/-- What the references hold depends on the table only. -/
theorem heldBy_wait_congr {s t : State} (h : t.insertMap_ = s.insertMap_) (k : Nat) :
    heldBy t (Owner.wait k) = heldBy s (Owner.wait k) := by
  simp only [heldBy]
  rw [h]

theorem heldBy_wait_append {s t : State} {e : Int × hash_ref}
    (h : t.insertMap_ = s.insertMap_ ++ [e]) {k : Nat} (hk : k ≠ s.insertMap_.length) :
    heldBy t (Owner.wait k) = heldBy s (Owner.wait k) := by
  by_cases hlt : k < s.insertMap_.length
  · simp only [heldBy]
    rw [h, getRef_append_lt _ _ hlt]
  · rw [heldBy_wait_ge s (by omega), heldBy_wait_ge t (by rw [h]; simp; omega)]

theorem heldBy_wait_modifyRef {s t : State} {f : hash_ref → hash_ref} {i : Nat}
    (h : t.insertMap_ = modifyRef f i s.insertMap_) {k : Nat} (hk : k ≠ i) :
    heldBy t (Owner.wait k) = heldBy s (Owner.wait k) := by
  have hg : getRef t.insertMap_ k = getRef s.insertMap_ k := by
    rw [h, modifyRef_getRef, if_neg (fun hx => hk hx.1)]
  simp only [heldBy, hg]

theorem heldBy_wait_getRef {s t : State} {k : Nat}
    (h : getRef t.insertMap_ k = getRef s.insertMap_ k) :
    heldBy t (Owner.wait k) = heldBy s (Owner.wait k) := by
  simp only [heldBy, h]

theorem heldBy_wait_filled {t : State} {i : Nat}
    (h : (getRef t.insertMap_ i).status_ ≠ Status.NODE_WAIT) :
    heldBy t (Owner.wait i) = none := by
  simp only [heldBy]
  rw [if_neg h]

/-- A field that holds a node holds what is written into it. -/
theorem writeSlot_slotOf_eq {st st1 : State} {p : Ptr} {v : Option Nat} {m : Nat}
    (hm : slotOf st p = some m) (h : st.writeSlot p v = Except.ok st1) :
    slotOf st1 p = v := by
  have hlen : ∀ a, (st.rd a).left_ ≠ none ∨ (st.rd a).right_ ≠ none → a < st.cells.length := by
    intro a ha
    by_contra hge
    have : st.rd a = node.zero := by
      unfold State.rd
      simp only [List.getD_eq_getElem?_getD]
      rw [List.getElem?_eq_none (by omega)]
      rfl
    rw [this] at ha
    simp [node.zero] at ha
  cases p with
  | null => simp [slotOf] at hm
  | node a => simp [slotOf] at hm
  | root => simp [slotOf] at hm
  | left a =>
    simp only [slotOf] at hm
    have ha := hlen a (Or.inl (by rw [hm]; simp))
    simp only [State.writeSlot, Except.ok.injEq] at h
    subst h
    simp only [slotOf, wr_rd, ha, and_self, if_true]
  | right a =>
    simp only [slotOf] at hm
    have ha := hlen a (Or.inr (by rw [hm]; simp))
    simp only [State.writeSlot, Except.ok.injEq] at h
    subst h
    simp only [slotOf, wr_rd, ha, and_self, if_true]

theorem slotOf_root (st : State) : slotOf st Ptr.root = none := rfl

/-- The reference for the node of the record in progress: it has the id of the
node, and while it is NODE_WAIT it holds the node. -/
theorem tableStep_entry {st : State} {n : Nat} {r : Int × State} (h : TableStep st n r)
    {x : Int} {b : Nat}
    (hp : ∃ k, k < st.insertMap_.length ∧ getKey st.insertMap_ k = x ∧
      ((getRef st.insertMap_ k).status_ = Status.NODE_WAIT →
        (getRef st.insertMap_ k).nodePtr_ = Ptr.node b)) :
    ∃ k, k < r.2.insertMap_.length ∧ getKey r.2.insertMap_ k = x ∧
      ((getRef r.2.insertMap_ k).status_ = Status.NODE_WAIT →
        (getRef r.2.insertMap_ k).nodePtr_ = Ptr.node b) := by
  obtain ⟨k, k1, k2, k3⟩ := hp
  obtain ⟨-, -, -, hcase⟩ := h
  rcases hcase with ⟨-, -, hm, -⟩ | ⟨-, -, ⟨ptr, hm⟩, -, -⟩ | ⟨-, -, j, f, -, -, hfil, hm, -⟩
  · rw [hm]; exact ⟨k, k1, k2, k3⟩
  · rw [hm]
    exact ⟨k, by simp; omega, by rw [getKey_append_lt _ _ k1]; exact k2,
      by rw [getRef_append_lt _ _ k1]; exact k3⟩
  · rw [hm]
    refine ⟨k, by rw [modifyRef_length]; exact k1, by rw [getKey_modifyRef]; exact k2, ?_⟩
    rw [modifyRef_getRef]
    split
    · intro hs
      rw [hfil] at hs
      cases hs
    · exact k3

/-- `ownCore_take` between two states. -/
theorem own_take {st s1 : State} {T : Nat → Prop} {n : Nat} (o0 : Owner)
    (hC : OwnCore st.cells.length (fun m => m ∈ st.freed) (heldBy st) T)
    (hT : T n) (hn : n < st.cells.length) (hnf : n ∉ st.freed)
    (hlen : s1.cells.length = st.cells.length)
    (h0 : heldBy s1 o0 = some n) (hother : ∀ o, o ≠ o0 → heldBy s1 o = heldBy st o)
    (hdead : ∀ m, m ∈ s1.freed ↔ m ∈ st.freed ∨ heldBy st o0 = some m) :
    OwnCore s1.cells.length (fun m => m ∈ s1.freed) (heldBy s1) (fun m => T m ∧ m ≠ n) := by
  rw [hlen]
  exact ownCore_take o0 hC hT hn hnf h0 hother hdead

/-- `ownCore_move` between two states. -/
theorem own_move {st s1 : State} {T : Nat → Prop} {N : Nat} (o1 o2 : Owner)
    (hC : OwnCore st.cells.length (fun m => m ∈ st.freed) (heldBy st) T)
    (hne : o1 ≠ o2) (h2 : heldBy st o2 = some N)
    (hlen : s1.cells.length = st.cells.length)
    (k1 : heldBy s1 o1 = some N) (k2 : heldBy s1 o2 = none)
    (hother : ∀ o, o ≠ o1 → o ≠ o2 → heldBy s1 o = heldBy st o)
    (hdead : ∀ m, m ∈ s1.freed ↔ m ∈ st.freed ∨ heldBy st o1 = some m) :
    OwnCore s1.cells.length (fun m => m ∈ s1.freed) (heldBy s1) T := by
  rw [hlen]
  exact ownCore_move o1 o2 hC hne h2 k1 k2 hother hdead

theorem insertHashMap_empty (st : State) (n : Nat) (holder : Ptr) (s : Status)
    (h : st.insertMap_ = []) :
    (insertHashMap st n holder s).2 =
      { st with
          decodedTree_ := some n,
          insertMap_ := [((st.rd n).id_, { nodePtr_ := Ptr.root, status_ := Status.FILLED })] } := by
  simp [insertHashMap, h]

/-- The step of the described node of a record gives the node its owner: the
root pointer, a new NODE_WAIT reference, or the field of the NONNODE_WAIT
reference of its id, whose placeholder is deleted. -/
theorem stepNode_own_top {st : State} {T : Nat → Prop} {n : Nat} {holder : Ptr}
    {parent : Option Nat} {r : Int × State} (hO : Own st T) (hdup : st.duplicate_ids_ = false)
    (hT : T n) (hn : n < st.cells.length) (hnf : n ∉ st.freed)
    (hd : (st.rd n).descr_ ≠ none)
    (h : stepNode st n holder parent = Except.ok r) (hr : r.1 ≠ -EINVAL) :
    Own r.2 (fun m => T m ∧ m ≠ n) := by
  obtain ⟨hC, hK, hR, hS, hFr⟩ := hO
  have hk := (stepNode_nodup st n holder parent r ⟨hdup, hK⟩ h).2
  revert hk
  refine stepNode_cases (fun s => KeysNodup s.insertMap_ → Own s (fun m => T m ∧ m ≠ n))
    st n holder parent ?_ ?_ ?_ ?_ r h hr
  · -- a new reference
    intro _ hk
    rw [if_neg hd] at hk ⊢
    by_cases hemp : st.insertMap_ = []
    · rw [insertHashMap_empty st n holder _ hemp] at hk ⊢
      have hroot : st.decodedTree_ = none := hR.1 hemp
      refine ⟨?_, hk, ?_, ?_, hFr⟩
      · refine own_take Owner.root hC hT hn hnf rfl rfl ?_ ?_
        · intro o ho
          cases o with
          | root => exact absurd rfl ho
          | field q => exact slotOf_congr rfl q
          | wait k =>
            rw [heldBy_wait_ge st (by rw [hemp]; exact Nat.zero_le _)]
            by_cases hk0 : k = 0
            · subst hk0
              exact heldBy_wait_filled (by simp [getRef])
            · exact heldBy_wait_ge _ (by simp; omega)
        · intro m
          simp only [heldBy, hroot]
          simp
      · simp
      · intro e he hs
        simp only [List.mem_singleton] at he
        subst he
        cases hs
    · rw [insertHashMap_nonempty st n holder _ hemp] at hk ⊢
      simp only [if_true] at hk ⊢
      refine ⟨?_, hk, ?_, ?_, hFr⟩
      · refine own_take (Owner.wait st.insertMap_.length) hC hT hn hnf rfl ?_ ?_ ?_
        · rw [heldBy_wait_iff]
          simp only [getRef_append_eq, and_self]
        · intro o ho
          cases o with
          | root => rfl
          | field q => exact slotOf_congr rfl q
          | wait k =>
            exact heldBy_wait_append rfl (fun hx => ho (by rw [hx]))
        · intro m
          rw [heldBy_wait_ge st (Nat.le_refl _)]
          simp
      · constructor
        · intro h0; simp at h0
        · intro h0
          exact absurd (hR.2 h0) hemp
      · intro e he hs
        rcases List.mem_append.1 he with h1 | h1
        · exact hS e h1 hs
        · simp only [List.mem_singleton] at h1
          subst h1
          cases hs
  · intro i tn st1 _ _ _ hd0 _ _ _
    exact absurd hd0 hd
  · -- the node replaces the placeholder of its id
    intro i tfree st1 hi hs _ hrs hw hk
    obtain ⟨i1, -, -⟩ := scanRefs_found hi
    obtain ⟨w1, -, -, -, w5, w6, -, w8⟩ := writeSlot_fields hw
    obtain ⟨m0, hm0⟩ := hS _ (getRef_mem i1) hs
    have htf : tfree = some m0 := by
      have := readSlot_slotOf hm0
      rw [this] at hrs
      exact (Except.ok.inj hrs).symm
    subst htf
    have hq : (getRef st.insertMap_ i).nodePtr_ ≠ Ptr.root := by
      intro hx; rw [hx] at hm0; cases hm0
    have hrootw : st1.decodedTree_ = st.decodedTree_ := by
      rcases w8 with h1 | ⟨h1, -⟩
      · exact h1
      · exact absurd h1 hq
    have hslot : ∀ q, q ≠ (getRef st.insertMap_ i).nodePtr_ →
        slotOf (markFilled { st1.delete (some m0) with
          wait_count_ := (st1.delete (some m0)).wait_count_ - 1 } i).2 q = slotOf st q := by
      intro q hq2
      refine (slotOf_congr (t := st1) rfl q).trans ?_
      exact writeSlot_slotOf hw q hq2
    have hself : slotOf (markFilled { st1.delete (some m0) with
          wait_count_ := (st1.delete (some m0)).wait_count_ - 1 } i).2
        (getRef st.insertMap_ i).nodePtr_ = some n := by
      refine (slotOf_congr (t := st1) rfl _).trans ?_
      exact writeSlot_slotOf_eq hm0 hw
    have hmap : (markFilled { st1.delete (some m0) with
          wait_count_ := (st1.delete (some m0)).wait_count_ - 1 } i).2.insertMap_ =
        modifyRef (fun r => { r with status_ := Status.FILLED }) i st.insertMap_ := by
      simp only [markFilled, delete_insertMap, w1]
    have hm0b := (hC.2.2 (Owner.field (getRef st.insertMap_ i).nodePtr_) m0 hm0)
    have hlen : (markFilled { st1.delete (some m0) with
        wait_count_ := (st1.delete (some m0)).wait_count_ - 1 } i).2.cells.length =
        st.cells.length := by simpa [markFilled] using w6
    have hfreed : (markFilled { st1.delete (some m0) with
        wait_count_ := (st1.delete (some m0)).wait_count_ - 1 } i).2.freed = m0 :: st.freed := by
      simp only [markFilled, State.delete, w5]
    have hroot2 : (markFilled { st1.delete (some m0) with
        wait_count_ := (st1.delete (some m0)).wait_count_ - 1 } i).2.decodedTree_ =
        st.decodedTree_ := by
      simpa [markFilled] using hrootw
    generalize (markFilled { st1.delete (some m0) with
        wait_count_ := (st1.delete (some m0)).wait_count_ - 1 } i).2 = s1
      at hk hslot hself hmap hlen hfreed hroot2 ⊢
    have hne : st.insertMap_ ≠ [] := by
      intro h0; rw [h0] at i1; simp at i1
    refine ⟨?_, hk, ?_, ?_, ?_⟩
    · refine own_take (Owner.field (getRef st.insertMap_ i).nodePtr_) hC hT hn hnf hlen
        hself ?_ ?_
      · intro o ho
        cases o with
        | root => exact hroot2
        | field q => exact hslot q (fun hx => ho (by rw [hx]))
        | wait k =>
          by_cases hki : k = i
          · subst hki
            rw [heldBy_wait_filled (t := st) (by rw [hs]; decide)]
            apply heldBy_wait_filled
            rw [hmap, modifyRef_getRef, if_pos ⟨rfl, i1⟩]
            simp
          · exact heldBy_wait_modifyRef hmap hki
      · intro m
        rw [hfreed]
        simp only [List.mem_cons, heldBy, hm0, Option.some.injEq]
        constructor
        · rintro (h1 | h1)
          · exact Or.inr h1.symm
          · exact Or.inl h1
        · rintro (h1 | h1)
          · exact Or.inr h1
          · exact Or.inl h1.symm
    · rw [hmap, hroot2]
      constructor
      · intro h0
        have := congrArg List.length h0
        rw [modifyRef_length] at this
        exact absurd (List.length_eq_zero.1 this) hne
      · intro h0
        exact absurd (hR.2 h0) hne
    · intro e he hse
      rw [hmap] at he
      have he0 : e ∈ st.insertMap_ := by
        rcases mem_modifyRef he with h1 | ⟨-, h1⟩
        · exact h1
        · rw [h1] at hse; cases hse
      obtain ⟨m, hm⟩ := hS e he0 hse
      by_cases hq2 : e.2.nodePtr_ = (getRef st.insertMap_ i).nodePtr_
      · exact ⟨n, by rw [hq2]; exact hself⟩
      · exact ⟨m, by rw [hslot _ hq2]; exact hm⟩
    · intro m hm
      rw [hlen]
      rw [hfreed] at hm
      rcases List.mem_cons.1 hm with h1 | h1
      · rw [h1]; exact hm0b.1
      · exact hFr m h1
  · intro i par cur st2 _ _ hd0 _ _ _ _ _
    exact absurd hd0 hd

/-- The step of a child placeholder keeps one owner per node: the placeholder
stays in the field of its parent, or it is deleted and the field takes a
waiting node from its reference, or it is deleted, the field takes the root and
the parent becomes the root. -/
theorem stepNode_own_child {st : State} {T : Nat → Prop} {n b : Nat} {holder : Ptr}
    {r : Int × State} (hO : Own st T) (hdup : st.duplicate_ids_ = false)
    (hd : (st.rd n).descr_ = none)
    (hh : holder = Ptr.left b ∨ holder = Ptr.right b)
    (hslot : slotOf st holder = some n)
    (hfresh : ∀ e ∈ st.insertMap_, e.2.nodePtr_ ≠ holder)
    (hne : st.insertMap_ ≠ [])
    (hpb : ∃ k, k < st.insertMap_.length ∧ getKey st.insertMap_ k = (st.rd b).id_ ∧
      ((getRef st.insertMap_ k).status_ = Status.NODE_WAIT →
        (getRef st.insertMap_ k).nodePtr_ = Ptr.node b))
    (h : stepNode st n holder (some b) = Except.ok r) (hr : r.1 ≠ -EINVAL) :
    Own r.2 T := by
  obtain ⟨hC, hK, hR, hS, hFr⟩ := hO
  have hk := (stepNode_nodup st n holder (some b) r ⟨hdup, hK⟩ h).2
  have hnb := hC.2.2 (Owner.field holder) n hslot
  have hhr : holder ≠ Ptr.root := by rcases hh with rfl | rfl <;> simp
  revert hk
  refine stepNode_cases (fun s => KeysNodup s.insertMap_ → Own s T)
    st n holder (some b) ?_ ?_ ?_ ?_ r h hr
  · -- a new reference
    intro _ hk
    rw [if_pos hd, insertHashMap_nonempty st n holder _ hne] at hk ⊢
    simp only [if_neg (show ¬ Status.NONNODE_WAIT = Status.NODE_WAIT by decide)] at hk ⊢
    refine ⟨?_, hk, ?_, ?_, hFr⟩
    · refine ownCore_congr hC ?_ (fun m => Iff.rfl) (fun m => Iff.rfl)
      intro o
      cases o with
      | root => rfl
      | field q => exact slotOf_congr rfl q
      | wait k =>
        by_cases hkl : k = st.insertMap_.length
        · subst hkl
          rw [heldBy_wait_ge st (Nat.le_refl _)]
          apply heldBy_wait_filled
          simp only [getRef_append_eq]
          decide
        · exact heldBy_wait_append rfl hkl
    · constructor
      · intro h0; simp at h0
      · intro h0; exact absurd (hR.2 h0) hne
    · intro e he hs
      rcases List.mem_append.1 he with h1 | h1
      · exact hS e h1 hs
      · simp only [List.mem_singleton] at h1
        subst h1
        exact ⟨n, hslot⟩
  · -- attached to a node that was waiting
    intro i tn st1 hi hs hp _ _ hw hk
    obtain ⟨w1, -, -, -, w5, w6, -, w8⟩ := writeSlot_fields hw
    obtain ⟨i1, -, -⟩ := scanRefs_found hi
    have hmap : (markFilled
        { st1 with
            insertMap_ := modifyRef (fun r => { r with nodePtr_ := holder }) i st1.insertMap_,
            wait_count_ := st1.wait_count_ - 1 } i).2.insertMap_ =
        modifyRef (fun r => { nodePtr_ := holder, status_ := Status.FILLED }) i st.insertMap_ := by
      simp only [markFilled, w1, delete_insertMap]
      rw [modifyRef_modifyRef]
    have hlen : (markFilled
        { st1 with
            insertMap_ := modifyRef (fun r => { r with nodePtr_ := holder }) i st1.insertMap_,
            wait_count_ := st1.wait_count_ - 1 } i).2.cells.length = st.cells.length := by
      simpa [markFilled] using w6
    have hfreed : (markFilled
        { st1 with
            insertMap_ := modifyRef (fun r => { r with nodePtr_ := holder }) i st1.insertMap_,
            wait_count_ := st1.wait_count_ - 1 } i).2.freed = n :: st.freed := by
      simpa [markFilled, State.delete] using w5
    have hroot2 : (markFilled
        { st1 with
            insertMap_ := modifyRef (fun r => { r with nodePtr_ := holder }) i st1.insertMap_,
            wait_count_ := st1.wait_count_ - 1 } i).2.decodedTree_ = st.decodedTree_ := by
      rcases w8 with h1 | ⟨h1, -⟩
      · simpa [markFilled] using h1
      · exact absurd h1 hhr
    have hsl : ∀ q, q ≠ holder → slotOf (markFilled
        { st1 with
            insertMap_ := modifyRef (fun r => { r with nodePtr_ := holder }) i st1.insertMap_,
            wait_count_ := st1.wait_count_ - 1 } i).2 q = slotOf st q := by
      intro q hq
      refine (slotOf_congr (t := st1) rfl q).trans ?_
      rw [writeSlot_slotOf hw q hq]
      exact slotOf_congr rfl q
    have hself : slotOf (markFilled
        { st1 with
            insertMap_ := modifyRef (fun r => { r with nodePtr_ := holder }) i st1.insertMap_,
            wait_count_ := st1.wait_count_ - 1 } i).2 holder = some tn := by
      refine (slotOf_congr (t := st1) rfl holder).trans ?_
      have hsl0 : slotOf (st.delete (some n)) holder = some n :=
        (slotOf_congr (delete_cells _ _) holder).trans hslot
      exact writeSlot_slotOf_eq hsl0 hw
    generalize (markFilled
        { st1 with
            insertMap_ := modifyRef (fun r => { r with nodePtr_ := holder }) i st1.insertMap_,
            wait_count_ := st1.wait_count_ - 1 } i).2 = s1
      at hk hmap hlen hfreed hroot2 hsl hself ⊢
    have hwi : heldBy st (Owner.wait i) = some tn := (heldBy_wait_iff st i tn).2 ⟨hs, hp⟩
    refine ⟨?_, hk, ?_, ?_, ?_⟩
    · refine own_move (Owner.field holder) (Owner.wait i) hC (by simp) hwi hlen hself ?_ ?_ ?_
      · apply heldBy_wait_filled
        rw [hmap, modifyRef_getRef, if_pos ⟨rfl, i1⟩]
        simp
      · intro o ho1 ho2
        cases o with
        | root => exact hroot2
        | field q => exact hsl q (fun hx => ho1 (by rw [hx]))
        | wait k => exact heldBy_wait_modifyRef hmap (fun hx => ho2 (by rw [hx]))
      · intro m
        rw [hfreed]
        simp only [List.mem_cons, heldBy, hslot, Option.some.injEq]
        constructor
        · rintro (h1 | h1)
          · exact Or.inr h1.symm
          · exact Or.inl h1
        · rintro (h1 | h1)
          · exact Or.inr h1
          · exact Or.inl h1.symm
    · rw [hmap, hroot2]
      constructor
      · intro h0
        have := congrArg List.length h0
        rw [modifyRef_length] at this
        exact absurd (List.length_eq_zero.1 this) hne
      · intro h0
        exact absurd (hR.2 h0) hne
    · intro e he hse
      rw [hmap] at he
      have he0 : e ∈ st.insertMap_ := by
        rcases mem_modifyRef he with h1 | ⟨-, h1⟩
        · exact h1
        · rw [h1] at hse; cases hse
      obtain ⟨m, hm⟩ := hS e he0 hse
      exact ⟨m, by rw [hsl _ (hfresh e he0)]; exact hm⟩
    · intro m hm
      rw [hlen]
      rw [hfreed] at hm
      rcases List.mem_cons.1 hm with h1 | h1
      · rw [h1]; exact hnb.1
      · exact hFr m h1
  · -- a placeholder fills no reference
    intro i tfree st1 _ _ hd2 _ _ _
    exact absurd hd hd2
  · -- the root moves under the parent
    intro i par cur st2 hi hs _ hpar hrs hw hmp hk
    have hpar2 : par = b := (Option.some.inj hpar).symm
    subst hpar2
    obtain ⟨w1, -, -, -, w5, w6, w7, w8⟩ := writeSlot_fields hw
    obtain ⟨i1, -, i3⟩ := scanRefs_found hi
    have hiroot : (getRef st.insertMap_ i).nodePtr_ = Ptr.root := by
      by_contra hx
      exact i3 ⟨hs, hx⟩
    rw [hiroot] at hrs
    simp only [State.readSlot, delete_root, Except.ok.injEq] at hrs
    obtain ⟨r0, hr0⟩ := Option.ne_none_iff_exists'.mp (fun hx => hne (hR.2 hx))
    rw [hr0] at hrs
    subst hrs
    obtain ⟨c1, c2, c3⟩ := markParentFilled_store { st2 with decodedTree_ := some par } par
    rcases markParentFilled_cases { st2 with decodedTree_ := some par } par with
      ⟨m1, -⟩ | ⟨j, hj, -, m3⟩
    · rw [m1] at hmp; exact absurd (by decide) hmp
    obtain ⟨t1, t2, t3⟩ := scanNodeWait_found hj
    simp only [w1, delete_insertMap] at t1 t2 t3
    change getKey st.insertMap_ j = (st2.rd par).id_ at t2
    rw [(w7 par).1, delete_rd] at t2
    have hjb : heldBy st (Owner.wait j) = some par := by
      obtain ⟨k, k1, k2, k3⟩ := hpb
      have hjk : j = k := keysNodup_index hK t1 k1 (t2.trans k2.symm)
      subst hjk
      exact (heldBy_wait_iff st j par).2 ⟨t3, k3 t3⟩
    have hmap : (markFilled (markParentFilled { st2 with decodedTree_ := some par } par).2
        i).2.insertMap_ =
        modifyRef (fun r => { r with status_ := Status.FILLED }) i
          (modifyRef (fun r => { r with status_ := Status.FILLED }) j st.insertMap_) := by
      rw [m3]
      simp only [markFilled, w1, delete_insertMap]
    have hlen : (markFilled (markParentFilled { st2 with decodedTree_ := some par } par).2
        i).2.cells.length = st.cells.length := by
      simpa [markFilled, c1] using w6
    have hfreed : (markFilled (markParentFilled { st2 with decodedTree_ := some par } par).2
        i).2.freed = n :: st.freed := by
      simpa [markFilled, c2, State.delete] using w5
    have hroot2 : (markFilled (markParentFilled { st2 with decodedTree_ := some par } par).2
        i).2.decodedTree_ = some par := by
      simp [markFilled, c3]
    have hsl : ∀ q, q ≠ holder → slotOf (markFilled (markParentFilled
        { st2 with decodedTree_ := some par } par).2 i).2 q = slotOf st q := by
      intro q hq
      refine (slotOf_congr (t := st2) c1 q).trans ?_
      rw [writeSlot_slotOf hw q hq]
      exact slotOf_congr rfl q
    have hself : slotOf (markFilled (markParentFilled
        { st2 with decodedTree_ := some par } par).2 i).2 holder = some r0 := by
      refine (slotOf_congr (t := st2) c1 holder).trans ?_
      have hsl0 : slotOf (st.delete (some n)) holder = some n :=
        (slotOf_congr (delete_cells _ _) holder).trans hslot
      exact writeSlot_slotOf_eq hsl0 hw
    generalize (markFilled (markParentFilled { st2 with decodedTree_ := some par } par).2
        i).2 = s1 at hk hmap hlen hfreed hroot2 hsl hself ⊢
    have hji : j ≠ i := by
      intro hx
      rw [hx, hs] at t3
      cases t3
    have hwait : ∀ k, k ≠ j → heldBy s1 (Owner.wait k) = heldBy st (Owner.wait k) := by
      intro k hkj
      by_cases hki : k = i
      · subst hki
        rw [heldBy_wait_filled (t := st) (by rw [hs]; decide)]
        apply heldBy_wait_filled
        rw [hmap, modifyRef_getRef, if_pos ⟨rfl, by rw [modifyRef_length]; exact i1⟩]
        simp
      · apply heldBy_wait_getRef
        rw [hmap, modifyRef_getRef, if_neg (fun hx => hki hx.1), modifyRef_getRef,
          if_neg (fun hx => hkj hx.1)]
    have hwj : heldBy s1 (Owner.wait j) = none := by
      apply heldBy_wait_filled
      rw [hmap, modifyRef_getRef, if_neg (fun hx => hji hx.1), modifyRef_getRef,
        if_pos ⟨rfl, t1⟩]
      simp
    -- first the field takes the root, then the root pointer takes the parent
    have hC1 : OwnCore st.cells.length (fun m => m ∈ n :: st.freed)
        (fun o => if o = Owner.field holder then some r0
          else if o = Owner.root then none else heldBy st o) T := by
      refine ownCore_move (Owner.field holder) Owner.root hC (by simp) hr0 ?_ ?_ ?_ ?_
      · simp
      · simp
      · intro o ho1 ho2
        simp [ho1, ho2]
      · intro m
        simp only [List.mem_cons, heldBy, hslot, Option.some.injEq]
        constructor
        · rintro (h1 | h1)
          · exact Or.inr h1.symm
          · exact Or.inl h1
        · rintro (h1 | h1)
          · exact Or.inr h1
          · exact Or.inl h1.symm
    refine ⟨?_, hk, ?_, ?_, ?_⟩
    · rw [hlen]
      refine ownCore_move Owner.root (Owner.wait j) hC1 (by simp) ?_ hroot2 hwj ?_ ?_
      · simpa using hjb
      · intro o ho1 ho2
        cases o with
        | root => exact absurd rfl ho1
        | field q =>
          by_cases hq : q = holder
          · subst hq
            simpa [heldBy] using hself
          · have : Owner.field q ≠ Owner.field holder := fun hx => hq (Owner.field.inj hx)
            simp only [this, if_false]
            exact hsl q hq
        | wait k =>
          have e1 : Owner.wait k ≠ Owner.field holder := by simp
          have e2 : Owner.wait k ≠ Owner.root := by simp
          simp only [e1, e2, if_false]
          exact hwait k (fun hx => ho2 (by rw [hx]))
      · intro m
        rw [hfreed]
        simp
    · rw [hmap, hroot2]
      constructor
      · intro h0
        have := congrArg List.length h0
        rw [modifyRef_length, modifyRef_length] at this
        exact absurd (List.length_eq_zero.1 this) hne
      · intro h0
        cases h0
    · intro e he hse
      rw [hmap] at he
      have he0 : e ∈ st.insertMap_ := by
        rcases mem_modifyRef he with h1 | ⟨-, h1⟩
        · rcases mem_modifyRef h1 with h2 | ⟨-, h2⟩
          · exact h2
          · rw [h2] at hse; cases hse
        · rw [h1] at hse; cases hse
      obtain ⟨m, hm⟩ := hS e he0 hse
      exact ⟨m, by rw [hsl _ (hfresh e he0)]; exact hm⟩
    · intro m hm
      rw [hlen]
      rw [hfreed] at hm
      rcases List.mem_cons.1 hm with h1 | h1
      · rw [h1]; exact hnb.1
      · exact hFr m h1

/-- A new cell joins held by an owner that held nothing. -/
theorem ownCore_child {len : Nat} {dead : Nat → Prop} {held : Owner → Option Nat}
    {T : Nat → Prop} (o0 : Owner) (h : OwnCore len dead held T)
    (hdead : ∀ m, dead m → m < len) (hT : ¬ T len) (h0 : held o0 = none) :
    OwnCore (len + 1) dead (fun o => if o = o0 then some len else held o) T := by
  have h1 := ownCore_new h
  have h2 : OwnCore (len + 1) dead (fun o => if o = o0 then some len else held o)
      (fun m => (T m ∨ m = len) ∧ m ≠ len) :=
    ownCore_take o0 h1 (Or.inr rfl)
      (Nat.lt_succ_self len) (fun hx => absurd (hdead len hx) (Nat.lt_irrefl _))
      (by simp) (fun o ho => by simp [ho]) (fun m => by simp [h0])
  refine ownCore_congr h2 (fun o => rfl) (fun m => Iff.rfl) (fun m => ?_)
  constructor
  · intro hm
    exact ⟨Or.inl hm, fun hx => hT (hx ▸ hm)⟩
  · rintro ⟨hm | hm, hne⟩
    · exact hm
    · exact absurd hm hne

theorem rd_zero_of_ge (st : State) {a : Nat} (h : st.cells.length ≤ a) : st.rd a = node.zero := by
  unfold State.rd
  simp only [List.getD_eq_getElem?_getD]
  rw [List.getElem?_eq_none h]
  rfl

/-- The child fields after the allocations of a record. -/
theorem slotOf_alloc (st : State) (p : PNode) (q : Ptr) :
    slotOf (allocParsed st p).2 q =
      if q = Ptr.left st.cells.length ∧ p.left_ ≠ none then some (st.cells.length + 1)
      else if q = Ptr.right st.cells.length ∧ p.right_ ≠ none then
        some (if p.left_ = none then st.cells.length + 1 else st.cells.length + 2)
      else slotOf st q := by
  rw [(allocParsed_cells st p).1]
  have hrd := rd_append st (parsedCells st.cells.length p)
  have key : ∀ a, (({ st with cells := st.cells ++ parsedCells st.cells.length p } : State).rd
        a).left_ =
        (if a = st.cells.length then
          (if p.left_ = none then none else some (st.cells.length + 1))
        else (st.rd a).left_) ∧
      (({ st with cells := st.cells ++ parsedCells st.cells.length p } : State).rd a).right_ =
        (if a = st.cells.length then
          (if p.right_ = none then none
            else some (if p.left_ = none then st.cells.length + 1 else st.cells.length + 2))
        else (st.rd a).right_) := by
    intro a
    rw [hrd]
    by_cases h1 : a = st.cells.length
    · subst h1
      simp only [Nat.lt_irrefl, if_false, Nat.sub_self, if_true]
      obtain ⟨i, l, r, d⟩ := p
      cases l <;> cases r <;> simp [parsedCells]
    · by_cases h2 : a < st.cells.length
      · simp [h1, h2]
      · simp only [h1, h2, if_false, rd_zero_of_ge st (Nat.le_of_not_lt h2)]
        obtain ⟨k, hk⟩ : ∃ k, a - st.cells.length = k + 1 := ⟨a - st.cells.length - 1, by omega⟩
        rw [hk]
        obtain ⟨i, l, r, d⟩ := p
        cases l <;> cases r <;> simp [parsedCells, node.zero] <;>
          (cases k with
            | zero => simp
            | succ k => cases k <;> simp)
  cases q with
  | null => simp [slotOf]
  | root => simp [slotOf]
  | node a => simp [slotOf]
  | left a =>
    simp only [slotOf]
    rw [(key a).1]
    by_cases h1 : a = st.cells.length
    · subst h1
      by_cases hl : p.left_ = none
      · simp [hl, rd_zero_of_ge st (Nat.le_refl _), node.zero]
      · simp [hl]
    · simp [h1]
  | right a =>
    simp only [slotOf]
    rw [(key a).2]
    by_cases h1 : a = st.cells.length
    · subst h1
      by_cases hr : p.right_ = none
      · simp [hr, rd_zero_of_ge st (Nat.le_refl _), node.zero]
      · simp [hr]
    · simp [h1]

/-- The cells of a record join the store: its node as the node in progress,
the placeholders of its children held by its child fields. -/
theorem own_alloc {st : State} (p : PNode) (hO : Own st (fun _ => False)) :
    Own (allocParsed st p).2 (fun m => m = st.cells.length) := by
  obtain ⟨hC, hK, hR, hS, hFr⟩ := hO
  obtain ⟨a1, -, a3, -, -, a6, -⟩ := allocParsed_fields st p
  have hlen : (allocParsed st p).2.cells.length =
      st.cells.length + (parsedCells st.cells.length p).length := by
    rw [(allocParsed_cells st p).1]; simp
  rw [parsedCells_length] at hlen
  have hA : OwnCore (st.cells.length + 1) (fun m => m ∈ st.freed) (heldBy st)
      (fun m => m = st.cells.length) :=
    ownCore_congr (ownCore_new hC) (fun o => rfl) (fun m => Iff.rfl) (fun m => by simp)
  have hz : ∀ q, (q = Ptr.left st.cells.length ∨ q = Ptr.right st.cells.length) →
      slotOf st q = none := by
    rintro q (rfl | rfl) <;> simp [slotOf, rd_zero_of_ge st (Nat.le_refl _), node.zero]
  have hheld : ∀ o, heldBy (allocParsed st p).2 o =
      match o with
      | Owner.field q => slotOf (allocParsed st p).2 q
      | o => heldBy st o := by
    intro o
    cases o with
    | root => exact a3
    | field q => rfl
    | wait k => exact heldBy_wait_congr a1 k
  refine ⟨?_, by rw [a1]; exact hK, by rw [a1, a3]; exact hR, ?_, ?_⟩
  · rw [hlen, a6]
    by_cases hl : p.left_ = none
    · by_cases hr : p.right_ = none
      · simp only [hl, hr, if_true, Nat.add_zero]
        refine ownCore_congr hA (fun o => ?_) (fun m => Iff.rfl) (fun m => Iff.rfl)
        rw [hheld]
        cases o with
        | root => rfl
        | wait k => rfl
        | field q =>
          show slotOf (allocParsed st p).2 q = slotOf st q
          rw [slotOf_alloc]
          simp [hl, hr]
      · simp only [hl, hr, if_true, if_false, Nat.add_zero]
        have hB := ownCore_child (Owner.field (Ptr.right st.cells.length)) hA
          (fun m hm => Nat.lt_succ_of_lt (hFr m hm)) (by simp) (hz _ (Or.inr rfl))
        refine ownCore_congr hB (fun o => ?_) (fun m => Iff.rfl) (fun m => Iff.rfl)
        rw [hheld]
        cases o with
        | root => simp
        | wait k => simp
        | field q =>
          show slotOf (allocParsed st p).2 q = _
          rw [slotOf_alloc]
          by_cases hq : q = Ptr.right st.cells.length
          · subst hq
            simp [hl, hr]
          · have : Owner.field q ≠ Owner.field (Ptr.right st.cells.length) :=
              fun hx => hq (Owner.field.inj hx)
            simp [hl, hq, this, heldBy]
    · by_cases hr : p.right_ = none
      · simp only [hl, hr, if_true, if_false, Nat.add_zero]
        have hB := ownCore_child (Owner.field (Ptr.left st.cells.length)) hA
          (fun m hm => Nat.lt_succ_of_lt (hFr m hm)) (by simp) (hz _ (Or.inl rfl))
        refine ownCore_congr hB (fun o => ?_) (fun m => Iff.rfl) (fun m => Iff.rfl)
        rw [hheld]
        cases o with
        | root => simp
        | wait k => simp
        | field q =>
          show slotOf (allocParsed st p).2 q = _
          rw [slotOf_alloc]
          by_cases hq : q = Ptr.left st.cells.length
          · subst hq
            simp [hl]
          · have : Owner.field q ≠ Owner.field (Ptr.left st.cells.length) :=
              fun hx => hq (Owner.field.inj hx)
            simp [hr, hq, this, heldBy]
      · simp only [hl, hr, if_false]
        have hB := ownCore_child (Owner.field (Ptr.left st.cells.length)) hA
          (fun m hm => Nat.lt_succ_of_lt (hFr m hm)) (by simp) (hz _ (Or.inl rfl))
        have hC2 := ownCore_child (Owner.field (Ptr.right st.cells.length)) hB
          (fun m hm => Nat.lt_succ_of_lt (Nat.lt_succ_of_lt (hFr m hm)))
          (fun hx => by
            have : st.cells.length + 1 + 1 = st.cells.length := hx
            omega)
          (by simp [heldBy, hz _ (Or.inr rfl)])
        refine ownCore_congr hC2 (fun o => ?_) (fun m => Iff.rfl) (fun m => Iff.rfl)
        rw [hheld]
        cases o with
        | root => simp
        | wait k => simp
        | field q =>
          show slotOf (allocParsed st p).2 q = _
          rw [slotOf_alloc]
          by_cases hq : q = Ptr.left st.cells.length
          · subst hq
            simp [hl]
          · by_cases hq2 : q = Ptr.right st.cells.length
            · subst hq2
              simp [hl, hr]
            · have e1 : Owner.field q ≠ Owner.field (Ptr.left st.cells.length) :=
                fun hx => hq (Owner.field.inj hx)
              have e2 : Owner.field q ≠ Owner.field (Ptr.right st.cells.length) :=
                fun hx => hq2 (Owner.field.inj hx)
              simp [hq, hq2, e1, e2, heldBy]
  · intro e he hs
    rw [a1] at he
    obtain ⟨m, hm⟩ := hS e he hs
    rw [slotOf_alloc]
    split
    · exact ⟨_, rfl⟩
    · split
      · exact ⟨_, rfl⟩
      · exact ⟨m, hm⟩
  · intro m hm
    rw [a6] at hm
    have := hFr m hm
    rw [hlen]
    omega

theorem own_weaken {st : State} {T T1 : Nat → Prop} (h : Own st T) (hT : ∀ m, T1 m ↔ T m) :
    Own st T1 :=
  ⟨ownCore_congr h.1 (fun _ => rfl) (fun _ => Iff.rfl) hT, h.2⟩

/-- After the step of a described node the table has a reference with the id
of the node, which holds the node while it is NODE_WAIT. -/
theorem stepNode_top_entry {st : State} {n : Nat} {holder : Ptr} {parent : Option Nat}
    {r : Int × State} (hd : (st.rd n).descr_ ≠ none)
    (h : stepNode st n holder parent = Except.ok r) (hr : r.1 ≠ -EINVAL) :
    ∃ k, k < r.2.insertMap_.length ∧ getKey r.2.insertMap_ k = (st.rd n).id_ ∧
      ((getRef r.2.insertMap_ k).status_ = Status.NODE_WAIT →
        (getRef r.2.insertMap_ k).nodePtr_ = Ptr.node n) := by
  refine stepNode_cases (fun s => ∃ k, k < s.insertMap_.length ∧
      getKey s.insertMap_ k = (st.rd n).id_ ∧
      ((getRef s.insertMap_ k).status_ = Status.NODE_WAIT →
        (getRef s.insertMap_ k).nodePtr_ = Ptr.node n))
    st n holder parent ?_ ?_ ?_ ?_ r h hr
  · intro _
    rw [if_neg hd]
    by_cases hemp : st.insertMap_ = []
    · rw [insertHashMap_empty st n holder _ hemp]
      exact ⟨0, by simp, by simp [getKey], by simp [getRef]⟩
    · rw [insertHashMap_nonempty st n holder _ hemp]
      refine ⟨st.insertMap_.length, by simp, ?_, ?_⟩
      · simp [getKey, List.getD_eq_getElem?_getD]
      · intro _
        simp only [getRef_append_eq, if_true]
  · intro i tn st1 _ _ _ hd0 _ _
    exact absurd hd0 hd
  · intro i tfree st1 hi _ _ _ hw
    obtain ⟨i1, i2, -⟩ := scanRefs_found hi
    have hmap : (markFilled { st1.delete tfree with
          wait_count_ := (st1.delete tfree).wait_count_ - 1 } i).2.insertMap_ =
        modifyRef (fun r => { r with status_ := Status.FILLED }) i st.insertMap_ := by
      simp only [markFilled, delete_insertMap, (writeSlot_fields hw).1]
    rw [hmap]
    refine ⟨i, by rw [modifyRef_length]; exact i1, by rw [getKey_modifyRef]; exact i2, ?_⟩
    rw [modifyRef_getRef, if_pos ⟨rfl, i1⟩]
    intro hx
    cases hx
  · intro i par cur st2 _ _ hd0 _ _ _ _
    exact absurd hd0 hd

/-- A record that is ingested without a conflict, in default mode, keeps one
owner per node. -/
theorem record_own (st : State) (p : PNode) (r : Int × State)
    (hO : Own st (fun _ => False)) (hdup : st.duplicate_ids_ = false)
    (hb : Bounded st st.cells.length) (hd : p.descr_ ≠ none)
    (h : processNode ((allocParsed st p).2.cells.length + 1) (allocParsed st p).2
      (allocParsed st p).1 Ptr.null none = Except.ok r) (hr : ¬ r.1 < 0) :
    Own r.2 (fun _ => False) := by
  obtain ⟨res, sL, hs, he, hleft, hright⟩ := record_trace st p r hb hd h hr
  have hO1 := own_alloc p hO
  have hlen1 : (allocParsed st p).2.cells.length =
      st.cells.length + (parsedCells st.cells.length p).length := by
    rw [(allocParsed_cells st p).1]; simp
  rw [parsedCells_length] at hlen1
  have hb1 := bounded_alloc (p := p) hb
  have hdup1 : (allocParsed st p).2.duplicate_ids_ = false := by
    rw [(allocParsed_fields st p).2.2.2.1]; exact hdup
  have hfr1 : st.cells.length ∉ (allocParsed st p).2.freed := by
    rw [(allocParsed_fields st p).2.2.2.2.2.1]
    intro hx
    exact absurd (hO.2.2.2.2 _ hx) (Nat.lt_irrefl _)
  have htop : (allocParsed st p).2.rd st.cells.length =
      (parsedCells st.cells.length p).getD 0 node.zero := by
    rw [(allocParsed_cells st p).1, rd_append, if_neg (Nat.lt_irrefl _), Nat.sub_self]
  obtain ⟨t1, t2, t3⟩ := parsedCells_top st.cells.length p
  rw [← htop] at t1 t2 t3
  generalize (allocParsed st p).2 = st1 at hs hO1 hlen1 hb1 hdup1 hfr1 t1 t2 t3 hright
  clear htop
  -- the step of the node
  have g1 : Own res.2 (fun _ => False) :=
    own_weaken (stepNode_own_top hO1 hdup1 rfl (by rw [hlen1]; omega) hfr1
      (by rw [t1]; exact hd) hs he) (fun m => by simp)
  obtain ⟨a1, a2, a3, -⟩ := stepNode_store _ _ _ _ _ hs
  have g2 : res.2.duplicate_ids_ = false := by
    rw [(stepNode_table _ _ _ _ _ hs).1]; exact hdup1
  have g3 : res.2.rd st.cells.length = st1.rd st.cells.length :=
    stepNode_frame_top hs (by rw [t1]; exact hd) hb1 _ (Nat.le_refl _)
  have g4 : ∀ e ∈ res.2.insertMap_, e.2.nodePtr_ ≠ Ptr.left st.cells.length ∧
      e.2.nodePtr_ ≠ Ptr.right st.cells.length := by
    intro e he1
    rcases a3 e he1 with h1 | h1 | h1 | ⟨e0, he0, h1⟩
    · rw [h1]; simp
    · rw [h1]; simp
    · rw [h1]; simp
    · rw [h1]
      have := hb1 e0 he0
      constructor
      · intro h0; rw [h0] at this; simp only [Ptr.below] at this; omega
      · intro h0; rw [h0] at this; simp only [Ptr.below] at this; omega
  have g5 := stepNode_nonempty hs he
  have g6 : ∃ k, k < res.2.insertMap_.length ∧
      getKey res.2.insertMap_ k = (res.2.rd st.cells.length).id_ ∧
      ((getRef res.2.insertMap_ k).status_ = Status.NODE_WAIT →
        (getRef res.2.insertMap_ k).nodePtr_ = Ptr.node st.cells.length) := by
    rw [(a2 st.cells.length).1]
    exact stepNode_top_entry (by rw [t1]; exact hd) hs he
  -- the step of the left child
  have hL : Own sL (fun _ => False) ∧
      sL.duplicate_ids_ = false ∧ sL.cells.length = st1.cells.length ∧
      (sL.rd st.cells.length).right_ = (st1.rd st.cells.length).right_ ∧
      (∀ e ∈ sL.insertMap_, e.2.nodePtr_ ≠ Ptr.right st.cells.length) ∧ sL.insertMap_ ≠ [] ∧
      (∃ k, k < sL.insertMap_.length ∧
        getKey sL.insertMap_ k = (sL.rd st.cells.length).id_ ∧
        ((getRef sL.insertMap_ k).status_ = Status.NODE_WAIT →
          (getRef sL.insertMap_ k).nodePtr_ = Ptr.node st.cells.length)) := by
    rcases hleft with ⟨hl0, rfl⟩ | ⟨l, res1, hl1, hcell1, hs1, he1, rfl⟩
    · exact ⟨g1, g2, a1, by rw [g3], fun e he1 => (g4 e he1).2, g5, g6⟩
    · have hln : p.left_ ≠ none := by rw [hl1]; simp
      have hdn : (res.2.rd (st.cells.length + 1)).descr_ = none := by rw [hcell1]; rfl
      have k1 := stepNode_own_child (b := st.cells.length) g1 g2 hdn (Or.inl rfl)
        (by simp only [slotOf]; rw [g3]; exact t2 hln)
        (fun e he1 => (g4 e he1).1) g5 g6 hs1 he1
      obtain ⟨b1, b2, b3, -⟩ := stepNode_store _ _ _ _ _ hs1
      refine ⟨k1, ?_, by rw [b1, a1], ?_, ?_, stepNode_nonempty hs1 he1, ?_⟩
      · rw [(stepNode_table _ _ _ _ _ hs1).1]; exact g2
      · rw [(stepNode_frame_child hs1 hdn st.cells.length).2.2 (by simp), g3]
      · intro e he2
        rcases b3 e he2 with h1 | h1 | h1 | ⟨e0, he0, h1⟩
        · rw [h1]; simp
        · rw [h1]; simp
        · rw [h1]; simp
        · rw [h1]; exact (g4 e0 he0).2
      · rw [(b2 st.cells.length).1]
        exact tableStep_entry (stepNode_table _ _ _ _ _ hs1) g6
  obtain ⟨l1, l2, l3, l4, l5, l6, l7⟩ := hL
  -- the step of the right child
  rcases hright with ⟨-, hrr⟩ | ⟨rr, ra, res2, hr1, ⟨-, q1, q2⟩, q3, hcell2, hs2, he2, hrr⟩
  · rw [hrr]; exact l1
  · have hrn : p.right_ ≠ none := by rw [hr1]; simp
    have hdn : (sL.rd ra).descr_ = none := by rw [hcell2]; rfl
    have hra : ra = if p.left_ = none then st.cells.length + 1 else st.cells.length + 2 := by
      by_cases hln : p.left_ = none
      · rw [if_pos hln]; exact q1 hln
      · rw [if_neg hln]; exact q2 hln
    rw [hrr]
    exact stepNode_own_child (b := st.cells.length) l1 l2 hdn (Or.inr rfl)
      (by simp only [slotOf]; rw [l4, t3 hrn, hra]) l5 l6 l7 hs2 he2

theorem init_own (c d : Bool) : Own (State.init c d) (fun _ => False) := by
  refine ⟨⟨?_, ?_, ?_⟩, by simp [KeysNodup, State.init], by simp [State.init], ?_, ?_⟩
  · intro m hm; simp [State.init] at hm
  · intro o1 o2 m h1
    cases o1 with
    | root => simp [heldBy, State.init] at h1
    | field q => cases q <;> simp [heldBy, slotOf, State.init, State.rd, node.zero] at h1
    | wait k => rw [heldBy_wait_ge _ (by simp [State.init])] at h1; cases h1
  · intro o m h1
    cases o with
    | root => simp [heldBy, State.init] at h1
    | field q => cases q <;> simp [heldBy, slotOf, State.init, State.rd, node.zero] at h1
    | wait k => rw [heldBy_wait_ge _ (by simp [State.init])] at h1; cases h1
  · intro e he; simp [State.init] at he
  · intro m hm; simp [State.init] at hm

/-- In default mode every node keeps one owner through the loop. -/
theorem readLines_own (lines : List (List Char)) (st st1 : State)
    (hO : Own st (fun _ => False)) (hdup : st.duplicate_ids_ = false)
    (hb : Bounded st st.cells.length)
    (h : readLines st lines = Except.ok (false, st1)) : Own st1 (fun _ => False) := by
  have := readLines_inv (fun s => Own s (fun _ => False) ∧ s.duplicate_ids_ = false ∧
    Bounded s s.cells.length) ?_ lines st st1 ⟨hO, hdup, hb⟩ h
  · exact this.1
  · intro s line p r ⟨i1, i2, i3⟩ _ hp hres hlt
    have hd := parseLine_descr hp
    obtain ⟨-, -, -, r4⟩ := record_store s p r i3 hd hres hlt
    refine ⟨record_own s p r i1 i2 i3 hd hres hlt, ?_, r4⟩
    exact (processNode_flags (allocParsed s p).2.complete_tree_ false _ _ _ _ _ _
      ⟨rfl, by rw [(allocParsed_fields s p).2.2.2.1]; exact i2⟩ hres).2

/-! ## One owner per node: the cells under the root form a tree -/

theorem nodup_length_le {l : List Nat} {n : Nat} (hd : l.Nodup) (hb : ∀ x ∈ l, x < n) :
    l.length ≤ n := by
  have hsub : l ⊆ List.range n := fun x hx => List.mem_range.2 (hb x hx)
  have := (List.subperm_of_subset hd hsub).length_le
  simpa using this

/-- With one owner per node, the walk down from the root never meets a node
twice, so it ends within as many steps as there are cells. -/
theorem shapeAt_of_own {st : State} (hC : OwnCore st.cells.length (fun m => m ∈ st.freed)
    (heldBy st) (fun _ => False)) :
    ∀ (f : Nat) (chain : List Nat) (a : Nat), (a :: chain).Nodup →
      (∀ x ∈ a :: chain, x < st.cells.length) →
      (∀ x ∈ a :: chain, heldBy st Owner.root = some x ∨
        ∃ y ∈ chain, slotOf st (Ptr.left y) = some x ∨ slotOf st (Ptr.right y) = some x) →
      st.cells.length ≤ chain.length + f →
      ∃ sh, shapeAt st f (some a) = some sh := by
  obtain ⟨-, hU, hF⟩ := hC
  intro f
  induction f with
  | zero =>
    intro chain a hnd hb _ hlen
    have := nodup_length_le hnd hb
    simp only [List.length_cons] at this
    omega
  | succ f ih =>
    intro chain a hnd hb hinv hlen
    have hchild : ∀ (q : Ptr) (m : Nat), (q = Ptr.left a ∨ q = Ptr.right a) →
        slotOf st q = some m → ∃ sh, shapeAt st f (some m) = some sh := by
      intro q m hq hm
      have hnew : m ∉ a :: chain := by
        intro hx
        rcases hinv m hx with h1 | ⟨y, hy, h1⟩
        · have := hU (Owner.field q) Owner.root m hm h1
          cases this
        · have hya : y ≠ a := fun h0 => (List.nodup_cons.1 hnd).1 (h0 ▸ hy)
          rcases h1 with h1 | h1
          · have := hU (Owner.field q) (Owner.field (Ptr.left y)) m hm h1
            rcases hq with rfl | rfl
            · exact hya (Ptr.left.inj (Owner.field.inj this)).symm
            · cases Owner.field.inj this
          · have := hU (Owner.field q) (Owner.field (Ptr.right y)) m hm h1
            rcases hq with rfl | rfl
            · cases Owner.field.inj this
            · exact hya (Ptr.right.inj (Owner.field.inj this)).symm
      refine ih (a :: chain) m (List.nodup_cons.2 ⟨hnew, hnd⟩) ?_ ?_ ?_
      · intro x hx
        rcases List.mem_cons.1 hx with rfl | hx
        · exact (hF (Owner.field q) _ hm).1
        · exact hb x hx
      · intro x hx
        rcases List.mem_cons.1 hx with rfl | hx
        · right
          refine ⟨a, List.mem_cons_self _ _, ?_⟩
          rcases hq with rfl | rfl
          · exact Or.inl hm
          · exact Or.inr hm
        · rcases hinv x hx with h1 | ⟨y, hy, h1⟩
          · exact Or.inl h1
          · exact Or.inr ⟨y, List.mem_cons_of_mem _ hy, h1⟩
      · simp only [List.length_cons]
        omega
    have hside : ∀ (q : Ptr), (q = Ptr.left a ∨ q = Ptr.right a) →
        ∃ sh, shapeAt st f (slotOf st q) = some sh := by
      intro q hq
      cases hm : slotOf st q with
      | none => exact ⟨Shape.nil, by cases f <;> rfl⟩
      | some m => exact hchild q m hq hm
    obtain ⟨l, hl⟩ := hside (Ptr.left a) (Or.inl rfl)
    obtain ⟨r, hr⟩ := hside (Ptr.right a) (Or.inr rfl)
    simp only [slotOf] at hl hr
    exact ⟨Shape.node (st.rd a).id_ (st.rd a).descr_ l r, by simp only [shapeAt, hl, hr]⟩

/-- With one owner per node the cells under the root form a tree. -/
theorem own_tree {st : State} (hO : Own st (fun _ => False)) :
    ∃ sh, decodedShape st = some sh := by
  unfold decodedShape
  cases hr : st.decodedTree_ with
  | none => exact ⟨Shape.nil, rfl⟩
  | some t =>
    have hh : heldBy st Owner.root = some t := hr
    refine shapeAt_of_own hO.1 _ [] t (by simp) ?_ ?_ (by simp)
    · intro x hx
      simp only [List.mem_singleton] at hx
      rw [hx]
      exact (hO.1.2.2 _ _ hh).1
    · intro x hx
      simp only [List.mem_singleton] at hx
      rw [hx]
      exact Or.inl hh

/-! ## parseLine after the first token -/

theorem parseFinish_some (p : PNode) :
    ∃ q, parseFinish (some p) = ParseResult.node q ∧ q.id_ = p.id_ := by
  obtain ⟨i, l, r, d⟩ := p
  cases d with
  | none => exact ⟨_, rfl, rfl⟩
  | some s => exact ⟨_, rfl, rfl⟩

theorem setDescr_id (c : Bool) (p : PNode) (lc : Nat) (a rest : List Char) (eof : Bool) :
    (setDescr c p lc a rest eof).id_ = p.id_ := by
  unfold setDescr
  cases eof <;> cases (c && decide (lc = 1)) <;> rfl

/-- Once the first token has given a node, the token loop returns a node with
that id. -/
theorem parseLoop_some (c : Bool) (fuel : Nat) (p : PNode) (lc : Nat) (s : List Char) :
    ∃ q, parseLoop c fuel { n := some p, leaf_count := lc } s = ParseResult.node q ∧
      q.id_ = p.id_ := by
  induction fuel generalizing p lc s with
  | zero => exact parseFinish_some p
  | succ fuel ih =>
    cases s with
    | nil => exact parseFinish_some p
    | cons x xs =>
      rw [parseLoop]
      simp only
      cases ha : cstr (getTok (x :: xs)).1 with
      | nil => exact ih p lc _
      | cons y ys =>
        simp only
        have hfin : ∀ a r e, ∃ q, parseFinish (some (setDescr c p lc a r e)) =
            ParseResult.node q ∧ q.id_ = p.id_ := by
          intro a r e
          obtain ⟨q, h1, h2⟩ := parseFinish_some (setDescr c p lc a r e)
          exact ⟨q, h1, by rw [h2, setDescr_id]⟩
        by_cases hs : (sscanf_d (y :: ys)).sval ≠ 0
        · rw [if_pos hs]
          cases hl : p.left_ with
          | none =>
            simp only
            exact ih _ _ _
          | some l =>
            cases hr : p.right_ with
            | none =>
              simp only
              exact ih _ _ _
            | some r =>
              simp only
              exact hfin _ _ _
        · rw [if_neg hs]
          exact hfin _ _ _

theorem getTok_nospace (t : List Char) (h : ∀ x ∈ t, (x == ' ') = false) :
    getTok t = (t, [], true) := by
  induction t with
  | nil => rfl
  | cons c cs ih =>
    have hc := h c (by simp)
    have := ih (fun x hx => h x (by simp [hx]))
    simp [getTok, hc, this]

theorem parseLoop_nil (c : Bool) (fuel : Nat) (st : ParseState) :
    parseLoop c fuel st [] = parseFinish st.n := by
  cases fuel <;> rfl

/-- One iteration of the token loop on a non-empty token that ends the
line. -/
theorem parseLoop_tok_end (c : Bool) (fuel : Nat) (st : ParseState) (t : List Char)
    (hne : t ≠ []) (hsp : ∀ x ∈ t, (x == ' ') = false) (hnul : ∀ x ∈ t, (x != '\x00') = true) :
    parseLoop c (fuel + 1) st t =
      match st.n with
      | none =>
        if (sscanf_d t).sval = 0 then ParseResult.null
        else parseFinish
          (some { id_ := (sscanf_d t).node_id, left_ := none, right_ := none, descr_ := none })
      | some p =>
        if (sscanf_d t).sval ≠ 0 then
          match p.left_, p.right_ with
          | none, _ => parseFinish (some { p with left_ := some (sscanf_d t).node_id })
          | some _, none => parseFinish (some { p with right_ := some (sscanf_d t).node_id })
          | some _, some _ => parseFinish (some (setDescr c p st.leaf_count t [] true))
        else parseFinish (some (setDescr c p st.leaf_count t [] true)) := by
  cases t with
  | nil => exact absurd rfl hne
  | cons x xs =>
    have hg := getTok_nospace (x :: xs) hsp
    have hc := cstr_of_no_nul (x :: xs) hnul
    rw [parseLoop]
    simp only [hg, hc, parseLoop_nil]

/-- The first token, a number written by `%d`, at the end of the line. -/
theorem parseLoop_first_end (c : Bool) (fuel : Nat) (lc : Nat) (v : Int) :
    parseLoop c (fuel + 1) { n := none, leaf_count := lc } (sprintf_d v) =
      ParseResult.node { id_ := toInt32 v, left_ := none, right_ := none, descr_ := some [] } := by
  rw [parseLoop_tok_end c fuel _ _ (sprintf_d_ne_nil v) (numChar_no_space (sprintf_d_chars v))
    (numChar_no_nul (sprintf_d_chars v))]
  simp [sscanf_d_sprintf_d, Scan.sval, Scan.node_id, parseFinish]

/-! ## The lookup of checkHashMap and the root reference -/

/-- A property kept by the recursive call on child fields is kept by the two
child calls. -/
theorem processChildren_inv_field (Post : State → Prop)
    (go : State → Nat → Ptr → Option Nat → Except Fault (Int × State))
    (hgo : ∀ st n holder parent r, Post st → holder ≠ Ptr.root →
      go st n holder parent = Except.ok r → Post r.2)
    (st : State) (n : Nat) (r : Int × State) (hp : Post st)
    (h : processChildren go st n = Except.ok r) : Post r.2 := by
  unfold processChildren at h
  have hright : ∀ st1 r, Post st1 →
      (match (st1.rd n).right_ with
        | none => Except.ok (0, st1)
        | some r =>
          match go st1 r (Ptr.right n) (some n) with
          | Except.error f => Except.error f
          | Except.ok res =>
            if res.1 = -EINVAL then Except.ok res else Except.ok (0, res.2)) =
        Except.ok r → Post r.2 := by
    intro st1 r hp1 hr
    split at hr
    · cases hr; exact hp1
    · rename_i rr _
      cases hg : go st1 rr (Ptr.right n) (some n) with
      | error f => simp [hg] at hr
      | ok res2 =>
        have := hgo st1 rr (Ptr.right n) (some n) res2 hp1 (by simp) hg
        simp only [hg] at hr
        split at hr <;> (cases hr; exact this)
  simp only at h
  split at h
  · exact hright _ _ hp h
  · rename_i l _
    cases hg : go st l (Ptr.left n) (some n) with
    | error f => simp [hg] at h
    | ok res1 =>
      have h1 := hgo st l (Ptr.left n) (some n) res1 hp (by simp) hg
      simp only [hg] at h
      split at h
      · cases h; exact h1
      · exact hright _ _ h1 h

/-- A property kept by every node-local step whose holder is not
`&decodedTree_` is kept by `processNode` called with such a holder. -/
theorem processNode_inv_field (Post : State → Prop)
    (hstep : ∀ st n holder parent r, Post st → holder ≠ Ptr.root →
      stepNode st n holder parent = Except.ok r → Post r.2) :
    ∀ fuel st n holder parent r, Post st → holder ≠ Ptr.root →
      processNode fuel st n holder parent = Except.ok r → Post r.2 := by
  intro fuel
  induction fuel with
  | zero => intro st n holder parent r _ _ h; simp [processNode] at h
  | succ fuel ih =>
    intro st n holder parent r hpre hh h
    rw [processNode_succ] at h
    cases hs : stepNode st n holder parent with
    | error f => simp [hs] at h
    | ok res =>
      have hres := hstep st n holder parent res hpre hh hs
      simp only [hs] at h
      split at h
      · cases h; exact hres
      · exact processChildren_inv_field Post (processNode fuel) ih res.2 n r hres h

/-- A property of the table kept by every node-local step holds after the
loop of `decodeFile`, whether it ended at the end of the input or at a
rejected line. -/
theorem readLines_table_any (T : List (Int × hash_ref) → Prop)
    (hstep : ∀ st n holder parent r, T st.insertMap_ → holder ≠ Ptr.root →
      stepNode st n holder parent = Except.ok r → T r.2.insertMap_)
    (lines : List (List Char)) (st st' : State) (b : Bool)
    (hpre : T st.insertMap_) (h : readLines st lines = Except.ok (b, st')) :
    T st'.insertMap_ := by
  induction lines generalizing st with
  | nil =>
    rw [readLines_nil] at h
    simp only [Except.ok.injEq, Prod.mk.injEq] at h
    rw [← h.2]; exact hpre
  | cons line rest ih =>
    by_cases hlen : line.length = 0
    · rw [readLines_cons_empty _ _ _ hlen] at h
      exact ih st hpre h
    · cases hp : parseLine st.complete_tree_ line with
      | nullDeref => rw [readLines_cons_crash _ _ _ hlen hp] at h; cases h
      | null =>
        rw [readLines_cons_null _ _ _ hlen hp] at h
        exact ih st hpre h
      | node p =>
        rw [readLines_cons_node _ _ _ p hp] at h
        cases hres : processNode ((allocParsed st p).2.cells.length + 1) (allocParsed st p).2
            (allocParsed st p).1 Ptr.null none with
        | error f => simp [hres] at h
        | ok res =>
          simp only [hres] at h
          obtain ⟨a1, -⟩ := allocParsed_fields st p
          have hw : T res.2.insertMap_ :=
            processNode_inv_field (fun s => T s.insertMap_) hstep _ _ _ _ _ _
              (by show T (allocParsed st p).2.insertMap_; rw [a1]; exact hpre) (by simp) hres
          by_cases hlt : res.1 < 0
          · rw [if_pos hlt] at h
            simp only [Except.ok.injEq, Prod.mk.injEq] at h
            rw [← h.2, (freeN_table _ _).1]
            exact hw
          · rw [if_neg hlt] at h
            exact ih _ hw h

/-- A reference of `id` that the scan does not skip makes the scan stop. -/
theorem scanRefs_some_of_mem {id : Int} : ∀ {m : List (Int × hash_ref)} (k : Nat)
    {e : Int × hash_ref}, e ∈ m → e.1 = id →
    ¬ (e.2.status_ = Status.FILLED ∧ e.2.nodePtr_ ≠ Ptr.root) →
    ∃ i, scanRefs id m k = some i
  | [], _, _, h, _, _ => by cases h
  | x :: rest, k, e, h, hk, hs => by
    unfold scanRefs
    split
    · exact ⟨k, rfl⟩
    · rename_i hx
      rcases List.mem_cons.mp h with rfl | h1
      · exact absurd ⟨hk, hs⟩ hx
      · exact scanRefs_some_of_mem (k + 1) h1 hk hs

/-- Where no reference of the id points to `decodedTree_` among the FILLED
ones, the scan of `checkHashMap` is the lookup of the specification. -/
theorem scanRefs_eq_firstUnresolved {id : Int} : ∀ (m : List (Int × hash_ref)) (k : Nat),
    (∀ e ∈ m, e.1 = id → e.2.status_ = Status.FILLED → e.2.nodePtr_ ≠ Ptr.root) →
    scanRefs id m k = firstUnresolved id m k
  | [], _, _ => rfl
  | x :: rest, k, h => by
    unfold scanRefs firstUnresolved
    have ih := scanRefs_eq_firstUnresolved rest (k + 1)
      (fun e he => h e (List.mem_cons_of_mem _ he))
    rw [ih]
    by_cases hx : x.1 = id
    · by_cases hf : x.2.status_ = Status.FILLED
      · have := h x (List.mem_cons_self _ _) hx hf
        simp [hx, hf, this]
      · simp [hx, hf]
    · simp [hx]

theorem firstUnresolved_spec {id : Int} : ∀ {m : List (Int × hash_ref)} {k i : Nat},
    firstUnresolved id m k = some i →
    k ≤ i ∧ i - k < m.length ∧ getKey m (i - k) = id ∧
      (getRef m (i - k)).status_ ≠ Status.FILLED
  | [], _, _, h => by simp [firstUnresolved] at h
  | x :: rest, k, i, h => by
    unfold firstUnresolved at h
    split at h
    · rename_i hx
      simp only [Option.some.injEq] at h
      subst h
      simp [getKey, getRef, hx.1, hx.2]
    · obtain ⟨h1, h2, h3, h4⟩ := firstUnresolved_spec h
      have : i - k = (i - (k + 1)) + 1 := by omega
      rw [this]
      refine ⟨by omega, by simp only [List.length_cons]; omega, ?_, ?_⟩
      · simpa [getKey] using h3
      · simpa [getRef] using h4

/-- Turning a reference into FILLED without making it point to
`decodedTree_` keeps `RootKey`. -/
theorem rootKey_modifyRef {m : List (Int × hash_ref)} (f : hash_ref → hash_ref) (i : Nat)
    (h : RootKey m)
    (hf : ∀ x, (f x).status_ = Status.FILLED ∧ ((f x).nodePtr_ = Ptr.root → x.nodePtr_ = Ptr.root)) :
    RootKey (modifyRef f i m) := by
  have key : ∀ e ∈ modifyRef f i m, e.2.nodePtr_ = Ptr.root →
      ∃ e0 ∈ m, e0.1 = e.1 ∧ e0.2.nodePtr_ = Ptr.root := by
    intro e he hr
    rcases mem_modifyRef he with h1 | ⟨hi, rfl⟩
    · exact ⟨e, h1, rfl, hr⟩
    · exact ⟨(getKey m i, getRef m i), getRef_mem hi, rfl, (hf _).2 hr⟩
  intro e he hr e' he' hk
  obtain ⟨e0, h0, hk0, hr0⟩ := key e he hr
  rcases mem_modifyRef he' with h1 | ⟨hi, rfl⟩
  · exact h e0 h0 hr0 e' h1 (hk.trans hk0.symm)
  · exact (hf _).1

/-- Appending the reference of `insertHashMap` keeps `RootKey` when no
reference of the id points to `decodedTree_`. -/
theorem rootKey_insert (st : State) (n : Nat) (holder : Ptr) (s : Status)
    (h : RootKey st.insertMap_) (hh : holder ≠ Ptr.root)
    (hk : ∀ e ∈ st.insertMap_, e.2.nodePtr_ = Ptr.root → e.1 ≠ (st.rd n).id_) :
    RootKey (insertHashMap st n holder s).2.insertMap_ := by
  unfold insertHashMap
  cases hm : st.insertMap_ with
  | nil =>
    simp only [List.isEmpty_nil, if_true, List.nil_append]
    intro e he _ e' he' _
    simp only [List.mem_singleton] at he he'
    rw [he']
  | cons x rest =>
    simp only [List.isEmpty_cons, Bool.false_eq_true, if_false]
    have hp : (if s = Status.NODE_WAIT then Ptr.node n else holder) ≠ Ptr.root := by
      split
      · simp
      · exact hh
    intro e he hr e' he' hk'
    rcases List.mem_append.mp he with h1 | h1
    · rcases List.mem_append.mp he' with h2 | h2
      · exact h e h1 hr e' h2 hk'
      · simp only [List.mem_singleton] at h2
        subst h2
        exact absurd hk'.symm (hk e h1 hr)
    · simp only [List.mem_singleton] at h1
      subst h1
      exact absurd hr hp

/-- Every node-local step keeps `RootKey`. -/
theorem stepNode_rootKey (st : State) (n : Nat) (holder : Ptr) (parent : Option Nat)
    (r : Int × State) (hpre : RootKey st.insertMap_) (hh : holder ≠ Ptr.root)
    (h : stepNode st n holder parent = Except.ok r) : RootKey r.2.insertMap_ := by
  unfold stepNode at h
  cases hc : checkHashMap st n holder parent with
  | error f => simp [hc] at h
  | ok res =>
    simp only [hc] at h
    revert h
    refine checkHashMap_cases_why
      (fun res => (if res.1 < 0 then
          if res.1 = -EINVAL then Except.ok res
          else Except.ok (res.1, (insertHashMap res.2 n holder
            (if (res.2.rd n).descr_ = none then Status.NONNODE_WAIT else Status.NODE_WAIT)).2)
        else (Except.ok res : Except Fault (Int × State))) = Except.ok r →
          RootKey r.2.insertMap_)
      st n holder parent ?_ ?_ ?_ ?_ ?_ ?_ res hc
    · intro hf h
      simp only [show ((-1 : Int) < 0) = True by simp, if_true,
        show ((-1 : Int) = -EINVAL) = False by simp [EINVAL], if_false, Except.ok.injEq] at h
      subst h
      refine rootKey_insert st n holder _ hpre hh ?_
      intro e he _ hk
      have : findList st.insertMap_ (st.rd n).id_ = true :=
        (findList_eq _ _).2 (List.mem_map.2 ⟨e, he, hk⟩)
      rw [hf] at this
      cases this
    · intro _ hwhy h
      by_cases hd : st.duplicate_ids_ = true
      · simp only [conflict, hd, if_true, show ((-1 : Int) < 0) = True by simp,
          show ((-1 : Int) = -EINVAL) = False by simp [EINVAL], if_false, Except.ok.injEq] at h
        subst h
        refine rootKey_insert st n holder _ hpre hh ?_
        intro e he hr hk
        obtain ⟨i, hi⟩ := scanRefs_some_of_mem 0 he hk (fun hx => hx.2 hr)
        rcases hwhy with h0 | ⟨j, hj, hne⟩
        · rw [h0] at hi; cases hi
        · obtain ⟨s1, s2, -⟩ := scanRefs_found hj
          exact hne (hpre e he hr _ (getRef_mem s1) (s2.trans hk.symm))
      · simp only [conflict, hd, Bool.false_eq_true, if_false,
          show ((-EINVAL : Int) < 0) = True by simp [EINVAL], if_true, Except.ok.injEq] at h
        subst h
        exact hpre
    · intro _ _ h
      simp only [show ((-EINVAL : Int) < 0) = True by simp [EINVAL], if_true,
        Except.ok.injEq] at h
      subst h
      exact hpre
    · intro i tn st1 _ _ _ _ _ hw h
      simp only [markFilled, show ¬ ((0 : Int) < 0) by simp, if_false, Except.ok.injEq] at h
      subst h
      simp only [(writeSlot_fields hw).1, delete_insertMap, modifyRef_modifyRef]
      exact rootKey_modifyRef _ i hpre (fun x => ⟨rfl, fun hx => absurd hx hh⟩)
    · intro i tfree st1 _ _ _ _ hw h
      simp only [markFilled, show ¬ ((0 : Int) < 0) by simp, if_false, Except.ok.injEq] at h
      subst h
      simp only [delete_insertMap, (writeSlot_fields hw).1]
      exact rootKey_modifyRef _ i hpre (fun x => ⟨rfl, fun hx => hx⟩)
    · intro i par cur st2 _ _ _ _ _ hw h
      have hm2 : st2.insertMap_ = st.insertMap_ := by
        rw [(writeSlot_fields hw).1, delete_insertMap]
      rcases markParentFilled_cases { st2 with decodedTree_ := some par } par with
        ⟨h1, h2⟩ | ⟨j, -, h1, h2⟩
      · rw [h1, h2] at h
        simp only [show ((-1 : Int) < 0) = True by simp, if_true,
          show ((-EINVAL : Int) < 0) = True by simp [EINVAL], Except.ok.injEq] at h
        subst h
        simp only [hm2]
        exact hpre
      · rw [h1, h2] at h
        simp only [markFilled, show ¬ ((0 : Int) < 0) by simp, if_false, Except.ok.injEq] at h
        subst h
        simp only [hm2]
        exact rootKey_modifyRef _ i (rootKey_modifyRef _ j hpre (fun x => ⟨rfl, fun hx => hx⟩))
          (fun x => ⟨rfl, fun hx => hx⟩)

/-- The attach step of `checkHashMap` in full. -/
theorem checkHashMap_attach (st : State) (n b i N : Nat) (holder : Ptr)
    (hinv : RootKey st.insertMap_)
    (hh : holder = Ptr.left b ∨ holder = Ptr.right b)
    (hd : (st.rd n).descr_ = none)
    (hi : firstUnresolved (st.rd n).id_ st.insertMap_ 0 = some i)
    (hN : getRef st.insertMap_ i = { nodePtr_ := Ptr.node N, status_ := Status.NODE_WAIT }) :
    checkHashMap st n holder (some b) = Except.ok (0,
      { cells := st.cells.set b
          (if holder = Ptr.left b then { st.rd b with left_ := some N }
            else { st.rd b with right_ := some N }),
        freed := n :: st.freed,
        decodedTree_ := st.decodedTree_,
        insertMap_ :=
          modifyRef (fun _ => { nodePtr_ := holder, status_ := Status.FILLED }) i st.insertMap_,
        wait_count_ := st.wait_count_ - 1,
        complete_tree_ := st.complete_tree_,
        duplicate_ids_ := st.duplicate_ids_ }) := by
  obtain ⟨-, h2, h3, h4⟩ := firstUnresolved_spec hi
  simp only [Nat.sub_zero] at h2 h3 h4
  have hfind : findList st.insertMap_ (st.rd n).id_ = true :=
    (findList_eq _ _).2 (List.mem_map.2 ⟨_, getRef_mem h2, h3⟩)
  have hscan : scanRefs (st.rd n).id_ st.insertMap_ 0 = some i := by
    rw [scanRefs_eq_firstUnresolved _ _ ?_, hi]
    intro e he hk _ hr
    exact h4 (hinv e he hr _ (getRef_mem h2) (h3.trans hk.symm))
  have hnull : holder ≠ Ptr.null := by
    rcases hh with rfl | rfl <;> simp
  unfold checkHashMap
  simp only [hfind, if_true, hscan, hN, hd, ne_eq, not_true_eq_false, hnull, or_self, if_false]
  rcases hh with rfl | rfl
  · simp [State.writeSlot, State.delete, State.wr, State.rd, markFilled, modifyRef_modifyRef]
  · simp [State.writeSlot, State.delete, State.wr, State.rd, markFilled, modifyRef_modifyRef]

/-! ## parseLine on lines without a token -/

/-- The token loop on a run of spaces: every token is empty, the state is
unchanged when the loop ends. -/
theorem parseLoop_spaces (c : Bool) : ∀ (fuel k : Nat) (st : ParseState),
    parseLoop c fuel st (List.replicate k ' ') = parseFinish st.n
  | 0, _, _ => rfl
  | fuel + 1, 0, st => rfl
  | fuel + 1, k + 1, st => by
    have ih := parseLoop_spaces c fuel k st
    rw [List.replicate_succ, parseLoop]
    simp only [getTok, beq_self_eq_true, if_true, cstr, List.takeWhile_nil]
    exact ih

theorem eq_replicate_of_spaces : ∀ (s : List Char), (∀ x ∈ s, x = ' ') →
    s = List.replicate s.length ' '
  | [], _ => rfl
  | x :: xs, h => by
    rw [List.length_cons, List.replicate_succ, h x (List.mem_cons_self _ _),
      ← eq_replicate_of_spaces xs (fun y hy => h y (List.mem_cons_of_mem _ hy))]

/-- A line with a character that is not a space has a non-empty token, so the
token loop creates the node or returns NULL. -/
theorem parseLoop_token (c : Bool) : ∀ (fuel : Nat) (lc : Nat) (s : List Char),
    s.length < fuel → (∀ x ∈ s, x ≠ '\x00') → (∃ x ∈ s, x ≠ ' ') →
    parseLoop c fuel { n := none, leaf_count := lc } s ≠ ParseResult.nullDeref
  | 0, _, _, h, _, _ => absurd h (Nat.not_lt_zero _)
  | fuel + 1, lc, [], _, _, ⟨x, hx, _⟩ => by cases hx
  | fuel + 1, lc, x :: xs, hlen, hnul, hne => by
    rw [parseLoop]
    by_cases hx : x = ' '
    · subst hx
      simp only [getTok, beq_self_eq_true, if_true, cstr, List.takeWhile_nil]
      refine parseLoop_token c fuel lc xs (by simpa using hlen)
        (fun y hy => hnul y (List.mem_cons_of_mem _ hy)) ?_
      obtain ⟨y, hy, hys⟩ := hne
      rcases List.mem_cons.1 hy with rfl | hy
      · exact absurd rfl hys
      · exact ⟨y, hy, hys⟩
    · have hb : (x == ' ') = false := by simpa using hx
      have hc : cstr (getTok (x :: xs)).1 = (getTok (x :: xs)).1 :=
        cstr_of_no_nul _ (getTok_no_nul _ (fun y hy => by simpa using hnul y hy))
      have ht : (getTok (x :: xs)).1 = x :: (getTok xs).1 := by
        simp [getTok, hb]
      simp only
      cases ha : cstr (getTok (x :: xs)).1 with
      | nil =>
        rw [hc, ht] at ha
        cases ha
      | cons y ys =>
        simp only
        by_cases hs : (sscanf_d (y :: ys)).sval = 0
        · rw [if_pos hs]
          intro h0; cases h0
        · rw [if_neg hs]
          obtain ⟨q, hq, -⟩ := parseLoop_some c fuel
            { id_ := (sscanf_d (y :: ys)).node_id, left_ := none, right_ := none,
              descr_ := none } lc (getTok (x :: xs)).2.1
          rw [hq]
          intro h0; cases h0

/-- Where `parseLine` evaluates `n->descr_` with `n == NULL`: on the lines
shorter than `maxLineSize` made of spaces only (among the lines without NUL). -/
theorem parseLine_nullDeref_iff (c : Bool) (line : List Char) (hnul : ∀ x ∈ line, x ≠ '\x00') :
    parseLine c line = ParseResult.nullDeref ↔
      line.length < maxLineSize ∧ ∀ x ∈ line, x = ' ' := by
  unfold parseLine
  by_cases hlen : line.length ≥ maxLineSize
  · rw [if_pos hlen]
    constructor
    · intro h0; cases h0
    · intro h0; omega
  · rw [if_neg hlen]
    constructor
    · intro h0
      refine ⟨by omega, ?_⟩
      by_contra hall
      have hex : ∃ x ∈ line, x ≠ ' ' := by
        by_contra hno
        apply hall
        intro x hx
        by_contra hxs
        exact hno ⟨x, hx, hxs⟩
      exact parseLoop_token c _ 0 line (Nat.lt_succ_self _) hnul hex h0
    · rintro ⟨-, hall⟩
      rw [eq_replicate_of_spaces line hall, parseLoop_spaces]
      rfl

/-! ## Labels survive allocation, records and the whole read -/

theorem parsedCells_slots (base : Nat) (p : PNode) (k m : Nat) :
    (((parsedCells base p).getD k node.zero).left_ = some m → k = 0 ∧ p.left_ ≠ none) ∧
      (((parsedCells base p).getD k node.zero).right_ = some m → k = 0 ∧ p.right_ ≠ none) := by
  obtain ⟨i, l, r, d⟩ := p
  cases l <;> cases r <;> simp only [parsedCells]
  all_goals
    rcases k with _ | _ | _ | k <;> simp [node.zero]

theorem rd_append_described (st : State) (extra : List node) (a : Nat)
    (h : (st.rd a).descr_ ≠ none) :
    ({ st with cells := st.cells ++ extra } : State).rd a = st.rd a := by
  rw [rd_append]
  by_cases hlt : a < st.cells.length
  · rw [if_pos hlt]
  · exfalso
    apply h
    have : st.rd a = node.zero := by
      unfold State.rd
      exact List.getD_eq_default _ _ (by omega)
    rw [this]
    rfl

/-- The cells of a record join the store with the two child fields of its
node as the fields of the record in progress. -/
theorem labelled_alloc {st : State} (p : PNode) (hL : Labelled st (fun _ => False)) :
    Labelled (allocParsed st p).2
      (fun q => (q = Ptr.left st.cells.length ∧ p.left_ ≠ none) ∨
        (q = Ptr.right st.cells.length ∧ p.right_ ≠ none)) := by
  rw [(allocParsed_cells st p).1]
  obtain ⟨j1, j2, j3⟩ := hL
  have hrd := rd_append st (parsedCells st.cells.length p)
  have hold := rd_append_described st (parsedCells st.cells.length p)
  refine ⟨?_, ?_, ?_⟩
  · intro t ht
    have := j1 t ht
    rw [hold t this]
    exact this
  · intro q m hq
    have key : ∀ a, a < st.cells.length → slotOf st q = some m →
        (({ st with cells := st.cells ++ parsedCells st.cells.length p } : State).rd m).descr_ ≠ none ∨
          ((q = Ptr.left st.cells.length ∧ p.left_ ≠ none) ∨
            (q = Ptr.right st.cells.length ∧ p.right_ ≠ none)) ∨
          ∃ e ∈ st.insertMap_, e.2.status_ = Status.NONNODE_WAIT ∧ e.2.nodePtr_ = q := by
      intro a _ hs
      rcases j2 q m hs with h1 | h1 | h1
      · left; rw [hold m h1]; exact h1
      · exact absurd h1 id
      · exact Or.inr (Or.inr h1)
    cases q with
    | null => cases hq
    | root => cases hq
    | node a => cases hq
    | left a =>
      simp only [slotOf, hrd] at hq
      by_cases hlt : a < st.cells.length
      · rw [if_pos hlt] at hq
        exact key a hlt hq
      · rw [if_neg hlt] at hq
        obtain ⟨k0, k1⟩ := (parsedCells_slots st.cells.length p (a - st.cells.length) m).1 hq
        right; left; left
        exact ⟨by congr 1; omega, k1⟩
    | right a =>
      simp only [slotOf, hrd] at hq
      by_cases hlt : a < st.cells.length
      · rw [if_pos hlt] at hq
        exact key a hlt hq
      · rw [if_neg hlt] at hq
        obtain ⟨k0, k1⟩ := (parsedCells_slots st.cells.length p (a - st.cells.length) m).2 hq
        right; left; right
        exact ⟨by congr 1; omega, k1⟩
  · intro e he hs
    obtain ⟨t, t1, t2⟩ := j3 e he hs
    exact ⟨t, t1, by rw [hold t t2]; exact t2⟩

/-- A record that is ingested without a conflict keeps the labels in
place. -/
theorem record_labelled (st : State) (p : PNode) (r : Int × State)
    (hL : Labelled st (fun _ => False))
    (hb : Bounded st st.cells.length) (hd : p.descr_ ≠ none)
    (h : processNode ((allocParsed st p).2.cells.length + 1) (allocParsed st p).2
      (allocParsed st p).1 Ptr.null none = Except.ok r) (hr : ¬ r.1 < 0) :
    Labelled r.2 (fun _ => False) := by
  obtain ⟨res, sL, hs, he, hleft, hright⟩ := record_trace st p r hb hd h hr
  have hL1 := labelled_alloc p hL
  have hrd := (allocParsed_rd st p).2
  rw [(allocParsed_cells st p).2] at hrd
  generalize (allocParsed st p).2 = st1 at hs hL1 hrd hright
  have hd1 : (st1.rd st.cells.length).descr_ ≠ none := by rw [hrd]; exact hd
  have g1 := stepNode_labelled_top hL1 hd1 hs he
  obtain ⟨-, a2, -, -⟩ := stepNode_store _ _ _ _ _ hs
  have g2 : (res.2.rd st.cells.length).descr_ ≠ none := by rw [(a2 _).2]; exact hd1
  have g3 := stepNode_nonempty hs he
  have hL2 : Labelled sL (fun q => q = Ptr.right st.cells.length ∧ p.right_ ≠ none) ∧
      (sL.rd st.cells.length).descr_ ≠ none ∧ sL.insertMap_ ≠ [] := by
    rcases hleft with ⟨hl0, rfl⟩ | ⟨l, res1, hl1, hcell1, hs1, he1, rfl⟩
    · refine ⟨labelled_weaken g1 (fun q hq => ?_), g2, g3⟩
      rcases hq with ⟨-, h0⟩ | h0
      · exact absurd hl0 h0
      · exact h0
    · have hdn : (res.2.rd (st.cells.length + 1)).descr_ = none := by rw [hcell1]; rfl
      have k1 := stepNode_labelled_child g1 hdn (Or.inl rfl) g2 g3 hs1 he1
      obtain ⟨-, b2, -, -⟩ := stepNode_store _ _ _ _ _ hs1
      refine ⟨labelled_weaken k1 (fun q hq => ?_), by rw [(b2 _).2]; exact g2,
        stepNode_nonempty hs1 he1⟩
      rcases hq with ⟨⟨h0, -⟩ | h0, hne⟩
      · exact absurd h0 hne
      · exact h0
  obtain ⟨l1, l2, l3⟩ := hL2
  rcases hright with ⟨hr0, hrr⟩ | ⟨rr, ra, res2, hr1, -, -, hcell2, hs2, he2, hrr⟩
  · rw [hrr]
    exact labelled_weaken l1 (fun q hq => absurd hr0 hq.2)
  · have hdn : (sL.rd ra).descr_ = none := by rw [hcell2]; rfl
    have k2 := stepNode_labelled_child l1 hdn (Or.inr rfl) l2 l3 hs2 he2
    rw [hrr]
    exact labelled_weaken k2 (fun q hq => absurd hq.1.1 hq.2)

theorem init_labelled (c d : Bool) : Labelled (State.init c d) (fun _ => False) := by
  refine ⟨?_, ?_, ?_⟩
  · intro t ht; simp [State.init] at ht
  · intro q m hq
    cases q <;> simp [slotOf, State.rd, State.init, node.zero] at hq
  · intro e he; simp [State.init] at he

/-- The labels stay in place through the loop. -/
theorem readLines_labelled (lines : List (List Char)) (st st' : State)
    (hL : Labelled st (fun _ => False)) (hb : Bounded st st.cells.length)
    (h : readLines st lines = Except.ok (false, st')) : Labelled st' (fun _ => False) := by
  have := readLines_inv (fun s => Labelled s (fun _ => False) ∧ Bounded s s.cells.length) ?_
    lines st st' ⟨hL, hb⟩ h
  · exact this.1
  · intro s line p r ⟨i1, i2⟩ _ hp hres hlt
    have hd := parseLine_descr hp
    obtain ⟨-, -, -, r4⟩ := record_store s p r i2 hd hres hlt
    exact ⟨record_labelled s p r i1 i2 hd hres hlt, r4⟩

/-- After a successful decode every node of the decoded tree has a label. -/
theorem decodeFile_labels (c d : Bool) (lines : List (List Char)) (st : State)
    (h : decodeFile c d lines = Except.ok (Exit.done, st)) :
    ∀ a, Reach st a → (st.rd a).descr_ ≠ none := by
  unfold decodeFile at h
  split at h
  · cases h
  · cases h
  · rename_i st0 hrl
    simp only [Except.ok.injEq, Prod.mk.injEq] at h
    obtain ⟨hfin, rfl⟩ := h
    have hb0 : Bounded (State.init c d) (State.init c d).cells.length := by
      intro e he; simp [State.init] at he
    have hw := readLines_wait lines _ _ (by simp [WaitInv, State.init, pendingCount]) hrl
    obtain ⟨j1, j2, -⟩ := readLines_labelled lines _ _ (init_labelled c d) hb0 hrl
    have hwc : ¬ st0.wait_count_ > 0 := by
      intro h0
      simp [finish, h0] at hfin
    have hpc : pendingCount st0.insertMap_ = 0 := by
      rw [hw] at hwc
      omega
    have hslot : ∀ q m, slotOf st0 q = some m → (st0.rd m).descr_ ≠ none := by
      intro q m hq
      rcases j2 q m hq with h1 | h1 | ⟨e, he, hs, -⟩
      · exact h1
      · exact absurd h1 id
      · have := pendingCount_pos he (by rw [hs]; rfl)
        omega
    intro a ha
    induction ha with
    | root ht => exact j1 _ ht
    | left _ hl _ => exact hslot (Ptr.left _) _ hl
    | right _ hr _ => exact hslot (Ptr.right _) _ hr

/-- A child id, written by `%d`, that ends the line. -/
theorem parseLoop_child_end (c : Bool) (fuel : Nat) (p : PNode) (lc : Nat) (v : Int)
    (hd : p.descr_ = none) (hr : p.right_ = none) :
    parseLoop c (fuel + 1) { n := some p, leaf_count := lc } (sprintf_d v) =
      ParseResult.node
        (match p.left_ with
          | none => { p with left_ := some (toInt32 v), descr_ := some [] }
          | some _ => { p with right_ := some (toInt32 v), descr_ := some [] }) := by
  rw [parseLoop_tok_end c fuel _ _ (sprintf_d_ne_nil v) (numChar_no_space (sprintf_d_chars v))
    (numChar_no_nul (sprintf_d_chars v))]
  obtain ⟨i, l, r, d⟩ := p
  simp only at hd hr
  subst hd hr
  cases l <;> simp [sscanf_d_sprintf_d, Scan.sval, Scan.node_id, parseFinish]

/-- The lines without label text: an id alone, an id with one child id, an id
with two child ids. Each is given the empty string as label. -/
theorem parseLine_no_label (c : Bool) (id l r : Int) :
    ((sprintf_d id).length < maxLineSize →
        parseLine c (sprintf_d id) =
          ParseResult.node
            { id_ := toInt32 id, left_ := none, right_ := none, descr_ := some [] }) ∧
      ((sprintf_d id ++ ' ' :: sprintf_d l).length < maxLineSize →
        parseLine c (sprintf_d id ++ ' ' :: sprintf_d l) =
          ParseResult.node
            { id_ := toInt32 id, left_ := some (toInt32 l), right_ := none,
              descr_ := some [] }) ∧
      ((sprintf_d id ++ ' ' :: (sprintf_d l ++ ' ' :: sprintf_d r)).length < maxLineSize →
        parseLine c (sprintf_d id ++ ' ' :: (sprintf_d l ++ ' ' :: sprintf_d r)) =
          ParseResult.node
            { id_ := toInt32 id, left_ := some (toInt32 l), right_ := some (toInt32 r),
              descr_ := some [] }) := by
  have p1 := List.length_pos.mpr (sprintf_d_ne_nil id)
  have p2 := List.length_pos.mpr (sprintf_d_ne_nil l)
  have p3 := List.length_pos.mpr (sprintf_d_ne_nil r)
  refine ⟨fun h => ?_, fun h => ?_, fun h => ?_⟩
  · unfold parseLine
    rw [if_neg (by omega), parseLoop_first_end]
  · unfold parseLine
    rw [if_neg (by omega)]
    obtain ⟨m, hm⟩ : ∃ m, (sprintf_d id ++ ' ' :: sprintf_d l).length + 1 = m + 2 :=
      ⟨(sprintf_d id ++ ' ' :: sprintf_d l).length - 1, by
        simp only [List.length_append, List.length_cons]; omega⟩
    rw [hm, parseLoop_first, parseLoop_child_end _ _ _ _ _ rfl rfl]
  · unfold parseLine
    rw [if_neg (by omega)]
    obtain ⟨m, hm⟩ : ∃ m, (sprintf_d id ++ ' ' :: (sprintf_d l ++ ' ' :: sprintf_d r)).length + 1
        = m + 3 :=
      ⟨(sprintf_d id ++ ' ' :: (sprintf_d l ++ ' ' :: sprintf_d r)).length - 2, by
        simp only [List.length_append, List.length_cons]; omega⟩
    rw [hm, parseLoop_first, parseLoop_left _ _ _ _ _ _ rfl,
      parseLoop_child_end _ _ _ _ _ rfl rfl]

/-! ## The two printed traversals -/

theorem mergeLevels_nil_right (xs : List (List (Option (List Char)))) :
    mergeLevels xs [] = xs := by
  cases xs <;> rfl

theorem mergeLevels_assoc : ∀ (xs ys zs : List (List (Option (List Char)))),
    mergeLevels (mergeLevels xs ys) zs = mergeLevels xs (mergeLevels ys zs)
  | [], ys, zs => by simp only [mergeLevels]
  | x :: xs, [], zs => by simp only [mergeLevels]
  | x :: xs, y :: ys, [] => by simp only [mergeLevels]
  | x :: xs, y :: ys, z :: zs => by
    simp only [mergeLevels, List.append_assoc, mergeLevels_assoc xs ys zs]

/-- Reading the levels of two side-by-side lists in a row: the first level of
the first list, then the rest with the roles exchanged. -/
theorem join_mergeLevels_cons : ∀ (n : Nat) (xs ys : List (List (Option (List Char))))
    (a : List (Option (List Char))), xs.length + ys.length ≤ n →
    (mergeLevels (a :: xs) ys).flatten = a ++ (mergeLevels ys xs).flatten
  | _, xs, [], a, _ => by
    cases xs <;> simp only [mergeLevels, List.flatten_cons]
  | 0, xs, y :: ys, a, h => by
    simp only [List.length_cons] at h
    omega
  | n + 1, xs, y :: ys, a, h => by
    have ih := join_mergeLevels_cons n ys xs y (by
      simp only [List.length_cons] at h
      omega)
    rw [ih]
    simp only [mergeLevels, List.flatten_cons, List.append_assoc]

theorem mem_join_mergeLevels (d : Option (List Char)) :
    ∀ (xs ys : List (List (Option (List Char)))),
      d ∈ (mergeLevels xs ys).flatten ↔ d ∈ xs.flatten ∨ d ∈ ys.flatten
  | [], ys => by simp [mergeLevels]
  | x :: xs, [] => by simp [mergeLevels]
  | x :: xs, y :: ys => by
    simp only [mergeLevels, List.flatten_cons, List.mem_append, mem_join_mergeLevels d xs ys]
    tauto

/-- Both traversals visit the same labels. -/
theorem mem_levelOrder (d : Option (List Char)) :
    ∀ s : Shape, d ∈ s.levelOrder ↔ d ∈ s.inOrder
  | Shape.nil => by simp [Shape.levelOrder, Shape.levels, Shape.inOrder]
  | Shape.node i e l r => by
    have hl := mem_levelOrder d l
    have hr := mem_levelOrder d r
    simp only [Shape.levelOrder] at hl hr
    simp only [Shape.levelOrder, Shape.levels, Shape.inOrder, List.flatten_cons, List.mem_append,
      List.mem_cons, mem_join_mergeLevels, hl, hr, List.mem_singleton, List.not_mem_nil,
      or_false]
    tauto

/-- The text of a run of labels: each followed by one space. -/
theorem labelsLine_eq (ls : List (Option (List Char))) (h : ∀ d ∈ ls, d ≠ none) :
    ls = (ls.map (fun d => d.getD [])).map some := by
  induction ls with
  | nil => rfl
  | cons d t ih =>
    have hd := h d (List.mem_cons_self _ _)
    cases d with
    | none => exact absurd rfl hd
    | some s =>
      simp only [List.map_cons, Option.getD_some, List.cons.injEq, true_and]
      exact ih (fun e he => h e (List.mem_cons_of_mem _ he))

/-- What `shapeAt` returns for a node. -/
theorem shapeAt_some {st : State} {f : Nat} {a : Nat} {s : Shape}
    (h : shapeAt st f (some a) = some s) :
    ∃ g l r, f = g + 1 ∧ shapeAt st g (st.rd a).left_ = some l ∧
      shapeAt st g (st.rd a).right_ = some r ∧
      s = Shape.node (st.rd a).id_ (st.rd a).descr_ l r := by
  cases f with
  | zero => simp [shapeAt] at h
  | succ g =>
    simp only [shapeAt] at h
    cases hl : shapeAt st g (st.rd a).left_ with
    | none => simp [hl] at h
    | some l =>
      cases hr : shapeAt st g (st.rd a).right_ with
      | none => simp [hl, hr] at h
      | some r =>
        simp only [hl, hr, Option.some.injEq] at h
        exact ⟨g, l, r, rfl, hl, hr, h.symm⟩

theorem shapeAt_none {st : State} {f : Nat} {s : Shape}
    (h : shapeAt st f none = some s) : s = Shape.nil := by
  cases f <;> simp [shapeAt] at h <;> exact h.symm

/-- A tree no deeper than `f` has fewer than `2 ^ f` nodes. -/
theorem shapeAt_size {st : State} : ∀ (f : Nat) (p : Option Nat) (s : Shape),
    shapeAt st f p = some s → s.size < 2 ^ f
  | f, none, s, h => by
    rw [shapeAt_none h]
    exact Nat.two_pow_pos f
  | f, some a, s, h => by
    obtain ⟨g, l, r, rfl, hl, hr, rfl⟩ := shapeAt_some h
    have h1 := shapeAt_size g _ _ hl
    have h2 := shapeAt_size g _ _ hr
    simp only [Shape.size, Nat.pow_succ]
    omega

/-- Labels of the nodes reached from the root are the labels of the tree. -/
theorem shapeAt_labels {st : State} (hall : ∀ a, Reach st a → (st.rd a).descr_ ≠ none) :
    ∀ (f : Nat) (p : Option Nat) (s : Shape),
      shapeAt st f p = some s → (∀ a, p = some a → Reach st a) →
        ∀ d ∈ s.inOrder, d ≠ none
  | f, none, s, h, _ => by
    rw [shapeAt_none h]
    simp [Shape.inOrder]
  | f, some a, s, h, hr => by
    obtain ⟨g, l, r, rfl, hl, hr2, rfl⟩ := shapeAt_some h
    have ra := hr a rfl
    have h1 := shapeAt_labels hall g _ _ hl (fun m hm => Reach.left ra hm)
    have h2 := shapeAt_labels hall g _ _ hr2 (fun m hm => Reach.right ra hm)
    intro d hd
    simp only [Shape.inOrder, List.mem_append, List.mem_cons] at hd
    rcases hd with hd | hd | hd
    · exact h1 d hd
    · rw [hd]
      exact hall a ra
    · exact h2 d hd

/-- `printDFSRecur` writes the in-order labels of the tree under `p`. -/
theorem printDFSRecur_shape (st : State) : ∀ (f : Nat) (p : Option Nat) (s : Shape)
    (out : List Char), shapeAt st f p = some s → (∀ d ∈ s.inOrder, d ≠ none) →
    printDFSRecur st f p out =
      Except.ok (out ++ ((s.inOrder.map (fun d => d.getD [])).map (fun t => t ++ [' '])).flatten)
  | f, none, s, out, h, _ => by
    rw [shapeAt_none h]
    cases f <;> simp [printDFSRecur, Shape.inOrder]
  | f, some a, s, out, h, hlab => by
    obtain ⟨g, l, r, rfl, hl, hr, rfl⟩ := shapeAt_some h
    have hd : (st.rd a).descr_ ≠ none :=
      hlab _ (by simp [Shape.inOrder])
    obtain ⟨t, ht⟩ := Option.ne_none_iff_exists'.mp hd
    have h1 := printDFSRecur_shape st g _ l out hl
      (fun d hd => hlab d (by simp [Shape.inOrder, hd]))
    simp only [printDFSRecur, h1, ht, putDescr]
    rw [printDFSRecur_shape st g _ r _ hr (fun d hd => hlab d (by simp [Shape.inOrder, hd]))]
    simp only [Shape.inOrder, List.map_append, List.map_cons, List.flatten_append,
      List.flatten_cons, Option.getD_some, List.append_assoc]

/-- The levels of the trees of a queue, side by side. -/
theorem levels_append (xs ys : List Shape) :
    (xs ++ ys).foldr (fun s acc => mergeLevels s.levels acc) [] =
      mergeLevels (xs.foldr (fun s acc => mergeLevels s.levels acc) [])
        (ys.foldr (fun s acc => mergeLevels s.levels acc) []) := by
  induction xs with
  | nil => simp [mergeLevels]
  | cons x t ih =>
    simp only [List.cons_append, List.foldr_cons, ih, mergeLevels_assoc]

/-- `printBFS` loop: with the trees `ss` under the addresses of the queue, the
loop writes their labels level by level. -/
theorem bfsLoop_shapes (st : State) : ∀ (fuel : Nat) (q : List Nat) (ss : List Shape)
    (out : List Char),
    List.Forall₂ (fun a s => ∃ f, shapeAt st f (some a) = some s) q ss →
    (∀ s ∈ ss, ∀ d ∈ s.inOrder, d ≠ none) →
    (ss.map Shape.size).sum ≤ fuel →
    bfsLoop st fuel q out =
      Except.ok (out ++
        ((((ss.foldr (fun s acc => mergeLevels s.levels acc) []).flatten).map
          (fun d => d.getD [])).map (fun t => t ++ [' '])).flatten)
  | fuel, [], ss, out, hq, _, _ => by
    cases hq
    cases fuel <;> simp [bfsLoop]
  | 0, a :: q, ss, out, hq, _, hsz => by
    cases hq with
    | cons h1 h2 =>
      obtain ⟨f, hf⟩ := h1
      obtain ⟨g, l, r, rfl, hl, hr, rfl⟩ := shapeAt_some hf
      simp [Shape.size] at hsz
  | fuel + 1, a :: q, ss, out, hq, hlab, hsz => by
    cases hq with
    | @cons _ s0 _ ss1 h1 h2 =>
      obtain ⟨f, hf⟩ := h1
      obtain ⟨g, l, r, rfl, hl, hr, rfl⟩ := shapeAt_some hf
      have hd : (st.rd a).descr_ ≠ none :=
        hlab _ (List.mem_cons_self _ _) _ (by simp [Shape.inOrder])
      obtain ⟨t, ht⟩ := Option.ne_none_iff_exists'.mp hd
      have hlabL : ∀ d ∈ l.inOrder, d ≠ none := fun d hd =>
        hlab _ (List.mem_cons_self _ _) d (by simp [Shape.inOrder, hd])
      have hlabR : ∀ d ∈ r.inOrder, d ≠ none := fun d hd =>
        hlab _ (List.mem_cons_self _ _) d (by simp [Shape.inOrder, hd])
      have hlab1 : ∀ s ∈ ss1, ∀ d ∈ s.inOrder, d ≠ none := fun s hs =>
        hlab s (List.mem_cons_of_mem _ hs)
      simp only [List.map_cons, List.sum_cons, Shape.size] at hsz
      -- the children that are pushed
      obtain ⟨kq, ks, hkq, hks, hkl, hksz, hklab⟩ : ∃ (kq : List Nat) (ks : List Shape),
          bfsLoop st (fuel + 1) (a :: q) out = bfsLoop st fuel (q ++ kq) (out ++ t ++ [' ']) ∧
          List.Forall₂ (fun a s => ∃ f, shapeAt st f (some a) = some s) kq ks ∧
          ks.foldr (fun s acc => mergeLevels s.levels acc) [] =
            mergeLevels l.levels r.levels ∧
          (ks.map Shape.size).sum = l.size + r.size ∧
          (∀ s ∈ ks, ∀ d ∈ s.inOrder, d ≠ none) := by
        cases hL : (st.rd a).left_ with
        | none =>
          rw [hL] at hl
          have hl0 := shapeAt_none hl
          subst hl0
          cases hR : (st.rd a).right_ with
          | none =>
            rw [hR] at hr
            have hr0 := shapeAt_none hr
            subst hr0
            exact ⟨[], [], by simp [bfsLoop, hL, hR, ht, putDescr], List.Forall₂.nil, by simp [Shape.levels, mergeLevels],
              by simp [Shape.size], by simp⟩
          | some m =>
            rw [hR] at hr
            exact ⟨[m], [r], by simp [bfsLoop, hL, hR, ht, putDescr], List.Forall₂.cons ⟨g, hr⟩ List.Forall₂.nil,
              by simp [Shape.levels, mergeLevels, mergeLevels_nil_right],
              by simp [Shape.size], by simpa using hlabR⟩
        | some k =>
          rw [hL] at hl
          cases hR : (st.rd a).right_ with
          | none =>
            rw [hR] at hr
            have hr0 := shapeAt_none hr
            subst hr0
            exact ⟨[k], [l], by simp [bfsLoop, hL, hR, ht, putDescr], List.Forall₂.cons ⟨g, hl⟩ List.Forall₂.nil,
              by simp [Shape.levels, mergeLevels_nil_right],
              by simp [Shape.size], by simpa using hlabL⟩
          | some m =>
            rw [hR] at hr
            exact ⟨[k, m], [l, r], by simp [bfsLoop, hL, hR, ht, putDescr],
              List.Forall₂.cons ⟨g, hl⟩ (List.Forall₂.cons ⟨g, hr⟩ List.Forall₂.nil),
              by simp [mergeLevels_nil_right],
              by simp [Shape.size], by
                intro s hs
                simp only [List.mem_cons, List.mem_singleton, List.not_mem_nil, or_false] at hs
                rcases hs with rfl | rfl
                · exact hlabL
                · exact hlabR⟩
      have ih := bfsLoop_shapes st fuel (q ++ kq) (ss1 ++ ks) (out ++ t ++ [' '])
        (List.rel_append h2 hks)
        (fun s hs => by
          rcases List.mem_append.mp hs with h | h
          · exact hlab1 s h
          · exact hklab s h)
        (by
          simp only [List.map_append, List.sum_append, hksz]
          omega)
      rw [hkq, ih]
      simp only [levels_append, hkl, List.foldr_cons, Shape.levels]
      rw [join_mergeLevels_cons _ _ _ _ (le_refl _)]
      simp only [List.map_append, List.map_cons, List.map_nil, List.flatten_append,
        List.flatten_cons, List.flatten_nil, Option.getD_some, List.append_assoc, List.append_nil,
        List.singleton_append, List.cons_append, List.nil_append, ht]

/-! ## The printed lines after a successful decode -/

/-- The output after a successful decode whose cells under the root form the
tree `sh`. -/
theorem decodeFile_output (c d : Bool) (lines : List (List Char)) (st : State) (sh : Shape)
    (h : decodeFile c d lines = Except.ok (Exit.done, st))
    (hs : decodedShape st = some sh) :
    ∃ bl dl : List (List Char),
      sh.levelOrder = bl.map some ∧ sh.inOrder = dl.map some ∧
        printBFS st = Except.ok (labelsLine bl) ∧
        printDFS st = Except.ok (labelsLine dl) ∧
        mainOutput st = Except.ok (labelsLine bl ++ labelsLine dl) := by
  have hall := decodeFile_labels c d lines st h
  have hlab : ∀ d ∈ sh.inOrder, d ≠ none :=
    shapeAt_labels hall _ _ _ hs (fun a ha => Reach.root ha)
  have hlab2 : ∀ d ∈ sh.levelOrder, d ≠ none := fun d hd =>
    hlab d ((mem_levelOrder d sh).mp hd)
  have hroot : ∃ t, st.decodedTree_ = some t := by
    unfold decodeFile at h
    cases hr : readLines (State.init c d) lines with
    | error f => simp [hr] at h
    | ok r =>
      obtain ⟨b, s1⟩ := r
      cases b with
      | true => simp [hr] at h
      | false =>
        simp only [hr, Except.ok.injEq, Prod.mk.injEq] at h
        obtain ⟨hf, rfl⟩ := h
        unfold finish at hf
        split at hf
        · cases hf
        · split at hf
          · cases hf
          · exact Option.ne_none_iff_exists'.mp ‹_›
  obtain ⟨t, ht⟩ := hroot
  have hsz := shapeAt_size _ _ _ hs
  have hb : printBFS st = Except.ok (labelsLine (sh.levelOrder.map (fun d => d.getD []))) := by
    unfold decodedShape at hs
    rw [ht] at hs
    have := bfsLoop_shapes st (walkFuel st) [t] [sh] []
      (List.Forall₂.cons ⟨_, hs⟩ List.Forall₂.nil)
      (fun s hs1 => by
        rw [List.mem_singleton.mp hs1]
        exact hlab)
      (by
        simp only [List.map_cons, List.map_nil, List.sum_cons, List.sum_nil, walkFuel]
        omega)
    simp only [printBFS, ht, this, labelsLine, Shape.levelOrder, List.foldr_cons, List.foldr_nil,
      mergeLevels_nil_right, List.nil_append]
  have hd : printDFS st = Except.ok (labelsLine (sh.inOrder.map (fun d => d.getD []))) := by
    unfold decodedShape at hs
    simp only [printDFS, printDFSRecur_shape st _ _ sh [] hs hlab, labelsLine, List.nil_append]
  exact ⟨_, _, labelsLine_eq _ hlab2, labelsLine_eq _ hlab, hb, hd, by
    simp only [mainOutput, hb, hd]⟩

/-- In default mode the cells under the root form a tree after a successful
decode. -/
theorem decodeFile_tree (c : Bool) (lines : List (List Char)) (st : State)
    (h : decodeFile c false lines = Except.ok (Exit.done, st)) :
    ∃ sh, decodedShape st = some sh := by
  unfold decodeFile at h
  cases hr : readLines (State.init c false) lines with
  | error f => simp [hr] at h
  | ok r =>
    obtain ⟨b, s1⟩ := r
    cases b with
    | true => simp [hr] at h
    | false =>
      simp only [hr, Except.ok.injEq, Prod.mk.injEq] at h
      obtain ⟨-, rfl⟩ := h
      exact own_tree (readLines_own lines _ _ (init_own c false) rfl
        (fun e he => by simp [State.init] at he) hr)

/-! ## Child fields, circles and the tree -/

/-- C1. In complete-tree mode the lines "1 2 3 root", "2 left", "3 right"
decode successfully to the root 1 "root" with the leaves 2 "left" and
3 "right" as left and right child; printBFS writes "root left right " and
printDFS writes "left root right " (each followed by the end of line). -/
theorem C1_end_to_end :
    run true false (textLines ["1 2 3 root", "2 left", "3 right"]) =
      Except.ok
        { exit := Exit.done,
          shape := some (Shape.node 1 (some "root".toList) (Shape.leaf 2 "left") (Shape.leaf 3 "right")),
          bfs := Except.ok "root left right \n".toList,
          dfs := Except.ok "left root right \n".toList } := by
  rfl

/-- C2 (evidence). The five records of one connected tree without duplicate
ids decode when the root comes first, and are rejected at the fourth line when
the leaf 3 comes first: after the root has moved from 3 to 2, the reference to
2 in "1 2 5 q" finds no entry to re-anchor. -/
theorem C2_order_dependence :
    List.Perm (textLines ["3 c", "2 3 4 p", "4 d", "1 2 5 q", "5 e"])
        (textLines ["1 2 5 q", "2 3 4 p", "3 c", "4 d", "5 e"]) ∧
      (run true false (textLines ["1 2 5 q", "2 3 4 p", "3 c", "4 d", "5 e"])).map
          (fun r => (r.exit, r.shape)) =
        Except.ok (Exit.done,
          some (Shape.node 1 (some "q".toList)
            (Shape.node 2 (some "p".toList) (Shape.leaf 3 "c") (Shape.leaf 4 "d"))
            (Shape.leaf 5 "e"))) ∧
      (run true false (textLines ["3 c", "2 3 4 p", "4 d", "1 2 5 q", "5 e"])).map
          (fun r => r.exit) = Except.ok Exit.errorLine := by
  refine ⟨by decide, by rfl, by rfl⟩

/-- C3 (evidence). With the default flags (complete-tree mode, no duplicate
ids) the described record "3 c" arrives first and its node, cell 0, is the
root. "4 3 6 x" re-anchors the root to the node of 4. The later described
record "5 3 7 p" names 3 as its left child: once it is ingested the root is
the node of 5 (cell 5), but the left child of that node is the node of 4
(cell 1, the root of the moment), not the node of 3, which stays the left
child of 4. The decode ends with success and the tree 5(4(3, 6), 7). -/
theorem C3_later_parent_gets_current_root :
    parseLine true "3 c".toList =
        ParseResult.node { id_ := 3, left_ := none, right_ := none, descr_ := some "c".toList } ∧
      parseLine true "5 3 7 p".toList =
        ParseResult.node
          { id_ := 5, left_ := some 3, right_ := some 7, descr_ := some "p".toList } ∧
      (readLines (State.init true false) (textLines ["3 c"])).map
          (fun r => (r.1, r.2.decodedTree_, (r.2.rd 0).id_, (r.2.rd 0).descr_)) =
        Except.ok (false, some 0, 3, some "c".toList) ∧
      (readLines (State.init true false) (textLines ["3 c", "4 3 6 x", "6 y", "5 3 7 p"])).map
          (fun r => (r.1, r.2.decodedTree_, (r.2.rd 5).id_, (r.2.rd 5).left_,
            (r.2.rd 1).id_, (r.2.rd 1).left_, (r.2.rd 0).id_)) =
        Except.ok (false, some 5, 5, some 1, 4, some 0, 3) ∧
      (run true false (textLines ["3 c", "4 3 6 x", "6 y", "5 3 7 p", "7 z"])).map
          (fun r => (r.exit, r.shape)) =
        Except.ok (Exit.done,
          some (Shape.node 5 (some "p".toList)
            (Shape.node 4 (some "x".toList) (Shape.leaf 3 "c") (Shape.leaf 6 "y"))
            (Shape.leaf 7 "z"))) := by
  refine ⟨by rfl, by rfl, by rfl, by rfl, by rfl⟩

/-- C4 (counterexample). Two described records that reference no child at
all: decoding fails with Incomplete, the second record waiting forever for a
parent. -/
theorem C4_incomplete_without_missing_child :
    parseLine true "1 a".toList =
        ParseResult.node { id_ := 1, left_ := none, right_ := none, descr_ := some "a".toList } ∧
      parseLine true "2 b".toList =
        ParseResult.node { id_ := 2, left_ := none, right_ := none, descr_ := some "b".toList } ∧
      (run true false (textLines ["1 a", "2 b"])).map (fun r => r.exit) =
        Except.ok Exit.unresolved := by
  refine ⟨by rfl, by rfl, by rfl⟩

/-- C7 (counterexample). In duplicate-identifier mode the input made of the
two records "3 a" and "3 b" is rejected at its second line. -/
theorem C7_two_records_alone_rejected :
    (run true true (textLines ["3 a", "3 b"])).map (fun r => r.exit) =
        Except.ok Exit.errorLine ∧
      (run false true (textLines ["3 a", "3 b"])).map (fun r => r.exit) =
        Except.ok Exit.errorLine := by
  refine ⟨by rfl, by rfl⟩

theorem sprintf_d_length_pos (v : Int) : 0 < (sprintf_d v).length :=
  List.length_pos.2 (sprintf_d_ne_nil v)

theorem no_nul_of_not_mem {s : List Char} (h : '\x00' ∉ s) : ∀ x ∈ s, (x != '\x00') = true := by
  intro x hx
  simp only [bne_iff_ne, ne_eq]
  rintro rfl
  exact h hx

/-- C10. For identifiers `id`, `l`, `r` in the range of `int` and a label
without NUL that does not begin with a blank, parseLine applied to the line
"<id> <l> <r> <label>", shorter than the limit, returns in either mode the
node `id` with child placeholders `l` and `r` and the label text verbatim. -/
theorem C10_parse_two_children (complete : Bool) (id l r : Int) (label : List Char)
    (hid : inIntRange id) (hl : inIntRange l) (hr : inIntRange r)
    (hsp : label.head? ≠ some ' ') (hnul : '\x00' ∉ label)
    (hlen : (line3 id l r label).length < maxLineSize) :
    parseLine complete (line3 id l r label) =
      ParseResult.node { id_ := id, left_ := some l, right_ := some r, descr_ := some label } := by
  have h0 := no_nul_of_not_mem hnul
  have p1 := sprintf_d_length_pos id
  have p2 := sprintf_d_length_pos l
  have p3 := sprintf_d_length_pos r
  unfold parseLine
  rw [if_neg (by omega)]
  obtain ⟨m, hm⟩ : ∃ m, (line3 id l r label).length + 1 = m + 4 :=
    ⟨(line3 id l r label).length - 3, by
      simp only [line3, List.length_append, List.length_cons]; omega⟩
  rw [hm]
  unfold line3
  rw [parseLoop_first, parseLoop_left _ _ _ _ _ _ rfl, parseLoop_right _ _ _ _ _ _ (toInt32 l) rfl rfl]
  rw [toInt32_of_inIntRange hid, toInt32_of_inIntRange hl, toInt32_of_inIntRange hr]
  cases label with
  | nil => simp [parseLoop, parseFinish]
  | cons x xs =>
    have hx : (x == ' ') = false := by
      simp only [List.head?_cons, ne_eq, Option.some.injEq] at hsp
      simpa using hsp
    have hne : (getTok (x :: xs)).1 ≠ [] := by simp [getTok, hx]
    rw [parseLoop_label _ _ _ _ _ h0 hne (Or.inr ⟨l, r, rfl, rfl⟩), setDescr_label _ _ _ _ h0]
    simp [parseFinish]

theorem C10_parse_two_children_witness :
    parseLine true (line3 1 2 3 "root of it ".toList) =
      ParseResult.node
        { id_ := 1, left_ := some 2, right_ := some 3, descr_ := some "root of it ".toList } :=
  C10_parse_two_children true 1 2 3 "root of it ".toList (by unfold inIntRange; decide)
    (by unfold inIntRange; decide) (by unfold inIntRange; decide) (by decide) (by decide)
    (by decide)

/-- C9 (amended). For a line "<id> <k> <label>" shorter than the limit, with
`id` and `k` in the range of `int` and a label without NUL whose first token
`sscanf` rejects, parseLine returns in complete-tree mode the node `id` without
children and with label "<k> <label>", and in incomplete-tree mode the node
`id` with left child placeholder `k`, no right child and label "<label>". -/
theorem C9_leaf_folding (id k : Int) (label : List Char)
    (hid : inIntRange id) (hk : inIntRange k) (hnul : '\x00' ∉ label)
    (htok : sscanf_d (getTok label).1 = Scan.noMatch)
    (hlen : (line2 id k label).length < maxLineSize) :
    parseLine true (line2 id k label) =
        ParseResult.node
          { id_ := id, left_ := none, right_ := none,
            descr_ := some (sprintf_d k ++ ' ' :: label) } ∧
      parseLine false (line2 id k label) =
        ParseResult.node { id_ := id, left_ := some k, right_ := none, descr_ := some label } := by
  have h0 := no_nul_of_not_mem hnul
  have p1 := sprintf_d_length_pos id
  have p2 := sprintf_d_length_pos k
  have hne : (getTok label).1 ≠ [] := by
    intro h
    rw [h] at htok
    simp [sscanf_d] at htok
  have hsv : (sscanf_d (getTok label).1).sval = 0 := by rw [htok]; rfl
  obtain ⟨m, hm⟩ : ∃ m, (line2 id k label).length + 1 = m + 3 :=
    ⟨(line2 id k label).length - 2, by
      simp only [line2, List.length_append, List.length_cons]; omega⟩
  constructor
  all_goals
    unfold parseLine
    rw [if_neg (by omega), hm]
    unfold line2
    rw [parseLoop_first, parseLoop_left _ _ _ _ _ _ rfl]
    rw [toInt32_of_inIntRange hid, toInt32_of_inIntRange hk]
    rw [parseLoop_label _ _ _ _ _ h0 hne (Or.inl hsv), setDescr_label _ _ _ _ h0]
    simp [parseFinish]

theorem C9_leaf_folding_witness :
    parseLine true (line2 5 9 "hello world".toList) =
        ParseResult.node
          { id_ := 5, left_ := none, right_ := none, descr_ := some "9 hello world".toList } ∧
      parseLine false (line2 5 9 "hello world".toList) =
        ParseResult.node
          { id_ := 5, left_ := some 9, right_ := none, descr_ := some "hello world".toList } :=
  C9_leaf_folding 5 9 "hello world".toList (by unfold inIntRange; decide)
    (by unfold inIntRange; decide) (by decide) (by decide) (by decide)

/-- C9 (counterexample). A line of the form "<id> <k> <label>" whose label
starts with a word that is no integer, but which is 1030 characters long, is
rejected by parseLine in both modes. -/
theorem C9_long_line_rejected :
    sscanf_d (getTok ("hello ".toList ++ List.replicate 1020 'x')).1 = Scan.noMatch ∧
      parseLine true (line2 5 9 ("hello ".toList ++ List.replicate 1020 'x')) = ParseResult.null ∧
      parseLine false (line2 5 9 ("hello ".toList ++ List.replicate 1020 'x')) =
        ParseResult.null := by
  have h6 : ("hello ".toList).length = 6 := by decide
  have hlen : maxLineSize ≤ (line2 5 9 ("hello ".toList ++ List.replicate 1020 'x')).length := by
    simp only [line2, List.length_append, List.length_cons, List.length_replicate, maxLineSize, h6]
    omega
  refine ⟨by decide, ?_, ?_⟩ <;>
    · unfold parseLine
      rw [if_pos hlen]

/-! ## Finalization (C5) -/

theorem init_rootSet (c d : Bool) : RootSet (State.init c d) := by
  intro h; exact absurd rfl h

/-- C5. Finalization. When the loop of decodeFile has ingested every record
without a rejected line and left the object in state `st`: decodeFile fails
with Incomplete if `wait_count_` is positive; otherwise it fails with
EmptyInput if the root is NULL, which is the case exactly when no line
produced a node; otherwise it returns 0 and the root of `st` is the decoded
tree. -/
theorem C5_finalization (c d : Bool) (lines : List (List Char)) (st : State)
    (h : readLines (State.init c d) lines = Except.ok (false, st)) :
    (0 < st.wait_count_ → decodeFile c d lines = Except.ok (Exit.unresolved, st)) ∧
    (¬ 0 < st.wait_count_ → st.decodedTree_ = none →
      decodeFile c d lines = Except.ok (Exit.noTree, st)) ∧
    (¬ 0 < st.wait_count_ → st.decodedTree_ ≠ none →
      decodeFile c d lines = Except.ok (Exit.done, st)) ∧
    (st.decodedTree_ = none ↔
      ∀ line ∈ lines, line ≠ [] → ∀ p, parseLine c line ≠ ParseResult.node p) := by
  refine ⟨?_, ?_, ?_, ?_⟩
  · intro hw
    simp [decodeFile, h, finish, hw]
  · intro hw hr
    simp [decodeFile, h, finish, hw, hr]
  · intro hw hr
    simp [decodeFile, h, finish, hw, hr]
  · constructor
    · intro hnone line hl hne p hp
      have := (readLines_root lines _ st (init_rootSet c d) h).2
        ⟨line, hl, hne, p, by simpa [State.init] using hp⟩
      exact this hnone
    · intro hno
      have := readLines_no_node lines (State.init c d) st false
        (by simpa [State.init] using hno) h
      rw [this.2]
      rfl

theorem C5_finalization_witness :
    decodeFile true false (textLines ["1 a"]) =
      Except.ok (Exit.done,
        { cells := [{ id_ := 1, left_ := none, right_ := none, descr_ := some "a".toList }],
          freed := [], decodedTree_ := some 0,
          insertMap_ := [(1, { nodePtr_ := Ptr.root, status_ := Status.FILLED })],
          wait_count_ := 0, complete_tree_ := true, duplicate_ids_ := false }) :=
  (C5_finalization true false (textLines ["1 a"]) _ (by rfl)).2.2.1 (by decide) (by decide)

/-! ## Completeness (C4) -/

/-- C4 (amended). If some child id `x` referenced by a record of the input
has no described record of its own in the input, decodeFile does not succeed:
whenever it returns, it returns the Incomplete failure (a positive
`wait_count_`), or the failure of a rejected line. -/
theorem C4_missing_child_not_decoded (c d : Bool) (lines : List (List Char)) (x : Int)
    (href : ∃ line ∈ lines, ∃ p, parseLine c line = ParseResult.node p ∧
      (p.left_ = some x ∨ p.right_ = some x))
    (hmiss : ∀ line ∈ lines, ∀ p, parseLine c line = ParseResult.node p → p.id_ ≠ x) :
    ∀ e st, decodeFile c d lines = Except.ok (e, st) →
      (e = Exit.unresolved ∧ 0 < st.wait_count_) ∨ e = Exit.errorLine := by
  intro e st hdec
  unfold decodeFile at hdec
  split at hdec
  · cases hdec
  · cases hdec; exact Or.inr rfl
  · rename_i st0 hrl
    cases hdec
    left
    obtain ⟨u1, u2⟩ := readLines_undescribed c x lines _ st (init_undescribed c d x)
      (by intro e he; simp [State.init] at he) rfl hmiss hrl
    have hw := readLines_wait lines _ st (by simp [WaitInv, State.init, pendingCount]) hrl
    have hf := u2 (Or.inr href)
    rw [findList_eq] at hf
    obtain ⟨e, he, hex⟩ := List.mem_map.1 hf
    have hpos := pendingCount_pos he (by rw [u1.2 e he hex]; rfl)
    have hwc : 0 < st.wait_count_ := by
      rw [hw]; exact_mod_cast hpos
    exact ⟨by simp [finish, hwc], hwc⟩

theorem C4_missing_child_not_decoded_witness :
    ∃ st, decodeFile true false (textLines ["1 2 3 root", "2 left"]) =
        Except.ok (Exit.unresolved, st) ∧ 0 < st.wait_count_ := by
  have h : decodeFile true false (textLines ["1 2 3 root", "2 left"]) =
      Except.ok (Exit.unresolved,
        { cells := [{ id_ := 1, left_ := some 3, right_ := some 2, descr_ := some "root".toList },
            { id_ := 2, left_ := none, right_ := none, descr_ := none },
            { id_ := 3, left_ := none, right_ := none, descr_ := none },
            { id_ := 2, left_ := none, right_ := none, descr_ := some "left".toList }],
          freed := [1], decodedTree_ := some 0,
          insertMap_ := [(1, { nodePtr_ := Ptr.root, status_ := Status.FILLED }),
            (2, { nodePtr_ := Ptr.left 0, status_ := Status.FILLED }),
            (3, { nodePtr_ := Ptr.right 0, status_ := Status.NONNODE_WAIT })],
          wait_count_ := 1, complete_tree_ := true, duplicate_ids_ := false }) := by rfl
  rcases C4_missing_child_not_decoded true false (textLines ["1 2 3 root", "2 left"]) 3
    ⟨"1 2 3 root".toList, by decide, _, by rfl, Or.inr rfl⟩
    (by
      intro line hl p hp
      simp only [textLines, List.map_cons, List.map_nil, List.mem_cons, List.mem_singleton,
        List.not_mem_nil, or_false] at hl
      rcases hl with rfl | rfl
      · have : parseLine true "1 2 3 root".toList =
            ParseResult.node ⟨1, some 2, some 3, some "root".toList⟩ := by rfl
        rw [this] at hp; cases hp; decide
      · have : parseLine true "2 left".toList =
            ParseResult.node ⟨2, none, none, some "left".toList⟩ := by rfl
        rw [this] at hp; cases hp; decide)
    _ _ h with ⟨-, h1⟩ | h1
  · exact ⟨_, h, h1⟩
  · cases h1

/-! ## Two records declaring one id in default mode (C6) -/

/-- C6. In default mode, take an input that holds two lines `a` and `b`, `a`
before `b`, which parseLine turns into nodes declaring the same id. Then
decodeFile does not succeed, and whenever the loop reaches `b` (every line
before it was ingested), `b` is rejected and the loop is left with the error
return, whatever became of the reference of `a`. -/
theorem C6_duplicate_id_rejected (c : Bool) (l1 l2 l3 : List (List Char)) (a b : List Char)
    (pa pb : PNode) (ha : parseLine c a = ParseResult.node pa)
    (hb : parseLine c b = ParseResult.node pb) (hid : pa.id_ = pb.id_) :
    (∀ st, decodeFile c false (l1 ++ a :: l2 ++ b :: l3) ≠ Except.ok (Exit.done, st)) ∧
      (∀ st, readLines (State.init c false) (l1 ++ a :: l2) = Except.ok (false, st) →
        ∃ st', readLines st (b :: l3) = Except.ok (true, st')) := by
  have key : ∀ st, readLines (State.init c false) (l1 ++ a :: l2) = Except.ok (false, st) →
      ∃ st', readLines st (b :: l3) = Except.ok (true, st') := by
    intro st h
    obtain ⟨s1, h1, h2⟩ := readLines_append l1 (a :: l2) _ _ h
    have f1 := readLines_flags c false l1 _ s1 ⟨rfl, rfl⟩ h1
    have n1 : NoDupInv s1 :=
      readLines_nodup l1 _ s1 ⟨rfl, by simp [KeysNodup, State.init]⟩ h1
    -- the line `a`
    rw [readLines_cons_node s1 a l2 pa (by rw [f1.1]; exact ha)] at h2
    cases hres : processNode ((allocParsed s1 pa).2.cells.length + 1) (allocParsed s1 pa).2
        (allocParsed s1 pa).1 Ptr.null none with
    | error f => simp [hres] at h2
    | ok res =>
      simp only [hres] at h2
      split at h2
      · simp at h2
      · rename_i hlt
        obtain ⟨a1, -, -, a4, a5, -⟩ := allocParsed_fields s1 pa
        have n1a : NoDupInv (allocParsed s1 pa).2 := by
          unfold NoDupInv; rw [a1, a4]; exact n1
        have hne : res.1 ≠ -EINVAL := by
          intro he; apply hlt; rw [he]; decide
        have d2 : NoDupInv res.2 ∧ Described pa.id_ res.2.insertMap_ :=
          processNode_top_inv (fun st => NoDupInv st ∧ Described pa.id_ st.insertMap_)
            (fun st n holder parent r hp hs => stepNode_described pa.id_ st n holder parent r hp hs)
            _ _ _ _ _ _
            (fun res0 hs0 hne0 => stepNode_establish pa.id_ _ _ _ _ res0 n1a
              (allocParsed_rd s1 pa).1
              (by rw [(allocParsed_rd s1 pa).2]; exact parseLine_descr ha) hs0 hne0)
            hres hne
        have f2 := processNode_flags c false _ _ _ _ _ _ ⟨a5 ▸ f1.1, a4 ▸ f1.2⟩ hres
        have d3 := readLines_described pa.id_ l2 res.2 st d2 h2
        have f3 := readLines_flags c false l2 res.2 st f2 h2
        -- the line `b`
        rw [readLines_cons_node st b l3 pb (by rw [f3.1]; exact hb)]
        obtain ⟨b1, -, -, b4, -⟩ := allocParsed_fields st pb
        have hrej := checkHashMap_rejects pa.id_ (allocParsed st pb).2 (allocParsed st pb).1
          Ptr.null none (by rw [b4]; exact f3.2) (by rw [b1]; exact d3.2)
          (by rw [(allocParsed_rd st pb).1, hid])
          (by rw [(allocParsed_rd st pb).2]; exact parseLine_descr hb)
        first
          | (rw [processNode, hrej]; done)
          | (rw [processNode, hrej]; simp [EINVAL])
  refine ⟨?_, key⟩
  intro st hdec
  unfold decodeFile at hdec
  split at hdec
  · cases hdec
  · cases hdec
  · rename_i st0 hrl
    have hrl2 : readLines (State.init c false) ((l1 ++ a :: l2) ++ b :: l3) =
        Except.ok (false, st0) := by
      exact hrl
    obtain ⟨s3, h3, h4⟩ := readLines_append _ _ _ _ hrl2
    obtain ⟨st', h5⟩ := key s3 h3
    rw [h5] at h4
    cases h4

theorem C6_duplicate_id_rejected_witness :
    (∀ st, decodeFile true false
        ((textLines ["1 2 3 r"]) ++ "2 a".toList :: [] ++ "2 b".toList :: textLines ["3 c"]) ≠
          Except.ok (Exit.done, st)) ∧
      (∀ st, readLines (State.init true false) ((textLines ["1 2 3 r"]) ++ "2 a".toList :: []) =
          Except.ok (false, st) →
        ∃ st', readLines st ("2 b".toList :: textLines ["3 c"]) = Except.ok (true, st')) :=
  C6_duplicate_id_rejected true (textLines ["1 2 3 r"]) [] (textLines ["3 c"]) "2 a".toList
    "2 b".toList { id_ := 2, left_ := none, right_ := none, descr_ := some "a".toList }
    { id_ := 2, left_ := none, right_ := none, descr_ := some "b".toList } (by rfl) (by rfl) rfl

/-! ## Duplicate identifiers filling two slots (C7) -/

set_option maxHeartbeats 1000000 in
/-- C7 (amended). In duplicate-identifier mode, when the first record names
the id `x` in both child positions and is followed by two described records
that declare `x` and name no children, decodeFile succeeds and the two records
become two distinct nodes: the left and the right child of the root, in
arrival order. -/
theorem C7_duplicates_fill_two_slots (c : Bool) (r x : Int) (lr la lb : List Char)
    (l0 l1 l2 : List Char) (hrx : r ≠ x)
    (h0 : parseLine c l0 =
      ParseResult.node { id_ := r, left_ := some x, right_ := some x, descr_ := some lr })
    (h1 : parseLine c l1 =
      ParseResult.node { id_ := x, left_ := none, right_ := none, descr_ := some la })
    (h2 : parseLine c l2 =
      ParseResult.node { id_ := x, left_ := none, right_ := none, descr_ := some lb }) :
    (run c true [l0, l1, l2]).map (fun s => (s.exit, s.shape)) =
      Except.ok (Exit.done,
        some (Shape.node r (some lr) (Shape.node x (some la) Shape.nil Shape.nil)
          (Shape.node x (some lb) Shape.nil Shape.nil))) := by
  have hxr : x ≠ r := fun h => hrx h.symm
  have e0 : readLines (State.init c true) [l0, l1, l2] = Except.ok (false,
      { cells := [{ id_ := r, left_ := some 3, right_ := some 4, descr_ := some lr },
                  { id_ := x, left_ := none, right_ := none, descr_ := none },
                  { id_ := x, left_ := none, right_ := none, descr_ := none },
                  { id_ := x, left_ := none, right_ := none, descr_ := some la },
                  { id_ := x, left_ := none, right_ := none, descr_ := some lb }],
        freed := [2, 1], decodedTree_ := some 0,
        insertMap_ := [(r, { nodePtr_ := Ptr.root, status_ := Status.FILLED }),
                       (x, { nodePtr_ := Ptr.left 0, status_ := Status.FILLED }),
                       (x, { nodePtr_ := Ptr.right 0, status_ := Status.FILLED })],
        wait_count_ := 0, complete_tree_ := c, duplicate_ids_ := true }) := by
    rw [readLines_cons_node _ _ _ _ (by simpa [State.init] using h0)]
    simp [allocParsed_eq, parsedCells, State.init, processNode, checkHashMap, findList,
      insertHashMap, State.rd, processChildren, scanRefs, getRef, conflict, node.zero, hrx, hxr,
      EINVAL]
    rw [readLines_cons_node _ _ _ _ (by simpa using h1)]
    simp [allocParsed_eq, parsedCells, processNode, checkHashMap, findList,
      insertHashMap, State.rd, State.wr, State.readSlot, State.writeSlot, State.delete,
      processChildren, scanRefs, getRef, conflict, markFilled, modifyRef, node.zero, hrx, hxr,
      EINVAL]
    rw [readLines_cons_node _ _ _ _ (by simpa using h2)]
    simp [allocParsed_eq, parsedCells, processNode, checkHashMap, findList,
      insertHashMap, State.rd, State.wr, State.readSlot, State.writeSlot, State.delete,
      processChildren, scanRefs, getRef, conflict, markFilled, modifyRef, node.zero, hrx, hxr,
      EINVAL, readLines_nil]
  simp [run, decodeFile, e0, finish, decodedShape, shapeAt, State.rd, Except.map]


theorem C7_duplicates_fill_two_slots_witness :
    (run true true (textLines ["1 3 3 root", "3 a", "3 b"])).map (fun s => (s.exit, s.shape)) =
      Except.ok (Exit.done,
        some (Shape.node 1 (some "root".toList) (Shape.node 3 (some "a".toList) Shape.nil Shape.nil)
          (Shape.node 3 (some "b".toList) Shape.nil Shape.nil))) :=
  C7_duplicates_fill_two_slots true 1 3 "root".toList "a".toList "b".toList "1 3 3 root".toList
    "3 a".toList "3 b".toList (by decide) (by rfl) (by rfl) (by rfl)

/-! ## The nodes of a complete decode (C8) -/

/-- C11. Per-line parse errors are skipped and decoding continues: on every
sequence of lines decodeFile returns what it returns on the sequence without
the empty lines and without the lines that parseLine rejects (the same exit
and the same final state, hence the same decoded tree). -/
theorem C11_rejected_lines_skipped (c d : Bool) (lines : List (List Char)) :
    decodeFile c d lines =
      decodeFile c d (lines.filter (fun line =>
        decide (line.length ≠ 0) && decide (parseLine c line ≠ ParseResult.null))) := by
  unfold decodeFile
  rw [← readLines_filter c lines (State.init c d) rfl]

/-! ## The line-length limit (C12) -/

/-- C12 (amended). The line-length limit: parseLine rejects every line of
1024 characters or more, and a line of 1023 characters or fewer that starts
with a decimal integer, alone or followed by a space and anything, is parsed
into a node with that integer (as `int`) as id and with a label. -/
theorem C12_line_length_limit (c : Bool) (line : List Char) :
    (maxLineSize ≤ line.length → parseLine c line = ParseResult.null) ∧
      (line.length < maxLineSize →
        ∀ (id : Int) (rest : List Char), line = sprintf_d id ++ rest →
          (rest = [] ∨ ∃ r, rest = ' ' :: r) →
          ∃ p, parseLine c line = ParseResult.node p ∧ p.id_ = toInt32 id ∧
            p.descr_ ≠ none) := by
  constructor
  · intro h
    unfold parseLine
    rw [if_pos h]
  · intro h id rest hline hrest
    have key : ∃ p, parseLine c line = ParseResult.node p ∧ p.id_ = toInt32 id := by
      unfold parseLine
      rw [if_neg (by omega)]
      obtain ⟨m, hm⟩ : ∃ m, line.length + 1 = m + 1 := ⟨line.length, rfl⟩
      rw [hm, hline]
      rcases hrest with rfl | ⟨r, rfl⟩
      · rw [List.append_nil, parseLoop_first_end]
        exact ⟨_, rfl, rfl⟩
      · rw [parseLoop_first]
        exact parseLoop_some c m _ 0 r
    obtain ⟨p, h1, h2⟩ := key
    exact ⟨p, h1, h2, parseLine_descr h1⟩

theorem C12_line_length_limit_witness :
    ("5 9 ".toList ++ List.replicate 1019 'x').length = 1023 ∧
      ∃ p, parseLine true ("5 9 ".toList ++ List.replicate 1019 'x') = ParseResult.node p ∧
        p.id_ = 5 ∧ p.descr_ ≠ none := by
  have hlen : ("5 9 ".toList ++ List.replicate 1019 'x').length = 1023 := by
    simp only [List.length_append, List.length_replicate]
    rfl
  refine ⟨hlen, ?_⟩
  exact (C12_line_length_limit true ("5 9 ".toList ++ List.replicate 1019 'x')).2
    (by rw [hlen]; decide) 5 (" 9 ".toList ++ List.replicate 1019 'x') (by rfl)
    (Or.inr ⟨"9 ".toList ++ List.replicate 1019 'x', by rfl⟩)

/-- C12 (counterexample). A line of exactly 1024 characters whose first token
is the decimal integer 5 is rejected by parseLine in both modes. -/
theorem C12_line_of_1024_rejected :
    ("5 9 ".toList ++ List.replicate 1020 'x').length = 1024 ∧
      (getTok ("5 9 ".toList ++ List.replicate 1020 'x')).1 = "5".toList ∧
      parseLine true ("5 9 ".toList ++ List.replicate 1020 'x') = ParseResult.null ∧
      parseLine false ("5 9 ".toList ++ List.replicate 1020 'x') = ParseResult.null := by
  have hlen : ("5 9 ".toList ++ List.replicate 1020 'x').length = 1024 := by
    simp only [List.length_append, List.length_replicate]
    rfl
  refine ⟨hlen, by rfl, ?_, ?_⟩ <;>
    · unfold parseLine
      rw [if_pos (by rw [hlen]; decide)]

/-! ## Evaluations at failing inputs (C17, C19, C20) -/

/-- C17 (evidence). In default mode the single line "1 2 2 a" is rejected
(its second child reference meets the waiting reference of the first) and
decodeFile frees the record's node with its two children; that node is still
`decodedTree_`, and the teardown deletes it a second time: three nodes were
allocated, four deletions are made, two of them of the node at address 0. -/
theorem C17_error_path_double_free :
    ∃ st st', decodeFile true false (textLines ["1 2 2 a"]) = Except.ok (Exit.errorLine, st) ∧
      decomission st = Except.ok st' ∧
      st'.cells.length = 3 ∧ st'.freed = [0, 0, 2, 1] ∧ st'.freed.count 0 = 2 := by
  have h1 : decodeFile true false (textLines ["1 2 2 a"]) = Except.ok (Exit.errorLine,
      { cells := [{ id_ := 1, left_ := none, right_ := none, descr_ := none },
          { id_ := 2, left_ := none, right_ := none, descr_ := none },
          { id_ := 2, left_ := none, right_ := none, descr_ := none }],
        freed := [0, 2, 1], decodedTree_ := some 0,
        insertMap_ := [(1, { nodePtr_ := Ptr.root, status_ := Status.FILLED }),
          (2, { nodePtr_ := Ptr.left 0, status_ := Status.NONNODE_WAIT })],
        wait_count_ := 1, complete_tree_ := true, duplicate_ids_ := false }) := by rfl
  exact ⟨_, _, h1, by rfl, by rfl, by rfl, by decide⟩

/-- C19 (evidence). With the default flags (complete-tree mode, no duplicate
ids) the lines "3 c", "4 3 6 x", "6 y", "5 3 7 p", "7 q" decode successfully.
The record of 5 names 3 as its left child, but the left child of the node 5
in the decoded tree is the node 4: the reference to 3 took the root of the
moment. -/
theorem C19_left_child_is_not_the_named_id :
    parseLine true "5 3 7 p".toList =
        ParseResult.node
          { id_ := 5, left_ := some 3, right_ := some 7, descr_ := some "p".toList } ∧
      (run true false (textLines ["3 c", "4 3 6 x", "6 y", "5 3 7 p", "7 q"])).map
          (fun r => (r.exit, r.shape)) =
        Except.ok (Exit.done,
          some (Shape.node 5 (some "p".toList)
            (Shape.node 4 (some "x".toList) (Shape.leaf 3 "c") (Shape.leaf 6 "y"))
            (Shape.leaf 7 "q"))) := by
  refine ⟨by rfl, by rfl⟩

/-- C20 (evidence). In complete-tree mode the line "5 9", which has no label
text, parses to the node 5 with the left child 9 alone and the empty label. -/
theorem C20_lone_child_in_complete_mode :
    parseLine true "5 9".toList =
      ParseResult.node { id_ := 5, left_ := some 9, right_ := none, descr_ := some [] } := by
  rfl

/-- In duplicate mode the lines "3 c", "5 x", "5 3 3 y" decode successfully and
the second node of id 5 (cell 2), which is the root, is its own right child:
the cells under the root do not form a tree and the walk of `printBFS` does not
end within its bound. -/
theorem duplicate_mode_root_is_its_own_child :
    ∃ st : State,
      decodeFile true true (textLines ["3 c", "5 x", "5 3 3 y"]) = Except.ok (Exit.done, st) ∧
        st.decodedTree_ = some 2 ∧ (st.rd 2).right_ = some 2 ∧
        decodedShape st = none ∧ printBFS st = Except.error Fault.fuel := by
  have h : decodeFile true true (textLines ["3 c", "5 x", "5 3 3 y"]) = Except.ok (Exit.done,
      { cells := [{ id_ := 3, left_ := none, right_ := none, descr_ := some ['c'] },
          { id_ := 5, left_ := none, right_ := none, descr_ := some ['x'] },
          { id_ := 5, left_ := some 0, right_ := some 2, descr_ := some ['y'] },
          { id_ := 3, left_ := none, right_ := none, descr_ := none },
          { id_ := 3, left_ := none, right_ := none, descr_ := none }],
        freed := [4, 3], decodedTree_ := some 2,
        insertMap_ := [(3, { nodePtr_ := Ptr.root, status_ := Status.FILLED }),
          (5, { nodePtr_ := Ptr.node 1, status_ := Status.FILLED }),
          (5, { nodePtr_ := Ptr.node 2, status_ := Status.FILLED })],
        wait_count_ := 0, complete_tree_ := true, duplicate_ids_ := true }) := by rfl
  exact ⟨_, h, rfl, rfl, by rfl, by rfl⟩

/-! ## The waitCount invariant (C15) -/

/-- C15. The waitCount invariant. In every state the loop of decodeFile
reaches, in either mode and also when it stops at a rejected record,
`wait_count_` is non-negative and is the number of references whose status is
NODE_WAIT or NONNODE_WAIT. Every node-local step made from a state with that
property gives a state with that property, and it does one of three things
to the table: nothing; it appends one reference and raises `wait_count_` by
one unless the status of the reference is FILLED; or it turns one reference
that was NODE_WAIT or NONNODE_WAIT into FILLED and lowers `wait_count_` by
exactly one. -/
theorem C15_wait_count_invariant (c d : Bool) (lines : List (List Char)) (b : Bool) (st : State)
    (h : readLines (State.init c d) lines = Except.ok (b, st)) :
    (0 ≤ st.wait_count_ ∧ st.wait_count_ = (pendingCount st.insertMap_ : Int)) ∧
      ∀ (s : State) (n : Nat) (holder : Ptr) (parent : Option Nat) (r : Int × State),
        s.wait_count_ = (pendingCount s.insertMap_ : Int) →
        stepNode s n holder parent = Except.ok r →
        (0 ≤ r.2.wait_count_ ∧ r.2.wait_count_ = (pendingCount r.2.insertMap_ : Int)) ∧
          ((r.2.insertMap_ = s.insertMap_ ∧ r.2.wait_count_ = s.wait_count_) ∨
            (∃ e, r.2.insertMap_ = s.insertMap_ ++ [e] ∧
              r.2.wait_count_ =
                if e.2.status_ = Status.FILLED then s.wait_count_ else s.wait_count_ + 1) ∨
            (∃ j f, j < s.insertMap_.length ∧
              isPending (getRef s.insertMap_ j).status_ = true ∧
              (∀ x, (f x).status_ = Status.FILLED) ∧
              r.2.insertMap_ = modifyRef f j s.insertMap_ ∧
              r.2.wait_count_ = s.wait_count_ - 1)) := by
  have h0 : WaitInv (State.init c d) := by simp [WaitInv, State.init, pendingCount]
  have hw := readLines_wait_any lines _ _ b h0 h
  unfold WaitInv at hw
  refine ⟨⟨by rw [hw]; exact Int.natCast_nonneg _, hw⟩, ?_⟩
  intro s n holder parent r hs hstep
  have hw2 := stepNode_wait s n holder parent r hs hstep
  unfold WaitInv at hw2
  refine ⟨⟨by rw [hw2]; exact Int.natCast_nonneg _, hw2⟩, ?_⟩
  obtain ⟨-, -, -, hcase⟩ := stepNode_table s n holder parent r hstep
  rcases hcase with ⟨-, -, hm, hwc⟩ | ⟨-, -, ⟨ptr, hm⟩, hwc, -⟩ | ⟨-, -, j, f, hj, hst, hfil, hm, hwc⟩
  · exact Or.inl ⟨hm, hwc⟩
  · refine Or.inr (Or.inl ⟨_, hm, ?_⟩)
    rw [hwc]
    by_cases hn : newStatus s n = Status.FILLED
    · simp [hn]
    · simp [hn]
  · refine Or.inr (Or.inr ⟨j, f, hj, ?_, hfil, hm, hwc⟩)
    rcases hst with ⟨h1, -⟩ | ⟨h1, -⟩ <;> rw [h1] <;> rfl

theorem C15_wait_count_invariant_witness :
    ∃ st, readLines (State.init true false) (textLines ["1 2 2 a"]) = Except.ok (true, st) ∧
      0 ≤ st.wait_count_ ∧ st.wait_count_ = (pendingCount st.insertMap_ : Int) := by
  have h : readLines (State.init true false) (textLines ["1 2 2 a"]) = Except.ok (true,
      { cells := [{ id_ := 1, left_ := none, right_ := none, descr_ := none },
          { id_ := 2, left_ := none, right_ := none, descr_ := none },
          { id_ := 2, left_ := none, right_ := none, descr_ := none }],
        freed := [0, 2, 1], decodedTree_ := some 0,
        insertMap_ := [(1, { nodePtr_ := Ptr.root, status_ := Status.FILLED }),
          (2, { nodePtr_ := Ptr.left 0, status_ := Status.NONNODE_WAIT })],
        wait_count_ := 1, complete_tree_ := true, duplicate_ids_ := false }) := by rfl
  exact ⟨_, h, (C15_wait_count_invariant true false _ true _ h).1⟩

/-! ## Every node carries a label (C13) -/

/-- C13: every node has a label after decoding. A parsed record always carries
a label (never the absent value); the lines that hold no label text (an id alone,
an id with one child id, an id with two child ids) get the empty string; and after
a decode that ends with success every node reachable from the root through child
fields carries a label. -/
theorem C13_every_node_labelled (c d : Bool) :
    (∀ (line : List Char) (p : PNode),
        parseLine c line = ParseResult.node p → p.descr_ ≠ none) ∧
      (∀ id l r : Int,
        ((sprintf_d id).length < maxLineSize →
          parseLine c (sprintf_d id) =
            ParseResult.node
              { id_ := toInt32 id, left_ := none, right_ := none, descr_ := some [] }) ∧
        ((sprintf_d id ++ ' ' :: sprintf_d l).length < maxLineSize →
          parseLine c (sprintf_d id ++ ' ' :: sprintf_d l) =
            ParseResult.node
              { id_ := toInt32 id, left_ := some (toInt32 l), right_ := none,
                descr_ := some [] }) ∧
        ((sprintf_d id ++ ' ' :: (sprintf_d l ++ ' ' :: sprintf_d r)).length < maxLineSize →
          parseLine c (sprintf_d id ++ ' ' :: (sprintf_d l ++ ' ' :: sprintf_d r)) =
            ParseResult.node
              { id_ := toInt32 id, left_ := some (toInt32 l), right_ := some (toInt32 r),
                descr_ := some [] })) ∧
      (∀ (lines : List (List Char)) (st : State),
        decodeFile c d lines = Except.ok (Exit.done, st) →
          ∀ a, Reach st a → (st.rd a).descr_ ≠ none) :=
  ⟨fun _ _ h => parseLine_descr h, fun id l r => parseLine_no_label c id l r,
    fun lines st h => decodeFile_labels c d lines st h⟩

/-- C13 on a run: the three records "1 2 3", "2" and "3 x" decode with success in
complete mode, and the root, its left child and its right child all carry a label. -/
theorem C13_every_node_labelled_witness :
    ∃ st : State,
      decodeFile true false ["1 2 3".toList, "2".toList, "3 x".toList] =
          Except.ok (Exit.done, st) ∧
        Reach st 0 ∧ Reach st 3 ∧ Reach st 4 ∧
        (∀ a, Reach st a → (st.rd a).descr_ ≠ none) ∧
        (st.rd 0).descr_ = some [] ∧ (st.rd 3).descr_ = some [] ∧
        (st.rd 4).descr_ = some ['x'] := by
  have h : decodeFile true false ["1 2 3".toList, "2".toList, "3 x".toList] =
      Except.ok (Exit.done,
        (match decodeFile true false ["1 2 3".toList, "2".toList, "3 x".toList] with
          | Except.ok r => r.2
          | Except.error _ => State.init true false)) := by rfl
  exact ⟨_, h, Reach.root (by rfl), Reach.left (Reach.root (by rfl)) (by rfl),
    Reach.right (Reach.root (by rfl)) (by rfl),
    (C13_every_node_labelled true false).2.2 _ _ h, by rfl, by rfl, by rfl⟩

/-! ## The success output (C14) -/

/-- C14: what the program prints after a successful decode. In default mode the
cells under the root always form a tree. Whenever they form a tree, `printBFS`
writes its labels level by level, left child before right child, each followed
by one space, then a newline; `printDFS` writes the same labels in-order (left
subtree, node, right subtree) in the same format; `main` writes the first line,
then the second. Every label is present. -/
theorem C14_success_output (c d : Bool) (lines : List (List Char)) (st : State)
    (h : decodeFile c d lines = Except.ok (Exit.done, st)) :
    (d = false → ∃ sh, decodedShape st = some sh) ∧
      ∀ sh, decodedShape st = some sh →
        ∃ bl dl : List (List Char),
          sh.levelOrder = bl.map some ∧ sh.inOrder = dl.map some ∧
            printBFS st = Except.ok (labelsLine bl) ∧
            printDFS st = Except.ok (labelsLine dl) ∧
            mainOutput st = Except.ok (labelsLine bl ++ labelsLine dl) := by
  refine ⟨fun hd => ?_, fun sh hs => decodeFile_output c d lines st sh h hs⟩
  subst hd
  exact decodeFile_tree c lines st h

/-- C14 on a run: the records "1 2 3 a", "2 4 5 b", "3 c", "4 d", "5 e" decode to
the tree a(b(d, e), c); the program prints "a b c d e " and "d b e a c ", each
ended by a newline. -/
theorem C14_success_output_witness :
    ∃ st : State,
      decodeFile true false (textLines ["1 2 3 a", "2 4 5 b", "3 c", "4 d", "5 e"]) =
          Except.ok (Exit.done, st) ∧
        decodedShape st = some (Shape.node 1 (some ['a'])
          (Shape.node 2 (some ['b']) (Shape.leaf 4 "d") (Shape.leaf 5 "e")) (Shape.leaf 3 "c")) ∧
        (∃ bl dl : List (List Char),
          (Shape.node 1 (some ['a']) (Shape.node 2 (some ['b']) (Shape.leaf 4 "d")
              (Shape.leaf 5 "e")) (Shape.leaf 3 "c")).levelOrder = bl.map some ∧
            (Shape.node 1 (some ['a']) (Shape.node 2 (some ['b']) (Shape.leaf 4 "d")
              (Shape.leaf 5 "e")) (Shape.leaf 3 "c")).inOrder = dl.map some ∧
            printBFS st = Except.ok (labelsLine bl) ∧
            printDFS st = Except.ok (labelsLine dl) ∧
            mainOutput st = Except.ok (labelsLine bl ++ labelsLine dl)) ∧
        printBFS st = Except.ok "a b c d e \n".toList ∧
        printDFS st = Except.ok "d b e a c \n".toList ∧
        mainOutput st = Except.ok "a b c d e \nd b e a c \n".toList := by
  have h : decodeFile true false (textLines ["1 2 3 a", "2 4 5 b", "3 c", "4 d", "5 e"]) =
      Except.ok (Exit.done,
        (match decodeFile true false
            (textLines ["1 2 3 a", "2 4 5 b", "3 c", "4 d", "5 e"]) with
          | Except.ok r => r.2
          | Except.error _ => State.init true false)) := by rfl
  have hs : decodedShape
      (match decodeFile true false
          (textLines ["1 2 3 a", "2 4 5 b", "3 c", "4 d", "5 e"]) with
        | Except.ok r => r.2
        | Except.error _ => State.init true false) =
      some (Shape.node 1 (some ['a'])
        (Shape.node 2 (some ['b']) (Shape.leaf 4 "d") (Shape.leaf 5 "e")) (Shape.leaf 3 "c")) := by
    rfl
  exact ⟨_, h, hs, (C14_success_output true false _ _ h).2 _ hs, by rfl, by rfl, by rfl⟩

/-! ## Attaching a waiting described node (C18) -/

/-- C18. Attaching a waiting described node. The table of every state the loop
of decodeFile reaches has the property `RootKey` (an id with a reference that
points to `decodedTree_` has no pending reference); the allocations of a record
leave the table alone and every node-local step keeps the property. In a state
with that property, let `n` be a placeholder (no label) referenced from the
child field `holder` of node `b`, and let the first reference of its id in
arrival order that is not FILLED be a NODE_WAIT reference holding node `N`. Then
`checkHashMap` returns 0 and the state after it is the state before it with:
`n` deleted, `N` written into the field `holder` (no other cell and no other field
of `b` changes, so `N` keeps its label and children), that reference turned into
FILLED with `holder` as its pointer (no other reference changes) and
`wait_count_` lowered by one. -/
theorem C18_attach_waiting_node (c d : Bool) (lines : List (List Char)) (b0 : Bool)
    (st0 : State) (h : readLines (State.init c d) lines = Except.ok (b0, st0)) :
    RootKey st0.insertMap_ ∧
      (∀ (s : State) (p : PNode), (allocParsed s p).2.insertMap_ = s.insertMap_) ∧
      (∀ (s : State) (n : Nat) (holder : Ptr) (parent : Option Nat) (r : Int × State),
        RootKey s.insertMap_ → holder ≠ Ptr.root →
        stepNode s n holder parent = Except.ok r → RootKey r.2.insertMap_) ∧
      (∀ (s : State) (n b i N : Nat) (holder : Ptr),
        RootKey s.insertMap_ →
        (holder = Ptr.left b ∨ holder = Ptr.right b) →
        (s.rd n).descr_ = none →
        firstUnresolved (s.rd n).id_ s.insertMap_ 0 = some i →
        getRef s.insertMap_ i = { nodePtr_ := Ptr.node N, status_ := Status.NODE_WAIT } →
        checkHashMap s n holder (some b) = Except.ok (0,
            { cells := s.cells.set b
                (if holder = Ptr.left b then { s.rd b with left_ := some N }
                  else { s.rd b with right_ := some N }),
              freed := n :: s.freed,
              decodedTree_ := s.decodedTree_,
              insertMap_ :=
                modifyRef (fun _ => { nodePtr_ := holder, status_ := Status.FILLED }) i
                  s.insertMap_,
              wait_count_ := s.wait_count_ - 1,
              complete_tree_ := s.complete_tree_,
              duplicate_ids_ := s.duplicate_ids_ })) := by
  refine ⟨?_, fun s p => (allocParsed_fields s p).1, stepNode_rootKey, ?_⟩
  · refine readLines_table_any RootKey stepNode_rootKey lines _ _ b0 ?_ h
    intro e he
    simp [State.init] at he
  · intro s n b i N holder hinv hh hd hi hN
    exact checkHashMap_attach s n b i N holder hinv hh hd hi hN

/-- C18 on a run. After the records "1 a" and "2 b" the node of 2 waits
(NODE_WAIT). When the record "3 2 c" is ingested, the step for its child
reference 2 (placeholder in cell 3, left field of cell 2) deletes the
placeholder, writes the waiting node (cell 1) into the field, turns the
reference of 2 into FILLED with that field as pointer and lowers `wait_count_`
from 2 to 1. -/
theorem C18_attach_waiting_node_witness :
    ∃ st0 : State,
      readLines (State.init false false) (textLines ["1 a", "2 b"]) = Except.ok (false, st0) ∧
        RootKey st0.insertMap_ ∧
        checkHashMap
            { cells := [{ id_ := 1, left_ := none, right_ := none, descr_ := some ['a'] },
                { id_ := 2, left_ := none, right_ := none, descr_ := some ['b'] },
                { id_ := 3, left_ := some 3, right_ := none, descr_ := some ['c'] },
                { id_ := 2, left_ := none, right_ := none, descr_ := none }],
              freed := [], decodedTree_ := some 0,
              insertMap_ := [(1, { nodePtr_ := Ptr.root, status_ := Status.FILLED }),
                (2, { nodePtr_ := Ptr.node 1, status_ := Status.NODE_WAIT }),
                (3, { nodePtr_ := Ptr.node 2, status_ := Status.NODE_WAIT })],
              wait_count_ := 2, complete_tree_ := false, duplicate_ids_ := false }
            3 (Ptr.left 2) (some 2) =
          Except.ok (0,
            { cells := [{ id_ := 1, left_ := none, right_ := none, descr_ := some ['a'] },
                { id_ := 2, left_ := none, right_ := none, descr_ := some ['b'] },
                { id_ := 3, left_ := some 1, right_ := none, descr_ := some ['c'] },
                { id_ := 2, left_ := none, right_ := none, descr_ := none }],
              freed := [3], decodedTree_ := some 0,
              insertMap_ := [(1, { nodePtr_ := Ptr.root, status_ := Status.FILLED }),
                (2, { nodePtr_ := Ptr.left 2, status_ := Status.FILLED }),
                (3, { nodePtr_ := Ptr.node 2, status_ := Status.NODE_WAIT })],
              wait_count_ := 1, complete_tree_ := false, duplicate_ids_ := false }) := by
  have h : readLines (State.init false false) (textLines ["1 a", "2 b"]) = Except.ok (false,
      { cells := [{ id_ := 1, left_ := none, right_ := none, descr_ := some ['a'] },
          { id_ := 2, left_ := none, right_ := none, descr_ := some ['b'] }],
        freed := [], decodedTree_ := some 0,
        insertMap_ := [(1, { nodePtr_ := Ptr.root, status_ := Status.FILLED }),
          (2, { nodePtr_ := Ptr.node 1, status_ := Status.NODE_WAIT })],
        wait_count_ := 1, complete_tree_ := false, duplicate_ids_ := false }) := by rfl
  have hall := C18_attach_waiting_node false false _ false _ h
  refine ⟨_, h, hall.1, ?_⟩
  have hk : RootKey [(1, ({ nodePtr_ := Ptr.root, status_ := Status.FILLED } : hash_ref)),
      (2, { nodePtr_ := Ptr.node 1, status_ := Status.NODE_WAIT }),
      (3, { nodePtr_ := Ptr.node 2, status_ := Status.NODE_WAIT })] := by
    unfold RootKey
    decide
  refine hall.2.2.2 _ 3 2 1 1 (Ptr.left 2) ?_ (Or.inl rfl) ?_ ?_ ?_
  · exact hk
  · rfl
  · rfl
  · rfl

/-! ## Ownership (C16) -/

/-- C16, ownership. In default mode, in every state the loop of decodeFile
reaches without a rejected record, every allocated node that has not been
deleted is held by exactly one owner, where an owner is the pointer
`decodedTree_`, a child field of a node, or a NODE_WAIT reference of the table;
and whatever an owner holds is an allocated node that has not been deleted. -/
theorem C16_one_owner_per_node (c : Bool) (lines : List (List Char)) (st : State)
    (h : readLines (State.init c false) lines = Except.ok (false, st)) :
    (∀ m, m < st.cells.length → m ∉ st.freed →
      ∃ o, heldBy st o = some m ∧ ∀ o1, heldBy st o1 = some m → o1 = o) ∧
      (∀ o m, heldBy st o = some m → m < st.cells.length ∧ m ∉ st.freed) := by
  have hO := readLines_own lines _ st (init_own c false) rfl
    (fun e he => by simp [State.init] at he) h
  obtain ⟨⟨hE, hU, hF⟩, -⟩ := hO
  refine ⟨?_, fun o m ho => ⟨(hF o m ho).1, (hF o m ho).2.1⟩⟩
  intro m hm hf
  rcases hE m hm hf with h1 | ⟨o, ho⟩
  · exact absurd h1 id
  · exact ⟨o, ho, fun o1 h1 => hU o1 o m h1 ho⟩

/-- C16 on a run: after the records "1 a", "2 3 b", "3 2 c" in default mode
the cells 0, 1 and 3 are the nodes that have not been deleted; each has exactly
one owner. -/
theorem C16_one_owner_per_node_witness :
    ∃ st : State,
      readLines (State.init false false) (textLines ["1 a", "2 3 b", "3 2 c"]) =
          Except.ok (false, st) ∧
        ((∀ m, m < st.cells.length → m ∉ st.freed →
          ∃ o, heldBy st o = some m ∧ ∀ o1, heldBy st o1 = some m → o1 = o) ∧
          (∀ o m, heldBy st o = some m → m < st.cells.length ∧ m ∉ st.freed)) ∧
        heldBy st Owner.root = some 0 ∧
        heldBy st (Owner.field (Ptr.left 3)) = some 1 ∧
        heldBy st (Owner.field (Ptr.left 1)) = some 3 := by
  have h : readLines (State.init false false) (textLines ["1 a", "2 3 b", "3 2 c"]) =
      Except.ok (false,
        { cells := [{ id_ := 1, left_ := none, right_ := none, descr_ := some ['a'] },
            { id_ := 2, left_ := some 3, right_ := none, descr_ := some ['b'] },
            { id_ := 3, left_ := none, right_ := none, descr_ := none },
            { id_ := 3, left_ := some 1, right_ := none, descr_ := some ['c'] },
            { id_ := 2, left_ := none, right_ := none, descr_ := none }],
          freed := [4, 2], decodedTree_ := some 0,
          insertMap_ := [(1, { nodePtr_ := Ptr.root, status_ := Status.FILLED }),
            (2, { nodePtr_ := Ptr.left 3, status_ := Status.FILLED }),
            (3, { nodePtr_ := Ptr.left 1, status_ := Status.FILLED })],
          wait_count_ := 0, complete_tree_ := false, duplicate_ids_ := false }) := by rfl
  exact ⟨_, h, C16_one_owner_per_node false _ _ h, rfl, rfl, rfl⟩

/-- C16 as stated fails: the records "1 a", "2 3 b", "3 2 c" are ingested in
default mode without a conflict and decodeFile ends with success. The nodes of
2 and 3 (cells 1 and 3) have not been deleted, yet neither is reachable from
the root, which is the node of 1 without children, and no reference of the
table is pending: every reference is FILLED. -/
theorem C16_node_reached_from_nowhere :
    ∃ st : State,
      decodeFile false false (textLines ["1 a", "2 3 b", "3 2 c"]) =
          Except.ok (Exit.done, st) ∧
        1 < st.cells.length ∧ 1 ∉ st.freed ∧ 3 < st.cells.length ∧ 3 ∉ st.freed ∧
        (st.rd 1).descr_ = some ['b'] ∧ (st.rd 3).descr_ = some ['c'] ∧
        ¬ Reach st 1 ∧ ¬ Reach st 3 ∧
        (∀ e ∈ st.insertMap_, e.2.status_ = Status.FILLED) ∧ st.wait_count_ = 0 := by
  have h : decodeFile false false (textLines ["1 a", "2 3 b", "3 2 c"]) =
      Except.ok (Exit.done,
        { cells := [{ id_ := 1, left_ := none, right_ := none, descr_ := some ['a'] },
            { id_ := 2, left_ := some 3, right_ := none, descr_ := some ['b'] },
            { id_ := 3, left_ := none, right_ := none, descr_ := none },
            { id_ := 3, left_ := some 1, right_ := none, descr_ := some ['c'] },
            { id_ := 2, left_ := none, right_ := none, descr_ := none }],
          freed := [4, 2], decodedTree_ := some 0,
          insertMap_ := [(1, { nodePtr_ := Ptr.root, status_ := Status.FILLED }),
            (2, { nodePtr_ := Ptr.left 3, status_ := Status.FILLED }),
            (3, { nodePtr_ := Ptr.left 1, status_ := Status.FILLED })],
          wait_count_ := 0, complete_tree_ := false, duplicate_ids_ := false }) := by rfl
  have key : ∀ m, Reach
      { cells := [{ id_ := 1, left_ := none, right_ := none, descr_ := some ['a'] },
          { id_ := 2, left_ := some 3, right_ := none, descr_ := some ['b'] },
          { id_ := 3, left_ := none, right_ := none, descr_ := none },
          { id_ := 3, left_ := some 1, right_ := none, descr_ := some ['c'] },
          { id_ := 2, left_ := none, right_ := none, descr_ := none }],
        freed := [4, 2], decodedTree_ := some 0,
        insertMap_ := [(1, { nodePtr_ := Ptr.root, status_ := Status.FILLED }),
          (2, { nodePtr_ := Ptr.left 3, status_ := Status.FILLED }),
          (3, { nodePtr_ := Ptr.left 1, status_ := Status.FILLED })],
        wait_count_ := 0, complete_tree_ := false, duplicate_ids_ := false } m → m = 0 := by
    intro m hm
    induction hm with
    | root ht => exact (Option.some.inj ht).symm
    | left _ hl ih =>
      subst ih
      simp [State.rd] at hl
    | right _ hl ih =>
      subst ih
      simp [State.rd] at hl
  refine ⟨_, h, by decide, by decide, by decide, by decide, rfl, rfl,
    fun hx => absurd (key 1 hx) (by decide), fun hx => absurd (key 3 hx) (by decide), ?_, rfl⟩
  intro e he
  simp only [List.mem_cons, List.mem_singleton, List.not_mem_nil, or_false] at he
  rcases he with rfl | rfl | rfl <;> rfl

/-! ## parseLine on a line of spaces (C21) -/

/-- C21 (evidence). A line that consists of one space is not empty, so
decodeFile hands it to parseLine; the token loop finds no token and creates no
node, and parseLine then evaluates `n->descr_` with `n == NULL`: it neither
returns a node nor reports a parse error, and decodeFile does not get to skip
the line. This happens, among the lines without NUL, exactly on the lines
shorter than `maxLineSize` made of spaces only; on every other line parseLine
returns NULL or a node with a present label. -/
theorem C21_space_line_dereferences_null :
    (parseLine true " ".toList = ParseResult.nullDeref ∧
        parseLine false " ".toList = ParseResult.nullDeref) ∧
      (∀ (c d : Bool) (rest : List (List Char)),
        decodeFile c d (" ".toList :: rest) = Except.error Fault.nullDeref) ∧
      (∀ (c : Bool) (line : List Char), (∀ x ∈ line, x ≠ '\x00') →
        (parseLine c line = ParseResult.nullDeref ↔
          line.length < maxLineSize ∧ ∀ x ∈ line, x = ' ')) ∧
      (∀ (c : Bool) (line : List Char),
        parseLine c line = ParseResult.nullDeref ∨ parseLine c line = ParseResult.null ∨
          ∃ p, parseLine c line = ParseResult.node p ∧ p.descr_ ≠ none) := by
  refine ⟨⟨by rfl, by rfl⟩, ?_, parseLine_nullDeref_iff, ?_⟩
  · intro c d rest
    unfold decodeFile
    rw [readLines_cons_crash _ _ _ (by decide) (by cases c <;> rfl)]
  · intro c line
    cases h : parseLine c line with
    | nullDeref => exact Or.inl rfl
    | null => exact Or.inr (Or.inl rfl)
    | node p => exact Or.inr (Or.inr ⟨p, rfl, parseLine_descr h⟩)

end BuildTree
